import Mathlib

/-!
Red-black tree (`src/C/RedBlackTree/RBTree.c`) and chained hash map
(`src/CPP/SpamDetector/HashMap.hpp`).

The definitions of both embeddings come first, the theorems about them
after.  The C red-black tree is embedded over an explicit node store: a pointer is
`Option Nat` (`none` is `NULL`), the store maps an address to the node
allocated there, and every field read or write of the C code is a read or
write of the store.  Dereferencing `NULL` or an address that was never
allocated makes the operation return `none`.  Loops and the recursion of
`fixTree` carry a fuel argument; the theorems show that the fuel handed
out by the entry points is always enough.
-/

namespace RBT

/-- Modelled from the spec: the colour tag of a node (`RBTree.h` is not part
of the sources; the spec's data model gives the tag set RED, BLACK). -/
inductive Color where
  | RED
  | BLACK
  deriving DecidableEq, Repr

/-- Modelled from the spec: a tree node with its three links, its colour
tag and the user data (`RBTree.h` is not part of the sources). -/
structure Node (α : Type) where
  parent : Option Nat
  left : Option Nat
  right : Option Nat
  color : Color
  data : α
  deriving DecidableEq, Repr

/-- The node store: the node allocated at each address, if any. -/
abbrev Heap (α : Type) := Nat → Option (Node α)

/-- Modelled from the spec: the tree object with its root pointer, its
comparison function and its element count (`RBTree.h` is not part of the
sources).  `heap` and `brk` are the node store the tree lives in and the
next address `malloc` hands out. -/
structure RBTree (α : Type) where
  root : Option Nat
  compFunc : α → α → Int
  size : Int
  heap : Heap α
  brk : Nat

/-- The `Direction` enum of `RBTree.c`. -/
inductive Direction where
  | Right
  | Left
  | NoDirection
  deriving DecidableEq, Repr

/-- Embedding of `FAILURE_INDICATOR` of `RBTree.c`. -/
def FAILURE_INDICATOR : Int := 0

/-- Embedding of `SUCCESS_INDICATOR` of `RBTree.c`. -/
def SUCCESS_INDICATOR : Int := 1

/-- A store write `*a = n`. -/
def Heap.write {α : Type} (h : Heap α) (a : Nat) (n : Node α) : Heap α :=
  fun b => if b = a then some n else h b

/-- The assignment `a->left = v`. -/
def setLeft {α : Type} (h : Heap α) (a : Nat) (v : Option Nat) : Option (Heap α) :=
  match h a with
  | none => none
  | some n => some (h.write a { n with left := v })

/-- The assignment `a->right = v`. -/
def setRight {α : Type} (h : Heap α) (a : Nat) (v : Option Nat) : Option (Heap α) :=
  match h a with
  | none => none
  | some n => some (h.write a { n with right := v })

/-- The assignment `a->parent = v`. -/
def setParent {α : Type} (h : Heap α) (a : Nat) (v : Option Nat) : Option (Heap α) :=
  match h a with
  | none => none
  | some n => some (h.write a { n with parent := v })

/-- The assignment `a->color = c`. -/
def setColor {α : Type} (h : Heap α) (a : Nat) (c : Color) : Option (Heap α) :=
  match h a with
  | none => none
  | some n => some (h.write a { n with color := c })

/-- The statement `if (c != NULL) { c->parent = v; }`. -/
def setParentIfNonNull {α : Type} (h : Heap α) (c : Option Nat) (v : Option Nat) :
    Option (Heap α) :=
  match c with
  | some l => setParent h l v
  | none => some h

/-- Embedding of `newRBTree`: the empty tree (the store holds no node yet). -/
def newRBTree {α : Type} (compFunc : α → α → Int) : RBTree α :=
  { root := none, compFunc := compFunc, size := 0, heap := fun _ => none, brk := 0 }

/-- Outcome of the descent loop of `addToRBTree`: the key was met
(`return FAILURE_INDICATOR` inside the loop), or the loop ended with the
last node visited and the direction taken from it. -/
inductive Descent where
  | found
  | slot (prevNode : Option Nat) (direction : Direction)
  deriving DecidableEq, Repr

/-- The `while (currentNode != NULL)` loop of `addToRBTree`. -/
def descend {α : Type} (compFunc : α → α → Int) (h : Heap α) (data : α) :
    Nat → Option Nat → Option Nat → Direction → Option Descent
  | _, none, prevNode, direction => some (Descent.slot prevNode direction)
  | 0, some _, _, _ => none
  | fuel + 1, some c, _, _ =>
    match h c with
    | none => none
    | some n =>
      let dataComparisonResult := compFunc data n.data
      if dataComparisonResult > 0 then descend compFunc h data fuel n.right (some c) Direction.Right
      else if dataComparisonResult < 0 then descend compFunc h data fuel n.left (some c) Direction.Left
      else some Descent.found

/-- Embedding of `noRotationsAndNullNodesCheck`: returns the store (the root may have been
recoloured) and the indicator. -/
def noRotationsAndNullNodesCheck {α : Type} (h : Heap α) (justEnteredNode : Option Nat) :
    Option (Heap α × Int) :=
  match justEnteredNode with
  | none => some (h, FAILURE_INDICATOR)
  | some n =>
    match h n with
    | none => none
    | some nn =>
      match nn.parent with
      | none =>
        match setColor h n Color.BLACK with
        | none => none
        | some h1 => some (h1, FAILURE_INDICATOR)
      | some p =>
        match h p with
        | none => none
        | some pn =>
          if pn.color = Color.BLACK then some (h, FAILURE_INDICATOR)
          else
            match pn.parent with
            | none => some (h, FAILURE_INDICATOR)
            | some _ => some (h, SUCCESS_INDICATOR)

/-- The test `g->left != NULL && g->left->right != NULL && n == g->left->right`
and its three mirror images: `sel1` picks the child of `g`, `sel2` the
grandchild. -/
def isGrandchild {α : Type} (h : Heap α) (sel1 sel2 : Node α → Option Nat) (n g : Nat) :
    Option Bool :=
  match h g with
  | none => none
  | some gn =>
    match sel1 gn with
    | none => some false
    | some c =>
      match h c with
      | none => none
      | some cn =>
        match sel2 cn with
        | none => some false
        | some gc => some (decide (n = gc))

/-- Embedding of `firstRotation`. -/
def firstRotation {α : Type} (h : Heap α)
    (justEnteredNode enteredNodeParent enteredNodeGrandfather : Nat) : Option (Heap α × Int) := do
  let tail : Heap α → Option (Heap α × Int) := fun h => do
    let h ← setParent h justEnteredNode (some enteredNodeGrandfather)
    let h ← setParent h enteredNodeParent (some justEnteredNode)
    pure (h, SUCCESS_INDICATOR)
  if (← isGrandchild h Node.left Node.right justEnteredNode enteredNodeGrandfather) then
    let h ← setLeft h enteredNodeGrandfather (some justEnteredNode)
    let jn ← h justEnteredNode
    let h ← setRight h enteredNodeParent jn.left
    let jn ← h justEnteredNode
    let h ← setParentIfNonNull h jn.left (some enteredNodeParent)
    let h ← setLeft h justEnteredNode (some enteredNodeParent)
    tail h
  else if (← isGrandchild h Node.right Node.left justEnteredNode enteredNodeGrandfather) then
    let h ← setRight h enteredNodeGrandfather (some justEnteredNode)
    let jn ← h justEnteredNode
    let h ← setLeft h enteredNodeParent jn.right
    let jn ← h justEnteredNode
    let h ← setParentIfNonNull h jn.right (some enteredNodeParent)
    let h ← setRight h justEnteredNode (some enteredNodeParent)
    tail h
  else
    pure (h, FAILURE_INDICATOR)

/-- The block of `secondRotation` that makes the parent of the grandfather
(or, when there is none, the tree's root pointer) point to the node that
moved up:
`if (g->parent != NULL) { if (g->parent->left == g) ... else if (g->parent->right == g) ... }
else { tree->root = p; }`. -/
def relinkGrandfatherParent {α : Type} (h : Heap α) (root : Option Nat)
    (enteredNodeParent enteredNodeGrandfather : Nat) : Option (Heap α × Option Nat) :=
  match h enteredNodeGrandfather with
  | none => none
  | some gn =>
    match gn.parent with
    | some gp =>
      match h gp with
      | none => none
      | some gpn =>
        if gpn.left = some enteredNodeGrandfather then
          (setLeft h gp (some enteredNodeParent)).map fun h1 => (h1, root)
        else if gpn.right = some enteredNodeGrandfather then
          (setRight h gp (some enteredNodeParent)).map fun h1 => (h1, root)
        else some (h, root)
    | none => some (h, some enteredNodeParent)

/-- Embedding of `secondRotation`: returns the store and the root pointer of the tree. -/
def secondRotation {α : Type} (h : Heap α) (root : Option Nat)
    (justEnteredNode enteredNodeParent enteredNodeGrandfather : Nat) :
    Option (Heap α × Option Nat) := do
  let tail : Heap α → Option Nat → Option (Heap α × Option Nat) := fun h parentSuitableChild => do
    let gn ← h enteredNodeGrandfather
    let h ← setParent h enteredNodeParent gn.parent
    let (h, root) ← relinkGrandfatherParent h root enteredNodeParent enteredNodeGrandfather
    let h ← setParent h enteredNodeGrandfather (some enteredNodeParent)
    let h ← setParentIfNonNull h parentSuitableChild (some enteredNodeGrandfather)
    let h ← setColor h enteredNodeParent Color.BLACK
    let h ← setColor h enteredNodeGrandfather Color.RED
    pure (h, root)
  if (← isGrandchild h Node.left Node.left justEnteredNode enteredNodeGrandfather) then
    let pn ← h enteredNodeParent
    let parentSuitableChild := pn.right
    let h ← setRight h enteredNodeParent (some enteredNodeGrandfather)
    let h ← setLeft h enteredNodeGrandfather parentSuitableChild
    tail h parentSuitableChild
  else if (← isGrandchild h Node.right Node.right justEnteredNode enteredNodeGrandfather) then
    let pn ← h enteredNodeParent
    let parentSuitableChild := pn.left
    let h ← setLeft h enteredNodeParent (some enteredNodeGrandfather)
    let h ← setRight h enteredNodeGrandfather parentSuitableChild
    tail h parentSuitableChild
  else
    pure (h, root)

/-- Embedding of `fixTree`: returns the store and the root pointer of the tree. -/
def fixTree {α : Type} : Nat → Heap α → Option Nat → Option Nat → Option (Heap α × Option Nat)
  | 0, _, _, _ => none
  | fuel + 1, h, root, justEnteredNode => do
    let (h, check) ← noRotationsAndNullNodesCheck h justEnteredNode
    if check = FAILURE_INDICATOR then
      pure (h, root)
    else
      let n ← justEnteredNode
      let nn ← h n
      let enteredNodeParent ← nn.parent
      let pn ← h enteredNodeParent
      let enteredNodeGrandfather ← pn.parent
      let gn ← h enteredNodeGrandfather
      let enteredNodeUncle := if gn.left = some enteredNodeParent then gn.right else gn.left
      if pn.color = Color.RED then
        let uncleColor ← (match enteredNodeUncle with
          | none => some none
          | some u => (h u).map fun un => some un.color)
        if uncleColor = none ∨ uncleColor = some Color.BLACK then
          let (h, firstRotationIndicator) ←
            firstRotation h n enteredNodeParent enteredNodeGrandfather
          if firstRotationIndicator = SUCCESS_INDICATOR then
            secondRotation h root enteredNodeParent n enteredNodeGrandfather
          else
            secondRotation h root n enteredNodeParent enteredNodeGrandfather
        else if uncleColor = some Color.RED then
          let h ← setColor h enteredNodeParent Color.BLACK
          let u ← enteredNodeUncle
          let h ← setColor h u Color.BLACK
          let h ← setColor h enteredNodeGrandfather Color.RED
          fixTree fuel h root (some enteredNodeGrandfather)
        else pure (h, root)
      else pure (h, root)

/-- Embedding of `addToRBTree` on a non-null tree; `mallocOk` tells whether the `malloc`
of the new node succeeds.  Returns the tree and the indicator. -/
def addToRBTree {α : Type} (mallocOk : Bool) (tree : RBTree α) (data : α) :
    Option (RBTree α × Int) :=
  match descend tree.compFunc tree.heap data (tree.brk + 1) tree.root tree.root
      Direction.NoDirection with
  | none => none
  | some Descent.found => some (tree, FAILURE_INDICATOR)
  | some (Descent.slot prevNode direction) =>
    if mallocOk = false then some (tree, FAILURE_INDICATOR)
    else
      let newNodeToEnter := tree.brk
      let h := tree.heap.write newNodeToEnter
        { parent := prevNode, left := none, right := none, color := Color.RED, data := data }
      match prevNode with
      | none =>
        match setColor h newNodeToEnter Color.BLACK with
        | none => none
        | some h =>
          some ({ tree with root := some newNodeToEnter, heap := h, brk := tree.brk + 1,
                            size := tree.size + 1 }, SUCCESS_INDICATOR)
      | some p =>
        match (if direction = Direction.Right then setRight h p (some newNodeToEnter)
               else if direction = Direction.Left then setLeft h p (some newNodeToEnter)
               else some h) with
        | none => none
        | some h =>
          match fixTree (tree.brk + 2) h tree.root (some newNodeToEnter) with
          | none => none
          | some (h, root) =>
            some ({ tree with root := root, heap := h, brk := tree.brk + 1,
                              size := tree.size + 1 }, SUCCESS_INDICATOR)

/-- Embedding of `containsRBTree`'s loop. -/
def containsLoop {α : Type} (compFunc : α → α → Int) (h : Heap α) (data : α) :
    Nat → Option Nat → Option Int
  | _, none => some 0
  | 0, some _ => none
  | fuel + 1, some c =>
    match h c with
    | none => none
    | some n =>
      let dataComparisonResult := compFunc data n.data
      if dataComparisonResult > 0 then containsLoop compFunc h data fuel n.right
      else if dataComparisonResult < 0 then containsLoop compFunc h data fuel n.left
      else some 1

/-- Embedding of `containsRBTree`. -/
def containsRBTree {α : Type} (tree : RBTree α) (data : α) : Option Int :=
  containsLoop tree.compFunc tree.heap data (tree.brk + 1) tree.root

/-- Embedding of `goingThroughTreeNodes`: `args` is the state the callback works on; the
callback returns its `int` result and the new state.  The result is
dropped, as in the source. -/
def goingThroughTreeNodes {α σ : Type} (h : Heap α) (func : α → σ → Int × σ) :
    Nat → Option Nat → σ → Option σ
  | _, none, args => some args
  | 0, some _, _ => none
  | fuel + 1, some a, args =>
    match h a with
    | none => none
    | some n =>
      match goingThroughTreeNodes h func fuel n.left args with
      | none => none
      | some args1 =>
        let args2 := (func n.data args1).2
        goingThroughTreeNodes h func fuel n.right args2

/-- Embedding of `forEachRBTree`: a null tree or a null callback is `none` here. Returns
the indicator and the final callback state. -/
def forEachRBTree {α σ : Type} (tree : Option (RBTree α)) (func : Option (α → σ → Int × σ))
    (args : σ) : Option (Int × σ) :=
  match tree with
  | none => some (FAILURE_INDICATOR, args)
  | some t =>
    match func with
    | none => some (FAILURE_INDICATOR, args)
    | some f =>
      match goingThroughTreeNodes t.heap f (t.brk + 1) t.root args with
      | none => none
      | some args1 => some (SUCCESS_INDICATOR, args1)

/-- A sequence of `addToRBTree` calls, every allocation succeeding. -/
def addAll {α : Type} (tree : RBTree α) : List α → Option (RBTree α)
  | [] => some tree
  | x :: xs =>
    match addToRBTree true tree x with
    | none => none
    | some (t, _) => addAll t xs

/-- The tree shape read off the store. -/
inductive Tree (α : Type) where
  | nil
  | node (color : Color) (left : Tree α) (data : α) (right : Tree α)
  deriving DecidableEq, Repr

/-- Reads the subtree hanging off a pointer. -/
def readTree {α : Type} (h : Heap α) : Nat → Option Nat → Option (Tree α)
  | _, none => some Tree.nil
  | 0, some _ => none
  | fuel + 1, some a =>
    match h a with
    | none => none
    | some n =>
      match readTree h fuel n.left, readTree h fuel n.right with
      | some l, some r => some (Tree.node n.color l n.data r)
      | _, _ => none

/-- The tree held by a tree object. -/
def treeOf {α : Type} (t : RBTree α) : Option (Tree α) :=
  readTree t.heap (t.brk + 1) t.root

end RBT

namespace RBT

/-- A comparison function that is a consistent three-way comparison: the
sign of `cmp a b` is a strict order on the keys and `cmp a b = 0` is
compatible with it. -/
structure IsCmp {α : Type} (cmp : α → α → Int) : Prop where
  antisymm : ∀ a b, cmp a b < 0 ↔ 0 < cmp b a
  lt_trans : ∀ a b c, cmp a b < 0 → cmp b c < 0 → cmp a c < 0
  eq_lt : ∀ a b c, cmp a b = 0 → cmp b c < 0 → cmp a c < 0
  lt_eq : ∀ a b c, cmp a b < 0 → cmp b c = 0 → cmp a c < 0

/-- Lower bound test: `lo < x`, where `none` is no bound. -/
def aboveLo {α : Type} (cmp : α → α → Int) : Option α → α → Bool
  | none, _ => true
  | some l, x => decide (cmp l x < 0)

/-- Upper bound test: `x < hi`, where `none` is no bound. -/
def belowHi {α : Type} (cmp : α → α → Int) : Option α → α → Bool
  | none, _ => true
  | some u, x => decide (cmp x u < 0)

/-- Membership of a key in an open interval of keys. -/
def inside {α : Type} (cmp : α → α → Int) (lo hi : Option α) (x : α) : Bool :=
  aboveLo cmp lo x && belowHi cmp hi x

/-- Proof-only annotations of the addresses: the open key interval a node
lives in and its black height. -/
structure Ghost (α : Type) where
  lo : Nat → Option α
  hi : Nat → Option α
  bh : Nat → Nat

/-- Black height of the subtree behind a pointer. -/
def bhp {α : Type} (g : Ghost α) : Option Nat → Nat
  | none => 0
  | some c => g.bh c

/-- Colour of the node at an address. -/
def colorOf {α : Type} (h : Heap α) (a : Nat) : Option Color := (h a).map Node.color

/-- Parent link of the node at an address. -/
def parentOf {α : Type} (h : Heap α) (a : Nat) : Option Nat := (h a).bind Node.parent

/-- Left link of the node at an address. -/
def leftOf {α : Type} (h : Heap α) (a : Nat) : Option Nat := (h a).bind Node.left

/-- Right link of the node at an address. -/
def rightOf {α : Type} (h : Heap α) (a : Nat) : Option Nat := (h a).bind Node.right

/-- Data of the node at an address. -/
def dataOf {α : Type} (h : Heap α) (a : Nat) : Option α := (h a).map Node.data

/-- The store seen field by field. -/
structure View (α : Type) where
  L : Nat → Option Nat
  R : Nat → Option Nat
  P : Nat → Option Nat
  C : Nat → Option Color
  D : Nat → Option α

/-- The field-by-field view of a store. -/
def view {α : Type} (h : Heap α) : View α :=
  { L := leftOf h, R := rightOf h, P := parentOf h, C := colorOf h, D := dataOf h }

/-- What a child link from `a` to `c` must satisfy: back link, key interval
`(lo, hi)` of the child, and colour. -/
def ChildOK {α : Type} (focus : Option Nat) (g : Ghost α) (v : View α) (a c : Nat)
    (lo hi : Option α) : Prop :=
  v.P c = some a ∧ g.lo c = lo ∧ g.hi c = hi ∧
    (v.C a = some Color.RED → focus ≠ some c → v.C c = some Color.BLACK)

/-- The local red-black conditions at address `a`.  With `focus = some f`
the node at `f` may be RED below a RED parent, and may be a RED root. -/
structure NodeOK {α : Type} (cmp : α → α → Int) (focus root : Option Nat) (g : Ghost α)
    (v : View α) (a : Nat) : Prop where
  ins : ∀ x, v.D a = some x → inside cmp (g.lo a) (g.hi a) x = true
  lft : ∀ c, v.L a = some c → ChildOK focus g v a c (g.lo a) (v.D a)
  rgt : ∀ c, v.R a = some c → ChildOK focus g v a c (v.D a) (g.hi a)
  par : ∀ p, v.P a = some p → v.L p = some a ∨ v.R p = some a
  top : v.P a = none →
    root = some a ∧ g.lo a = none ∧ g.hi a = none ∧ (v.C a = some Color.BLACK ∨ focus = some a)
  bal : bhp g (v.L a) = bhp g (v.R a)
  bhe : g.bh a = bhp g (v.L a) + (if v.C a = some Color.BLACK then 1 else 0)

/-- The store invariant: exactly the addresses below `brk` are allocated,
every node satisfies the local conditions, the root pointer is a node
without parent, and the focus is RED. -/
structure HInv {α : Type} (cmp : α → α → Int) (focus root : Option Nat) (g : Ghost α)
    (v : View α) (brk : Nat) : Prop where
  free : ∀ a, brk ≤ a →
    v.L a = none ∧ v.R a = none ∧ v.P a = none ∧ v.C a = none ∧ v.D a = none
  used : ∀ a, a < brk → (∃ x, v.D a = some x) ∧ (∃ c, v.C a = some c)
  node : ∀ a, a < brk → NodeOK cmp focus root g v a
  rootNone : root = none → brk = 0
  rootSome : ∀ r, root = some r → r < brk ∧ v.P r = none
  foc : ∀ f, focus = some f → v.C f = some Color.RED

/-- The tree invariant between two operations. -/
def Inv {α : Type} (t : RBTree α) : Prop :=
  IsCmp t.compFunc ∧ t.size = t.brk ∧ ∃ g, HInv t.compFunc none t.root g (view t.heap) t.brk

/-- Whether the node at `q` is allocated with its key in the interval `(lo, hi)`. -/
def keyIn {α : Type} (cmp : α → α → Int) (v : View α) (lo hi : Option α) (q : Nat) : Bool :=
  match v.D q with
  | none => false
  | some x => inside cmp lo hi x

/-- Number of allocated nodes whose key lies in the interval of `a`. -/
def rank {α : Type} (cmp : α → α → Int) (g : Ghost α) (v : View α) (brk : Nat) (a : Nat) : Nat :=
  ((Finset.range brk).filter (fun q => keyIn cmp v (g.lo a) (g.hi a) q = true)).card

end RBT

namespace RBT

/-- Field view after the straight-line rotation of `secondRotation` in its
first branch (`P` is the left child of `G` and moves up), with the new root
pointer. -/
def rot2L {α : Type} (v : View α) (root : Option Nat) (P G : Nat) : View α × Option Nat :=
  ({ L := fun a => if v.P G = some a ∧ v.L a = some G then some P
                   else if a = G then v.R P else v.L a,
     R := fun a => if v.P G = some a ∧ v.R a = some G then some P
                   else if a = P then some G else v.R a,
     P := fun a => if v.R P = some a then some G else if a = G then some P
                   else if a = P then v.P G else v.P a,
     C := fun a => if a = G then some Color.RED else if a = P then some Color.BLACK else v.C a,
     D := v.D },
   if v.P G = none then some P else root)

/-- Annotations after `rot2L`. -/
def rot2LGhost {α : Type} (g : Ghost α) (v : View α) (P G : Nat) : Ghost α :=
  { lo := fun a => if a = G then v.D P else g.lo a,
    hi := fun a => if a = P then g.hi G else g.hi a,
    bh := fun a => if a = P then g.bh a + 1 else if a = G then g.bh a - 1 else g.bh a }

/-- Field view after the straight-line rotation of `secondRotation` in its
second branch (`P` is the right child of `G` and moves up). -/
def rot2R {α : Type} (v : View α) (root : Option Nat) (P G : Nat) : View α × Option Nat :=
  ({ L := fun a => if v.P G = some a ∧ v.L a = some G then some P
                   else if a = P then some G else v.L a,
     R := fun a => if v.P G = some a ∧ v.R a = some G then some P
                   else if a = G then v.L P else v.R a,
     P := fun a => if v.L P = some a then some G else if a = G then some P
                   else if a = P then v.P G else v.P a,
     C := fun a => if a = G then some Color.RED else if a = P then some Color.BLACK else v.C a,
     D := v.D },
   if v.P G = none then some P else root)

/-- Annotations after `rot2R`. -/
def rot2RGhost {α : Type} (g : Ghost α) (v : View α) (P G : Nat) : Ghost α :=
  { lo := fun a => if a = P then g.lo G else g.lo a,
    hi := fun a => if a = G then v.D P else g.hi a,
    bh := fun a => if a = P then g.bh a + 1 else if a = G then g.bh a - 1 else g.bh a }

/-- Field view after `firstRotation` in its first branch (`N` is the right
child of `P`, `P` the left child of `G`). -/
def rot1L {α : Type} (v : View α) (N P G : Nat) : View α :=
  { L := fun a => if a = N then some P else if a = G then some N else v.L a,
    R := fun a => if a = P then v.L N else v.R a,
    P := fun a => if a = P then some N else if a = N then some G
                  else if v.L N = some a then some P else v.P a,
    C := v.C,
    D := v.D }

/-- Annotations after `rot1L`. -/
def rot1LGhost {α : Type} (g : Ghost α) (v : View α) (N P : Nat) : Ghost α :=
  { lo := fun a => if a = N then g.lo P else g.lo a,
    hi := fun a => if a = P then v.D N else g.hi a,
    bh := g.bh }

/-- Field view after `firstRotation` in its second branch (`N` is the left
child of `P`, `P` the right child of `G`). -/
def rot1R {α : Type} (v : View α) (N P G : Nat) : View α :=
  { L := fun a => if a = P then v.R N else v.L a,
    R := fun a => if a = N then some P else if a = G then some N else v.R a,
    P := fun a => if a = P then some N else if a = N then some G
                  else if v.R N = some a then some P else v.P a,
    C := v.C,
    D := v.D }

/-- Annotations after `rot1R`. -/
def rot1RGhost {α : Type} (g : Ghost α) (v : View α) (N P : Nat) : Ghost α :=
  { lo := fun a => if a = P then v.D N else g.lo a,
    hi := fun a => if a = N then g.hi P else g.hi a,
    bh := g.bh }

/-- Left-right mirror image of a field view. -/
def View.mirror {α : Type} (v : View α) : View α :=
  { v with L := v.R, R := v.L }

/-- Mirror image of the annotations. -/
def Ghost.mirror {α : Type} (g : Ghost α) : Ghost α :=
  { g with lo := g.hi, hi := g.lo }

/-- The comparison function with its arguments swapped. -/
def flipCmp {α : Type} (cmp : α → α → Int) : α → α → Int := fun a b => cmp b a

end RBT

namespace RBT

/-- The node `q` lies in the subtree behind a pointer: `q` is reached from
it along child links. -/
inductive Desc {α : Type} (v : View α) : Option Nat → Nat → Prop where
  | here (c : Nat) : Desc v (some c) c
  | left {c q : Nat} : Desc v (v.L c) q → Desc v (some c) q
  | right {c q : Nat} : Desc v (v.R c) q → Desc v (some c) q

/-- Field view after linking a fresh RED leaf with key `x` at address `brk`
as the left child of `p`. -/
def leafL {α : Type} (v : View α) (brk p : Nat) (x : α) : View α :=
  { L := fun a => if a = p then some brk else v.L a,
    R := v.R,
    P := fun a => if a = brk then some p else v.P a,
    C := fun a => if a = brk then some Color.RED else v.C a,
    D := fun a => if a = brk then some x else v.D a }

/-- Annotations after `leafL`. -/
def leafLGhost {α : Type} (g : Ghost α) (v : View α) (brk p : Nat) : Ghost α :=
  { lo := fun a => if a = brk then g.lo p else g.lo a,
    hi := fun a => if a = brk then v.D p else g.hi a,
    bh := fun a => if a = brk then 0 else g.bh a }

/-- Field view after linking a fresh RED leaf with key `x` at address `brk`
as the right child of `p`. -/
def leafR {α : Type} (v : View α) (brk p : Nat) (x : α) : View α :=
  { L := v.L,
    R := fun a => if a = p then some brk else v.R a,
    P := fun a => if a = brk then some p else v.P a,
    C := fun a => if a = brk then some Color.RED else v.C a,
    D := fun a => if a = brk then some x else v.D a }

/-- Annotations after `leafR`. -/
def leafRGhost {α : Type} (g : Ghost α) (v : View α) (brk p : Nat) : Ghost α :=
  { lo := fun a => if a = brk then v.D p else g.lo a,
    hi := fun a => if a = brk then g.hi p else g.hi a,
    bh := fun a => if a = brk then 0 else g.bh a }

/-- The slot the descent loop of `addToRBTree` ends in: the tree is empty,
or the key belongs below the node `p` on the side `direction`, where `p`
has no child. -/
def SlotOK {α : Type} (cmp : α → α → Int) (g : Ghost α) (v : View α) (root : Option Nat)
    (x : α) (prevNode : Option Nat) (direction : Direction) (cur : Option Nat) : Prop :=
  (prevNode = cur ∧ cur = root) ∨
  ∃ p y, prevNode = some p ∧ v.D p = some y ∧
    ((direction = Direction.Left ∧ v.L p = cur ∧ cmp x y < 0 ∧ aboveLo cmp (g.lo p) x = true) ∨
     (direction = Direction.Right ∧ v.R p = cur ∧ cmp y x < 0 ∧ belowHi cmp (g.hi p) x = true))

end RBT

namespace RBT

/-- In-order sequence of the elements of a tree. -/
def Tree.inorder {α : Type} : Tree α → List α
  | Tree.nil => []
  | Tree.node _ l x r => l.inorder ++ x :: r.inorder

/-- Number of nodes of a tree. -/
def Tree.numNodes {α : Type} : Tree α → Nat
  | Tree.nil => 0
  | Tree.node _ l _ r => l.numNodes + 1 + r.numNodes

/-- Colour of the root; a null tree counts as BLACK. -/
def Tree.rootColor {α : Type} : Tree α → Color
  | Tree.nil => Color.BLACK
  | Tree.node c _ _ _ => c

/-- No RED node has a RED child. -/
def Tree.noRedRed {α : Type} : Tree α → Prop
  | Tree.nil => True
  | Tree.node c l _ r =>
    (c = Color.RED → l.rootColor = Color.BLACK ∧ r.rootColor = Color.BLACK) ∧
      l.noRedRed ∧ r.noRedRed

/-- The number of BLACK nodes on each path from the root of the tree down to
a null child, one entry per path. -/
def Tree.blackCounts {α : Type} : Tree α → List Nat
  | Tree.nil => [0]
  | Tree.node c l _ r =>
    (l.blackCounts ++ r.blackCounts).map (fun k => k + (if c = Color.BLACK then 1 else 0))

/-- The subtrees of a tree: the tree below each node, and the null trees. -/
def Tree.subtrees {α : Type} : Tree α → List (Tree α)
  | Tree.nil => [Tree.nil]
  | Tree.node c l x r => Tree.node c l x r :: (l.subtrees ++ r.subtrees)

/-- Every path from any node down to a null child has the same number of
BLACK nodes. -/
def Tree.blackBalanced {α : Type} (t : Tree α) : Prop :=
  ∀ s ∈ t.subtrees, ∀ a ∈ s.blackCounts, ∀ b ∈ s.blackCounts, a = b

/-- Colour behind a pointer; `NULL` counts as BLACK. -/
def ptrColor {α : Type} (v : View α) : Option Nat → Option Color
  | none => some Color.BLACK
  | some c => v.C c

/-- What the tree read off the store at a pointer satisfies; `al` lists the
addresses of its nodes in order. -/
structure ReadOK {α : Type} (cmp : α → α → Int) (g : Ghost α) (v : View α) (ptr : Option Nat)
    (tr : Tree α) (al : List Nat) : Prop where
  col : some tr.rootColor = ptrColor v ptr
  nrr : tr.noRedRed
  bal : tr.blackBalanced
  cnt : ∀ a ∈ tr.blackCounts, a = bhp g ptr
  dat : tr.inorder.map some = al.map v.D
  mem : ∀ q, q ∈ al ↔ Desc v ptr q
  srt : tr.inorder.Pairwise (fun a b => cmp a b < 0)
  ins : ∀ c, ptr = some c → ∀ y ∈ tr.inorder, inside cmp (g.lo c) (g.hi c) y = true
  num : tr.numNodes = al.length

/-- The elements a sequence of inserts leaves in the tree, in the order of
their insertion: an element is kept when no element kept before compares
equal to it. -/
def storedFrom {α : Type} (cmp : α → α → Int) : List α → List α → List α
  | acc, [] => acc
  | acc, x :: xs =>
    storedFrom cmp (if acc.any (fun y => decide (cmp x y = 0)) then acc else acc ++ [x]) xs

/-- Integer comparison by difference, as a sample comparison function. -/
def intCmp (a b : Int) : Int := a - b

end RBT

namespace RBT

/-- Height of a tree: the number of nodes on the longest path from the root
down to a null child. -/
def Tree.height {α : Type} : Tree α → Nat
  | Tree.nil => 0
  | Tree.node _ l _ r => 1 + max l.height r.height

/-- The node `a` has `d` nodes above it: following the parent links from `a`
ends after `d` steps at a node without parent. -/
inductive Depth {α : Type} (v : View α) : Nat → Nat → Prop where
  | root {a : Nat} : v.P a = none → Depth v a 0
  | step {a p d : Nat} : v.P a = some p → Depth v p d → Depth v a (d + 1)

/-- The body of `fixTree` with its recursive call replaced by `call`: one
activation of `fixTree`. -/
def fixTreeBody {α : Type}
    (call : Heap α → Option Nat → Option Nat → Option (Heap α × Option Nat))
    (h : Heap α) (root justEnteredNode : Option Nat) : Option (Heap α × Option Nat) := do
  let (h, check) ← noRotationsAndNullNodesCheck h justEnteredNode
  if check = FAILURE_INDICATOR then
    pure (h, root)
  else
    let n ← justEnteredNode
    let nn ← h n
    let enteredNodeParent ← nn.parent
    let pn ← h enteredNodeParent
    let enteredNodeGrandfather ← pn.parent
    let gn ← h enteredNodeGrandfather
    let enteredNodeUncle := if gn.left = some enteredNodeParent then gn.right else gn.left
    if pn.color = Color.RED then
      let uncleColor ← (match enteredNodeUncle with
        | none => some none
        | some u => (h u).map fun un => some un.color)
      if uncleColor = none ∨ uncleColor = some Color.BLACK then
        let (h, firstRotationIndicator) ←
          firstRotation h n enteredNodeParent enteredNodeGrandfather
        if firstRotationIndicator = SUCCESS_INDICATOR then
          secondRotation h root enteredNodeParent n enteredNodeGrandfather
        else
          secondRotation h root n enteredNodeParent enteredNodeGrandfather
      else if uncleColor = some Color.RED then
        let h ← setColor h enteredNodeParent Color.BLACK
        let u ← enteredNodeUncle
        let h ← setColor h u Color.BLACK
        let h ← setColor h enteredNodeGrandfather Color.RED
        call h root (some enteredNodeGrandfather)
      else pure (h, root)
    else pure (h, root)

/-- A sample store: a BLACK root at address 0 with the RED children 1 and 2,
and a RED node at address 3 below node 1. -/
def chainHeap : Heap Int := fun a =>
  if a = 0 then some { parent := none, left := some 1, right := some 2,
                       color := Color.BLACK, data := 20 }
  else if a = 1 then some { parent := some 0, left := some 3, right := none,
                            color := Color.RED, data := 10 }
  else if a = 2 then some { parent := some 0, left := none, right := none,
                            color := Color.RED, data := 30 }
  else if a = 3 then some { parent := some 1, left := none, right := none,
                            color := Color.RED, data := 5 }
  else none

end RBT

namespace HMap

/-- The data members of the class `HashMap<KeyT, ValueT>` of `HashMap.hpp`.
`vectorsArray` is the array of buckets.  The members `lowerLoadFactor` and
`upperLoadFactor` are set to 0.25 and 0.75 by every constructor and never
assigned afterwards; they appear as these constants in `belowLower` and
`aboveUpper`.  The `int` members are modelled without overflow. -/
structure HashMap (K V : Type) where
  hashMapCapacity : Nat
  vectorsArray : List (List (K × V))
  numOfElements : Int
  deriving DecidableEq, Repr

variable {K V : Type}

/-- The default constructor `HashMap()`. -/
def new : HashMap K V :=
  { hashMapCapacity := 16, vectorsArray := List.replicate 16 [], numOfElements := 0 }

/-- Embedding of `size()`. -/
def size (m : HashMap K V) : Int := m.numOfElements

/-- Embedding of `capacity()`. -/
def capacity (m : HashMap K V) : Nat := m.hashMapCapacity

/-- Embedding of `empty()`. -/
def empty (m : HashMap K V) : Bool := decide (m.numOfElements = 0)

/-- Embedding of `getLoadFactor()`: the quotient `(double) numOfElements / hashMapCapacity`,
which is exact for the comparisons below. -/
def getLoadFactor (m : HashMap K V) : ℚ := (m.numOfElements : ℚ) / (m.hashMapCapacity : ℚ)

/-- The test `getLoadFactor() > upperLoadFactor` with `upperLoadFactor = 0.75`.
For `int` operands the rounded `double` quotient exceeds 0.75 exactly when
the exact quotient does, so the test is `3 * capacity < 4 * size`. -/
def aboveUpper (m : HashMap K V) : Bool :=
  decide (3 * (m.hashMapCapacity : Int) < 4 * m.numOfElements)

/-- The test `getLoadFactor() < lowerLoadFactor` with `lowerLoadFactor = 0.25`,
exact in the same way: `4 * size < capacity`. -/
def belowLower (m : HashMap K V) : Bool :=
  decide (4 * m.numOfElements < (m.hashMapCapacity : Int))

/-- Embedding of `_hashFunction`: `hash key` is the value of `std::hash<KeyT>{}(key)` after
its conversion to `int`; the bitwise and with `hashMapCapacity - 1` acts on
the 32-bit two's complement pattern of that value. -/
def _hashFunction (hash : K → Int) (m : HashMap K V) (key : K) : Nat :=
  Nat.land ((hash key) % 4294967296).toNat (m.hashMapCapacity - 1)

/-- Embedding of `_getElemIndexInSuitedVec`: index of the first pair of the bucket whose key
equals `keyToSearch`, or -1. -/
def _getElemIndexInSuitedVec [DecidableEq K] (m : HashMap K V) (suitedVectorIndex : Nat)
    (keyToSearch : K) : Int :=
  match (m.vectorsArray.getD suitedVectorIndex []).findIdx?
      (fun p => decide (p.1 = keyToSearch)) with
  | some i => (i : Int)
  | none => -1

/-- Embedding of `containsKey`. -/
def containsKey [DecidableEq K] (hash : K → Int) (m : HashMap K V) (keyToCheck : K) : Bool :=
  let suitedVectorIndex := _hashFunction hash m keyToCheck
  let elemIndexInSuitedVec := _getElemIndexInSuitedVec m suitedVectorIndex keyToCheck
  if elemIndexInSuitedVec = -1 then false else true

/-- The statement `arr[i].push_back(p)`. -/
def pushBack (arr : List (List (K × V))) (i : Nat) (p : K × V) : List (List (K × V)) :=
  arr.set i (arr.getD i [] ++ [p])

/-- Embedding of `_rehashing`. -/
def _rehashing (hash : K → Int) (m : HashMap K V) (newSize : Nat) : HashMap K V :=
  let oldCap := m.hashMapCapacity
  let m1 : HashMap K V := { m with hashMapCapacity := newSize }
  let tmp := (List.range oldCap).foldl
    (fun tmp i => (m.vectorsArray.getD i []).foldl
      (fun tmp currentPair => pushBack tmp (_hashFunction hash m1 currentPair.1) currentPair) tmp)
    (List.replicate newSize [])
  { m1 with vectorsArray := tmp }

/-- The non-const `operator[]`: returns the map and the place
`vectorsArray[suitedVectorIndex][elemIndexInSuitedVec]` of the reference it
returns. -/
def subscript [DecidableEq K] [Inhabited V] (hash : K → Int) (m : HashMap K V)
    (keyToGetSuitedValue : K) : HashMap K V × Nat × Int :=
  let suitedVectorIndex := _hashFunction hash m keyToGetSuitedValue
  if containsKey hash m keyToGetSuitedValue = false then
    let m1 : HashMap K V :=
      { m with
        vectorsArray := pushBack m.vectorsArray suitedVectorIndex (keyToGetSuitedValue, default),
        numOfElements := m.numOfElements + 1 }
    let m2 := if m1.hashMapCapacity > 1 ∧ aboveUpper m1 = true
      then _rehashing hash m1 (m1.hashMapCapacity * 2) else m1
    let suitedVectorIndex := _hashFunction hash m2 keyToGetSuitedValue
    (m2, suitedVectorIndex, _getElemIndexInSuitedVec m2 suitedVectorIndex keyToGetSuitedValue)
  else
    (m, suitedVectorIndex, _getElemIndexInSuitedVec m suitedVectorIndex keyToGetSuitedValue)

/-- Assignment through a reference, `vectorsArray[i][j].second = value`;
`none` when the place does not exist. -/
def writeRef (m : HashMap K V) (i : Nat) (j : Int) (value : V) : Option (HashMap K V) :=
  if j < 0 then none
  else
    match (m.vectorsArray.getD i [])[j.toNat]? with
    | none => none
    | some p =>
      some { m with vectorsArray :=
        m.vectorsArray.set i ((m.vectorsArray.getD i []).set j.toNat (p.1, value)) }

/-- The statement `(*this)[key] = value`. -/
def assign [DecidableEq K] [Inhabited V] (hash : K → Int) (m : HashMap K V) (key : K)
    (value : V) : Option (HashMap K V) :=
  let r := subscript hash m key
  writeRef r.1 r.2.1 r.2.2 value

/-- Embedding of `insert`. -/
def insert [DecidableEq K] [Inhabited V] (hash : K → Int) (m : HashMap K V) (keyToInsert : K)
    (valueToInsert : V) : Option (HashMap K V × Bool) :=
  if containsKey hash m keyToInsert = true then some (m, false)
  else (assign hash m keyToInsert valueToInsert).map fun m1 => (m1, true)

/-- The const `operator[]`; `none` when the key is not in its bucket (undefined
behaviour in the source). -/
def constSubscript [DecidableEq K] (hash : K → Int) (m : HashMap K V)
    (keyToGetSuitedValue : K) : Option V :=
  let suitedVectorIndex := _hashFunction hash m keyToGetSuitedValue
  let elemIndexInSuitedVec := _getElemIndexInSuitedVec m suitedVectorIndex keyToGetSuitedValue
  if elemIndexInSuitedVec < 0 then none
  else ((m.vectorsArray.getD suitedVectorIndex [])[elemIndexInSuitedVec.toNat]?).map Prod.snd

/-- The member function `at` (a reserved word here): `none` is the exception
thrown for an absent key. -/
def atKey [DecidableEq K] (hash : K → Int) (m : HashMap K V) (keyToSearch : K) : Option V :=
  if containsKey hash m keyToSearch = false then none
  else constSubscript hash m keyToSearch

/-- The loop `while (hashMapCapacity > 1 && getLoadFactor() < lowerLoadFactor)
_rehashing(hashMapCapacity / 2)` of `erase`. -/
def shrinkLoop (hash : K → Int) : Nat → HashMap K V → Option (HashMap K V)
  | fuel, m =>
    if m.hashMapCapacity > 1 ∧ belowLower m = true then
      match fuel with
      | 0 => none
      | fuel + 1 => shrinkLoop hash fuel (_rehashing hash m (m.hashMapCapacity / 2))
    else some m

/-- Embedding of `erase`. -/
def erase [DecidableEq K] (hash : K → Int) (m : HashMap K V) (keyToEraseSuitedValue : K) :
    Option (HashMap K V × Bool) :=
  if containsKey hash m keyToEraseSuitedValue = false then some (m, false)
  else
    let suitedVectorIndex := _hashFunction hash m keyToEraseSuitedValue
    let bucket := m.vectorsArray.getD suitedVectorIndex []
    if bucket.any (fun p => decide (p.1 = keyToEraseSuitedValue)) then
      let m1 : HashMap K V :=
        { m with
          vectorsArray := m.vectorsArray.set suitedVectorIndex
            (bucket.eraseP (fun p => decide (p.1 = keyToEraseSuitedValue))),
          numOfElements := m.numOfElements - 1 }
      (shrinkLoop hash m1.hashMapCapacity m1).map fun m2 => (m2, true)
    else some (m, true)

/-- Embedding of `clear`. -/
def clear (m : HashMap K V) : HashMap K V :=
  { m with
    vectorsArray := (List.range m.hashMapCapacity).foldl (fun arr i => arr.set i []) m.vectorsArray,
    numOfElements := 0 }

/-- Embedding of `bucketIndex`: `none` is the exception thrown for an absent key. -/
def bucketIndex [DecidableEq K] (hash : K → Int) (m : HashMap K V)
    (keyToSearchSuitedVector : K) : Option Nat :=
  if containsKey hash m keyToSearchSuitedVector = false then none
  else some (_hashFunction hash m keyToSearchSuitedVector)

/-- Embedding of `bucketSize`: `none` is the exception thrown for an absent key. -/
def bucketSize [DecidableEq K] (hash : K → Int) (m : HashMap K V)
    (keyToSearchSuitedVector : K) : Option Nat :=
  (bucketIndex hash m keyToSearchSuitedVector).map fun suitedVectorIndex =>
    (m.vectorsArray.getD suitedVectorIndex []).length

/-- A call of one of the mutating member functions. -/
inductive Op (K V : Type) where
  | insert (key : K) (value : V)
  | subscript (key : K)
  | assign (key : K) (value : V)
  | erase (key : K)
  | clear
  deriving DecidableEq, Repr

/-- The map after one call; `none` when the call runs into undefined
behaviour. -/
def step [DecidableEq K] [Inhabited V] (hash : K → Int) (m : HashMap K V) :
    Op K V → Option (HashMap K V)
  | Op.insert key value => (insert hash m key value).map Prod.fst
  | Op.subscript key => some (subscript hash m key).1
  | Op.assign key value => assign hash m key value
  | Op.erase key => (erase hash m key).map Prod.fst
  | Op.clear => some (clear m)

/-- The map after a sequence of calls. -/
def run [DecidableEq K] [Inhabited V] (hash : K → Int) (m : HashMap K V) :
    List (Op K V) → Option (HashMap K V)
  | [] => some m
  | op :: ops =>
    match step hash m op with
    | none => none
    | some m1 => run hash m1 ops

end HMap

namespace HMap

variable {K V : Type}

/-- The bucket index of a key for a given capacity. -/
def idx (hash : K → Int) (cap : Nat) (key : K) : Nat :=
  Nat.land ((hash key) % 4294967296).toNat (cap - 1)

/-- The value the bucket of a key holds for it. -/
def lookup [DecidableEq K] (hash : K → Int) (m : HashMap K V) (key : K) : Option V :=
  ((m.vectorsArray.getD (idx hash m.hashMapCapacity key) []).find?
    (fun p => decide (p.1 = key))).map Prod.snd

/-- The representation invariant of the map: one bucket per index below the
capacity, a capacity that is a power of two, every pair in the bucket of
its key, no key twice in a bucket, and `numOfElements` the number of
stored pairs. -/
structure WF (hash : K → Int) (m : HashMap K V) : Prop where
  len : m.vectorsArray.length = m.hashMapCapacity
  pow : ∃ j, m.hashMapCapacity = 2 ^ j
  place : ∀ i p, p ∈ m.vectorsArray.getD i [] → idx hash m.hashMapCapacity p.1 = i
  nodup : ∀ i, ((m.vectorsArray.getD i []).map Prod.fst).Nodup
  count : m.numOfElements = ((m.vectorsArray.map List.length).sum : Nat)

/-- The key-to-value mapping a call is meant to produce from the mapping
before it. -/
def specStep [DecidableEq K] [Inhabited V] (f : K → Option V) : Op K V → K → Option V
  | Op.insert key value => if (f key).isSome then f else Function.update f key (some value)
  | Op.subscript key => if (f key).isSome then f else Function.update f key (some default)
  | Op.assign key value => Function.update f key (some value)
  | Op.erase key => Function.update f key none
  | Op.clear => fun _ => none

/-- Identity hash on integers, as a sample hash function. -/
def intHash (k : Int) : Int := k

end HMap

namespace HMap

variable {K V : Type}

/-- The data members of the nested class `const_iterator`.  `_pointer` is the
address of the pair the iterator points to, given by the index of the bucket
and the index of the pair in the bucket; `none` is `nullptr`. -/
structure const_iterator (K V : Type) where
  vectorsArray : List (List (K × V))
  capacity : Nat
  currentVectorIndex : Nat
  pairIndexInVector : Int
  _pointer : Option (Nat × Nat)
  deriving DecidableEq, Repr

/-- Embedding of `const_iterator::_updateValuesToNextObj`; `none` when
`vectorsArray[currentVectorIndex]` is read outside the array.  The `for` loop
over `i` from `nextVectorIndexInHashMap` up to `capacity` returns at the first
bucket that is not empty. -/
def _updateValuesToNextObj (it : const_iterator K V) : Option (const_iterator K V) :=
  match it.vectorsArray[it.currentVectorIndex]? with
  | none => none
  | some bucket =>
    let nextPairIndexInVec := it.pairIndexInVector + 1
    if (bucket.length : Int) > nextPairIndexInVec then
      some { it with pairIndexInVector := nextPairIndexInVec,
                     _pointer := some (it.currentVectorIndex, nextPairIndexInVec.toNat) }
    else
      let nextVectorIndexInHashMap := it.currentVectorIndex + 1
      match (List.range' nextVectorIndexInHashMap
          (it.capacity - nextVectorIndexInHashMap)).find?
          (fun i => decide ((it.vectorsArray.getD i []).length > 0)) with
      | some i => some { it with currentVectorIndex := i, pairIndexInVector := 0,
                                 _pointer := some (i, 0) }
      | none => some { it with _pointer := none }

/-- The constructor `const_iterator(vectorsArrToCpy, capacity, isEnd)`. -/
def newConstIterator (vectorsArrToCpy : List (List (K × V))) (capacity : Nat) (isEnd : Bool) :
    Option (const_iterator K V) :=
  let it : const_iterator K V :=
    { vectorsArray := vectorsArrToCpy, capacity := capacity, currentVectorIndex := 0,
      pairIndexInVector := -1, _pointer := none }
  if isEnd = true then some it else _updateValuesToNextObj it

/-- Embedding of `begin()`. -/
def begin (m : HashMap K V) : Option (const_iterator K V) :=
  newConstIterator m.vectorsArray (capacity m) false

/-- Embedding of `end()`, with a trailing underscore because the plain word is
reserved. -/
def end_ (m : HashMap K V) : Option (const_iterator K V) :=
  newConstIterator m.vectorsArray (capacity m) true

/-- The iterator's `operator*`: the pair `_pointer` points to; `none` for
`nullptr` or an address outside the buckets. -/
def deref (it : const_iterator K V) : Option (K × V) :=
  match it._pointer with
  | none => none
  | some (i, j) => (it.vectorsArray.getD i [])[j]?

/-- The iterator's `operator==`: comparison of the two `_pointer` members. -/
def iterEq (it constIterToCmp : const_iterator K V) : Bool :=
  decide (it._pointer = constIterToCmp._pointer)

/-- The iterator's `operator!=`. -/
def iterNe (it constIterToCmp : const_iterator K V) : Bool :=
  decide (it._pointer ≠ constIterToCmp._pointer)

/-- The number of pairs in the buckets, used as the bound on the rounds of a
loop over the iterator. -/
def pairCount (m : HashMap K V) : Nat := (m.vectorsArray.map List.length).sum

/-- The loop `for (it = begin(); it != end(); ++it)` collecting `*it`: the
pairs visited, in the order of the visit; `none` when the rounds run out or
an iterator operation fails. -/
def visitLoop (last : const_iterator K V) : Nat → const_iterator K V → Option (List (K × V))
  | fuel, it =>
    if iterNe it last = true then
      match fuel with
      | 0 => none
      | fuel + 1 =>
        match deref it with
        | none => none
        | some iter =>
          match _updateValuesToNextObj it with
          | none => none
          | some it1 =>
            match visitLoop last fuel it1 with
            | none => none
            | some rest => some (iter :: rest)
    else some []

/-- The pairs visited by iterating from `begin()` to `end()`. -/
def visited (m : HashMap K V) : Option (List (K × V)) :=
  match begin m, end_ m with
  | some first, some last => visitLoop last (pairCount m + 1) first
  | _, _ => none

/-- The iterator after `n` applications of `operator++` to `begin()`. -/
def iterAt (m : HashMap K V) : Nat → Option (const_iterator K V)
  | 0 => begin m
  | n + 1 =>
    match iterAt m n with
    | none => none
    | some it => _updateValuesToNextObj it

/-- The range-based `for` loop of `operator==` over the pairs of this map. -/
def eqLoop [DecidableEq K] [DecidableEq V] (hash : K → Int) (hashMapToEqual : HashMap K V)
    (last : const_iterator K V) : Nat → const_iterator K V → Option Bool
  | fuel, it =>
    if iterNe it last = true then
      match fuel with
      | 0 => none
      | fuel + 1 =>
        match deref it with
        | none => none
        | some iter =>
          if containsKey hash hashMapToEqual iter.1 = false then some false
          else
            match atKey hash hashMapToEqual iter.1 with
            | none => none
            | some v =>
              if v ≠ iter.2 then some false
              else
                match _updateValuesToNextObj it with
                | none => none
                | some it1 => eqLoop hash hashMapToEqual last fuel it1
    else some true

/-- Embedding of `HashMap::operator==`, called on `m` with the argument
`hashMapToEqual`. -/
def operatorEq [DecidableEq K] [DecidableEq V] (hash : K → Int) (m hashMapToEqual : HashMap K V) :
    Option Bool :=
  if m.numOfElements ≠ hashMapToEqual.numOfElements then some false
  else
    match begin m, end_ m with
    | some first, some last => eqLoop hash hashMapToEqual last (pairCount m + 1) first
    | _, _ => none

/-- Embedding of `HashMap::operator!=`. -/
def operatorNe [DecidableEq K] [DecidableEq V] (hash : K → Int) (m hashMapToEqual : HashMap K V) :
    Option Bool :=
  (operatorEq hash m hashMapToEqual).map fun b => !b

/-- The place of an iterator in the walk over the buckets of `arr`: its
members name a bucket inside the array and an index not beyond the end of
that bucket, and `k` pairs lie before the place the next step looks at. -/
structure IterPos (arr : List (List (K × V))) (it : const_iterator K V) (k : Nat) : Prop where
  arr_eq : it.vectorsArray = arr
  cap_eq : it.capacity = arr.length
  cur_lt : it.currentVectorIndex < arr.length
  idx_ge : -1 ≤ it.pairIndexInVector
  idx_le : it.pairIndexInVector + 1 ≤ ((arr.getD it.currentVectorIndex []).length : Int)
  pos_eq : (k : Int) =
    (((arr.take it.currentVectorIndex).flatten.length : Nat) : Int) + (it.pairIndexInVector + 1)

/-- The iterator stands on pair `k` of the concatenated buckets of `arr`, or
at the end (`_pointer` is `nullptr`) when there is no such pair. -/
def OnPair (arr : List (List (K × V))) (it : const_iterator K V) (k : Nat) : Prop :=
  (k < arr.flatten.length ∧ deref it = arr.flatten[k]? ∧ it._pointer ≠ none ∧
    IterPos arr it (k + 1)) ∨
  (arr.flatten.length ≤ k ∧ it._pointer = none ∧ IterPos arr it arr.flatten.length)

end HMap

namespace HMap

variable {K V : Type}

/-- Reference definition following the spec's words "insertion order": the keys
a call leaves in the map, in the order in which they were inserted.  A call
that adds an absent key puts it last, `erase` takes the key out, `clear`
takes all keys out, and a call on a present key changes nothing. -/
def orderStep [DecidableEq K] (order : List K) : Op K V → List K
  | Op.insert key _ => if key ∈ order then order else order ++ [key]
  | Op.subscript key => if key ∈ order then order else order ++ [key]
  | Op.assign key _ => if key ∈ order then order else order ++ [key]
  | Op.erase key => order.erase key
  | Op.clear => []

/-- Tells whether a sequence of calls runs through without any call lowering
the capacity, that is, without a shrink rehash. -/
def noShrinkRun [DecidableEq K] [Inhabited V] (hash : K → Int) :
    HashMap K V → List (Op K V) → Bool
  | _, [] => true
  | m, op :: ops =>
    match step hash m op with
    | none => false
    | some m1 => decide (m.hashMapCapacity ≤ m1.hashMapCapacity) && noShrinkRun hash m1 ops

/-- The keys of every bucket appear in the bucket in the order of the list
`order`, which holds each key of the map once. -/
structure InsOrder [DecidableEq K] (hash : K → Int) (m : HashMap K V) (order : List K) :
    Prop where
  sub : ∀ i, ((m.vectorsArray.getD i []).map Prod.fst).Sublist order
  nodup : order.Nodup
  mem : ∀ k, k ∈ order ↔ (lookup hash m k).isSome = true

end HMap

namespace RBT

variable {α : Type}

theorem IsCmp.irrefl {cmp : α → α → Int} (hc : IsCmp cmp) (a : α) : ¬ cmp a a < 0 := by
  intro h
  have := (hc.antisymm a a).1 h
  omega

theorem IsCmp.refl {cmp : α → α → Int} (hc : IsCmp cmp) (a : α) : cmp a a = 0 := by
  have h1 := hc.irrefl a
  have h2 := hc.antisymm a a
  omega

theorem IsCmp.symm {cmp : α → α → Int} (hc : IsCmp cmp) {a b : α} (h : cmp a b = 0) :
    cmp b a = 0 := by
  have h1 := hc.antisymm a b
  have h2 := hc.antisymm b a
  omega

theorem IsCmp.gt_iff {cmp : α → α → Int} (hc : IsCmp cmp) (a b : α) :
    0 < cmp a b ↔ cmp b a < 0 := (hc.antisymm b a).symm

theorem IsCmp.asymm {cmp : α → α → Int} (hc : IsCmp cmp) {a b : α} (h : cmp a b < 0) :
    ¬ cmp b a < 0 := by
  have h1 := hc.antisymm a b
  omega

@[simp]
theorem aboveLo_none (cmp : α → α → Int) (x : α) : aboveLo cmp none x = true := rfl

@[simp]
theorem belowHi_none (cmp : α → α → Int) (x : α) : belowHi cmp none x = true := rfl

@[simp]
theorem aboveLo_some (cmp : α → α → Int) (l x : α) :
    aboveLo cmp (some l) x = true ↔ cmp l x < 0 := by simp [aboveLo]

@[simp]
theorem belowHi_some (cmp : α → α → Int) (u x : α) :
    belowHi cmp (some u) x = true ↔ cmp x u < 0 := by simp [belowHi]

theorem inside_iff (cmp : α → α → Int) (lo hi : Option α) (x : α) :
    inside cmp lo hi x = true ↔ aboveLo cmp lo x = true ∧ belowHi cmp hi x = true := by
  simp [inside]

theorem aboveLo_trans {cmp : α → α → Int} (hc : IsCmp cmp) {lo : Option α} {x y : α}
    (h1 : aboveLo cmp lo x = true) (h2 : cmp x y < 0) : aboveLo cmp lo y = true := by
  cases lo with
  | none => rfl
  | some l => simp at h1 ⊢; exact hc.lt_trans _ _ _ h1 h2

theorem belowHi_trans {cmp : α → α → Int} (hc : IsCmp cmp) {hi : Option α} {x y : α}
    (h1 : belowHi cmp hi y = true) (h2 : cmp x y < 0) : belowHi cmp hi x = true := by
  cases hi with
  | none => rfl
  | some u => simp at h1 ⊢; exact hc.lt_trans _ _ _ h2 h1

theorem HInv.lt_of_P {cmp : α → α → Int} {focus root : Option Nat} {g : Ghost α} {v : View α}
    {brk : Nat} (hi : HInv cmp focus root g v brk) {a p : Nat} (h : v.P a = some p) :
    a < brk := by
  by_contra hlt
  have := (hi.free a (by omega)).2.2.1
  simp [this] at h

theorem HInv.lt_of_L {cmp : α → α → Int} {focus root : Option Nat} {g : Ghost α} {v : View α}
    {brk : Nat} (hi : HInv cmp focus root g v brk) {a c : Nat} (h : v.L a = some c) :
    a < brk := by
  by_contra hlt
  have := (hi.free a (by omega)).1
  simp [this] at h

theorem HInv.lt_of_R {cmp : α → α → Int} {focus root : Option Nat} {g : Ghost α} {v : View α}
    {brk : Nat} (hi : HInv cmp focus root g v brk) {a c : Nat} (h : v.R a = some c) :
    a < brk := by
  by_contra hlt
  have := (hi.free a (by omega)).2.1
  simp [this] at h

theorem HInv.lt_of_C {cmp : α → α → Int} {focus root : Option Nat} {g : Ghost α} {v : View α}
    {brk : Nat} (hi : HInv cmp focus root g v brk) {a : Nat} {c : Color} (h : v.C a = some c) :
    a < brk := by
  by_contra hlt
  have := (hi.free a (by omega)).2.2.2.1
  simp [this] at h

theorem HInv.lt_of_D {cmp : α → α → Int} {focus root : Option Nat} {g : Ghost α} {v : View α}
    {brk : Nat} (hi : HInv cmp focus root g v brk) {a : Nat} {x : α} (h : v.D a = some x) :
    a < brk := by
  by_contra hlt
  have := (hi.free a (by omega)).2.2.2.2
  simp [this] at h

theorem HInv.childL {cmp : α → α → Int} {focus root : Option Nat} {g : Ghost α} {v : View α}
    {brk : Nat} (hi : HInv cmp focus root g v brk) {a c : Nat} (h : v.L a = some c) :
    ChildOK focus g v a c (g.lo a) (v.D a) :=
  (hi.node a (hi.lt_of_L h)).lft c h

theorem HInv.childR {cmp : α → α → Int} {focus root : Option Nat} {g : Ghost α} {v : View α}
    {brk : Nat} (hi : HInv cmp focus root g v brk) {a c : Nat} (h : v.R a = some c) :
    ChildOK focus g v a c (v.D a) (g.hi a) :=
  (hi.node a (hi.lt_of_R h)).rgt c h

theorem HInv.parent {cmp : α → α → Int} {focus root : Option Nat} {g : Ghost α} {v : View α}
    {brk : Nat} (hi : HInv cmp focus root g v brk) {a p : Nat} (h : v.P a = some p) :
    v.L p = some a ∨ v.R p = some a :=
  (hi.node a (hi.lt_of_P h)).par p h

theorem keyIn_self {cmp : α → α → Int} {focus root : Option Nat} {g : Ghost α} {v : View α}
    {brk : Nat} (hi : HInv cmp focus root g v brk) {a : Nat} (ha : a < brk) :
    keyIn cmp v (g.lo a) (g.hi a) a = true := by
  obtain ⟨x, hx⟩ := (hi.used a ha).1
  simp [keyIn, hx, (hi.node a ha).ins x hx]

theorem rank_le (cmp : α → α → Int) (g : Ghost α) (v : View α) (brk a : Nat) :
    rank cmp g v brk a ≤ brk := by
  unfold rank
  calc _ ≤ (Finset.range brk).card := Finset.card_filter_le _ _
    _ = brk := Finset.card_range brk

theorem rank_pos {cmp : α → α → Int} {focus root : Option Nat} {g : Ghost α} {v : View α}
    {brk : Nat} (hi : HInv cmp focus root g v brk) {a : Nat} (ha : a < brk) :
    0 < rank cmp g v brk a := by
  unfold rank
  apply Finset.card_pos.2
  exact ⟨a, by simp [ha, keyIn_self hi ha]⟩

/-- Counting lemma behind `rank`: a strictly smaller interval holds strictly
fewer allocated keys when the larger one holds a key outside the smaller. -/
theorem card_keyIn_lt {cmp : α → α → Int} {v : View α} {brk : Nat} {lo hi lo2 hi2 : Option α}
    (hsub : ∀ q, keyIn cmp v lo hi q = true → keyIn cmp v lo2 hi2 q = true)
    {a : Nat} (ha : a < brk) (hin : keyIn cmp v lo2 hi2 a = true)
    (hout : keyIn cmp v lo hi a = false) :
    ((Finset.range brk).filter (fun q => keyIn cmp v lo hi q = true)).card <
      ((Finset.range brk).filter (fun q => keyIn cmp v lo2 hi2 q = true)).card := by
  apply Finset.card_lt_card
  constructor
  · intro q hq
    simp only [Finset.mem_filter] at hq ⊢
    exact ⟨hq.1, hsub q hq.2⟩
  · intro hsup
    have : a ∈ (Finset.range brk).filter (fun q => keyIn cmp v lo hi q = true) :=
      hsup (by simp [ha, hin])
    simp [hout] at this

theorem rank_left_lt {cmp : α → α → Int} (hc : IsCmp cmp) {focus root : Option Nat}
    {g : Ghost α} {v : View α} {brk : Nat} (hi : HInv cmp focus root g v brk)
    {a c : Nat} (hl : v.L a = some c) :
    rank cmp g v brk c < rank cmp g v brk a := by
  have ha := hi.lt_of_L hl
  obtain ⟨_, hlo, hhi, _⟩ := hi.childL hl
  obtain ⟨x, hx⟩ := (hi.used a ha).1
  have hins := (inside_iff _ _ _ _).1 ((hi.node a ha).ins x hx)
  unfold rank
  rw [hlo, hhi, hx]
  refine card_keyIn_lt ?_ ha (keyIn_self hi ha) ?_
  · intro q hq
    unfold keyIn at hq ⊢
    cases hq2 : v.D q with
    | none => simp [hq2] at hq
    | some m =>
      simp only [hq2, inside_iff, belowHi_some] at hq ⊢
      exact ⟨hq.1, belowHi_trans hc hins.2 hq.2⟩
  · simp [keyIn, hx, inside, belowHi, aboveLo, hc.irrefl]

theorem rank_right_lt {cmp : α → α → Int} (hc : IsCmp cmp) {focus root : Option Nat}
    {g : Ghost α} {v : View α} {brk : Nat} (hi : HInv cmp focus root g v brk)
    {a c : Nat} (hl : v.R a = some c) :
    rank cmp g v brk c < rank cmp g v brk a := by
  have ha := hi.lt_of_R hl
  obtain ⟨_, hlo, hhi, _⟩ := hi.childR hl
  obtain ⟨x, hx⟩ := (hi.used a ha).1
  have hins := (inside_iff _ _ _ _).1 ((hi.node a ha).ins x hx)
  unfold rank
  rw [hlo, hhi, hx]
  refine card_keyIn_lt ?_ ha (keyIn_self hi ha) ?_
  · intro q hq
    unfold keyIn at hq ⊢
    cases hq2 : v.D q with
    | none => simp [hq2] at hq
    | some m =>
      simp only [hq2, inside_iff, aboveLo_some] at hq ⊢
      exact ⟨aboveLo_trans hc hins.1 hq.1, hq.2⟩
  · simp [keyIn, hx, inside, belowHi, aboveLo, hc.irrefl]

/-- The rank grows along a parent link. -/
theorem rank_parent_lt {cmp : α → α → Int} (hc : IsCmp cmp) {focus root : Option Nat}
    {g : Ghost α} {v : View α} {brk : Nat} (hi : HInv cmp focus root g v brk)
    {a p : Nat} (hp : v.P a = some p) :
    rank cmp g v brk a < rank cmp g v brk p := by
  rcases hi.parent hp with hl | hr
  · exact rank_left_lt hc hi hl
  · exact rank_right_lt hc hi hr

/-- A node is not its own parent. -/
theorem HInv.ne_parent {cmp : α → α → Int} (hc : IsCmp cmp) {focus root : Option Nat}
    {g : Ghost α} {v : View α} {brk : Nat} (hi : HInv cmp focus root g v brk)
    {a p : Nat} (hp : v.P a = some p) : a ≠ p := by
  rintro rfl
  exact lt_irrefl _ (rank_parent_lt hc hi hp)

/-- A node is not its own grandparent. -/
theorem HInv.ne_grand {cmp : α → α → Int} (hc : IsCmp cmp) {focus root : Option Nat}
    {g : Ghost α} {v : View α} {brk : Nat} (hi : HInv cmp focus root g v brk)
    {a p q : Nat} (hp : v.P a = some p) (hq : v.P p = some q) : a ≠ q := by
  rintro rfl
  exact lt_irrefl _ ((rank_parent_lt hc hi hp).trans (rank_parent_lt hc hi hq))

/-- The two children of a node are different nodes. -/
theorem HInv.left_ne_right {cmp : α → α → Int} (hc : IsCmp cmp) {focus root : Option Nat}
    {g : Ghost α} {v : View α} {brk : Nat} (hi : HInv cmp focus root g v brk)
    {a c d : Nat} (hl : v.L a = some c) (hr : v.R a = some d) : c ≠ d := by
  rintro rfl
  obtain ⟨hpc, _, hhi, _⟩ := hi.childL hl
  obtain ⟨_, hlo, _, _⟩ := hi.childR hr
  have hcb := hi.lt_of_P hpc
  obtain ⟨x, hx⟩ := (hi.used c hcb).1
  obtain ⟨y, hy⟩ := (hi.used a (hi.lt_of_L hl)).1
  have := (inside_iff _ _ _ _).1 ((hi.node c hcb).ins x hx)
  rw [hlo, hhi, hy] at this
  simp at this
  exact hc.asymm this.1 this.2

end RBT

namespace RBT

variable {α : Type}

theorem Color.eq_black_of_ne_red {c : Color} (h : c ≠ Color.RED) : c = Color.BLACK := by
  cases c <;> simp_all

/-- A child link determines the parent. -/
theorem HInv.parent_of_child {cmp : α → α → Int} {focus root : Option Nat}
    {g : Ghost α} {v : View α} {brk : Nat} (hi : HInv cmp focus root g v brk)
    {a c : Nat} (h : v.L a = some c ∨ v.R a = some c) : v.P c = some a := by
  rcases h with h | h
  · exact (hi.childL h).1
  · exact (hi.childR h).1

/-- The parent of a RED node that is not the focus is BLACK. -/
theorem HInv.parent_black {cmp : α → α → Int} {focus root : Option Nat}
    {g : Ghost α} {v : View α} {brk : Nat} (hi : HInv cmp focus root g v brk)
    {a p : Nat} (hp : v.P a = some p) (hred : v.C a = some Color.RED) (hf : focus ≠ some a) :
    v.C p = some Color.BLACK := by
  have hpb : p < brk := by
    rcases hi.parent hp with h | h
    · exact hi.lt_of_L h
    · exact hi.lt_of_R h
  obtain ⟨c, hcol⟩ := (hi.used p hpb).2
  cases c with
  | BLACK => exact hcol
  | RED =>
    rcases hi.parent hp with h | h
    · have := (hi.childL h).2.2.2 hcol hf
      simp [hred] at this
    · have := (hi.childR h).2.2.2 hcol hf
      simp [hred] at this

theorem recolor_inv {cmp : α → α → Int} (hc : IsCmp cmp) {root : Option Nat}
    {g : Ghost α} {v : View α} {brk N P G U : Nat}
    (hi : HInv cmp (some N) root g v brk)
    (hNP : v.P N = some P) (hPG : v.P P = some G) (hPc : v.C P = some Color.RED)
    (hU : (v.L G = some P ∧ v.R G = some U) ∨ (v.R G = some P ∧ v.L G = some U))
    (hUc : v.C U = some Color.RED) :
    HInv cmp (some G) root
      { g with bh := fun a => if a = P ∨ a = U then g.bh a + 1 else g.bh a }
      { v with C := fun a => if a = G then some Color.RED else if a = U then some Color.BLACK
                      else if a = P then some Color.BLACK else v.C a } brk := by
  have hNP' : N ≠ P := hi.ne_parent hc hNP
  have hPG' : P ≠ G := hi.ne_parent hc hPG
  have hNG' : N ≠ G := hi.ne_grand hc hNP hPG
  have hUG : v.P U = some G := by
    rcases hU with h | h
    · exact (hi.childR h.2).1
    · exact (hi.childL h.2).1
  have hUG' : U ≠ G := hi.ne_parent hc hUG
  have hPU' : P ≠ U := by
    rcases hU with h | h
    · exact hi.left_ne_right hc h.1 h.2
    · exact (hi.left_ne_right hc h.2 h.1).symm
  have hNU' : N ≠ U := by
    rintro rfl
    rw [hNP] at hUG
    exact hPG' (by simpa using hUG)
  have hGc : v.C G = some Color.BLACK :=
    hi.parent_black hPG hPc (by simpa using hNP')
  have hGb : G < brk := hi.lt_of_C hGc
  have hPb : P < brk := hi.lt_of_C hPc
  have hUb : U < brk := hi.lt_of_C hUc
  have hkid : ∀ c, v.L G = some c ∨ v.R G = some c → c = P ∨ c = U := by
    intro c h
    rcases hU with ⟨h1, h2⟩ | ⟨h1, h2⟩ <;> rcases h with h | h <;> simp_all
  have hkid2 : ∀ a c, v.L a = some c ∨ v.R a = some c → (c = P ∨ c = U) → a = G := by
    intro a c h hcu
    have := hi.parent_of_child h
    rcases hcu with rfl | rfl <;> simp_all
  constructor
  · intro a ha
    have := hi.free a ha
    have h1 : a ≠ G := by omega
    have h2 : a ≠ P := by omega
    have h3 : a ≠ U := by omega
    simp_all
  · intro a ha
    have := hi.used a ha
    refine ⟨this.1, ?_⟩
    simp only
    split_ifs <;> simp [this.2]
  · intro a ha
    have hn := hi.node a ha
    have hcol : ∀ c, v.L a = some c ∨ v.R a = some c →
        (v.C a = some Color.RED → some N ≠ some c → v.C c = some Color.BLACK) →
        ((if a = G then some Color.RED else if a = U then some Color.BLACK
            else if a = P then some Color.BLACK else v.C a) = some Color.RED →
          some G ≠ some c →
          (if c = G then some Color.RED else if c = U then some Color.BLACK
            else if c = P then some Color.BLACK else v.C c) = some Color.BLACK) := by
      intro c hch hold hred hne
      have hcG : c ≠ G := by simpa [eq_comm] using hne
      by_cases haG : a = G
      · subst haG
        rcases hkid c hch with rfl | rfl <;> simp [hcG, hPU']
      · have hcP : c ≠ P := fun e => haG (hkid2 a c hch (Or.inl e))
        have hcU : c ≠ U := fun e => haG (hkid2 a c hch (Or.inr e))
        by_cases haU : a = U
        · subst haU; simp [hUG'] at hred
        by_cases haP : a = P
        · subst haP; simp [hPG', hPU'] at hred
        simp only [haG, haU, haP, if_false] at hred
        simp only [hcG, hcP, hcU, if_false]
        apply hold hred
        intro e
        have e' : N = c := by simpa using e
        subst e'
        have := hi.parent_of_child hch
        rw [hNP] at this
        exact haP (by simpa using this.symm)
    have hbh : ∀ c, v.L a = some c ∨ v.R a = some c →
        (if c = P ∨ c = U then g.bh c + 1 else g.bh c) =
          if a = G then g.bh c + 1 else g.bh c := by
      intro c hch
      by_cases haG : a = G
      · subst haG
        simp [hkid c hch]
      · have hcP : c ≠ P := fun e => haG (hkid2 a c hch (Or.inl e))
        have hcU : c ≠ U := fun e => haG (hkid2 a c hch (Or.inr e))
        simp [haG, hcP, hcU]
    have hbhp : ∀ p, (p = v.L a ∨ p = v.R a) →
        bhp { g with bh := fun a => if a = P ∨ a = U then g.bh a + 1 else g.bh a } p =
          if a = G ∧ p ≠ none then bhp g p + 1 else bhp g p := by
      intro p hp
      cases p with
      | none => simp [bhp]
      | some c =>
        simp only [bhp]
        rw [hbh c (by rcases hp with h | h <;> simp [h])]
        simp
    constructor
    · exact hn.ins
    · intro c hc'
      obtain ⟨h1, h2, h3, h4⟩ := hn.lft c hc'
      exact ⟨h1, h2, h3, hcol c (Or.inl hc') h4⟩
    · intro c hc'
      obtain ⟨h1, h2, h3, h4⟩ := hn.rgt c hc'
      exact ⟨h1, h2, h3, hcol c (Or.inr hc') h4⟩
    · exact hn.par
    · intro hp
      obtain ⟨h1, h2, h3, h4⟩ := hn.top hp
      refine ⟨h1, h2, h3, ?_⟩
      simp only
      have haP : a ≠ P := by rintro rfl; simp [hPG] at hp
      have haU : a ≠ U := by rintro rfl; simp [hUG] at hp
      have haN : a ≠ N := by rintro rfl; simp [hNP] at hp
      by_cases haG : a = G
      · right; rw [haG]
      · left
        simp only [haG, haU, haP, if_false]
        rcases h4 with h4 | h4
        · exact h4
        · exact absurd (by simpa using h4.symm) haN
    · rw [hbhp _ (Or.inl rfl), hbhp _ (Or.inr rfl), hn.bal]
      by_cases haG : a = G
      · subst haG
        have h1 : v.L a ≠ none := by rcases hU with h | h <;> simp [h.1, h.2]
        have h2 : v.R a ≠ none := by rcases hU with h | h <;> simp [h.1, h.2]
        simp [h1, h2]
      · simp [haG]
    · rw [hbhp _ (Or.inl rfl)]
      have hbe := hn.bhe
      simp only
      by_cases haG : a = G
      · subst haG
        have h1 : v.L a ≠ none := by rcases hU with h | h <;> simp [h.1, h.2]
        simp [hGc] at hbe
        simp [h1, hPG'.symm, hUG'.symm, hbe]
      by_cases haU : a = U
      · subst haU
        simp [hUc] at hbe
        simp [haG, hbe]
      by_cases haP : a = P
      · subst haP
        simp [hPc] at hbe
        simp [haG, haU, hbe]
      simp [haG, haU, haP, hbe]
  · exact hi.rootNone
  · exact hi.rootSome
  · intro f hf
    have : f = G := by simpa using hf.symm
    simp [this]

end RBT

namespace RBT

variable {α : Type}

theorem ne_of_rank_lt {cmp : α → α → Int} {g : Ghost α} {v : View α} {brk a b : Nat}
    (h : rank cmp g v brk a < rank cmp g v brk b) : a ≠ b := by
  rintro rfl
  exact lt_irrefl _ h

/-- Two nodes with different parents are different. -/
theorem ne_of_parent_ne {v : View α} {a b p q : Nat} (ha : v.P a = some p) (hb : v.P b = some q)
    (hpq : p ≠ q) : a ≠ b := by
  rintro rfl
  rw [ha] at hb
  exact hpq (by simpa using hb)

@[simp]
theorem bhp_some (g : Ghost α) (c : Nat) : bhp g (some c) = g.bh c := rfl

@[simp]
theorem bhp_none (g : Ghost α) : bhp g none = 0 := rfl

theorem bhp_rot2LGhost (g : Ghost α) (v : View α) (P G : Nat) (p : Option Nat)
    (h1 : p ≠ some P) (h2 : p ≠ some G) : bhp (rot2LGhost g v P G) p = bhp g p := by
  cases p with
  | none => rfl
  | some c =>
    have h1' : c ≠ P := by simpa using h1
    have h2' : c ≠ G := by simpa using h2
    simp [bhp, rot2LGhost, h1', h2']

theorem rot2L_inv {cmp : α → α → Int} (hc : IsCmp cmp) {root : Option Nat}
    {g : Ghost α} {v : View α} {brk N P G : Nat}
    (hi : HInv cmp (some N) root g v brk)
    (hLP : v.L P = some N) (hLG : v.L G = some P) (hPc : v.C P = some Color.RED)
    (hUc : ∀ u, v.R G = some u → v.C u = some Color.BLACK) :
    HInv cmp none (rot2L v root P G).2 (rot2LGhost g v P G) (rot2L v root P G).1 brk := by
  obtain ⟨hPN, hloN, hhiN, -⟩ := hi.childL hLP
  obtain ⟨hPP, hloP, hhiP, -⟩ := hi.childL hLG
  have hNc : v.C N = some Color.RED := hi.foc N rfl
  have hrNP := rank_parent_lt hc hi hPN
  have hrPG := rank_parent_lt hc hi hPP
  have hNP : N ≠ P := ne_of_rank_lt hrNP
  have hPG : P ≠ G := ne_of_rank_lt hrPG
  have hNG : N ≠ G := ne_of_rank_lt (hrNP.trans hrPG)
  have hGc : v.C G = some Color.BLACK := hi.parent_black hPP hPc (by simpa using hNP)
  have hNb : N < brk := hi.lt_of_P hPN
  have hPb : P < brk := hi.lt_of_P hPP
  have hGb : G < brk := hi.lt_of_L hLG
  obtain ⟨xN, hxN⟩ := (hi.used N hNb).1
  obtain ⟨xP, hxP⟩ := (hi.used P hPb).1
  obtain ⟨xG, hxG⟩ := (hi.used G hGb).1
  have hinsP := (inside_iff _ _ _ _).1 ((hi.node P hPb).ins xP hxP)
  have hinsG := (inside_iff _ _ _ _).1 ((hi.node G hGb).ins xG hxG)
  have hltPG : cmp xP xG < 0 := by
    have := hinsP.2
    rw [hhiP, hxG] at this
    simpa using this
  have hbalP := (hi.node P hPb).bal
  have hbheP := (hi.node P hPb).bhe
  have hbalG := (hi.node G hGb).bal
  have hbheG := (hi.node G hGb).bhe
  rw [hLP] at hbalP hbheP
  rw [hLG] at hbalG hbheG
  simp only [hPc, hGc, bhp_some] at hbalP hbheP hbalG hbheG
  simp at hbheP hbheG
  -- the inner child of `P`
  have hpsc : ∀ c, v.R P = some c → v.P c = some P ∧ g.lo c = some xP ∧ g.hi c = some xG ∧
      v.C c = some Color.BLACK ∧ c ≠ N ∧ c ≠ P ∧ c ≠ G ∧ v.P G ≠ some c ∧ c < brk := by
    intro c hcR
    obtain ⟨h1, h2, h3, h4⟩ := hi.childR hcR
    have hcN : c ≠ N := (hi.left_ne_right hc hLP hcR).symm
    have hr := rank_parent_lt hc hi h1
    refine ⟨h1, by rw [h2, hxP], by rw [h3, hhiP, hxG], h4 hPc (by simpa using hcN.symm), hcN,
      ne_of_rank_lt hr, ne_of_rank_lt (hr.trans hrPG), ?_, hi.lt_of_P h1⟩
    intro hgg
    have := rank_parent_lt hc hi hgg
    exact absurd (hr.trans hrPG) (by omega)
  -- the uncle
  have hunc : ∀ u, v.R G = some u → v.P u = some G ∧ g.lo u = some xG ∧ g.hi u = g.hi G ∧
      v.C u = some Color.BLACK ∧ u ≠ N ∧ u ≠ P ∧ u ≠ G ∧ v.R P ≠ some u ∧ v.P G ≠ some u := by
    intro u huR
    obtain ⟨h1, h2, h3, -⟩ := hi.childR huR
    have hr := rank_parent_lt hc hi h1
    refine ⟨h1, by rw [h2, hxG], h3, hUc u huR, (ne_of_parent_ne h1 hPN hPG.symm),
      (hi.left_ne_right hc hLG huR).symm, ne_of_rank_lt hr, ?_, ?_⟩
    · intro hcR
      exact hPG ((Option.some.inj ((hpsc u hcR).1.symm.trans h1)))
    · intro hgg
      have := rank_parent_lt hc hi hgg
      omega
  -- the great-grandparent
  have hgg : ∀ q, v.P G = some q → (v.L q = some G ∨ v.R q = some G) ∧ q ≠ N ∧ q ≠ P ∧ q ≠ G ∧
      q < brk ∧ ¬ (v.L q = some G ∧ v.R q = some G) := by
    intro q hq
    have hr := rank_parent_lt hc hi hq
    have hpar := hi.parent hq
    refine ⟨hpar, (ne_of_rank_lt ((hrNP.trans hrPG).trans hr)).symm,
      (ne_of_rank_lt (hrPG.trans hr)).symm, (ne_of_rank_lt hr).symm, ?_, ?_⟩
    · rcases hpar with h | h
      · exact hi.lt_of_L h
      · exact hi.lt_of_R h
    · rintro ⟨h1, h2⟩
      exact hi.left_ne_right hc h1 h2 rfl
  refine ⟨?_, ?_, ?_, ?_, ?_, ?_⟩
  · intro a ha
    obtain ⟨h1, h2, h3, h4, h5⟩ := hi.free a ha
    have haP : a ≠ P := by omega
    have haG : a ≠ G := by omega
    have hac : v.R P ≠ some a := fun h => by have := (hpsc a h).2.2.2.2.2.2.2.2; omega
    simp [rot2L, haP, haG, hac, h1, h2, h3, h4, h5]
  · intro a ha
    obtain ⟨h1, c, h2⟩ := hi.used a ha
    refine ⟨h1, ?_⟩
    simp only [rot2L]
    split_ifs <;> simp [h2]
  · intro a ha
    have hn := hi.node a ha
    by_cases haP : a = P
    · subst haP
      have hRa : v.R a ≠ some a := fun e => (hpsc a e).2.2.2.2.2.1 rfl
      have hRN : v.R a ≠ some N := fun e => (hpsc N e).2.2.2.2.1 rfl
      have hRG : v.R a ≠ some G := fun e => (hpsc G e).2.2.2.2.2.2.1 rfl
      have hga : v.P G ≠ some a := fun e => (hgg a e).2.2.1 rfl
      constructor
      · intro x hx
        simp only [rot2L] at hx
        rw [hxP] at hx
        obtain rfl : xP = x := by simpa using hx
        simp only [rot2LGhost, hPG, if_false, if_true, inside_iff]
        refine ⟨hinsP.1, belowHi_trans hc hinsG.2 hltPG⟩
      · intro c hcl
        simp only [rot2L, hga, hPG, false_and, if_false] at hcl
        rw [hLP] at hcl
        obtain rfl : N = c := by simpa using hcl
        simp [ChildOK, rot2L, rot2LGhost, hRN, hNG, hNP, hPN, hPG, hloN, hhiN]
      · intro c hcr
        simp only [rot2L, hga, hPG, false_and, if_false, if_true] at hcr
        obtain rfl : G = c := by simpa using hcr
        simp [ChildOK, rot2L, rot2LGhost, hRG, hPG, hPG.symm]
      · intro p hp
        simp only [rot2L, hRa, hPG, if_false, if_true] at hp
        simp only [rot2L, hp, true_and]
        rcases (hgg p hp).1 with h | h
        · left; simp [h]
        · right; simp [h]
      · intro hp
        simp only [rot2L, hRa, hPG, if_false, if_true] at hp
        obtain ⟨-, h2, h3, -⟩ := (hi.node G hGb).top hp
        simp [rot2L, rot2LGhost, hp, hPG, hloP, h2, h3]
      · simp only [rot2L, rot2LGhost, hga, hPG, hPG.symm, false_and, if_false, if_true, hLP,
          bhp_some, hNP, hNG]
        omega
      · simp only [rot2L, rot2LGhost, hga, hPG, hPG.symm, false_and, if_false, if_true, hLP,
          bhp_some, hNP, hNG]
        omega
    by_cases haG : a = G
    · subst haG
      have hRa : v.R P ≠ some a := fun e => (hpsc a e).2.2.2.2.2.2.1 rfl
      have hga : v.P a ≠ some a := fun e => (hgg a e).2.2.2.1 rfl
      have hRP : v.R P ≠ some P := fun e => (hpsc P e).2.2.2.2.2.1 rfl
      have hGP : v.R a ≠ some P := fun e => (hunc P e).2.2.2.2.2.1 rfl
      have hGa : v.R a ≠ some a := fun e => (hunc a e).2.2.2.2.2.2.1 rfl
      constructor
      · intro x hx
        simp only [rot2L] at hx
        rw [hxG] at hx
        obtain rfl : xG = x := by simpa using hx
        simp only [rot2LGhost, hPG.symm, if_false, if_true, inside_iff, hxP]
        exact ⟨by simpa using hltPG, hinsG.2⟩
      · intro c hcl
        simp only [rot2L, hga, false_and, if_false, if_true] at hcl
        obtain ⟨h1, h2, h3, h4, h5, h6, h7, h8, h9⟩ := hpsc c hcl
        simp [ChildOK, rot2L, rot2LGhost, hcl, h7, h6, h2, h3, hxP, hxG, h4]
      · intro c hcr
        simp only [rot2L, hga, false_and, if_false, hPG.symm] at hcr
        obtain ⟨h1, h2, h3, h4, h5, h6, h7, h8, h9⟩ := hunc c hcr
        simp [ChildOK, rot2L, rot2LGhost, h8, h7, h6, h1, h2, h3, hxG, h4, hPG.symm]
      · intro p hp
        simp only [rot2L, hRa, if_false, if_true] at hp
        obtain rfl : P = p := by simpa using hp
        right
        have hgP : v.P a ≠ some P := fun e => (hgg P e).2.2.1 rfl
        simp [rot2L, hgP]
      · intro hp
        simp [rot2L, hRa] at hp
      · have e1 : (rot2L v root P a).1.L a = v.R P := by simp [rot2L, hga]
        have e2 : (rot2L v root P a).1.R a = v.R a := by simp [rot2L, hga, hPG.symm]
        rw [e1, e2, bhp_rot2LGhost _ _ _ _ _ hRP hRa, bhp_rot2LGhost _ _ _ _ _ hGP hGa]
        omega
      · have e1 : (rot2L v root P a).1.L a = v.R P := by simp [rot2L, hga]
        rw [e1, bhp_rot2LGhost _ _ _ _ _ hRP hRa]
        simp only [rot2L, rot2LGhost, hPG.symm, if_false, if_true]
        simp
        omega
    -- every other node keeps its annotations and its colour
    have hkid : ∀ d, v.P d = some a → d ≠ P ∧ d ≠ N ∧ v.R P ≠ some d := by
      intro d hd
      refine ⟨?_, ?_, ?_⟩
      · rintro rfl
        exact haG (Option.some.inj (hd.symm.trans hPP))
      · rintro rfl
        exact haP (Option.some.inj (hd.symm.trans hPN))
      · intro e
        exact haP (Option.some.inj (hd.symm.trans (hpsc d e).1))
    have hlo : (rot2LGhost g v P G).lo a = g.lo a := by simp [rot2LGhost, haG]
    have hhi : (rot2LGhost g v P G).hi a = g.hi a := by simp [rot2LGhost, haP]
    have hbh : (rot2LGhost g v P G).bh a = g.bh a := by simp [rot2LGhost, haP, haG]
    have hC : (rot2L v root P G).1.C a = v.C a := by simp [rot2L, haP, haG]
    have hL : (rot2L v root P G).1.L a =
        if v.P G = some a ∧ v.L a = some G then some P else v.L a := by
      simp [rot2L, haG]
    have hR : (rot2L v root P G).1.R a =
        if v.P G = some a ∧ v.R a = some G then some P else v.R a := by
      simp [rot2L, haP]
    have hPa : (rot2L v root P G).1.P a = if v.R P = some a then some G else v.P a := by
      simp [rot2L, haP, haG]
    -- a child `d` of `a` that was not `G` is untouched
    have hold : ∀ d lo hi, d ≠ G → ChildOK (some N) g v a d lo hi →
        ChildOK none (rot2LGhost g v P G) (rot2L v root P G).1 a d lo hi := by
      intro d lo hi hdG ⟨h1, h2, h3, h4⟩
      obtain ⟨k1, k2, k3⟩ := hkid d h1
      refine ⟨by simp [rot2L, k3, hdG, k1, h1], by simp [rot2LGhost, hdG, h2],
        by simp [rot2LGhost, k1, h3], ?_⟩
      intro hred _
      rw [hC] at hred
      simp only [rot2L, hdG, k1, if_false]
      exact h4 hred (by simpa using k2.symm)
    -- the child `G` of `a` is replaced by `P`
    have hnew : ∀ lo hi, ChildOK (some N) g v a G lo hi →
        ChildOK none (rot2LGhost g v P G) (rot2L v root P G).1 a P lo hi := by
      intro lo hi ⟨h1, h2, h3, h4⟩
      have hRP : v.R P ≠ some P := fun e => (hpsc P e).2.2.2.2.2.1 rfl
      refine ⟨by simp [rot2L, hRP, hPG, h1], by simp [rot2LGhost, hPG, hloP, h2],
        by simp [rot2LGhost, h3], ?_⟩
      intro _ _
      simp [rot2L, hPG]
    have hbGen : ∀ p : Option Nat, (p = some G → v.P G = some a) → (∀ d, p = some d → v.P d = some a) →
        bhp (rot2LGhost g v P G) (if v.P G = some a ∧ p = some G then some P else p) = bhp g p := by
      intro p hpG hpd
      split_ifs with hcond
      · rw [hcond.2]
        simp [rot2LGhost, hPG, hbheG]
      · apply bhp_rot2LGhost
        · intro e
          exact (hkid P (hpd P e)).1 rfl
        · intro e
          exact hcond ⟨hpG e, e⟩
    have hbL : bhp (rot2LGhost g v P G) ((rot2L v root P G).1.L a) = bhp g (v.L a) := by
      rw [hL]
      exact hbGen _ (fun e => (hn.lft G e).1) (fun d e => (hn.lft d e).1)
    have hbR : bhp (rot2LGhost g v P G) ((rot2L v root P G).1.R a) = bhp g (v.R a) := by
      rw [hR]
      exact hbGen _ (fun e => (hn.rgt G e).1) (fun d e => (hn.rgt d e).1)
    constructor
    · intro x hx
      rw [hlo, hhi]
      exact hn.ins x hx
    · intro d hd
      rw [hlo]
      rw [hL] at hd
      split_ifs at hd with hcond
      · obtain rfl : P = d := by simpa using hd
        exact hnew _ _ (hn.lft G hcond.2)
      · have hd' := hn.lft d hd
        refine hold d _ _ ?_ hd'
        rintro rfl
        exact hcond ⟨hd'.1, hd⟩
    · intro d hd
      rw [hhi]
      rw [hR] at hd
      split_ifs at hd with hcond
      · obtain rfl : P = d := by simpa using hd
        exact hnew _ _ (hn.rgt G hcond.2)
      · have hd' := hn.rgt d hd
        refine hold d _ _ ?_ hd'
        rintro rfl
        exact hcond ⟨hd'.1, hd⟩
    · intro p hp
      rw [hPa] at hp
      split_ifs at hp with hcond
      · obtain rfl : G = p := by simpa using hp
        left
        have hga : v.P G ≠ some G := fun e => (hgg G e).2.2.2.1 rfl
        simp [rot2L, hga, hcond]
      · rcases hn.par p hp with h | h
        · left
          have h1 : ¬ (v.P G = some p ∧ v.L p = some G) := by
            rintro ⟨-, e⟩
            exact haG (Option.some.inj (h.symm.trans e))
          have h2 : p ≠ G := by
            rintro rfl
            exact haP (Option.some.inj (h.symm.trans hLG))
          simp only [rot2L]
          rw [if_neg h1, if_neg h2]
          exact h
        · right
          have h1 : ¬ (v.P G = some p ∧ v.R p = some G) := by
            rintro ⟨-, e⟩
            exact haG (Option.some.inj (h.symm.trans e))
          have h2 : p ≠ P := by
            rintro rfl
            exact hcond h
          simp only [rot2L]
          rw [if_neg h1, if_neg h2]
          exact h
    · intro hp
      rw [hPa] at hp
      split_ifs at hp with hcond
      obtain ⟨h1, h2, h3, h4⟩ := hn.top hp
      have hgn : v.P G ≠ none := by
        intro e
        have := ((hi.node G hGb).top e).1
        exact haG (Option.some.inj (h1.symm.trans this))
      refine ⟨by simp [rot2L, hgn, h1], by rw [hlo, h2], by rw [hhi, h3], ?_⟩
      rw [hC]
      rcases h4 with h4 | h4
      · exact Or.inl h4
      · obtain rfl : N = a := by simpa using h4
        simp [hPN] at hp
    · rw [hbL, hbR]
      exact hn.bal
    · rw [hbL, hbh, hC]
      exact hn.bhe
  · intro hr
    simp only [rot2L] at hr
    split_ifs at hr with h
    exact hi.rootNone hr
  · intro r hr
    simp only [rot2L] at hr ⊢
    split_ifs at hr with h
    · have : r = P := by simpa using hr.symm
      subst this
      refine ⟨hPb, ?_⟩
      have h1 : v.R r ≠ some r := fun e => (hpsc r e).2.2.2.2.2.1 rfl
      simp [h1, hPG, h]
    · obtain ⟨h1, h2⟩ := hi.rootSome r hr
      refine ⟨h1, ?_⟩
      have h3 : v.R P ≠ some r := fun e => by simp [(hpsc r e).1] at h2
      have h4 : r ≠ G := by rintro rfl; exact h h2
      have h5 : r ≠ P := by rintro rfl; simp [hPP] at h2
      simp [h2, h3, h4, h5]
  · intro f hf
    simp at hf

end RBT

namespace RBT

variable {α : Type}

theorem IsCmp.flip {cmp : α → α → Int} (hc : IsCmp cmp) : IsCmp (flipCmp cmp) where
  antisymm a b := hc.antisymm b a
  lt_trans a b c h1 h2 := hc.lt_trans c b a h2 h1
  eq_lt a b c h1 h2 := hc.lt_eq c b a h2 h1
  lt_eq a b c h1 h2 := hc.eq_lt c b a h2 h1

theorem inside_flip (cmp : α → α → Int) (lo hi : Option α) (x : α) :
    inside (flipCmp cmp) hi lo x = inside cmp lo hi x := by
  cases lo <;> cases hi <;> simp [inside, aboveLo, belowHi, flipCmp, Bool.and_comm]

theorem NodeOK.mirrorNode {cmp : α → α → Int} {focus root : Option Nat} {g : Ghost α} {v : View α}
    {a : Nat} (hn : NodeOK cmp focus root g v a) :
    NodeOK (flipCmp cmp) focus root g.mirror v.mirror a where
  ins x hx := by
    rw [show g.mirror.lo a = g.hi a from rfl, show g.mirror.hi a = g.lo a from rfl, inside_flip]
    exact hn.ins x hx
  lft c hcl := by
    obtain ⟨h1, h2, h3, h4⟩ := hn.rgt c hcl
    exact ⟨h1, h3, h2, h4⟩
  rgt c hcr := by
    obtain ⟨h1, h2, h3, h4⟩ := hn.lft c hcr
    exact ⟨h1, h3, h2, h4⟩
  par p hp := (hn.par p hp).symm
  top hp := by
    obtain ⟨h1, h2, h3, h4⟩ := hn.top hp
    exact ⟨h1, h3, h2, h4⟩
  bal := hn.bal.symm
  bhe := by
    have h1 := hn.bhe
    have h2 := hn.bal
    show g.bh a = bhp g (v.R a) + _
    rw [← h2]
    exact h1

/-- The invariant is symmetric under exchanging left and right. -/
theorem HInv.mirror {cmp : α → α → Int} {focus root : Option Nat} {g : Ghost α} {v : View α}
    {brk : Nat} (hi : HInv cmp focus root g v brk) :
    HInv (flipCmp cmp) focus root g.mirror v.mirror brk where
  free a ha := by
    obtain ⟨h1, h2, h3, h4, h5⟩ := hi.free a ha
    exact ⟨h2, h1, h3, h4, h5⟩
  used := hi.used
  node a ha := (hi.node a ha).mirrorNode
  rootNone := hi.rootNone
  rootSome := hi.rootSome
  foc := hi.foc

theorem rot2R_inv {cmp : α → α → Int} (hc : IsCmp cmp) {root : Option Nat}
    {g : Ghost α} {v : View α} {brk N P G : Nat}
    (hi : HInv cmp (some N) root g v brk)
    (hRP : v.R P = some N) (hRG : v.R G = some P) (hPc : v.C P = some Color.RED)
    (hUc : ∀ u, v.L G = some u → v.C u = some Color.BLACK) :
    HInv cmp none (rot2R v root P G).2 (rot2RGhost g v P G) (rot2R v root P G).1 brk :=
  (rot2L_inv hc.flip hi.mirror hRP hRG hPc hUc).mirror

end RBT

namespace RBT

variable {α : Type}

@[simp]
theorem bhp_rot1LGhost (g : Ghost α) (v : View α) (N P : Nat) (p : Option Nat) :
    bhp (rot1LGhost g v N P) p = bhp g p := by
  cases p <;> rfl

theorem rot1L_inv {cmp : α → α → Int} (hc : IsCmp cmp) {root : Option Nat}
    {g : Ghost α} {v : View α} {brk N P G : Nat}
    (hi : HInv cmp (some N) root g v brk)
    (hRP : v.R P = some N) (hLG : v.L G = some P) (hPc : v.C P = some Color.RED) :
    HInv cmp (some P) root (rot1LGhost g v N P) (rot1L v N P G) brk := by
  obtain ⟨hPN, hloN, hhiN, -⟩ := hi.childR hRP
  obtain ⟨hPP, hloP, hhiP, -⟩ := hi.childL hLG
  have hNc : v.C N = some Color.RED := hi.foc N rfl
  have hrNP := rank_parent_lt hc hi hPN
  have hrPG := rank_parent_lt hc hi hPP
  have hNP : N ≠ P := ne_of_rank_lt hrNP
  have hPG : P ≠ G := ne_of_rank_lt hrPG
  have hNG : N ≠ G := ne_of_rank_lt (hrNP.trans hrPG)
  have hGc : v.C G = some Color.BLACK := hi.parent_black hPP hPc (by simpa using hNP)
  have hNb : N < brk := hi.lt_of_P hPN
  have hPb : P < brk := hi.lt_of_P hPP
  have hGb : G < brk := hi.lt_of_L hLG
  obtain ⟨xN, hxN⟩ := (hi.used N hNb).1
  obtain ⟨xP, hxP⟩ := (hi.used P hPb).1
  have hinsN := (inside_iff _ _ _ _).1 ((hi.node N hNb).ins xN hxN)
  have hinsP := (inside_iff _ _ _ _).1 ((hi.node P hPb).ins xP hxP)
  have hltPN : cmp xP xN < 0 := by
    have := hinsN.1
    rw [hloN, hxP] at this
    simpa using this
  have hbalN := (hi.node N hNb).bal
  have hbheN := (hi.node N hNb).bhe
  have hbalP := (hi.node P hPb).bal
  have hbheP := (hi.node P hPb).bhe
  rw [hRP] at hbalP
  simp only [hPc, hNc, bhp_some] at hbalN hbheN hbalP hbheP
  simp at hbheP hbheN
  -- the inner child of `N`
  have hin : ∀ c, v.L N = some c → v.P c = some N ∧ g.lo c = some xP ∧ g.hi c = some xN ∧
      v.C c = some Color.BLACK ∧ c ≠ N ∧ c ≠ P ∧ c ≠ G ∧ c < brk := by
    intro c hcL
    obtain ⟨h1, h2, h3, h4⟩ := hi.childL hcL
    have hr := rank_parent_lt hc hi h1
    have hcN : c ≠ N := ne_of_rank_lt hr
    exact ⟨h1, by rw [h2, hloN, hxP], by rw [h3, hxN], h4 hNc (by simpa using hcN.symm), hcN,
      ne_of_rank_lt (hr.trans hrNP), ne_of_rank_lt ((hr.trans hrNP).trans hrPG), hi.lt_of_P h1⟩
  have hLNN : v.L N ≠ some N := fun e => (hin N e).2.2.2.2.1 rfl
  have hLNP : v.L N ≠ some P := fun e => (hin P e).2.2.2.2.2.1 rfl
  have hLNG : v.L N ≠ some G := fun e => (hin G e).2.2.2.2.2.2.1 rfl
  refine ⟨?_, ?_, ?_, ?_, ?_, ?_⟩
  · intro a ha
    obtain ⟨h1, h2, h3, h4, h5⟩ := hi.free a ha
    have haP : a ≠ P := by omega
    have haG : a ≠ G := by omega
    have haN : a ≠ N := by omega
    have hac : v.L N ≠ some a := fun h => by have := (hin a h).2.2.2.2.2.2.2; omega
    simp [rot1L, haP, haG, haN, hac, h1, h2, h3, h4, h5]
  · exact hi.used
  · intro a ha
    have hn := hi.node a ha
    by_cases haN : a = N
    · subst haN
      constructor
      · intro x hx
        simp only [rot1L] at hx
        rw [hxN] at hx
        obtain rfl : xN = x := by simpa using hx
        simp only [rot1LGhost, hNP, if_false, if_true, inside_iff]
        exact ⟨aboveLo_trans hc hinsP.1 hltPN, hinsN.2⟩
      · intro c hcl
        simp only [rot1L, if_true] at hcl
        obtain rfl : P = c := by simpa using hcl
        simp [ChildOK, rot1L, rot1LGhost, hNP.symm]
      · intro c hcr
        simp only [rot1L, hNP, if_false] at hcr
        obtain ⟨h1, h2, h3, h4⟩ := hn.rgt c hcr
        have hr := rank_parent_lt hc hi h1
        have hca : c ≠ a := ne_of_rank_lt hr
        have hcP : c ≠ P := ne_of_rank_lt (hr.trans hrNP)
        have hcL : v.L a ≠ some c := fun e => hi.left_ne_right hc e hcr rfl
        refine ⟨by simp [rot1L, hca, hcP, hcL, h1], by simp [rot1LGhost, rot1L, hca, h2],
          by simp [rot1LGhost, rot1L, hcP, hNP, h3], ?_⟩
        intro _ _
        exact h4 hNc (by simpa using hca.symm)
      · intro p hp
        simp only [rot1L, hNP, if_false, if_true] at hp
        obtain rfl : G = p := by simpa using hp
        left
        simp [rot1L, hNG.symm]
      · intro hp
        simp [rot1L, hNP] at hp
      · simp only [rot1L, hNP, if_true, if_false, bhp_rot1LGhost, bhp_some]
        show g.bh P = bhp g (v.R a)
        omega
      · simp only [rot1L, hNc, if_true, bhp_rot1LGhost, bhp_some]
        simp [rot1LGhost]
        omega
    by_cases haP : a = P
    · subst haP
      constructor
      · intro x hx
        simp only [rot1L] at hx
        rw [hxP] at hx
        obtain rfl : xP = x := by simpa using hx
        simp only [rot1LGhost, hNP, Ne.symm hNP, if_false, if_true, inside_iff, hxN]
        exact ⟨hinsP.1, by simpa using hltPN⟩
      · intro c hcl
        simp only [rot1L, haN, hPG, if_false] at hcl
        obtain ⟨h1, h2, h3, h4⟩ := hn.lft c hcl
        have hr := rank_parent_lt hc hi h1
        have hca : c ≠ a := ne_of_rank_lt hr
        have hcN : c ≠ N := hi.left_ne_right hc hcl hRP
        have hcL : v.L N ≠ some c := fun e => haN (Option.some.inj (h1.symm.trans (hin c e).1))
        refine ⟨by simp [rot1L, hca, hcN, hcL, h1], by simp [rot1LGhost, hcN, h2],
          by simp [rot1LGhost, rot1L, hca, h3], ?_⟩
        intro _ _
        exact h4 hPc (by simpa using hcN.symm)
      · intro c hcr
        simp only [rot1L, if_true] at hcr
        obtain ⟨h1, h2, h3, h4, h5, h6, h7, h8⟩ := hin c hcr
        simp [ChildOK, rot1L, rot1LGhost, h5, h6, hcr, h2, h3, hxP, hxN, h4]
      · intro p hp
        simp only [rot1L, if_true] at hp
        obtain rfl : N = p := by simpa using hp
        left
        simp [rot1L]
      · intro hp
        simp [rot1L] at hp
      · simp only [rot1L, haN, hPG, if_true, if_false, bhp_rot1LGhost]
        omega
      · simp only [rot1L, hPc, haN, hPG, if_true, if_false, bhp_rot1LGhost]
        simp [rot1LGhost]
        omega
    -- every other node keeps its annotations and its colour
    have hkid : ∀ d, v.P d = some a → d ≠ N ∧ v.L N ≠ some d := by
      intro d hd
      refine ⟨?_, ?_⟩
      · rintro rfl
        exact haP (Option.some.inj (hd.symm.trans hPN))
      · intro e
        exact haN (Option.some.inj (hd.symm.trans (hin d e).1))
    have hold : ∀ d lo hi, d ≠ P → ChildOK (some N) g v a d lo hi →
        ChildOK (some P) (rot1LGhost g v N P) (rot1L v N P G) a d lo hi := by
      intro d lo hi hdP ⟨h1, h2, h3, h4⟩
      obtain ⟨k1, k2⟩ := hkid d h1
      refine ⟨by simp [rot1L, k1, k2, hdP, h1], by simp [rot1LGhost, k1, h2],
        by simp [rot1LGhost, hdP, h3], ?_⟩
      intro hred _
      exact h4 hred (by simpa using k1.symm)
    constructor
    · intro x hx
      simp only [rot1LGhost, haN, haP, if_false]
      exact hn.ins x hx
    · intro d hd
      simp only [rot1L, haN, if_false] at hd
      simp only [rot1LGhost, haN, if_false]
      by_cases haG : a = G
      · subst haG
        simp only [if_true] at hd
        obtain rfl : N = d := by simpa using hd
        refine ⟨by simp [rot1L, hNP], by simp [rot1LGhost, hloP], ?_, ?_⟩
        · simp only [rot1LGhost, hNP, if_false, rot1L]
          rw [hhiN, hhiP]
        · intro h
          simp [rot1L, hGc] at h
      · simp only [haG, if_false] at hd
        have hd' := hn.lft d hd
        refine hold d _ _ ?_ hd'
        rintro rfl
        exact haG (Option.some.inj (hd'.1.symm.trans hPP))
    · intro d hd
      simp only [rot1L, haP, if_false] at hd
      simp only [rot1LGhost, haP, if_false]
      have hd' := hn.rgt d hd
      refine hold d _ _ ?_ hd'
      rintro rfl
      have : a = G := Option.some.inj (hd'.1.symm.trans hPP)
      subst this
      exact hi.left_ne_right hc hLG hd rfl
    · intro p hp
      simp only [rot1L, haP, haN, if_false] at hp
      split_ifs at hp with hcond
      · obtain rfl : P = p := by simpa using hp
        right
        simp [rot1L, hcond]
      · rcases hn.par p hp with h | h
        · left
          have h1 : p ≠ N := by
            rintro rfl
            exact hcond h
          have h2 : p ≠ G := by
            rintro rfl
            exact haP (Option.some.inj (h.symm.trans hLG))
          simp only [rot1L]
          rw [if_neg h1, if_neg h2]
          exact h
        · right
          have h1 : p ≠ P := by
            rintro rfl
            exact haN (Option.some.inj (h.symm.trans hRP))
          simp only [rot1L]
          rw [if_neg h1]
          exact h
    · intro hp
      simp only [rot1L, haP, haN, if_false] at hp
      split_ifs at hp with hcond
      obtain ⟨h1, h2, h3, h4⟩ := hn.top hp
      refine ⟨h1, by simp [rot1LGhost, haN, h2], by simp [rot1LGhost, haP, h3], ?_⟩
      rcases h4 with h4 | h4
      · exact Or.inl h4
      · exact absurd (Option.some.inj h4).symm haN
    · have hL : bhp g ((rot1L v N P G).L a) = bhp g (v.L a) := by
        simp only [rot1L, haN, if_false]
        split_ifs with haG
        · subst haG
          rw [hLG]
          simp only [bhp_some]
          omega
        · rfl
      have hR : (rot1L v N P G).R a = v.R a := by simp [rot1L, haP]
      rw [bhp_rot1LGhost, bhp_rot1LGhost, hL, hR]
      exact hn.bal
    · have hL : bhp g ((rot1L v N P G).L a) = bhp g (v.L a) := by
        simp only [rot1L, haN, if_false]
        split_ifs with haG
        · subst haG
          rw [hLG]
          simp only [bhp_some]
          omega
        · rfl
      rw [bhp_rot1LGhost, hL]
      exact hn.bhe
  · exact hi.rootNone
  · intro r hr
    obtain ⟨h1, h2⟩ := hi.rootSome r hr
    refine ⟨h1, ?_⟩
    have h3 : r ≠ P := by rintro rfl; simp [hPP] at h2
    have h4 : r ≠ N := by rintro rfl; simp [hPN] at h2
    have h5 : v.L N ≠ some r := fun e => by simp [(hin r e).1] at h2
    simp [rot1L, h3, h4, h5, h2]
  · intro f hf
    obtain rfl : P = f := by simpa using hf
    exact hPc

end RBT

namespace RBT

variable {α : Type}

theorem rot1R_inv {cmp : α → α → Int} (hc : IsCmp cmp) {root : Option Nat}
    {g : Ghost α} {v : View α} {brk N P G : Nat}
    (hi : HInv cmp (some N) root g v brk)
    (hLP : v.L P = some N) (hRG : v.R G = some P) (hPc : v.C P = some Color.RED) :
    HInv cmp (some P) root (rot1RGhost g v N P) (rot1R v N P G) brk :=
  (rot1L_inv hc.flip hi.mirror hLP hRG hPc).mirror

/-- The focus may be dropped when its parent is BLACK. -/
theorem blackParent_inv {cmp : α → α → Int} {root : Option Nat}
    {g : Ghost α} {v : View α} {brk N P : Nat}
    (hi : HInv cmp (some N) root g v brk)
    (hPN : v.P N = some P) (hPc : v.C P = some Color.BLACK) :
    HInv cmp none root g v brk := by
  have hch : ∀ a c lo hi', v.P c = some a → ChildOK (some N) g v a c lo hi' →
      ChildOK none g v a c lo hi' := by
    intro a c lo hi' _ ⟨h1, h2, h3, h4⟩
    refine ⟨h1, h2, h3, ?_⟩
    intro hred _
    by_cases hcN : c = N
    · subst hcN
      obtain rfl : a = P := Option.some.inj (h1.symm.trans hPN)
      simp [hPc] at hred
    · exact h4 hred (by simpa using Ne.symm hcN)
  refine ⟨hi.free, hi.used, ?_, hi.rootNone, hi.rootSome, by simp⟩
  intro a ha
  have hn := hi.node a ha
  refine ⟨hn.ins, fun c h => hch _ _ _ _ (hn.lft c h).1 (hn.lft c h),
    fun c h => hch _ _ _ _ (hn.rgt c h).1 (hn.rgt c h), hn.par, ?_, hn.bal, hn.bhe⟩
  intro hp
  obtain ⟨h1, h2, h3, h4⟩ := hn.top hp
  refine ⟨h1, h2, h3, ?_⟩
  rcases h4 with h4 | h4
  · exact Or.inl h4
  · obtain rfl : N = a := by simpa using h4
    simp [hPN] at hp

/-- Recolouring a RED root. -/
theorem rootBlack_inv {cmp : α → α → Int} (_hc : IsCmp cmp) {root : Option Nat}
    {g : Ghost α} {v : View α} {brk N : Nat}
    (hi : HInv cmp (some N) root g v brk) (hPN : v.P N = none) :
    HInv cmp none root { g with bh := fun a => if a = N then g.bh a + 1 else g.bh a }
      { v with C := fun a => if a = N then some Color.BLACK else v.C a } brk := by
  have hNc : v.C N = some Color.RED := hi.foc N rfl
  have hNb : N < brk := hi.lt_of_C hNc
  have hkid : ∀ a c, v.P c = some a → c ≠ N := by
    rintro a c h rfl
    simp [hPN] at h
  have hbh : ∀ a p, (∀ c, p = some c → v.P c = some a) →
      bhp { g with bh := fun a => if a = N then g.bh a + 1 else g.bh a } p = bhp g p := by
    intro a p hp
    cases p with
    | none => rfl
    | some c => simp [hkid a c (hp c rfl)]
  have hch : ∀ a c lo hi', ChildOK (some N) g v a c lo hi' →
      ChildOK none { g with bh := fun a => if a = N then g.bh a + 1 else g.bh a }
        { v with C := fun a => if a = N then some Color.BLACK else v.C a } a c lo hi' := by
    intro a c lo hi' ⟨h1, h2, h3, h4⟩
    have hcN := hkid a c h1
    refine ⟨h1, h2, h3, ?_⟩
    intro hred _
    simp only [hcN, if_false]
    by_cases haN : a = N
    · simp [haN] at hred
    · simp only [haN, if_false] at hred
      exact h4 hred (by simpa using Ne.symm hcN)
  refine ⟨?_, ?_, ?_, hi.rootNone, hi.rootSome, by simp⟩
  · intro a ha
    obtain ⟨h1, h2, h3, h4, h5⟩ := hi.free a ha
    have : a ≠ N := by omega
    simp [this, h1, h2, h3, h4, h5]
  · intro a ha
    obtain ⟨h1, c, h2⟩ := hi.used a ha
    refine ⟨h1, ?_⟩
    simp only
    split_ifs <;> simp [h2]
  · intro a ha
    have hn := hi.node a ha
    refine ⟨hn.ins, fun c h => hch _ _ _ _ (hn.lft c h), fun c h => hch _ _ _ _ (hn.rgt c h),
      hn.par, ?_, ?_, ?_⟩
    · intro hp
      obtain ⟨h1, h2, h3, h4⟩ := hn.top hp
      refine ⟨h1, h2, h3, ?_⟩
      rcases h4 with h4 | h4
      · left
        simp only
        split_ifs
        · rfl
        · exact h4
      · obtain rfl : N = a := by simpa using h4
        simp
    · rw [hbh a _ (fun c h => (hn.lft c h).1), hbh a _ (fun c h => (hn.rgt c h).1)]
      exact hn.bal
    · rw [hbh a _ (fun c h => (hn.lft c h).1)]
      have := hn.bhe
      simp only
      by_cases haN : a = N
      · subst haN
        simp [hNc] at this
        simp [this]
      · simp only [haN, if_false]
        exact this

end RBT

namespace RBT

variable {α : Type}

/-- Reading an allocated node gives the fields of the view. -/
theorem read_eq {h : Heap α} {a : Nat} (hal : (view h).D a ≠ none) :
    ∃ n, h a = some n ∧ n.left = (view h).L a ∧ n.right = (view h).R a ∧
      n.parent = (view h).P a ∧ some n.color = (view h).C a ∧ some n.data = (view h).D a := by
  cases hn : h a with
  | none => simp [view, dataOf, hn] at hal
  | some n => exact ⟨n, rfl, by simp [view, leftOf, rightOf, parentOf, colorOf, dataOf, hn]⟩

theorem view_write_ne (h : Heap α) (a b : Nat) (n : Node α) (hne : b ≠ a) :
    (view (h.write a n)).L b = (view h).L b ∧ (view (h.write a n)).R b = (view h).R b ∧
    (view (h.write a n)).P b = (view h).P b ∧ (view (h.write a n)).C b = (view h).C b ∧
    (view (h.write a n)).D b = (view h).D b := by
  simp [view, leftOf, rightOf, parentOf, colorOf, dataOf, Heap.write, hne]

theorem setLeft_eq {h : Heap α} {a : Nat} (val : Option Nat) (hal : (view h).D a ≠ none) :
    ∃ h', setLeft h a val = some h' ∧
      view h' = { view h with L := fun b => if b = a then val else (view h).L b } := by
  obtain ⟨n, hn, -⟩ := read_eq hal
  refine ⟨h.write a { n with left := val }, by simp [setLeft, hn], ?_⟩
  simp only [view, View.mk.injEq]
  refine ⟨?_, ?_, ?_, ?_, ?_⟩ <;> funext b <;> by_cases hb : b = a <;>
    simp [leftOf, rightOf, parentOf, colorOf, dataOf, Heap.write, hb, hn]

theorem setRight_eq {h : Heap α} {a : Nat} (val : Option Nat) (hal : (view h).D a ≠ none) :
    ∃ h', setRight h a val = some h' ∧
      view h' = { view h with R := fun b => if b = a then val else (view h).R b } := by
  obtain ⟨n, hn, -⟩ := read_eq hal
  refine ⟨h.write a { n with right := val }, by simp [setRight, hn], ?_⟩
  simp only [view, View.mk.injEq]
  refine ⟨?_, ?_, ?_, ?_, ?_⟩ <;> funext b <;> by_cases hb : b = a <;>
    simp [leftOf, rightOf, parentOf, colorOf, dataOf, Heap.write, hb, hn]

theorem setParent_eq {h : Heap α} {a : Nat} (val : Option Nat) (hal : (view h).D a ≠ none) :
    ∃ h', setParent h a val = some h' ∧
      view h' = { view h with P := fun b => if b = a then val else (view h).P b } := by
  obtain ⟨n, hn, -⟩ := read_eq hal
  refine ⟨h.write a { n with parent := val }, by simp [setParent, hn], ?_⟩
  simp only [view, View.mk.injEq]
  refine ⟨?_, ?_, ?_, ?_, ?_⟩ <;> funext b <;> by_cases hb : b = a <;>
    simp [leftOf, rightOf, parentOf, colorOf, dataOf, Heap.write, hb, hn]

theorem setColor_eq {h : Heap α} {a : Nat} (val : Color) (hal : (view h).D a ≠ none) :
    ∃ h', setColor h a val = some h' ∧
      view h' = { view h with C := fun b => if b = a then some val else (view h).C b } := by
  obtain ⟨n, hn, -⟩ := read_eq hal
  refine ⟨h.write a { n with color := val }, by simp [setColor, hn], ?_⟩
  simp only [view, View.mk.injEq]
  refine ⟨?_, ?_, ?_, ?_, ?_⟩ <;> funext b <;> by_cases hb : b = a <;>
    simp [leftOf, rightOf, parentOf, colorOf, dataOf, Heap.write, hb, hn]

theorem setParentIfNonNull_eq {h : Heap α} (c val : Option Nat)
    (hal : ∀ a, c = some a → (view h).D a ≠ none) :
    ∃ h', setParentIfNonNull h c val = some h' ∧
      view h' = { view h with P := fun b => if c = some b then val else (view h).P b } := by
  cases c with
  | none => exact ⟨h, rfl, by simp⟩
  | some a =>
    obtain ⟨h', e, v'⟩ := setParent_eq (h := h) (a := a) val (hal a rfl)
    refine ⟨h', e, ?_⟩
    rw [v']
    simp [eq_comm]

/-- The grandchild test of the rotations. -/
theorem isGrandchild_eq {h : Heap α} (sel1 sel2 : Node α → Option Nat) {n g : Nat}
    (hg : h g ≠ none) (hc : ∀ c, (h g).bind sel1 = some c → h c ≠ none) :
    isGrandchild h sel1 sel2 n g =
      some (decide (∃ c, (h g).bind sel1 = some c ∧ (h c).bind sel2 = some n)) := by
  cases hgn : h g with
  | none => exact absurd hgn hg
  | some gn =>
    simp only [isGrandchild, hgn]
    cases hgl : sel1 gn with
    | none => simp [hgl]
    | some c =>
      cases hcn : h c with
      | none => exact absurd hcn (hc c (by simp [hgn, hgl]))
      | some cn =>
        simp only [Option.some_bind, hgl]
        cases hcr : sel2 cn with
        | none => simp [hcn, hcr]
        | some d => simp [hcn, hcr, eq_comm]

theorem alloc_of_D {h : Heap α} {a : Nat} (hal : (view h).D a ≠ none) : h a ≠ none := by
  intro e
  simp [view, dataOf, e] at hal

theorem HInv.D_ne {cmp : α → α → Int} {focus root : Option Nat} {g : Ghost α} {v : View α}
    {brk : Nat} (hi : HInv cmp focus root g v brk) {a : Nat} (ha : a < brk) : v.D a ≠ none := by
  obtain ⟨x, hx⟩ := (hi.used a ha).1
  simp [hx]

theorem firstRotation_L {cmp : α → α → Int} (hc : IsCmp cmp) {root : Option Nat}
    {g : Ghost α} {h : Heap α} {brk N P G : Nat}
    (hi : HInv cmp (some N) root g (view h) brk)
    (hRP : (view h).R P = some N) (hLG : (view h).L G = some P) :
    ∃ h', firstRotation h N P G = some (h', SUCCESS_INDICATOR) ∧
      view h' = rot1L (view h) N P G := by
  have hGb := hi.lt_of_L hLG
  have hPb := hi.lt_of_R hRP
  have hNb := hi.lt_of_P (hi.childR hRP).1
  have t1 : isGrandchild h Node.left Node.right N G = some true := by
    rw [isGrandchild_eq _ _ (alloc_of_D (hi.D_ne hGb))]
    · simp only [Option.some.injEq, decide_eq_true_eq]
      exact ⟨P, hLG, hRP⟩
    · intro c hc'
      exact alloc_of_D (hi.D_ne (hi.lt_of_P (hi.childL hc').1))
  simp only [firstRotation, t1, Option.bind_eq_bind, Option.some_bind, if_true]
  have hD : ∀ {a : Nat}, a < brk → (view h).D a ≠ none := fun ha => hi.D_ne ha
  obtain ⟨h1, e1, v1⟩ := setLeft_eq (h := h) (a := G) (some N) (hD hGb)
  rw [e1]; simp only [Option.some_bind]
  obtain ⟨n1, hn1, hl1, -⟩ := read_eq (h := h1) (a := N) (by rw [v1]; exact hD hNb)
  rw [hn1]; simp only [Option.some_bind]
  obtain ⟨h2, e2, v2⟩ := setRight_eq (h := h1) (a := P) n1.left (by rw [v1]; exact hD hPb)
  rw [e2]; simp only [Option.some_bind]
  obtain ⟨n2, hn2, hl2, -⟩ := read_eq (h := h2) (a := N) (by rw [v2, v1]; exact hD hNb)
  rw [hn2]; simp only [Option.some_bind]
  have hG' : N ≠ G := hi.ne_grand hc (hi.childR hRP).1 (hi.childL hLG).1
  have hl2' : n2.left = (view h).L N := by rw [hl2, v2, v1]; simp [hG']
  have hl1' : n1.left = (view h).L N := by rw [hl1, v1]; simp [hG']
  obtain ⟨h3, e3, v3⟩ := setParentIfNonNull_eq (h := h2) n2.left (some P) (by
    intro c hc'
    rw [hl2'] at hc'
    rw [v2, v1]; exact hD (hi.lt_of_P (hi.childL hc').1))
  rw [e3]; simp only [Option.some_bind]
  obtain ⟨h4, e4, v4⟩ := setLeft_eq (h := h3) (a := N) (some P)
    (by rw [v3, v2, v1]; exact hD hNb)
  rw [e4]; simp only [Option.some_bind]
  obtain ⟨h5, e5, v5⟩ := setParent_eq (h := h4) (a := N) (some G)
    (by rw [v4, v3, v2, v1]; exact hD hNb)
  rw [e5]; simp only [Option.some_bind]
  obtain ⟨h6, e6, v6⟩ := setParent_eq (h := h5) (a := P) (some N)
    (by rw [v5, v4, v3, v2, v1]; exact hD hPb)
  rw [e6]; simp only [Option.some_bind]
  refine ⟨h6, rfl, ?_⟩
  rw [v6, v5, v4, v3, v2, v1, hl1', hl2']
  rfl

end RBT

namespace RBT

variable {α : Type}

/-- Under the invariant a grandchild test only looks at the parent of the
tested node. -/
theorem test_iff {cmp : α → α → Int} {focus root : Option Nat} {g : Ghost α} {v : View α}
    {brk N P G : Nat} (hi : HInv cmp focus root g v brk) (hPN : v.P N = some P)
    (S1 S2 : Nat → Option Nat) (hS2 : ∀ c, S2 c = some N → v.L c = some N ∨ v.R c = some N) :
    (∃ c, S1 G = some c ∧ S2 c = some N) ↔ (S1 G = some P ∧ S2 P = some N) := by
  constructor
  · rintro ⟨c, h1, h2⟩
    have := hi.parent_of_child (hS2 c h2)
    obtain rfl : c = P := Option.some.inj (this.symm.trans hPN)
    exact ⟨h1, h2⟩
  · rintro ⟨h1, h2⟩
    exact ⟨P, h1, h2⟩

theorem isGrandchild_view {cmp : α → α → Int} {focus root : Option Nat} {g : Ghost α}
    {h : Heap α} {brk N P G : Nat} (hi : HInv cmp focus root g (view h) brk)
    (hPN : (view h).P N = some P) (hGb : G < brk)
    (sel1 sel2 : Node α → Option Nat)
    (h1 : ∀ a c, (h a).bind sel1 = some c → (view h).L a = some c ∨ (view h).R a = some c)
    (h2 : ∀ a c, (h a).bind sel2 = some c → (view h).L a = some c ∨ (view h).R a = some c) :
    isGrandchild h sel1 sel2 N G =
      some (decide ((h G).bind sel1 = some P ∧ (h P).bind sel2 = some N)) := by
  rw [isGrandchild_eq _ _ (alloc_of_D (hi.D_ne hGb))]
  · have := test_iff hi hPN (fun a => (h a).bind sel1) (fun a => (h a).bind sel2)
      (fun c hc => h2 c N hc) (G := G)
    simp only [this]
  · intro c hc
    exact alloc_of_D (hi.D_ne (hi.lt_of_P (hi.parent_of_child (h1 G c hc))))

theorem isGrandchild_LR {cmp : α → α → Int} {focus root : Option Nat} {g : Ghost α}
    {h : Heap α} {brk N P G : Nat} (hi : HInv cmp focus root g (view h) brk)
    (hPN : (view h).P N = some P) (hGb : G < brk) :
    isGrandchild h Node.left Node.right N G =
      some (decide ((view h).L G = some P ∧ (view h).R P = some N)) :=
  isGrandchild_view hi hPN hGb _ _ (fun _ _ h => Or.inl h) (fun _ _ h => Or.inr h)

theorem isGrandchild_RL {cmp : α → α → Int} {focus root : Option Nat} {g : Ghost α}
    {h : Heap α} {brk N P G : Nat} (hi : HInv cmp focus root g (view h) brk)
    (hPN : (view h).P N = some P) (hGb : G < brk) :
    isGrandchild h Node.right Node.left N G =
      some (decide ((view h).R G = some P ∧ (view h).L P = some N)) :=
  isGrandchild_view hi hPN hGb _ _ (fun _ _ h => Or.inr h) (fun _ _ h => Or.inl h)

theorem isGrandchild_LL {cmp : α → α → Int} {focus root : Option Nat} {g : Ghost α}
    {h : Heap α} {brk N P G : Nat} (hi : HInv cmp focus root g (view h) brk)
    (hPN : (view h).P N = some P) (hGb : G < brk) :
    isGrandchild h Node.left Node.left N G =
      some (decide ((view h).L G = some P ∧ (view h).L P = some N)) :=
  isGrandchild_view hi hPN hGb _ _ (fun _ _ h => Or.inl h) (fun _ _ h => Or.inl h)

theorem isGrandchild_RR {cmp : α → α → Int} {focus root : Option Nat} {g : Ghost α}
    {h : Heap α} {brk N P G : Nat} (hi : HInv cmp focus root g (view h) brk)
    (hPN : (view h).P N = some P) (hGb : G < brk) :
    isGrandchild h Node.right Node.right N G =
      some (decide ((view h).R G = some P ∧ (view h).R P = some N)) :=
  isGrandchild_view hi hPN hGb _ _ (fun _ _ h => Or.inr h) (fun _ _ h => Or.inr h)

end RBT

namespace RBT

variable {α : Type}

theorem firstRotation_R {cmp : α → α → Int} (hc : IsCmp cmp) {root : Option Nat}
    {g : Ghost α} {h : Heap α} {brk N P G : Nat}
    (hi : HInv cmp (some N) root g (view h) brk)
    (hLP : (view h).L P = some N) (hRG : (view h).R G = some P) :
    ∃ h', firstRotation h N P G = some (h', SUCCESS_INDICATOR) ∧
      view h' = rot1R (view h) N P G := by
  have hGb := hi.lt_of_R hRG
  have hPb := hi.lt_of_L hLP
  have hPN := (hi.childL hLP).1
  have hNb := hi.lt_of_P hPN
  have t1 : isGrandchild h Node.left Node.right N G = some false := by
    rw [isGrandchild_LR hi hPN hGb]
    simp only [Option.some.injEq, decide_eq_false_iff_not]
    rintro ⟨h1, -⟩
    exact hi.left_ne_right hc h1 hRG rfl
  have t2 : isGrandchild h Node.right Node.left N G = some true := by
    rw [isGrandchild_RL hi hPN hGb]
    simp [hLP, hRG]
  simp only [firstRotation, t1, t2, Option.bind_eq_bind, Option.some_bind, if_true]
  simp only [Bool.false_eq_true, if_false]
  have hD : ∀ {a : Nat}, a < brk → (view h).D a ≠ none := fun ha => hi.D_ne ha
  obtain ⟨h1, e1, v1⟩ := setRight_eq (h := h) (a := G) (some N) (hD hGb)
  rw [e1]; simp only [Option.some_bind]
  obtain ⟨n1, hn1, -, hl1, -⟩ := read_eq (h := h1) (a := N) (by rw [v1]; exact hD hNb)
  rw [hn1]; simp only [Option.some_bind]
  obtain ⟨h2, e2, v2⟩ := setLeft_eq (h := h1) (a := P) n1.right (by rw [v1]; exact hD hPb)
  rw [e2]; simp only [Option.some_bind]
  obtain ⟨n2, hn2, -, hl2, -⟩ := read_eq (h := h2) (a := N) (by rw [v2, v1]; exact hD hNb)
  rw [hn2]; simp only [Option.some_bind]
  have hG' : N ≠ G := hi.ne_grand hc hPN (hi.childR hRG).1
  have hl2' : n2.right = (view h).R N := by rw [hl2, v2, v1]; simp [hG']
  have hl1' : n1.right = (view h).R N := by rw [hl1, v1]; simp [hG']
  obtain ⟨h3, e3, v3⟩ := setParentIfNonNull_eq (h := h2) n2.right (some P) (by
    intro c hc'
    rw [hl2'] at hc'
    rw [v2, v1]; exact hD (hi.lt_of_P (hi.childR hc').1))
  rw [e3]; simp only [Option.some_bind]
  obtain ⟨h4, e4, v4⟩ := setRight_eq (h := h3) (a := N) (some P)
    (by rw [v3, v2, v1]; exact hD hNb)
  rw [e4]; simp only [Option.some_bind]
  obtain ⟨h5, e5, v5⟩ := setParent_eq (h := h4) (a := N) (some G)
    (by rw [v4, v3, v2, v1]; exact hD hNb)
  rw [e5]; simp only [Option.some_bind]
  obtain ⟨h6, e6, v6⟩ := setParent_eq (h := h5) (a := P) (some N)
    (by rw [v5, v4, v3, v2, v1]; exact hD hPb)
  rw [e6]; simp only [Option.some_bind]
  refine ⟨h6, rfl, ?_⟩
  rw [v6, v5, v4, v3, v2, v1, hl1', hl2']
  rfl

/-- Function `firstRotation` does nothing on a straight line. -/
theorem firstRotation_fail {cmp : α → α → Int} (hc : IsCmp cmp) {root : Option Nat}
    {g : Ghost α} {h : Heap α} {brk N P G : Nat}
    (hi : HInv cmp (some N) root g (view h) brk)
    (hs : ((view h).L P = some N ∧ (view h).L G = some P) ∨
      ((view h).R P = some N ∧ (view h).R G = some P)) :
    firstRotation h N P G = some (h, FAILURE_INDICATOR) := by
  have hPN : (view h).P N = some P := by
    rcases hs with hs | hs
    · exact (hi.childL hs.1).1
    · exact (hi.childR hs.1).1
  have hGb : G < brk := by
    rcases hs with hs | hs
    · exact hi.lt_of_L hs.2
    · exact hi.lt_of_R hs.2
  have t1 : isGrandchild h Node.left Node.right N G = some false := by
    rw [isGrandchild_LR hi hPN hGb]
    simp only [Option.some.injEq, decide_eq_false_iff_not]
    rintro ⟨h1, h2⟩
    rcases hs with hs | hs
    · exact hi.left_ne_right hc hs.1 h2 rfl
    · exact hi.left_ne_right hc h1 hs.2 rfl
  have t2 : isGrandchild h Node.right Node.left N G = some false := by
    rw [isGrandchild_RL hi hPN hGb]
    simp only [Option.some.injEq, decide_eq_false_iff_not]
    rintro ⟨h1, h2⟩
    rcases hs with hs | hs
    · exact hi.left_ne_right hc hs.2 h1 rfl
    · exact hi.left_ne_right hc h2 hs.1 rfl
  simp only [firstRotation, t1, t2, Option.bind_eq_bind, Option.some_bind]
  simp only [Bool.false_eq_true, if_false]
  rfl

/-- The relinking block of `secondRotation`. -/
theorem relink_eq {h : Heap α} (root : Option Nat) {P G : Nat}
    (hG : (view h).D G ≠ none)
    (hgg : ∀ q, (view h).P G = some q → (view h).D q ≠ none ∧
      ((view h).L q = some G ∨ (view h).R q = some G)) :
    ∃ h', relinkGrandfatherParent h root P G =
        some (h', if (view h).P G = none then some P else root) ∧
      view h' = { view h with
        L := fun a => if (view h).P G = some a ∧ (view h).L a = some G then some P
                      else (view h).L a,
        R := fun a => if (view h).P G = some a ∧ (view h).L a ≠ some G ∧ (view h).R a = some G
                      then some P else (view h).R a } := by
  obtain ⟨gn, hgn, -, -, hp, -⟩ := read_eq hG
  simp only [relinkGrandfatherParent, hgn]
  cases hgp : gn.parent with
  | none =>
    rw [hgp] at hp
    refine ⟨h, by simp [← hp], ?_⟩
    simp [← hp]
  | some q =>
    rw [hgp] at hp
    obtain ⟨hq, hch⟩ := hgg q hp.symm
    obtain ⟨qn, hqn, hl, hr, -⟩ := read_eq hq
    simp only [hqn, hl, hr]
    by_cases hcl : (view h).L q = some G
    · obtain ⟨h1, e1, v1⟩ := setLeft_eq (h := h) (a := q) (some P) hq
      refine ⟨h1, by simp [hcl, e1, ← hp], ?_⟩
      rw [v1]
      simp only [View.mk.injEq, true_and, and_true]
      constructor
      · funext a
        by_cases ha : a = q
        · subst ha; simp [hcl, ← hp]
        · have : ¬ (some q = some a) := by simpa using Ne.symm ha
          simp [ha, ← hp, this]
      · funext a
        by_cases ha : a = q
        · subst ha; simp [hcl, ← hp]
        · have : ¬ (some q = some a) := by simpa using Ne.symm ha
          simp [← hp, this]
    · have hcr : (view h).R q = some G := by
        rcases hch with h1 | h1
        · exact absurd h1 hcl
        · exact h1
      obtain ⟨h1, e1, v1⟩ := setRight_eq (h := h) (a := q) (some P) hq
      refine ⟨h1, by simp [hcl, hcr, e1, ← hp], ?_⟩
      rw [v1]
      simp only [View.mk.injEq, true_and, and_true]
      constructor
      · funext a
        by_cases ha : a = q
        · subst ha; simp [hcl, ← hp]
        · have : ¬ (some q = some a) := by simpa using Ne.symm ha
          simp [← hp, this]
      · funext a
        by_cases ha : a = q
        · subst ha; simp [hcl, hcr, ← hp]
        · have : ¬ (some q = some a) := by simpa using Ne.symm ha
          simp [ha, ← hp, this]

end RBT

namespace RBT

variable {α : Type}

theorem secondRotation_L {cmp : α → α → Int} (hc : IsCmp cmp) {root : Option Nat}
    {g : Ghost α} {h : Heap α} {brk N P G : Nat}
    (hi : HInv cmp (some N) root g (view h) brk)
    (hLP : (view h).L P = some N) (hLG : (view h).L G = some P) :
    ∃ h', secondRotation h root N P G = some (h', (rot2L (view h) root P G).2) ∧
      view h' = (rot2L (view h) root P G).1 := by
  have hGb := hi.lt_of_L hLG
  have hPb := hi.lt_of_L hLP
  have hPN := (hi.childL hLP).1
  have hPP := (hi.childL hLG).1
  have hPG : P ≠ G := hi.ne_parent hc hPP
  have hD : ∀ {a : Nat}, a < brk → (view h).D a ≠ none := fun ha => hi.D_ne ha
  have hggne : ∀ q, (view h).P G = some q → q ≠ G ∧ q ≠ P ∧ q < brk := by
    intro q hq
    have hr := rank_parent_lt hc hi hq
    have hr2 := rank_parent_lt hc hi hPP
    refine ⟨(ne_of_rank_lt hr).symm, (ne_of_rank_lt (hr2.trans hr)).symm, ?_⟩
    rcases hi.parent hq with h1 | h1
    · exact hi.lt_of_L h1
    · exact hi.lt_of_R h1
  have t1 : isGrandchild h Node.left Node.left N G = some true := by
    rw [isGrandchild_LL hi hPN hGb]
    simp [hLP, hLG]
  simp only [secondRotation, t1, Option.bind_eq_bind, Option.some_bind, if_true]
  obtain ⟨pn, hpn, -, hpr, -⟩ := read_eq (h := h) (a := P) (hD hPb)
  rw [hpn]; simp only [Option.some_bind]
  obtain ⟨h1, e1, v1⟩ := setRight_eq (h := h) (a := P) (some G) (hD hPb)
  rw [e1]; simp only [Option.some_bind]
  obtain ⟨h2, e2, v2⟩ := setLeft_eq (h := h1) (a := G) pn.right (by rw [v1]; exact hD hGb)
  rw [e2]; simp only [Option.some_bind]
  obtain ⟨gn, hgn, -, -, hgp, -⟩ := read_eq (h := h2) (a := G) (by rw [v2, v1]; exact hD hGb)
  rw [hgn]; simp only [Option.some_bind]
  have hgp' : gn.parent = (view h).P G := by rw [hgp, v2, v1]
  obtain ⟨h3, e3, v3⟩ := setParent_eq (h := h2) (a := P) gn.parent
    (by rw [v2, v1]; exact hD hPb)
  rw [e3]; simp only [Option.some_bind]
  have hP3 : (view h3).P G = (view h).P G := by rw [v3, v2, v1]; simp [hPG.symm]
  obtain ⟨h4, e4, v4⟩ := relink_eq (h := h3) root (P := P) (G := G)
    (by rw [v3, v2, v1]; exact hD hGb) (by
      intro q hq
      rw [hP3] at hq
      obtain ⟨k1, k2, k3⟩ := hggne q hq
      rw [v3, v2, v1]
      refine ⟨hD k3, ?_⟩
      simp only [k1, k2, if_false]
      exact hi.parent hq)
  rw [e4]; simp only [Option.some_bind]
  obtain ⟨h5, e5, v5⟩ := setParent_eq (h := h4) (a := G) (some P)
    (by rw [v4, v3, v2, v1]; exact hD hGb)
  rw [e5]; simp only [Option.some_bind]
  obtain ⟨h6, e6, v6⟩ := setParentIfNonNull_eq (h := h5) pn.right (some G) (by
    intro c hc'
    rw [hpr] at hc'
    rw [v5, v4, v3, v2, v1]; exact hD (hi.lt_of_P (hi.childR hc').1))
  rw [e6]; simp only [Option.some_bind]
  obtain ⟨h7, e7, v7⟩ := setColor_eq (h := h6) (a := P) Color.BLACK
    (by rw [v6, v5, v4, v3, v2, v1]; exact hD hPb)
  rw [e7]; simp only [Option.some_bind]
  obtain ⟨h8, e8, v8⟩ := setColor_eq (h := h7) (a := G) Color.RED
    (by rw [v7, v6, v5, v4, v3, v2, v1]; exact hD hGb)
  rw [e8]; simp only [Option.some_bind]
  refine ⟨h8, by simp [rot2L, hP3], ?_⟩
  rw [v8, v7, v6, v5, v4, hP3, v3, v2, v1, hpr, hgp']
  simp only [rot2L, View.mk.injEq]
  refine ⟨?_, ?_, ?_, ?_, ?_⟩ <;> try trivial
  · funext a
    by_cases hpa : (view h).P G = some a
    · have haG : a ≠ G := (hggne a hpa).1
      simp [hpa, haG]
    · simp [hpa]
  · funext a
    by_cases hpa : (view h).P G = some a
    · have haG : a ≠ G := (hggne a hpa).1
      have haP : a ≠ P := (hggne a hpa).2.1
      simp only [hpa, haG, haP, if_false, true_and]
      by_cases hr : (view h).R a = some G
      · have : (view h).L a ≠ some G := fun e => hi.left_ne_right hc e hr rfl
        simp [hr, this]
      · simp [hr]
    · simp [hpa]

theorem secondRotation_R {cmp : α → α → Int} (hc : IsCmp cmp) {root : Option Nat}
    {g : Ghost α} {h : Heap α} {brk N P G : Nat}
    (hi : HInv cmp (some N) root g (view h) brk)
    (hRP : (view h).R P = some N) (hRG : (view h).R G = some P) :
    ∃ h', secondRotation h root N P G = some (h', (rot2R (view h) root P G).2) ∧
      view h' = (rot2R (view h) root P G).1 := by
  have hGb := hi.lt_of_R hRG
  have hPb := hi.lt_of_R hRP
  have hPN := (hi.childR hRP).1
  have hPP := (hi.childR hRG).1
  have hPG : P ≠ G := hi.ne_parent hc hPP
  have hD : ∀ {a : Nat}, a < brk → (view h).D a ≠ none := fun ha => hi.D_ne ha
  have hggne : ∀ q, (view h).P G = some q → q ≠ G ∧ q ≠ P ∧ q < brk := by
    intro q hq
    have hr := rank_parent_lt hc hi hq
    have hr2 := rank_parent_lt hc hi hPP
    refine ⟨(ne_of_rank_lt hr).symm, (ne_of_rank_lt (hr2.trans hr)).symm, ?_⟩
    rcases hi.parent hq with h1 | h1
    · exact hi.lt_of_L h1
    · exact hi.lt_of_R h1
  have t1 : isGrandchild h Node.left Node.left N G = some false := by
    rw [isGrandchild_LL hi hPN hGb]
    simp only [Option.some.injEq, decide_eq_false_iff_not]
    rintro ⟨h1, -⟩
    exact hi.left_ne_right hc h1 hRG rfl
  have t2 : isGrandchild h Node.right Node.right N G = some true := by
    rw [isGrandchild_RR hi hPN hGb]
    simp [hRP, hRG]
  simp only [secondRotation, t1, t2, Option.bind_eq_bind, Option.some_bind, if_true]
  simp only [Bool.false_eq_true, if_false]
  obtain ⟨pn, hpn, hpr, -⟩ := read_eq (h := h) (a := P) (hD hPb)
  rw [hpn]; simp only [Option.some_bind]
  obtain ⟨h1, e1, v1⟩ := setLeft_eq (h := h) (a := P) (some G) (hD hPb)
  rw [e1]; simp only [Option.some_bind]
  obtain ⟨h2, e2, v2⟩ := setRight_eq (h := h1) (a := G) pn.left (by rw [v1]; exact hD hGb)
  rw [e2]; simp only [Option.some_bind]
  obtain ⟨gn, hgn, -, -, hgp, -⟩ := read_eq (h := h2) (a := G) (by rw [v2, v1]; exact hD hGb)
  rw [hgn]; simp only [Option.some_bind]
  have hgp' : gn.parent = (view h).P G := by rw [hgp, v2, v1]
  obtain ⟨h3, e3, v3⟩ := setParent_eq (h := h2) (a := P) gn.parent
    (by rw [v2, v1]; exact hD hPb)
  rw [e3]; simp only [Option.some_bind]
  have hP3 : (view h3).P G = (view h).P G := by rw [v3, v2, v1]; simp [hPG.symm]
  obtain ⟨h4, e4, v4⟩ := relink_eq (h := h3) root (P := P) (G := G)
    (by rw [v3, v2, v1]; exact hD hGb) (by
      intro q hq
      rw [hP3] at hq
      obtain ⟨k1, k2, k3⟩ := hggne q hq
      rw [v3, v2, v1]
      refine ⟨hD k3, ?_⟩
      simp only [k1, k2, if_false]
      exact hi.parent hq)
  rw [e4]; simp only [Option.some_bind]
  obtain ⟨h5, e5, v5⟩ := setParent_eq (h := h4) (a := G) (some P)
    (by rw [v4, v3, v2, v1]; exact hD hGb)
  rw [e5]; simp only [Option.some_bind]
  obtain ⟨h6, e6, v6⟩ := setParentIfNonNull_eq (h := h5) pn.left (some G) (by
    intro c hc'
    rw [hpr] at hc'
    rw [v5, v4, v3, v2, v1]; exact hD (hi.lt_of_P (hi.childL hc').1))
  rw [e6]; simp only [Option.some_bind]
  obtain ⟨h7, e7, v7⟩ := setColor_eq (h := h6) (a := P) Color.BLACK
    (by rw [v6, v5, v4, v3, v2, v1]; exact hD hPb)
  rw [e7]; simp only [Option.some_bind]
  obtain ⟨h8, e8, v8⟩ := setColor_eq (h := h7) (a := G) Color.RED
    (by rw [v7, v6, v5, v4, v3, v2, v1]; exact hD hGb)
  rw [e8]; simp only [Option.some_bind]
  refine ⟨h8, by simp [rot2R, hP3], ?_⟩
  rw [v8, v7, v6, v5, v4, hP3, v3, v2, v1, hpr, hgp']
  simp only [rot2R, View.mk.injEq]
  refine ⟨?_, ?_, ?_, ?_, ?_⟩ <;> try trivial
  · funext a
    by_cases hpa : (view h).P G = some a
    · have haG : a ≠ G := (hggne a hpa).1
      have haP : a ≠ P := (hggne a hpa).2.1
      simp [hpa, haG, haP]
    · simp [hpa]
  · funext a
    by_cases hpa : (view h).P G = some a
    · have haG : a ≠ G := (hggne a hpa).1
      have haP : a ≠ P := (hggne a hpa).2.1
      simp only [hpa, haG, haP, if_false, true_and]
      by_cases hr : (view h).R a = some G
      · have : (view h).L a ≠ some G := fun e => hi.left_ne_right hc e hr rfl
        simp [hr, this]
      · simp [hr]
    · simp [hpa]

end RBT

namespace RBT

variable {α : Type}

theorem check_root {h : Heap α} {N : Nat} (hD : (view h).D N ≠ none)
    (hP : (view h).P N = none) :
    ∃ h1, noRotationsAndNullNodesCheck h (some N) = some (h1, FAILURE_INDICATOR) ∧
      view h1 = { view h with C := fun a => if a = N then some Color.BLACK else (view h).C a } := by
  obtain ⟨n, hn, -, -, hp, -⟩ := read_eq hD
  obtain ⟨h1, e1, v1⟩ := setColor_eq (h := h) (a := N) Color.BLACK hD
  refine ⟨h1, ?_, v1⟩
  rw [hP] at hp
  simp [noRotationsAndNullNodesCheck, hn, hp, e1]

theorem check_black {h : Heap α} {N P : Nat} (hD : (view h).D N ≠ none)
    (hP : (view h).P N = some P) (hC : (view h).C P = some Color.BLACK) :
    noRotationsAndNullNodesCheck h (some N) = some (h, FAILURE_INDICATOR) := by
  obtain ⟨n, hn, -, -, hp, -⟩ := read_eq hD
  have hDP : (view h).D P ≠ none := by
    intro e
    simp only [view, dataOf, colorOf] at e hC
    cases hh : h P with
    | none => simp [hh] at hC
    | some m => simp [hh] at e
  obtain ⟨pn, hpn, -, -, -, hc, -⟩ := read_eq hDP
  rw [hP] at hp
  rw [hC] at hc
  simp [noRotationsAndNullNodesCheck, hn, hp, hpn, Option.some.inj hc]

theorem check_go {h : Heap α} {N P G : Nat} (hD : (view h).D N ≠ none)
    (hP : (view h).P N = some P) (hC : (view h).C P = some Color.RED)
    (hG : (view h).P P = some G) :
    noRotationsAndNullNodesCheck h (some N) = some (h, SUCCESS_INDICATOR) := by
  obtain ⟨n, hn, -, -, hp, -⟩ := read_eq hD
  have hDP : (view h).D P ≠ none := by
    intro e
    simp only [view, dataOf, colorOf] at e hC
    cases hh : h P with
    | none => simp [hh] at hC
    | some m => simp [hh] at e
  obtain ⟨pn, hpn, -, -, hpp, hc, -⟩ := read_eq hDP
  rw [hP] at hp
  rw [hC] at hc
  rw [hG] at hpp
  simp [noRotationsAndNullNodesCheck, hn, hp, hpn, Option.some.inj hc, hpp]

/-- Annotations and view do not change the rank when intervals and data stay. -/
theorem rank_congr {cmp : α → α → Int} {g g' : Ghost α} {v v' : View α} {brk a : Nat}
    (hlo : g'.lo a = g.lo a) (hhi : g'.hi a = g.hi a) (hD : v'.D = v.D) :
    rank cmp g' v' brk a = rank cmp g v brk a := by
  unfold rank keyIn
  rw [hlo, hhi, hD]

/-- The rotation step of `fixTree` when the uncle is BLACK or absent. -/
theorem rotate_ok {cmp : α → α → Int} (hc : IsCmp cmp) {root : Option Nat}
    {g : Ghost α} {h : Heap α} {brk N P G : Nat}
    (hi : HInv cmp (some N) root g (view h) brk)
    (hPN : (view h).P N = some P) (hPP : (view h).P P = some G)
    (hPc : (view h).C P = some Color.RED)
    (hU : ∀ u, ((view h).L G = some u ∨ (view h).R G = some u) → u ≠ P →
      (view h).C u = some Color.BLACK) :
    ∃ h' root' g', ((firstRotation h N P G).bind fun r =>
        if r.2 = SUCCESS_INDICATOR then secondRotation r.1 root P N G
        else secondRotation r.1 root N P G) = some (h', root') ∧
      HInv cmp none root' g' (view h') brk ∧ (view h').D = (view h).D := by
  have hNc : (view h).C N = some Color.RED := hi.foc N rfl
  rcases hi.parent hPN with hLP | hRP <;> rcases hi.parent hPP with hLG | hRG
  · -- straight line on the left
    rw [firstRotation_fail hc hi (Or.inl ⟨hLP, hLG⟩)]
    obtain ⟨h', e, v'⟩ := secondRotation_L hc hi hLP hLG
    refine ⟨h', _, rot2LGhost g (view h) P G, by simpa [SUCCESS_INDICATOR, FAILURE_INDICATOR] using e, ?_, ?_⟩
    · rw [v']
      exact rot2L_inv hc hi hLP hLG hPc (fun u hu => hU u (Or.inr hu)
        (hi.left_ne_right hc hLG hu).symm)
    · rw [v']; rfl
  · -- zig-zag: `N` left of `P`, `P` right of `G`
    obtain ⟨h1, e1, v1⟩ := firstRotation_R hc hi hLP hRG
    have hi1 := rot1R_inv hc hi hLP hRG hPc
    rw [← v1] at hi1
    have hNP : N ≠ P := hi.ne_parent hc hPN
    have hNG : N ≠ G := hi.ne_grand hc hPN hPP
    have hPG : P ≠ G := hi.ne_parent hc hPP
    have k1 : (view h1).R N = some P := by rw [v1]; simp [rot1R]
    have k2 : (view h1).R G = some N := by rw [v1]; simp [rot1R, hNG.symm]
    obtain ⟨h', e, v'⟩ := secondRotation_R hc hi1 k1 k2
    rw [e1]
    refine ⟨h', _, rot2RGhost (rot1RGhost g (view h) N P) (view h1) N G, by simpa [SUCCESS_INDICATOR] using e, ?_, ?_⟩
    · rw [v']
      refine rot2R_inv hc hi1 k1 k2 (by rw [v1]; exact hNc) ?_
      intro u hu
      rw [v1] at hu ⊢
      simp only [rot1R, hPG.symm, if_false] at hu ⊢
      exact hU u (Or.inl hu) (hi.left_ne_right hc hu hRG)
    · rw [v', v1]; rfl
  · -- zig-zag: `N` right of `P`, `P` left of `G`
    obtain ⟨h1, e1, v1⟩ := firstRotation_L hc hi hRP hLG
    have hi1 := rot1L_inv hc hi hRP hLG hPc
    rw [← v1] at hi1
    have hNP : N ≠ P := hi.ne_parent hc hPN
    have hNG : N ≠ G := hi.ne_grand hc hPN hPP
    have hPG : P ≠ G := hi.ne_parent hc hPP
    have k1 : (view h1).L N = some P := by rw [v1]; simp [rot1L]
    have k2 : (view h1).L G = some N := by rw [v1]; simp [rot1L, hNG.symm]
    obtain ⟨h', e, v'⟩ := secondRotation_L hc hi1 k1 k2
    rw [e1]
    refine ⟨h', _, rot2LGhost (rot1LGhost g (view h) N P) (view h1) N G, by simpa [SUCCESS_INDICATOR] using e, ?_, ?_⟩
    · rw [v']
      refine rot2L_inv hc hi1 k1 k2 (by rw [v1]; exact hNc) ?_
      intro u hu
      rw [v1] at hu ⊢
      simp only [rot1L, hPG.symm, if_false] at hu ⊢
      exact hU u (Or.inr hu) (hi.left_ne_right hc hLG hu).symm
    · rw [v', v1]; rfl
  · -- straight line on the right
    rw [firstRotation_fail hc hi (Or.inr ⟨hRP, hRG⟩)]
    obtain ⟨h', e, v'⟩ := secondRotation_R hc hi hRP hRG
    refine ⟨h', _, rot2RGhost g (view h) P G, by simpa [SUCCESS_INDICATOR, FAILURE_INDICATOR] using e, ?_, ?_⟩
    · rw [v']
      exact rot2R_inv hc hi hRP hRG hPc (fun u hu => hU u (Or.inl hu)
        (hi.left_ne_right hc hu hRG))
    · rw [v']; rfl

end RBT

namespace RBT

variable {α : Type}

theorem C_ne_of_D {h : Heap α} {a : Nat} {c : Color} (hC : (view h).C a = some c) :
    (view h).D a ≠ none := by
  intro e
  simp only [view, dataOf, colorOf] at e hC
  cases hh : h a with
  | none => simp [hh] at hC
  | some m => simp [hh] at e

/-- Function `fixTree` returns, restores the invariant and keeps every key, provided
the fuel covers the distance of the focus from the root. -/
theorem fixTree_ok {cmp : α → α → Int} (hc : IsCmp cmp) {brk : Nat} :
    ∀ (fuel : Nat) (h : Heap α) (root : Option Nat) (g : Ghost α) (N : Nat),
      HInv cmp (some N) root g (view h) brk → brk < fuel + rank cmp g (view h) brk N →
      ∃ h' root' g', fixTree fuel h root (some N) = some (h', root') ∧
        HInv cmp none root' g' (view h') brk ∧ (view h').D = (view h).D := by
  intro fuel
  induction fuel with
  | zero =>
    intro h root g N _ hf
    have := rank_le cmp g (view h) brk N
    omega
  | succ fuel ih =>
    intro h root g N hi hf
    have hNc : (view h).C N = some Color.RED := hi.foc N rfl
    have hNb : N < brk := hi.lt_of_C hNc
    have hD : ∀ {a : Nat}, a < brk → (view h).D a ≠ none := fun ha => hi.D_ne ha
    simp only [fixTree, Option.bind_eq_bind]
    cases hPN : (view h).P N with
    | none =>
      obtain ⟨h1, e1, v1⟩ := check_root (hD hNb) hPN
      rw [e1]
      refine ⟨h1, root, { g with bh := fun a => if a = N then g.bh a + 1 else g.bh a },
        by simp, ?_, by rw [v1]⟩
      rw [v1]
      exact rootBlack_inv hc hi hPN
    | some P =>
      have hPb : P < brk := by
        rcases hi.parent hPN with h1 | h1
        · exact hi.lt_of_L h1
        · exact hi.lt_of_R h1
      obtain ⟨cP, hcP⟩ := (hi.used P hPb).2
      cases cP with
      | BLACK =>
        rw [check_black (hD hNb) hPN hcP]
        exact ⟨h, root, g, by simp, blackParent_inv hi hPN hcP, rfl⟩
      | RED =>
        have hNP : N ≠ P := hi.ne_parent hc hPN
        cases hPP : (view h).P P with
        | none =>
          rcases ((hi.node P hPb).top hPP).2.2.2 with h1 | h1
          · rw [hcP] at h1
            exact absurd h1 (by simp)
          · exact absurd (Option.some.inj h1) hNP
        | some G =>
          have hGb : G < brk := by
            rcases hi.parent hPP with h1 | h1
            · exact hi.lt_of_L h1
            · exact hi.lt_of_R h1
          rw [check_go (hD hNb) hPN hcP hPP]
          obtain ⟨nN, hnN, -, -, hnp, -⟩ := read_eq (hD hNb)
          obtain ⟨nP, hnP, -, -, hpp, hpc, -⟩ := read_eq (hD hPb)
          obtain ⟨nG, hnG, hgl, hgr, -⟩ := read_eq (hD hGb)
          rw [hPN] at hnp
          rw [hPP] at hpp
          rw [hcP] at hpc
          have hpc' : nP.color = Color.RED := Option.some.inj hpc
          have hne : ¬ (SUCCESS_INDICATOR = FAILURE_INDICATOR) := by
            simp [SUCCESS_INDICATOR, FAILURE_INDICATOR]
          simp only [hne, if_false, Option.some_bind, hnN, hnp, hnP, hpp, hnG, hpc', if_true,
            hgl, hgr]
          -- the uncle
          have hsib : ((view h).L G = some P ∧ ∀ u, (view h).L G = some u → u = P) ∨
              ((view h).L G ≠ some P ∧ (view h).R G = some P) := by
            rcases hi.parent hPP with h1 | h1
            · left
              exact ⟨h1, fun u hu => Option.some.inj (hu.symm.trans h1)⟩
            · right
              exact ⟨fun e => hi.left_ne_right hc e h1 rfl, h1⟩
          have hUP : ∀ u, (if (view h).L G = some P then (view h).R G else (view h).L G) = some u →
              ((view h).L G = some u ∨ (view h).R G = some u) ∧ u ≠ P ∧
              (((view h).L G = some P ∧ (view h).R G = some u) ∨
                ((view h).R G = some P ∧ (view h).L G = some u)) := by
            intro u hu
            rcases hsib with ⟨h1, -⟩ | ⟨h1, h2⟩
            · rw [if_pos h1] at hu
              exact ⟨Or.inr hu, (hi.left_ne_right hc h1 hu).symm, Or.inl ⟨h1, hu⟩⟩
            · rw [if_neg h1] at hu
              exact ⟨Or.inl hu, hi.left_ne_right hc hu h2, Or.inr ⟨h2, hu⟩⟩
          have hPU : ∀ u, ((view h).L G = some u ∨ (view h).R G = some u) → u ≠ P →
              (if (view h).L G = some P then (view h).R G else (view h).L G) = some u := by
            intro u hu hne'
            rcases hsib with ⟨h1, h3⟩ | ⟨h1, h2⟩
            · rw [if_pos h1]
              rcases hu with hu | hu
              · exact absurd (h3 u hu) hne'
              · exact hu
            · rw [if_neg h1]
              rcases hu with hu | hu
              · exact hu
              · exact absurd (Option.some.inj (hu.symm.trans h2)) hne'
          cases hU : (if (view h).L G = some P then (view h).R G else (view h).L G) with
          | none =>
            simp only [Option.some_bind, true_or, if_true]
            refine rotate_ok hc hi hPN hPP hcP ?_
            intro u hu hne'
            rw [hPU u hu hne'] at hU
            exact absurd hU (by simp)
          | some U =>
            obtain ⟨hU1, hU2, hU3⟩ := hUP U hU
            have hUb : U < brk := hi.lt_of_P (hi.parent_of_child hU1)
            obtain ⟨nU, hnU, -, -, -, huc, -⟩ := read_eq (hD hUb)
            simp only [hnU, Option.map_some', Option.some_bind]
            cases hcU : nU.color with
            | BLACK =>
              simp only [Option.some.injEq, or_true, if_true]
              refine rotate_ok hc hi hPN hPP hcP ?_
              intro u hu hne'
              have := hPU u hu hne'
              rw [hU] at this
              obtain rfl : U = u := Option.some.inj this
              rw [← huc, hcU]
            | RED =>
              rw [hcU] at huc
              have hn1 : ¬ (some (some Color.RED) = none ∨
                  some (some Color.RED) = some (some Color.BLACK)) := by simp
              simp only [hn1, if_false, if_true]
              obtain ⟨h1, e1, v1⟩ := setColor_eq (h := h) (a := P) Color.BLACK (hD hPb)
              rw [e1]; simp only [Option.some_bind]
              obtain ⟨h2, e2, v2⟩ := setColor_eq (h := h1) (a := U) Color.BLACK
                (by rw [v1]; exact hD hUb)
              rw [e2]; simp only [Option.some_bind]
              obtain ⟨h3, e3, v3⟩ := setColor_eq (h := h2) (a := G) Color.RED
                (by rw [v2, v1]; exact hD hGb)
              rw [e3]; simp only [Option.some_bind]
              have hi3 := recolor_inv hc hi hPN hPP hcP hU3 huc.symm
              have hi3' : HInv cmp (some G) root
                  { g with bh := fun a => if a = P ∨ a = U then g.bh a + 1 else g.bh a }
                  (view h3) brk := by
                rw [v3, v2, v1]
                exact hi3
              have hD3 : (view h3).D = (view h).D := by rw [v3, v2, v1]
              have hr1 := rank_parent_lt hc hi hPN
              have hr2 := rank_parent_lt hc hi hPP
              have hr3 : rank cmp
                  { g with bh := fun a => if a = P ∨ a = U then g.bh a + 1 else g.bh a }
                  (view h3) brk G = rank cmp g (view h) brk G :=
                rank_congr rfl rfl hD3
              obtain ⟨h', root', g', e, hi', hD'⟩ := ih h3 root _ G hi3' (by rw [hr3]; omega)
              exact ⟨h', root', g', e, hi', by rw [hD', hD3]⟩

end RBT

namespace RBT

variable {α : Type}

theorem bhp_leafLGhost {cmp : α → α → Int} {root : Option Nat} {g : Ghost α} {v : View α}
    {brk p a : Nat} (hi : HInv cmp none root g v brk) (ptr : Option Nat)
    (hptr : ∀ d, ptr = some d → v.P d = some a) :
    bhp (leafLGhost g v brk p) ptr = bhp g ptr := by
  cases ptr with
  | none => rfl
  | some d =>
    have : d ≠ brk := by
      have := hi.lt_of_P (hptr d rfl)
      omega
    simp [leafLGhost, this]

theorem leafL_inv {cmp : α → α → Int} {root : Option Nat}
    {g : Ghost α} {v : View α} {brk p : Nat} {x y : α}
    (hi : HInv cmp none root g v brk) (hp : p < brk) (hL : v.L p = none)
    (hy : v.D p = some y) (hxy : cmp x y < 0) (hlo : aboveLo cmp (g.lo p) x = true) :
    HInv cmp (some brk) root (leafLGhost g v brk p) (leafL v brk p x) (brk + 1) := by
  have hpb : p ≠ brk := by omega
  obtain ⟨f1, f2, f3, f4, f5⟩ := hi.free brk (le_refl _)
  have hch : ∀ a d lo hi', a < brk → ChildOK none g v a d lo hi' →
      ChildOK (some brk) (leafLGhost g v brk p) (leafL v brk p x) a d lo hi' := by
    intro a d lo hi' ha ⟨h1, h2, h3, h4⟩
    have hd : d ≠ brk := by
      have := hi.lt_of_P h1
      omega
    have ha' : a ≠ brk := by omega
    refine ⟨by simp [leafL, hd, h1], by simp [leafLGhost, hd, h2],
      by simp [leafLGhost, hd, h3], ?_⟩
    intro hred _
    simp only [leafL, ha', hd, if_false] at hred ⊢
    exact h4 hred (by simp)
  refine ⟨?_, ?_, ?_, ?_, ?_, ?_⟩
  · intro a ha
    obtain ⟨h1, h2, h3, h4, h5⟩ := hi.free a (by omega)
    have h6 : a ≠ brk := by omega
    have h7 : a ≠ p := by omega
    simp [leafL, h6, h7, h1, h2, h3, h4, h5]
  · intro a ha
    by_cases hab : a = brk
    · subst hab
      simp [leafL]
    · have := hi.used a (by omega)
      simpa [leafL, hab] using this
  · intro a ha
    by_cases hab : a = brk
    · subst hab
      constructor
      · intro x' hx'
        simp only [leafL, if_true] at hx'
        obtain rfl : x = x' := by simpa using hx'
        simp [leafLGhost, inside, hlo, hy, belowHi, hxy]
      · intro c hc
        simp [leafL, hpb.symm, f1] at hc
      · intro c hc
        simp [leafL, f2] at hc
      · intro q hq
        simp only [leafL, if_true] at hq
        obtain rfl : p = q := by simpa using hq
        left
        simp [leafL]
      · intro hq
        simp [leafL] at hq
      · simp [leafL, hpb.symm, f1, f2]
      · simp [leafL, leafLGhost, hpb.symm, f1]
    · have ha' : a < brk := by omega
      have hn := hi.node a ha'
      have hlo' : (leafLGhost g v brk p).lo a = g.lo a := by simp [leafLGhost, hab]
      have hhi' : (leafLGhost g v brk p).hi a = g.hi a := by simp [leafLGhost, hab]
      have hD' : (leafL v brk p x).D a = v.D a := by simp [leafL, hab]
      have hR' : (leafL v brk p x).R a = v.R a := rfl
      have hbL : bhp (leafLGhost g v brk p) ((leafL v brk p x).L a) = bhp g (v.L a) := by
        simp only [leafL]
        split_ifs with hap
        · subst hap
          simp [leafLGhost, hL]
        · exact bhp_leafLGhost hi _ (fun d hd => (hn.lft d hd).1)
      have hbR : bhp (leafLGhost g v brk p) ((leafL v brk p x).R a) = bhp g (v.R a) :=
        bhp_leafLGhost hi _ (fun d hd => (hn.rgt d hd).1)
      constructor
      · intro x' hx'
        rw [hD'] at hx'
        rw [hlo', hhi']
        exact hn.ins x' hx'
      · intro d hd
        rw [hlo', hD']
        simp only [leafL] at hd
        split_ifs at hd with hap
        · subst hap
          obtain rfl : brk = d := by simpa using hd
          refine ⟨by simp [leafL], by simp [leafLGhost], by simp [leafLGhost], ?_⟩
          intro _ hne
          exact absurd rfl hne
        · exact hch a d _ _ ha' (hn.lft d hd)
      · intro d hd
        rw [hhi', hD']
        exact hch a d _ _ ha' (hn.rgt d hd)
      · intro q hq
        simp only [leafL, hab, if_false] at hq
        rcases hn.par q hq with h1 | h1
        · left
          have : q ≠ p := by
            rintro rfl
            simp [hL] at h1
          simp [leafL, this, h1]
        · right
          exact h1
      · intro hq
        simp only [leafL, hab, if_false] at hq
        obtain ⟨h1, h2, h3, h4⟩ := hn.top hq
        refine ⟨h1, by rw [hlo', h2], by rw [hhi', h3], ?_⟩
        rcases h4 with h4 | h4
        · left
          simpa [leafL, hab] using h4
        · simp at h4
      · rw [hbL, hbR]
        exact hn.bal
      · rw [hbL]
        simp only [leafL, leafLGhost, hab, if_false]
        exact hn.bhe
  · intro hr
    have := hi.rootNone hr
    omega
  · intro r hr
    obtain ⟨h1, h2⟩ := hi.rootSome r hr
    have : r ≠ brk := by omega
    exact ⟨by omega, by simp [leafL, this, h2]⟩
  · intro f hf
    obtain rfl : brk = f := by simpa using hf
    simp [leafL]

theorem leafR_inv {cmp : α → α → Int} {root : Option Nat}
    {g : Ghost α} {v : View α} {brk p : Nat} {x y : α}
    (hi : HInv cmp none root g v brk) (hp : p < brk) (hR : v.R p = none)
    (hy : v.D p = some y) (hxy : cmp y x < 0) (hhi : belowHi cmp (g.hi p) x = true) :
    HInv cmp (some brk) root (leafRGhost g v brk p) (leafR v brk p x) (brk + 1) := by
  have hlo : aboveLo (flipCmp cmp) (g.mirror.lo p) x = true := by
    show aboveLo (flipCmp cmp) (g.hi p) x = true
    cases hh : g.hi p with
    | none => rfl
    | some u =>
      rw [hh] at hhi
      simpa [aboveLo, belowHi, flipCmp] using hhi
  exact (@leafL_inv α (flipCmp cmp) _ _ _ _ _ x y hi.mirror hp hR hy hxy hlo).mirror

/-- The first node of a tree. -/
theorem first_inv (cmp : α → α → Int) (x : α) :
    HInv cmp none (some 0)
      { lo := fun _ => none, hi := fun _ => none, bh := fun a => if a = 0 then 1 else 0 }
      { L := fun _ => none, R := fun _ => none, P := fun _ => none,
        C := fun a => if a = 0 then some Color.BLACK else none,
        D := fun a => if a = 0 then some x else none } 1 := by
  refine ⟨?_, ?_, ?_, by simp, ?_, by simp⟩
  · intro a ha
    have : a ≠ 0 := by omega
    simp [this]
  · intro a ha
    have : a = 0 := by omega
    simp [this]
  · intro a ha
    obtain rfl : a = 0 := by omega
    constructor <;> simp [inside, ChildOK]
  · intro r hr
    obtain rfl : 0 = r := by simpa using hr
    simp

/-- The empty store. -/
theorem empty_inv (cmp : α → α → Int) :
    HInv cmp none none { lo := fun _ => none, hi := fun _ => none, bh := fun _ => 0 }
      (view (fun _ => none : Heap α)) 0 := by
  refine ⟨?_, ?_, ?_, by simp, by simp, by simp⟩
  · intro a _
    simp [view, leftOf, rightOf, parentOf, colorOf, dataOf]
  · intro a ha
    omega
  · intro a ha
    omega

end RBT

namespace RBT

variable {α : Type}

theorem IsCmp.eq_trans {cmp : α → α → Int} (hc : IsCmp cmp) {a b c : α}
    (h1 : cmp a b = 0) (h2 : cmp b c = 0) : cmp a c = 0 := by
  by_contra hne
  rcases lt_or_gt_of_ne hne with h | h
  · have := hc.eq_lt b a c (hc.symm h1) h
    omega
  · have h' := (hc.gt_iff a c).1 h
    have := hc.lt_eq c a b h' h1
    have := (hc.antisymm c b).1 this
    omega

theorem Desc.trans {v : View α} {a : Option Nat} {p q : Nat}
    (h1 : Desc v a p) (h2 : Desc v (some p) q) : Desc v a q := by
  induction h1 with
  | here c => exact h2
  | left _ ih => exact Desc.left (ih h2)
  | right _ ih => exact Desc.right (ih h2)

/-- Every allocated node lies in the tree below the root. -/
theorem desc_root {cmp : α → α → Int} (hc : IsCmp cmp) {focus root : Option Nat}
    {g : Ghost α} {v : View α} {brk : Nat} (hi : HInv cmp focus root g v brk) :
    ∀ (k q : Nat), q < brk → brk ≤ k + rank cmp g v brk q → Desc v root q := by
  intro k
  induction k with
  | zero =>
    intro q hq hk
    have h1 := rank_le cmp g v brk q
    cases hP : v.P q with
    | none =>
      rw [((hi.node q hq).top hP).1]
      exact Desc.here q
    | some p =>
      have := rank_parent_lt hc hi hP
      have := rank_le cmp g v brk p
      omega
  | succ k ih =>
    intro q hq hk
    cases hP : v.P q with
    | none =>
      rw [((hi.node q hq).top hP).1]
      exact Desc.here q
    | some p =>
      have hr := rank_parent_lt hc hi hP
      have hpb : p < brk := by
        rcases hi.parent hP with h1 | h1
        · exact hi.lt_of_L h1
        · exact hi.lt_of_R h1
      have hp := ih p hpb (by omega)
      refine hp.trans ?_
      rcases hi.parent hP with h1 | h1
      · exact Desc.left (by rw [h1]; exact Desc.here q)
      · exact Desc.right (by rw [h1]; exact Desc.here q)

theorem desc_root' {cmp : α → α → Int} (hc : IsCmp cmp) {focus root : Option Nat}
    {g : Ghost α} {v : View α} {brk : Nat} (hi : HInv cmp focus root g v brk)
    {q : Nat} (hq : q < brk) : Desc v root q :=
  desc_root hc hi brk q hq (by omega)

/-- The interval of a child lies inside the interval of its parent. -/
theorem inside_of_child {cmp : α → α → Int} (hc : IsCmp cmp) {focus root : Option Nat}
    {g : Ghost α} {v : View α} {brk : Nat} (hi : HInv cmp focus root g v brk)
    {a c : Nat} (hch : v.L a = some c ∨ v.R a = some c) {y : α}
    (hy : inside cmp (g.lo c) (g.hi c) y = true) :
    inside cmp (g.lo a) (g.hi a) y = true := by
  have ha : a < brk := by
    rcases hch with h | h
    · exact hi.lt_of_L h
    · exact hi.lt_of_R h
  obtain ⟨xa, hxa⟩ := (hi.used a ha).1
  have hins := (inside_iff _ _ _ _).1 ((hi.node a ha).ins xa hxa)
  rw [inside_iff] at hy ⊢
  rcases hch with h | h
  · obtain ⟨-, h2, h3, -⟩ := hi.childL h
    rw [h2, h3, hxa] at hy
    exact ⟨hy.1, belowHi_trans hc hins.2 (by simpa using hy.2)⟩
  · obtain ⟨-, h2, h3, -⟩ := hi.childR h
    rw [h2, h3, hxa] at hy
    exact ⟨aboveLo_trans hc hins.1 (by simpa using hy.1), hy.2⟩

/-- The keys of a subtree lie in the interval of its root. -/
theorem desc_inside {cmp : α → α → Int} (hc : IsCmp cmp) {focus root : Option Nat}
    {g : Ghost α} {v : View α} {brk : Nat} (hi : HInv cmp focus root g v brk)
    {ptr : Option Nat} {q : Nat} (hd : Desc v ptr q) :
    ∀ c, ptr = some c → c < brk → q < brk ∧ ∀ y, v.D q = some y →
      inside cmp (g.lo c) (g.hi c) y = true := by
  induction hd with
  | here c =>
    intro c' hc' hb
    obtain rfl : c = c' := by simpa using hc'
    exact ⟨hb, fun y hy => (hi.node c hb).ins y hy⟩
  | @left c q hd ih =>
    intro c' hc' hb
    obtain rfl : c = c' := by simpa using hc'
    cases hl : v.L c with
    | none => rw [hl] at hd; cases hd
    | some d =>
      obtain ⟨h1, h2⟩ := ih d hl (hi.lt_of_P (hi.childL hl).1)
      exact ⟨h1, fun y hy => inside_of_child hc hi (Or.inl hl) (h2 y hy)⟩
  | @right c q hd ih =>
    intro c' hc' hb
    obtain rfl : c = c' := by simpa using hc'
    cases hl : v.R c with
    | none => rw [hl] at hd; cases hd
    | some d =>
      obtain ⟨h1, h2⟩ := ih d hl (hi.lt_of_P (hi.childR hl).1)
      exact ⟨h1, fun y hy => inside_of_child hc hi (Or.inr hl) (h2 y hy)⟩

end RBT

namespace RBT

variable {α : Type}

/-- A key equal to `x` in the subtree of `c` lies on the side of `c` that
the comparison of `x` with the key of `c` points to. -/
theorem desc_side {cmp : α → α → Int} (hc : IsCmp cmp) {focus root : Option Nat}
    {g : Ghost α} {v : View α} {brk : Nat} (hi : HInv cmp focus root g v brk)
    {c q : Nat} {x y yq : α} (_hcb : c < brk) (hy : v.D c = some y) (hq : v.D q = some yq)
    (hxq : cmp x yq = 0) (hd : Desc v (some c) q) :
    (q = c) ∨ (cmp x y < 0 ∧ Desc v (v.L c) q) ∨ (0 < cmp x y ∧ Desc v (v.R c) q) := by
  cases hd with
  | here => exact Or.inl rfl
  | left hd =>
    right; left
    refine ⟨?_, hd⟩
    cases hl : v.L c with
    | none => rw [hl] at hd; cases hd
    | some d =>
      rw [hl] at hd
      have h1 := (desc_inside hc hi hd d rfl (hi.lt_of_P (hi.childL hl).1)).2 yq hq
      obtain ⟨-, -, h3, -⟩ := hi.childL hl
      rw [h3, hy, inside_iff] at h1
      exact hc.eq_lt _ _ _ hxq (by simpa using h1.2)
  | right hd =>
    right; right
    refine ⟨?_, hd⟩
    cases hl : v.R c with
    | none => rw [hl] at hd; cases hd
    | some d =>
      rw [hl] at hd
      have h1 := (desc_inside hc hi hd d rfl (hi.lt_of_P (hi.childR hl).1)).2 yq hq
      obtain ⟨-, h2, -, -⟩ := hi.childR hl
      rw [h2, hy, inside_iff] at h1
      have h2 : cmp y yq < 0 := by simpa using h1.1
      have := hc.lt_eq _ _ _ h2 (hc.symm hxq)
      exact (hc.gt_iff _ _).2 this

theorem descend_spec {cmp : α → α → Int} (hc : IsCmp cmp) {root : Option Nat}
    {g : Ghost α} {h : Heap α} {brk : Nat} (hi : HInv cmp none root g (view h) brk) (x : α) :
    ∀ (fuel : Nat) (cur prev : Option Nat) (dir : Direction),
      (∀ c, cur = some c → c < brk ∧ inside cmp (g.lo c) (g.hi c) x = true ∧
        rank cmp g (view h) brk c ≤ fuel) →
      SlotOK cmp g (view h) root x prev dir cur →
      (∀ q y, (view h).D q = some y → cmp x y = 0 → Desc (view h) cur q) →
      (descend cmp h x fuel cur prev dir = some Descent.found ∧
        ∃ q y, (view h).D q = some y ∧ cmp x y = 0) ∨
      (∃ prev' dir', descend cmp h x fuel cur prev dir = some (Descent.slot prev' dir') ∧
        SlotOK cmp g (view h) root x prev' dir' none ∧
        ∀ q y, (view h).D q = some y → cmp x y ≠ 0) := by
  intro fuel
  induction fuel with
  | zero =>
    intro cur prev dir hcur hslot hkeys
    cases cur with
    | none =>
      right
      refine ⟨prev, dir, by simp [descend], hslot, ?_⟩
      intro q y hq hxy
      cases hkeys q y hq hxy
    | some c =>
      obtain ⟨h1, -, h3⟩ := hcur c rfl
      have := rank_pos hi h1
      omega
  | succ fuel ih =>
    intro cur prev dir hcur hslot hkeys
    cases cur with
    | none =>
      right
      refine ⟨prev, dir, by simp [descend], hslot, ?_⟩
      intro q y hq hxy
      cases hkeys q y hq hxy
    | some c =>
      obtain ⟨hcb, hins, hrk⟩ := hcur c rfl
      obtain ⟨n, hn, hl, hr, -, -, hd⟩ := read_eq (hi.D_ne hcb)
      rw [inside_iff] at hins
      simp only [descend, hn]
      by_cases hpos : cmp x n.data > 0
      · simp only [hpos, if_true]
        have hlt : cmp n.data x < 0 := (hc.gt_iff _ _).1 hpos
        refine ih n.right (some c) Direction.Right ?_ ?_ ?_
        · intro d hd'
          rw [hr] at hd'
          obtain ⟨k1, k2, k3, -⟩ := hi.childR hd'
          have := rank_right_lt hc hi hd'
          refine ⟨hi.lt_of_P k1, ?_, by omega⟩
          rw [k2, k3, ← hd, inside_iff]
          exact ⟨by simpa using hlt, hins.2⟩
        · right
          exact ⟨c, n.data, rfl, hd.symm, Or.inr ⟨rfl, hr.symm, hlt, hins.2⟩⟩
        · intro q y hq hxy
          rcases desc_side hc hi hcb hd.symm hq hxy (hkeys q y hq hxy) with k | k | k
          · subst k
            rw [← hd] at hq
            obtain rfl : n.data = y := by simpa using hq
            omega
          · omega
          · rw [hr]; exact k.2
      · simp only [hpos, if_false]
        by_cases hneg : cmp x n.data < 0
        · simp only [hneg, if_true]
          refine ih n.left (some c) Direction.Left ?_ ?_ ?_
          · intro d hd'
            rw [hl] at hd'
            obtain ⟨k1, k2, k3, -⟩ := hi.childL hd'
            have := rank_left_lt hc hi hd'
            refine ⟨hi.lt_of_P k1, ?_, by omega⟩
            rw [k2, k3, ← hd, inside_iff]
            exact ⟨hins.1, by simpa using hneg⟩
          · right
            exact ⟨c, n.data, rfl, hd.symm, Or.inl ⟨rfl, hl.symm, hneg, hins.1⟩⟩
          · intro q y hq hxy
            rcases desc_side hc hi hcb hd.symm hq hxy (hkeys q y hq hxy) with k | k | k
            · subst k
              rw [← hd] at hq
              obtain rfl : n.data = y := by simpa using hq
              omega
            · rw [hl]; exact k.2
            · omega
        · simp only [hneg, if_false]
          left
          exact ⟨trivial, c, n.data, hd.symm, by omega⟩

end RBT

namespace RBT

variable {α : Type}

theorem view_write (h : Heap α) (a : Nat) (n : Node α) :
    view (h.write a n) =
      { L := fun b => if b = a then n.left else (view h).L b,
        R := fun b => if b = a then n.right else (view h).R b,
        P := fun b => if b = a then n.parent else (view h).P b,
        C := fun b => if b = a then some n.color else (view h).C b,
        D := fun b => if b = a then some n.data else (view h).D b } := by
  simp only [view, View.mk.injEq]
  refine ⟨?_, ?_, ?_, ?_, ?_⟩ <;> funext b <;> by_cases hb : b = a <;>
    simp [leftOf, rightOf, parentOf, colorOf, dataOf, Heap.write, hb]

/-- The descent from the root either meets an equal key or ends in a slot,
and it ends in a slot only when no stored key compares equal. -/
theorem descend_root {cmp : α → α → Int} (hc : IsCmp cmp) {root : Option Nat}
    {g : Ghost α} {h : Heap α} {brk : Nat} (hi : HInv cmp none root g (view h) brk) (x : α) :
    (descend cmp h x (brk + 1) root root Direction.NoDirection = some Descent.found ∧
      ∃ q y, (view h).D q = some y ∧ cmp x y = 0) ∨
    (∃ prev dir, descend cmp h x (brk + 1) root root Direction.NoDirection =
        some (Descent.slot prev dir) ∧
      SlotOK cmp g (view h) root x prev dir none ∧
      ∀ q y, (view h).D q = some y → cmp x y ≠ 0) :=
  descend_spec hc hi x (brk + 1) root root Direction.NoDirection
    (by
      intro c hcr
      obtain ⟨h1, h2⟩ := hi.rootSome c hcr
      obtain ⟨-, h3, h4, -⟩ := (hi.node c h1).top h2
      refine ⟨h1, by simp [inside, h3, h4], ?_⟩
      have := rank_le cmp g (view h) brk c
      omega)
    (Or.inl ⟨rfl, rfl⟩)
    (fun q y hq _ => desc_root' hc hi (hi.lt_of_D hq))

/-- One `addToRBTree` call on a tree that satisfies the invariant: either the
key is met and the tree is returned as it was, or a node is added, the
invariant holds again and the stored keys are the old ones and the new one. -/
theorem addToRBTree_ok (t : RBTree α) (x : α) (hinv : Inv t) :
    ((∃ q y, (view t.heap).D q = some y ∧ t.compFunc x y = 0) ∧
      ∀ m, addToRBTree m t x = some (t, FAILURE_INDICATOR)) ∨
    ((∀ q y, (view t.heap).D q = some y → t.compFunc x y ≠ 0) ∧
      ∃ t', addToRBTree true t x = some (t', SUCCESS_INDICATOR) ∧ Inv t' ∧
        t'.compFunc = t.compFunc ∧ t'.brk = t.brk + 1 ∧ t'.size = t.size + 1 ∧
        (view t'.heap).D = fun a => if a = t.brk then some x else (view t.heap).D a) := by
  obtain ⟨hc, hsz, g, hi⟩ := hinv
  have hdesc := descend_root hc hi x
  rcases hdesc with ⟨e, hex⟩ | ⟨prev, dir, e, hslot, hno⟩
  · left
    exact ⟨hex, fun m => by simp [addToRBTree, e]⟩
  · right
    refine ⟨hno, ?_⟩
    simp only [addToRBTree, e]
    simp only [Bool.true_eq_false, if_false]
    rcases hslot with ⟨hprev, hroot⟩ | ⟨p, y, rfl, hy, hside⟩
    · -- the tree was empty
      subst hprev
      have hb : t.brk = 0 := hi.rootNone hroot.symm
      have hv : view t.heap =
          { L := fun _ => none, R := fun _ => none, P := fun _ => none,
            C := fun _ => none, D := fun _ => none } := by
        simp only [view, View.mk.injEq]
        refine ⟨?_, ?_, ?_, ?_, ?_⟩ <;> funext a
        · exact (hi.free a (by omega)).1
        · exact (hi.free a (by omega)).2.1
        · exact (hi.free a (by omega)).2.2.1
        · exact (hi.free a (by omega)).2.2.2.1
        · exact (hi.free a (by omega)).2.2.2.2
      obtain ⟨h1, e1, v1⟩ := setColor_eq (h := t.heap.write t.brk
        { parent := none, left := none, right := none, color := Color.RED, data := x })
        (a := t.brk) Color.BLACK (by simp [view_write])
      simp only [e1]
      refine ⟨_, rfl, ⟨hc, ?_, ?_⟩, rfl, rfl, rfl, ?_⟩
      · simp only [hsz]; push_cast; ring
      · refine ⟨{ lo := fun _ => none, hi := fun _ => none,
                  bh := fun a => if a = 0 then 1 else 0 }, ?_⟩
        have hv1 : view h1 =
            { L := fun _ => none, R := fun _ => none, P := fun _ => none,
              C := fun a => if a = 0 then some Color.BLACK else none,
              D := fun a => if a = 0 then some x else none } := by
          rw [v1, view_write, hv, hb]
          simp only [View.mk.injEq]
          refine ⟨?_, ?_, ?_, ?_, ?_⟩ <;> (try trivial) <;> funext a <;>
            by_cases ha : a = 0 <;> simp [ha]
        simp only
        rw [hv1, hb]
        exact first_inv t.compFunc x
      · simp only
        rw [v1, view_write]
    · -- a leaf below `p`
      have hpb : p < t.brk := hi.lt_of_D hy
      have hpne : p ≠ t.brk := by omega
      have hfree := hi.free t.brk (le_refl _)
      rcases hside with ⟨rfl, hL, hxy, hlo⟩ | ⟨rfl, hR, hxy, hhi⟩
      · simp only [if_true]
        have hd : Direction.Left ≠ Direction.Right := by decide
        simp only [hd, if_false]
        obtain ⟨h1, e1, v1⟩ := setLeft_eq (h := t.heap.write t.brk
          { parent := some p, left := none, right := none, color := Color.RED, data := x })
          (a := p) (some t.brk) (by
            rw [view_write]
            simp only [hpne, if_false]
            rw [hy]; simp)
        simp only [e1]
        have hv1 : view h1 = leafL (view t.heap) t.brk p x := by
          rw [v1, view_write]
          simp only [leafL, View.mk.injEq]
          refine ⟨?_, ?_, ?_, ?_, ?_⟩ <;> (try trivial) <;> funext a <;>
            by_cases ha : a = t.brk <;> simp [ha, hpne.symm, hfree.1, hfree.2.1]
        have hi1 := leafL_inv (x := x) hi hpb hL hy hxy hlo
        rw [← hv1] at hi1
        obtain ⟨h', root', g', e', hi', hD'⟩ := fixTree_ok hc (t.brk + 2) h1 t.root _ t.brk hi1
          (by omega)
        simp only [e']
        refine ⟨_, rfl, ⟨hc, ?_, g', hi'⟩, rfl, rfl, rfl, ?_⟩
        · simp only [hsz]; push_cast; ring
        · simp only
          rw [hD', hv1]
          rfl
      · have hd : Direction.Right = Direction.Right := rfl
        simp only [if_true]
        obtain ⟨h1, e1, v1⟩ := setRight_eq (h := t.heap.write t.brk
          { parent := some p, left := none, right := none, color := Color.RED, data := x })
          (a := p) (some t.brk) (by
            rw [view_write]
            simp only [hpne, if_false]
            rw [hy]; simp)
        simp only [e1]
        have hv1 : view h1 = leafR (view t.heap) t.brk p x := by
          rw [v1, view_write]
          simp only [leafR, View.mk.injEq]
          refine ⟨?_, ?_, ?_, ?_, ?_⟩ <;> (try trivial) <;> funext a <;>
            by_cases ha : a = t.brk <;> simp [ha, hpne.symm, hfree.1, hfree.2.1]
        have hi1 := leafR_inv (x := x) hi hpb hR hy hxy hhi
        rw [← hv1] at hi1
        obtain ⟨h', root', g', e', hi', hD'⟩ := fixTree_ok hc (t.brk + 2) h1 t.root _ t.brk hi1
          (by omega)
        simp only [e']
        refine ⟨_, rfl, ⟨hc, ?_, g', hi'⟩, rfl, rfl, rfl, ?_⟩
        · simp only [hsz]; push_cast; ring
        · simp only
          rw [hD', hv1]
          rfl

end RBT

namespace RBT

variable {α : Type}

@[simp]
theorem readTree_none (h : Heap α) (fuel : Nat) : readTree h fuel none = some Tree.nil := by
  cases fuel <;> rfl

theorem desc_none {v : View α} {q : Nat} : ¬ Desc v none q := by
  intro h
  cases h

theorem desc_some_iff {v : View α} {c q : Nat} :
    Desc v (some c) q ↔ q = c ∨ Desc v (v.L c) q ∨ Desc v (v.R c) q := by
  constructor
  · intro h
    cases h with
    | here => exact Or.inl rfl
    | left h => exact Or.inr (Or.inl h)
    | right h => exact Or.inr (Or.inr h)
  · rintro (rfl | h | h)
    · exact Desc.here _
    · exact Desc.left h
    · exact Desc.right h

theorem readOK_nil (cmp : α → α → Int) (g : Ghost α) (v : View α) :
    ReadOK cmp g v none Tree.nil [] where
  col := rfl
  nrr := trivial
  bal := by
    intro s hs a ha b hb
    simp only [Tree.subtrees, List.mem_singleton] at hs
    subst hs
    simp only [Tree.blackCounts, List.mem_singleton] at ha hb
    rw [ha, hb]
  cnt := by
    intro a ha
    simp only [Tree.blackCounts, List.mem_singleton] at ha
    simp [ha]
  dat := rfl
  mem := by
    intro q
    simp [desc_none]
  srt := List.Pairwise.nil
  ins := by
    intro c hc
    cases hc
  num := rfl

theorem readOK_of_none {cmp : α → α → Int} {g : Ghost α} {v : View α} {tr : Tree α}
    {al : List Nat} (h : ReadOK cmp g v none tr al) : tr.inorder = [] := by
  have h1 : al = [] := by
    apply List.eq_nil_iff_forall_not_mem.2
    intro q hq
    exact desc_none ((h.mem q).1 hq)
  have h2 := h.dat
  rw [h1] at h2
  simpa using h2

/-- Reading the tree behind a pointer succeeds, and the tree read has the
red-black and search-tree properties. -/
theorem readTree_ok {cmp : α → α → Int} (hc : IsCmp cmp) {root : Option Nat}
    {g : Ghost α} {h : Heap α} {brk : Nat} (hi : HInv cmp none root g (view h) brk) :
    ∀ (fuel : Nat) (ptr : Option Nat),
      (∀ c, ptr = some c → c < brk ∧ rank cmp g (view h) brk c ≤ fuel) →
      ∃ tr al, readTree h fuel ptr = some tr ∧ ReadOK cmp g (view h) ptr tr al := by
  intro fuel
  induction fuel with
  | zero =>
    intro ptr hptr
    cases ptr with
    | none => exact ⟨Tree.nil, [], by simp, readOK_nil _ _ _⟩
    | some c =>
      obtain ⟨h1, h2⟩ := hptr c rfl
      have := rank_pos hi h1
      omega
  | succ fuel ih =>
    intro ptr hptr
    cases ptr with
    | none => exact ⟨Tree.nil, [], by simp, readOK_nil _ _ _⟩
    | some c =>
      obtain ⟨hcb, hrk⟩ := hptr c rfl
      have hn := hi.node c hcb
      obtain ⟨n, hnn, hl, hr, -, hcol, hd⟩ := read_eq (hi.D_ne hcb)
      obtain ⟨l, all, el, okl⟩ := ih n.left (by
        intro d hd'
        rw [hl] at hd'
        have := rank_left_lt hc hi hd'
        exact ⟨hi.lt_of_P (hi.childL hd').1, by omega⟩)
      obtain ⟨r, alr, er, okr⟩ := ih n.right (by
        intro d hd'
        rw [hr] at hd'
        have := rank_right_lt hc hi hd'
        exact ⟨hi.lt_of_P (hi.childR hd').1, by omega⟩)
      rw [hl] at okl
      rw [hr] at okr
      have hxin := (inside_iff _ _ _ _).1 (hn.ins n.data hd.symm)
      -- keys on the left are smaller, keys on the right are larger
      have hlx : ∀ a ∈ l.inorder, cmp a n.data < 0 ∧
          inside cmp (g.lo c) (g.hi c) a = true := by
        intro a ha
        cases hL : (view h).L c with
        | none =>
          rw [hL] at okl
          rw [readOK_of_none okl] at ha
          cases ha
        | some d =>
          have h1 := okl.ins d hL a ha
          have h2 := inside_of_child hc hi (Or.inl hL) h1
          obtain ⟨-, -, k3, -⟩ := hi.childL hL
          rw [k3, ← hd, inside_iff] at h1
          exact ⟨by simpa using h1.2, h2⟩
      have hxr : ∀ a ∈ r.inorder, cmp n.data a < 0 ∧
          inside cmp (g.lo c) (g.hi c) a = true := by
        intro a ha
        cases hR : (view h).R c with
        | none =>
          rw [hR] at okr
          rw [readOK_of_none okr] at ha
          cases ha
        | some d =>
          have h1 := okr.ins d hR a ha
          have h2 := inside_of_child hc hi (Or.inr hR) h1
          obtain ⟨-, k2, -, -⟩ := hi.childR hR
          rw [k2, ← hd, inside_iff] at h1
          exact ⟨by simpa using h1.1, h2⟩
      have hkid : ∀ (p : Option Nat) (t : Tree α), (∀ d, p = some d → ChildOK none g (view h) c d
          (g.lo d) (g.hi d)) → some t.rootColor = ptrColor (view h) p →
          n.color = Color.RED → t.rootColor = Color.BLACK := by
        intro p t hp hcolt hred
        cases p with
        | none => simpa [ptrColor] using hcolt
        | some d =>
          have := (hp d rfl).2.2.2 (by rw [← hcol, hred]) (by simp)
          simp only [ptrColor] at hcolt
          rw [this] at hcolt
          simpa using hcolt
      have hbk : (if n.color = Color.BLACK then 1 else 0) =
          (if (view h).C c = some Color.BLACK then 1 else 0) := by
        rw [← hcol]
        simp
      refine ⟨Tree.node n.color l n.data r, all ++ c :: alr, ?_, ?_⟩
      · simp [readTree, hnn, el, er]
      · constructor
        · simpa [Tree.rootColor, ptrColor] using hcol
        · refine ⟨fun hred => ⟨?_, ?_⟩, okl.nrr, okr.nrr⟩
          · refine hkid _ l (fun d hd' => ?_) okl.col hred
            obtain ⟨k1, k2, k3, k4⟩ := hn.lft d hd'
            exact ⟨k1, rfl, rfl, k4⟩
          · refine hkid _ r (fun d hd' => ?_) okr.col hred
            obtain ⟨k1, k2, k3, k4⟩ := hn.rgt d hd'
            exact ⟨k1, rfl, rfl, k4⟩
        · intro s hs a ha b hb
          simp only [Tree.subtrees, List.mem_cons, List.mem_append] at hs
          rcases hs with rfl | hs | hs
          · simp only [Tree.blackCounts, List.mem_map, List.mem_append] at ha hb
            obtain ⟨a', ha', rfl⟩ := ha
            obtain ⟨b', hb', rfl⟩ := hb
            have e1 : a' = bhp g ((view h).L c) := by
              rcases ha' with k | k
              · exact okl.cnt a' k
              · rw [hn.bal]; exact okr.cnt a' k
            have e2 : b' = bhp g ((view h).L c) := by
              rcases hb' with k | k
              · exact okl.cnt b' k
              · rw [hn.bal]; exact okr.cnt b' k
            rw [e1, e2]
          · exact okl.bal s hs a ha b hb
          · exact okr.bal s hs a ha b hb
        · intro a ha
          simp only [Tree.blackCounts, List.mem_map, List.mem_append] at ha
          obtain ⟨a', ha', rfl⟩ := ha
          have e1 : a' = bhp g ((view h).L c) := by
            rcases ha' with k | k
            · exact okl.cnt a' k
            · rw [hn.bal]; exact okr.cnt a' k
          rw [e1, hbk, bhp_some]
          exact hn.bhe.symm
        · simp [Tree.inorder, okl.dat, okr.dat, hd]
        · intro q
          rw [desc_some_iff, List.mem_append, List.mem_cons, okl.mem, okr.mem]
          tauto
        · simp only [Tree.inorder]
          rw [List.pairwise_append]
          refine ⟨okl.srt, List.pairwise_cons.2 ⟨fun b hb => (hxr b hb).1, okr.srt⟩, ?_⟩
          intro a ha b hb
          rcases List.mem_cons.1 hb with rfl | hb
          · exact (hlx a ha).1
          · exact hc.lt_trans _ _ _ (hlx a ha).1 (hxr b hb).1
        · intro c' hc' y hy
          obtain rfl : c = c' := by simpa using hc'
          simp only [Tree.inorder, List.mem_append, List.mem_cons] at hy
          rcases hy with k | rfl | k
          · exact (hlx y k).2
          · exact hn.ins _ hd.symm
          · exact (hxr y k).2
        · simp [Tree.numNodes, okl.num, okr.num]
          omega

end RBT

namespace RBT

variable {α : Type}

/-- Function `containsRBTree` walks the same path as the descent of `addToRBTree`. -/
theorem containsLoop_eq (cmp : α → α → Int) (h : Heap α) (x : α) :
    ∀ (fuel : Nat) (cur prev : Option Nat) (dir : Direction),
      containsLoop cmp h x fuel cur =
        (descend cmp h x fuel cur prev dir).map fun r =>
          match r with
          | Descent.found => 1
          | Descent.slot _ _ => 0 := by
  intro fuel
  induction fuel with
  | zero =>
    intro cur prev dir
    cases cur <;> simp [containsLoop, descend]
  | succ fuel ih =>
    intro cur prev dir
    cases cur with
    | none => simp [containsLoop, descend]
    | some c =>
      simp only [containsLoop, descend]
      cases h c with
      | none => rfl
      | some n =>
        simp only
        split_ifs
        · exact ih _ _ _
        · exact ih _ _ _
        · rfl

/-- Function `goingThroughTreeNodes` applies the callback along the in-order sequence
of the tree read off the store. -/
theorem going_eq {σ : Type} (h : Heap α) (func : α → σ → Int × σ) :
    ∀ (fuel : Nat) (ptr : Option Nat) (tr : Tree α), readTree h fuel ptr = some tr →
      ∀ args, goingThroughTreeNodes h func fuel ptr args =
        some (tr.inorder.foldl (fun s y => (func y s).2) args) := by
  intro fuel
  induction fuel with
  | zero =>
    intro ptr tr htr args
    cases ptr with
    | none =>
      simp only [readTree_none, Option.some.injEq] at htr
      subst htr
      simp [goingThroughTreeNodes, Tree.inorder]
    | some c => simp [readTree] at htr
  | succ fuel ih =>
    intro ptr tr htr args
    cases ptr with
    | none =>
      simp only [readTree_none, Option.some.injEq] at htr
      subst htr
      simp [goingThroughTreeNodes, Tree.inorder]
    | some c =>
      simp only [readTree] at htr
      cases hn : h c with
      | none => simp [hn] at htr
      | some n =>
        simp only [hn] at htr
        cases hl : readTree h fuel n.left with
        | none => simp [hl] at htr
        | some l =>
          cases hr : readTree h fuel n.right with
          | none => simp [hl, hr] at htr
          | some r =>
            simp only [hl, hr, Option.some.injEq] at htr
            subst htr
            simp only [goingThroughTreeNodes, hn, ih _ _ hl, ih _ _ hr, Tree.inorder,
              List.foldl_append, List.foldl_cons]

theorem newRBTree_inv {cmp : α → α → Int} (hc : IsCmp cmp) : Inv (newRBTree cmp) :=
  ⟨hc, rfl, _, empty_inv cmp⟩

theorem storedFrom_length_D {l : List α} {n : Nat} {D : Nat → Option α}
    (hD : D = fun a => l[a]?) (hlen : l.length = n) (x : α) :
    (fun a => if a = n then some x else D a) = fun a => (l ++ [x])[a]? := by
  funext a
  subst hD hlen
  by_cases ha : a = l.length
  · subst ha
    simp
  · simp only [ha, if_false]
    by_cases hlt : a < l.length
    · rw [List.getElem?_append_left hlt]
    · rw [List.getElem?_eq_none (by omega), List.getElem?_eq_none (by simp; omega)]

/-- A sequence of inserts returns, keeps the invariant, and stores the
elements of `storedFrom` at consecutive addresses. -/
theorem addAll_ok {cmp : α → α → Int} :
    ∀ (xs : List α) (t : RBTree α) (acc : List α), Inv t → t.compFunc = cmp →
      ((view t.heap).D = fun a => acc[a]?) → acc.length = t.brk →
      ∃ t', addAll t xs = some t' ∧ Inv t' ∧ t'.compFunc = cmp ∧
        ((view t'.heap).D = fun a => (storedFrom cmp acc xs)[a]?) ∧
        (storedFrom cmp acc xs).length = t'.brk := by
  intro xs
  induction xs with
  | nil =>
    intro t acc hinv hcmp hD hlen
    exact ⟨t, rfl, hinv, hcmp, hD, hlen⟩
  | cons x xs ih =>
    intro t acc hinv hcmp hD hlen
    rcases addToRBTree_ok t x hinv with ⟨⟨q, y, hq, hxy⟩, e⟩ | ⟨hno, t', e, hinv', hcmp', hbrk, -, hD'⟩
    · have e := e true
      have hany : acc.any (fun y => decide (cmp x y = 0)) = true := by
        rw [List.any_eq_true]
        rw [hD] at hq
        refine ⟨y, List.getElem?_mem hq, ?_⟩
        rw [← hcmp]
        simpa using hxy
      simp only [addAll, e, storedFrom, hany, if_true]
      exact ih t acc hinv hcmp hD hlen
    · have hany : ¬ (acc.any (fun y => decide (cmp x y = 0)) = true) := by
        rw [List.any_eq_true]
        rintro ⟨y, hy, hxy⟩
        obtain ⟨i, hi, rfl⟩ := List.mem_iff_getElem.1 hy
        refine hno i acc[i] ?_ ?_
        · rw [hD]
          simp [hi]
        · rw [hcmp]
          simpa using hxy
      simp only [addAll, e, storedFrom, hany, if_false]
      refine ih t' (acc ++ [x]) hinv' (hcmp'.trans hcmp) ?_ ?_
      · rw [hD']
        exact storedFrom_length_D hD hlen x
      · simp [hlen, hbrk]

/-- Every tree built from the empty tree by `addToRBTree` calls. -/
theorem reach_ok {cmp : α → α → Int} (hc : IsCmp cmp) (xs : List α) :
    ∃ t, addAll (newRBTree cmp) xs = some t ∧ Inv t ∧ t.compFunc = cmp ∧
      ((view t.heap).D = fun a => (storedFrom cmp [] xs)[a]?) ∧
      (storedFrom cmp [] xs).length = t.brk :=
  addAll_ok xs (newRBTree cmp) [] (newRBTree_inv hc) rfl
    (by funext a; simp [view, dataOf, newRBTree]) rfl

theorem storedFrom_sub (cmp : α → α → Int) :
    ∀ (xs acc : List α) (y : α), y ∈ storedFrom cmp acc xs → y ∈ acc ∨ y ∈ xs := by
  intro xs
  induction xs with
  | nil => intro acc y hy; exact Or.inl hy
  | cons x xs ih =>
    intro acc y hy
    simp only [storedFrom] at hy
    rcases ih _ y hy with h | h
    · split_ifs at h
      · exact Or.inl h
      · rcases List.mem_append.1 h with h | h
        · exact Or.inl h
        · right
          simp only [List.mem_singleton] at h
          simp [h]
    · exact Or.inr (List.mem_cons_of_mem _ h)

theorem storedFrom_acc (cmp : α → α → Int) :
    ∀ (xs acc : List α) (y : α), y ∈ acc → y ∈ storedFrom cmp acc xs := by
  intro xs
  induction xs with
  | nil => intro acc y hy; exact hy
  | cons x xs ih =>
    intro acc y hy
    simp only [storedFrom]
    apply ih
    split_ifs
    · exact hy
    · exact List.mem_append_left _ hy

theorem storedFrom_cover {cmp : α → α → Int} (hc : IsCmp cmp) :
    ∀ (xs acc : List α) (x : α), x ∈ xs → ∃ y ∈ storedFrom cmp acc xs, cmp x y = 0 := by
  intro xs
  induction xs with
  | nil => intro acc x hx; cases hx
  | cons z xs ih =>
    intro acc x hx
    simp only [storedFrom]
    rcases List.mem_cons.1 hx with rfl | hx
    · split_ifs with hany
      · rw [List.any_eq_true] at hany
        obtain ⟨y, hy, hxy⟩ := hany
        exact ⟨y, storedFrom_acc cmp xs acc y hy, by simpa using hxy⟩
      · exact ⟨x, storedFrom_acc cmp xs _ x (by simp), hc.refl x⟩
    · exact ih _ x hx

/-- A key compares equal to a stored element iff it compares equal to one of
the inserted elements. -/
theorem stored_iff {cmp : α → α → Int} (hc : IsCmp cmp) (xs : List α) (k : α) :
    (∃ y ∈ storedFrom cmp [] xs, cmp k y = 0) ↔ ∃ x ∈ xs, cmp k x = 0 := by
  constructor
  · rintro ⟨y, hy, hky⟩
    rcases storedFrom_sub cmp xs [] y hy with h | h
    · cases h
    · exact ⟨y, h, hky⟩
  · rintro ⟨x, hx, hkx⟩
    obtain ⟨y, hy, hxy⟩ := storedFrom_cover hc xs [] x hx
    exact ⟨y, hy, hc.eq_trans hkx hxy⟩

end RBT

namespace RBT

variable {α : Type}

theorem intCmp_isCmp : IsCmp intCmp where
  antisymm a b := by unfold intCmp; omega
  lt_trans a b c := by unfold intCmp; omega
  eq_lt a b c := by unfold intCmp; omega
  lt_eq a b c := by unfold intCmp; omega

theorem range_filterMap_getElem? (l : List α) :
    (List.range l.length).filterMap (fun a => l[a]?) = l := by
  induction l using List.reverseRecOn with
  | nil => rfl
  | append_singleton l x ih =>
    rw [List.length_append, List.length_singleton, List.range_succ, List.filterMap_append]
    have h1 : (List.range l.length).filterMap (fun a => (l ++ [x])[a]?) =
        (List.range l.length).filterMap (fun a => l[a]?) := by
      apply List.filterMap_congr
      intro a ha
      rw [List.mem_range] at ha
      rw [List.getElem?_append_left ha]
    rw [h1, ih]
    simp

/-- The tree held by a tree object that satisfies the invariant. -/
theorem tree_ok (t : RBTree α) (hinv : Inv t) (stored : List α)
    (hD : (view t.heap).D = fun a => stored[a]?) (hlen : stored.length = t.brk) :
    ∃ tr, treeOf t = some tr ∧ tr.noRedRed ∧ tr.blackBalanced ∧
      tr.rootColor = Color.BLACK ∧ (∀ r, t.root = some r → (view t.heap).C r = some Color.BLACK) ∧
      tr.inorder.Pairwise (fun a b => t.compFunc a b < 0) ∧ tr.inorder.Perm stored ∧
      (tr.numNodes : Int) = t.size := by
  obtain ⟨hc, hsz, g, hi⟩ := hinv
  have hrootC : ∀ r, t.root = some r → (view t.heap).C r = some Color.BLACK := by
    intro r hr
    obtain ⟨h1, h2⟩ := hi.rootSome r hr
    rcases ((hi.node r h1).top h2).2.2.2 with k | k
    · exact k
    · simp at k
  obtain ⟨tr, al, e, ok⟩ := readTree_ok hc hi (t.brk + 1) t.root (by
    intro c hcr
    have := rank_le t.compFunc g (view t.heap) t.brk c
    exact ⟨(hi.rootSome c hcr).1, by omega⟩)
  have hmem : ∀ q, q ∈ al ↔ q < t.brk := by
    intro q
    rw [ok.mem]
    constructor
    · intro hd
      cases hroot : t.root with
      | none => rw [hroot] at hd; exact absurd hd desc_none
      | some r => exact (desc_inside hc hi hd r hroot (hi.rootSome r hroot).1).1
    · intro hq
      exact desc_root' hc hi hq
  have hnd : al.Nodup := by
    have h1 : tr.inorder.Nodup := by
      refine ok.srt.imp ?_
      intro a b hab heq
      subst heq
      exact hc.irrefl a hab
    have h2 : (tr.inorder.map some).Nodup :=
      h1.map (Option.some_injective α)
    rw [ok.dat] at h2
    exact h2.of_map _
  have hperm : al.Perm (List.range t.brk) := by
    rw [List.perm_ext_iff_of_nodup hnd (List.nodup_range _)]
    intro q
    rw [hmem, List.mem_range]
  have hin : tr.inorder = al.filterMap (view t.heap).D := by
    have : (tr.inorder.map some).filterMap id = (al.map (view t.heap).D).filterMap id := by
      rw [ok.dat]
    rw [List.filterMap_map, List.filterMap_map] at this
    simpa using this
  refine ⟨tr, e, ok.nrr, ok.bal, ?_, hrootC, ok.srt, ?_, ?_⟩
  · have := ok.col
    cases hroot : t.root with
    | none =>
      rw [hroot] at this
      simpa [ptrColor] using this
    | some r =>
      rw [hroot] at this
      simp only [ptrColor, hrootC r hroot] at this
      simpa using this
  · rw [hin]
    have := hperm.filterMap (view t.heap).D
    rw [hD, ← hlen, range_filterMap_getElem?] at this
    rw [hD]
    exact this
  · rw [ok.num, hperm.length_eq, List.length_range, hsz]

end RBT

namespace RBT

variable {α : Type}

/-- A stored key is the key of an allocated node. -/
theorem stored_D {D : Nat → Option α} {stored : List α} (hD : D = fun a => stored[a]?)
    (f : α → Prop) : (∃ q y, D q = some y ∧ f y) ↔ ∃ y ∈ stored, f y := by
  subst hD
  constructor
  · rintro ⟨q, y, hq, hf⟩
    exact ⟨y, List.getElem?_mem hq, hf⟩
  · rintro ⟨y, hy, hf⟩
    obtain ⟨i, hi⟩ := List.mem_iff_getElem?.1 hy
    exact ⟨i, y, hi, hf⟩

/-- C1: for every sequence of `addToRBTree` calls applied to an empty tree,
with a consistent three-way comparison function and every allocation
succeeding, the calls return and the resulting tree has no RED node with a
RED child. -/
theorem addAll_noRedRed {cmp : α → α → Int} (hc : IsCmp cmp) (xs : List α) :
    ∃ t tr, addAll (newRBTree cmp) xs = some t ∧ treeOf t = some tr ∧ tr.noRedRed := by
  obtain ⟨t, e, hinv, -, hD, hlen⟩ := reach_ok hc xs
  obtain ⟨tr, etr, h1, -⟩ := tree_ok t hinv _ hD hlen
  exact ⟨t, tr, e, etr, h1⟩

theorem addAll_noRedRed_witness :
    IsCmp intCmp ∧ ∃ t tr, addAll (newRBTree intCmp) [5, 1, 3, 2, 4] = some t ∧
      treeOf t = some tr ∧ tr.noRedRed :=
  ⟨intCmp_isCmp, addAll_noRedRed intCmp_isCmp [5, 1, 3, 2, 4]⟩

/-- C2: for every sequence of `addToRBTree` calls applied to an empty tree,
every path from any node of the resulting tree down to a null child
contains the same number of BLACK nodes. -/
theorem addAll_blackBalanced {cmp : α → α → Int} (hc : IsCmp cmp) (xs : List α) :
    ∃ t tr, addAll (newRBTree cmp) xs = some t ∧ treeOf t = some tr ∧ tr.blackBalanced := by
  obtain ⟨t, e, hinv, -, hD, hlen⟩ := reach_ok hc xs
  obtain ⟨tr, etr, -, h1, -⟩ := tree_ok t hinv _ hD hlen
  exact ⟨t, tr, e, etr, h1⟩

theorem addAll_blackBalanced_witness :
    IsCmp intCmp ∧ ∃ t tr, addAll (newRBTree intCmp) [5, 1, 3, 2, 4] = some t ∧
      treeOf t = some tr ∧ tr.blackBalanced :=
  ⟨intCmp_isCmp, addAll_blackBalanced intCmp_isCmp [5, 1, 3, 2, 4]⟩

/-- C3: for every sequence of `addToRBTree` calls applied to an empty tree,
the in-order sequence of the stored elements is strictly increasing under
the comparison function; in particular no two stored elements compare
equal. -/
theorem addAll_inorder_increasing {cmp : α → α → Int} (hc : IsCmp cmp) (xs : List α) :
    ∃ t tr, addAll (newRBTree cmp) xs = some t ∧ treeOf t = some tr ∧
      tr.inorder.Pairwise (fun a b => cmp a b < 0) ∧
      tr.inorder.Pairwise (fun a b => cmp a b ≠ 0) := by
  obtain ⟨t, e, hinv, hcmp, hD, hlen⟩ := reach_ok hc xs
  obtain ⟨tr, etr, -, -, -, -, h1, -⟩ := tree_ok t hinv _ hD hlen
  rw [hcmp] at h1
  exact ⟨t, tr, e, etr, h1, h1.imp (fun h => by omega)⟩

theorem addAll_inorder_increasing_witness :
    IsCmp intCmp ∧ ∃ t tr, addAll (newRBTree intCmp) [5, 1, 3, 2, 4] = some t ∧
      treeOf t = some tr ∧ tr.inorder.Pairwise (fun a b => intCmp a b < 0) ∧
      tr.inorder.Pairwise (fun a b => intCmp a b ≠ 0) :=
  ⟨intCmp_isCmp, addAll_inorder_increasing intCmp_isCmp [5, 1, 3, 2, 4]⟩

/-- C4: after every `addToRBTree` call on a tree built from the empty tree by
`addToRBTree` calls, the root node is BLACK: the node the root pointer
points to is BLACK in the store, and the tree read off the store has a
BLACK root when it is not empty. -/
theorem addAll_root_black {cmp : α → α → Int} (hc : IsCmp cmp) (xs : List α) :
    ∃ t tr, addAll (newRBTree cmp) xs = some t ∧ treeOf t = some tr ∧
      (∀ r, t.root = some r → colorOf t.heap r = some Color.BLACK) ∧
      (∀ c l x r, tr = Tree.node c l x r → c = Color.BLACK) := by
  obtain ⟨t, e, hinv, -, hD, hlen⟩ := reach_ok hc xs
  obtain ⟨tr, etr, -, -, h1, h2, -⟩ := tree_ok t hinv _ hD hlen
  refine ⟨t, tr, e, etr, h2, ?_⟩
  intro c l x r htr
  subst htr
  exact h1

theorem addAll_root_black_witness :
    IsCmp intCmp ∧ ∃ t tr, addAll (newRBTree intCmp) [5, 1, 3, 2, 4] = some t ∧
      treeOf t = some tr ∧
      (∀ r, t.root = some r → colorOf t.heap r = some Color.BLACK) ∧
      (∀ c l x r, tr = Tree.node c l x r → c = Color.BLACK) :=
  ⟨intCmp_isCmp, addAll_root_black intCmp_isCmp [5, 1, 3, 2, 4]⟩

/-- C5: for every sequence of keys inserted with `addToRBTree` into an empty
tree and every key `K`, `containsRBTree` returns, and returns non-zero if
and only if `K` compares equal to one of the inserted keys. -/
theorem contains_iff_inserted {cmp : α → α → Int} (hc : IsCmp cmp) (xs : List α) (K : α) :
    ∃ t r, addAll (newRBTree cmp) xs = some t ∧ containsRBTree t K = some r ∧
      (r ≠ 0 ↔ ∃ x ∈ xs, cmp K x = 0) := by
  obtain ⟨t, e, hinv, hcmp, hD, hlen⟩ := reach_ok hc xs
  obtain ⟨hc', -, g, hi⟩ := hinv
  have hkey := (stored_D hD (fun y => cmp K y = 0)).trans (stored_iff hc xs K)
  have hcon := containsLoop_eq t.compFunc t.heap K (t.brk + 1) t.root t.root
    Direction.NoDirection
  rcases descend_root hc' hi K with ⟨ed, hex⟩ | ⟨prev, dir, ed, -, hno⟩
  · refine ⟨t, 1, e, by rw [containsRBTree, hcon, ed]; rfl, ?_⟩
    rw [hcmp] at hex
    simp only [ne_eq, one_ne_zero, not_false_eq_true, true_iff]
    exact hkey.1 hex
  · refine ⟨t, 0, e, by rw [containsRBTree, hcon, ed]; rfl, ?_⟩
    rw [hcmp] at hno
    simp only [ne_eq, not_true_eq_false, false_iff]
    intro hx
    obtain ⟨q, y, hq, hy⟩ := hkey.2 hx
    exact hno q y hq hy

theorem contains_iff_inserted_witness :
    IsCmp intCmp ∧ ∃ t r, addAll (newRBTree intCmp) [5, 1, 3, 2, 4] = some t ∧
      containsRBTree t 3 = some r ∧ (r ≠ 0 ↔ ∃ x ∈ [5, 1, 3, 2, 4], intCmp 3 x = 0) :=
  ⟨intCmp_isCmp, contains_iff_inserted intCmp_isCmp [5, 1, 3, 2, 4] 3⟩

/-- C6: for every tree built by `addToRBTree` calls and every item that
compares equal to an inserted element, `addToRBTree` returns 0 and the
tree it leaves is the tree it was given, store, root pointer and size
included; this does not depend on whether an allocation would succeed. -/
theorem add_duplicate_unchanged {cmp : α → α → Int} (hc : IsCmp cmp) (xs : List α) (item : α)
    (mallocOk : Bool) (hdup : ∃ x ∈ xs, cmp item x = 0) :
    ∃ t, addAll (newRBTree cmp) xs = some t ∧
      addToRBTree mallocOk t item = some (t, 0) := by
  obtain ⟨t, e, hinv, hcmp, hD, hlen⟩ := reach_ok hc xs
  have hkey := (stored_D hD (fun y => cmp item y = 0)).trans (stored_iff hc xs item)
  rcases addToRBTree_ok t item hinv with ⟨-, h1⟩ | ⟨hno, -⟩
  · exact ⟨t, e, h1 mallocOk⟩
  · obtain ⟨q, y, hq, hy⟩ := hkey.2 hdup
    rw [hcmp] at hno
    exact absurd hy (hno q y hq)

theorem add_duplicate_unchanged_witness :
    IsCmp intCmp ∧ (∃ x ∈ [5, 1, 3, 2, 4], intCmp 3 x = 0) ∧
      ∃ t, addAll (newRBTree intCmp) [5, 1, 3, 2, 4] = some t ∧
        addToRBTree true t 3 = some (t, 0) :=
  ⟨intCmp_isCmp, ⟨3, by decide, by decide⟩,
    add_duplicate_unchanged intCmp_isCmp [5, 1, 3, 2, 4] 3 true ⟨3, by decide, by decide⟩⟩

/-- C7: for every tree built by `addToRBTree` calls the size field equals the
number of nodes of the tree, and for every item that compares equal to no
inserted element (allocation succeeding) `addToRBTree` returns the
non-zero success value and the size field grows by exactly one. -/
theorem add_new_size {cmp : α → α → Int} (hc : IsCmp cmp) (xs : List α) (item : α) :
    ∃ t tr, addAll (newRBTree cmp) xs = some t ∧ treeOf t = some tr ∧
      t.size = tr.numNodes ∧
      ((∀ x ∈ xs, cmp item x ≠ 0) →
        ∃ t' tr', addToRBTree true t item = some (t', 1) ∧ t'.size = t.size + 1 ∧
          treeOf t' = some tr' ∧ t'.size = tr'.numNodes) := by
  obtain ⟨t, e, hinv, hcmp, hD, hlen⟩ := reach_ok hc xs
  obtain ⟨tr, etr, -, -, -, -, -, -, hnum⟩ := tree_ok t hinv _ hD hlen
  refine ⟨t, tr, e, etr, hnum.symm, ?_⟩
  intro hnew
  have hkey := (stored_D hD (fun y => cmp item y = 0)).trans (stored_iff hc xs item)
  rcases addToRBTree_ok t item hinv with ⟨hex, -⟩ | ⟨-, t', e', hinv', -, hbrk, hsz, hD'⟩
  · rw [hcmp] at hex
    obtain ⟨x, hx, hxe⟩ := hkey.1 hex
    exact absurd hxe (hnew x hx)
  · have hD2 := hD'
    rw [storedFrom_length_D hD hlen item] at hD2
    obtain ⟨tr', etr', -, -, -, -, -, -, hnum'⟩ := tree_ok t' hinv' _ hD2 (by simp [hlen, hbrk])
    exact ⟨t', tr', e', hsz, etr', hnum'.symm⟩

theorem add_new_size_witness :
    IsCmp intCmp ∧ ∃ t tr, addAll (newRBTree intCmp) [5, 1, 3, 2, 4] = some t ∧
      treeOf t = some tr ∧ t.size = tr.numNodes ∧
      ((∀ x ∈ [5, 1, 3, 2, 4], intCmp 7 x ≠ 0) →
        ∃ t' tr', addToRBTree true t 7 = some (t', 1) ∧ t'.size = t.size + 1 ∧
          treeOf t' = some tr' ∧ t'.size = tr'.numNodes) :=
  ⟨intCmp_isCmp, add_new_size intCmp_isCmp [5, 1, 3, 2, 4] 7⟩

/-- C8: for every tree built by `addToRBTree` calls and every non-null
callback, `forEachRBTree` returns success after applying the callback to
the stored elements one after the other in strictly ascending order, each
stored element exactly once, whatever the callback returns; after
inserting 5, 1, 3, 2, 4 a callback that always returns 0 sees 1, 2, 3, 4, 5. -/
theorem forEach_ascending {cmp : α → α → Int} (hc : IsCmp cmp) (xs : List α) {σ : Type}
    (func : α → σ → Int × σ) (args : σ) :
    (∃ (t : RBTree α) (l : List α), addAll (newRBTree cmp) xs = some t ∧ l.Perm (storedFrom cmp [] xs) ∧
      l.Pairwise (fun a b => cmp a b < 0) ∧
      forEachRBTree (some t) (some func) args =
        some (1, l.foldl (fun s y => (func y s).2) args)) ∧
    (addAll (newRBTree intCmp) [5, 1, 3, 2, 4]).bind
        (fun t => forEachRBTree (some t) (some (fun y (s : List Int) => (0, s ++ [y]))) []) =
      some (1, [1, 2, 3, 4, 5]) := by
  refine ⟨?_, by decide⟩
  obtain ⟨t, e, hinv, hcmp, hD, hlen⟩ := reach_ok hc xs
  obtain ⟨tr, etr, -, -, -, -, hsrt, hperm, -⟩ := tree_ok t hinv _ hD hlen
  rw [hcmp] at hsrt
  refine ⟨t, tr.inorder, e, hperm, hsrt, ?_⟩
  simp only [forEachRBTree, going_eq t.heap func (t.brk + 1) t.root tr etr args]
  rfl

theorem forEach_ascending_witness :
    IsCmp intCmp ∧
    ((∃ (t : RBTree Int) (l : List Int), addAll (newRBTree intCmp) [5, 1, 3, 2, 4] = some t ∧
      l.Perm (storedFrom intCmp [] [5, 1, 3, 2, 4]) ∧
      l.Pairwise (fun a b => intCmp a b < 0) ∧
      forEachRBTree (some t) (some (fun y (s : List Int) => ((0 : Int), s ++ [y]))) [] =
        some (1, l.foldl (fun s y => s ++ [y]) [])) ∧
    (addAll (newRBTree intCmp) [5, 1, 3, 2, 4]).bind
        (fun t => forEachRBTree (some t) (some (fun y (s : List Int) => (0, s ++ [y]))) []) =
      some (1, [1, 2, 3, 4, 5])) :=
  ⟨intCmp_isCmp, forEach_ascending intCmp_isCmp [5, 1, 3, 2, 4] _ []⟩

end RBT

namespace RBT

variable {α : Type}

/-- C26: inserting the keys 10, 20, 30 in that order into an empty tree with the
integer comparison leaves size 3 and a tree whose root holds 20, whose left
child holds 10 and whose right child holds 30, both children without
children of their own. -/
theorem insert_10_20_30_shape :
    (addAll (newRBTree intCmp) [10, 20, 30]).map (fun t => t.size) = some 3 ∧
    (addAll (newRBTree intCmp) [10, 20, 30]).bind (fun t => t.root.bind (dataOf t.heap)) =
      some 20 ∧
    ((addAll (newRBTree intCmp) [10, 20, 30]).bind treeOf).map Tree.numNodes = some 3 ∧
    ∃ c0 c1 c2, (addAll (newRBTree intCmp) [10, 20, 30]).bind treeOf =
      some (Tree.node c0 (Tree.node c1 Tree.nil 10 Tree.nil) 20
        (Tree.node c2 Tree.nil 30 Tree.nil)) :=
  ⟨by decide, by decide, by decide, Color.BLACK, Color.RED, Color.RED, by decide⟩

/-- C27 as amended: after inserting the keys 10, 20, 30 in that order into an
empty tree the root 20 is BLACK and its two children 10 and 30 are RED. -/
theorem insert_10_20_30_colors :
    (addAll (newRBTree intCmp) [10, 20, 30]).bind treeOf =
      some (Tree.node Color.BLACK (Tree.node Color.RED Tree.nil 10 Tree.nil) 20
        (Tree.node Color.RED Tree.nil 30 Tree.nil)) := by
  decide

/-- C27 as stated fails: after inserting 10, 20, 30 the nodes holding 10 and 30
(the first and the third node allocated) are RED in the store, and the tree
is not the tree with three BLACK nodes. -/
theorem insert_10_20_30_not_all_black :
    (addAll (newRBTree intCmp) [10, 20, 30]).map
        (fun t => (dataOf t.heap 0, colorOf t.heap 0, dataOf t.heap 2, colorOf t.heap 2)) =
      some (some 10, some Color.RED, some 30, some Color.RED) ∧
    (addAll (newRBTree intCmp) [10, 20, 30]).bind treeOf ≠
      some (Tree.node Color.BLACK (Tree.node Color.BLACK Tree.nil 10 Tree.nil) 20
        (Tree.node Color.BLACK Tree.nil 30 Tree.nil)) :=
  ⟨by decide, by decide⟩

/-- C28: `forEachRBTree` returns 0 and leaves the callback's state untouched
when the tree argument is null and when the callback argument is null; on
every tree built by `addToRBTree` calls with a callback that is not null it
returns, and whenever it returns for a tree and a callback that are not
null the value is the non-zero success indicator. -/
theorem forEach_null_arguments {cmp : α → α → Int} (hc : IsCmp cmp) (xs : List α) {σ : Type}
    (func : Option (α → σ → Int × σ)) (f : α → σ → Int × σ) (args : σ) :
    forEachRBTree (none : Option (RBTree α)) func args = some (0, args) ∧
    (∀ t : RBTree α, forEachRBTree (some t) (none : Option (α → σ → Int × σ)) args =
      some (0, args)) ∧
    (∃ t s, addAll (newRBTree cmp) xs = some t ∧
      forEachRBTree (some t) (some f) args = some (1, s)) ∧
    (∀ (t : RBTree α) (r : Int × σ), forEachRBTree (some t) (some f) args = some r →
      r.1 = 1 ∧ r.1 ≠ 0) := by
  refine ⟨rfl, fun _ => rfl, ?_, ?_⟩
  · obtain ⟨t, e, hinv, -, hD, hlen⟩ := reach_ok hc xs
    obtain ⟨tr, etr, -⟩ := tree_ok t hinv _ hD hlen
    refine ⟨t, tr.inorder.foldl (fun s y => (f y s).2) args, e, ?_⟩
    simp only [forEachRBTree, going_eq t.heap f (t.brk + 1) t.root tr etr args]
    rfl
  · intro t r h
    simp only [forEachRBTree] at h
    cases hg : goingThroughTreeNodes t.heap f (t.brk + 1) t.root args with
    | none => rw [hg] at h; cases h
    | some s =>
      rw [hg] at h
      cases h
      refine ⟨rfl, ?_⟩
      show (1 : Int) ≠ 0
      decide

theorem forEach_null_arguments_witness :
    IsCmp intCmp ∧
    (forEachRBTree (none : Option (RBTree Int))
        (some (fun y (s : List Int) => ((0 : Int), s ++ [y]))) [] = some (0, []) ∧
    (∀ t : RBTree Int, forEachRBTree (some t)
        (none : Option (Int → List Int → Int × List Int)) [] = some (0, [])) ∧
    (∃ t s, addAll (newRBTree intCmp) [5, 1, 3, 2, 4] = some t ∧
      forEachRBTree (some t) (some (fun y (s : List Int) => ((0 : Int), s ++ [y]))) [] =
        some (1, s)) ∧
    (∀ (t : RBTree Int) (r : Int × List Int),
      forEachRBTree (some t) (some (fun y (s : List Int) => ((0 : Int), s ++ [y]))) [] =
        some r → r.1 = 1 ∧ r.1 ≠ 0)) :=
  ⟨intCmp_isCmp, forEach_null_arguments intCmp_isCmp [5, 1, 3, 2, 4]
    (some (fun y (s : List Int) => ((0 : Int), s ++ [y])))
    (fun y (s : List Int) => ((0 : Int), s ++ [y])) []⟩

/-- C29 fails on the code: on the tree built by inserting 1, 2, 3 a callback that
returns 0 at every activation and appends the element to its log is still
activated on all three elements, so the log is 1, 2, 3 and not just 1, and the
call returns success. -/
theorem forEach_ignores_zero_return :
    (addAll (newRBTree intCmp) [1, 2, 3]).bind
        (fun t => forEachRBTree (some t)
          (some (fun y (s : List Int) => ((0 : Int), s ++ [y]))) []) =
      some (1, [1, 2, 3]) := by
  decide

end RBT

namespace RBT

variable {α : Type}

/-- Under the store invariant a node is allocated exactly below `brk`. -/
theorem HInv.alloc_lt {cmp : α → α → Int} {focus root : Option Nat} {g : Ghost α} {h : Heap α}
    {brk : Nat} (hi : HInv cmp focus root g (view h) brk) {a : Nat}
    (ha : (h a).isSome = true) : a < brk := by
  by_contra hge
  have hD := (hi.free a (by omega)).2.2.2.2
  simp only [view, dataOf] at hD
  cases hh : h a with
  | none => rw [hh] at ha; cases ha
  | some n => rw [hh] at hD; cases hD

/-- A node that has a link is allocated. -/
theorem alloc_of_bind {h : Heap α} {a c : Nat} {sel : Node α → Option Nat}
    (hl : (h a).bind sel = some c) : (h a).isSome = true := by
  cases hh : h a with
  | none => rw [hh] at hl; cases hl
  | some n => rfl

/-- A strictly increasing list without the key splits into the elements
below the key and the elements above it. -/
theorem split_sorted {cmp : α → α → Int} (hc : IsCmp cmp) (item : α) :
    ∀ l : List α, l.Pairwise (fun a b => cmp a b < 0) → (∀ y ∈ l, cmp item y ≠ 0) →
      ∃ l1 l2, l = l1 ++ l2 ∧ (∀ y ∈ l1, cmp y item < 0) ∧ (∀ y ∈ l2, cmp item y < 0) := by
  intro l
  induction l with
  | nil =>
    intro _ _
    exact ⟨[], [], rfl, by simp, by simp⟩
  | cons a l ih =>
    intro hs hne
    rw [List.pairwise_cons] at hs
    by_cases ha : cmp a item < 0
    · obtain ⟨l1, l2, e, h1, h2⟩ := ih hs.2 (fun y hy => hne y (List.mem_cons_of_mem _ hy))
      refine ⟨a :: l1, l2, by rw [e]; rfl, ?_, h2⟩
      intro y hy
      rcases List.mem_cons.1 hy with rfl | hy
      · exact ha
      · exact h1 y hy
    · have hia : cmp item a < 0 := by
        have h1 : ¬ 0 < cmp item a := fun h => ha ((hc.antisymm a item).2 h)
        have h2 := hne a (List.mem_cons_self _ _)
        omega
      refine ⟨[], a :: l, rfl, by simp, ?_⟩
      intro y hy
      rcases List.mem_cons.1 hy with rfl | hy
      · exact hia
      · exact hc.lt_trans _ _ _ hia (hs.1 y hy)

/-- Two strictly increasing lists with the same elements are equal. -/
theorem sorted_perm_eq {cmp : α → α → Int} (hc : IsCmp cmp) {l1 l2 : List α}
    (hp : l1.Perm l2) (h1 : l1.Pairwise (fun a b => cmp a b < 0))
    (h2 : l2.Pairwise (fun a b => cmp a b < 0)) : l1 = l2 := by
  haveI : IsAntisymm α (fun a b => cmp a b < 0) :=
    ⟨fun a b hab hba => absurd hba (hc.asymm hab)⟩
  exact List.eq_of_perm_of_sorted hp h1 h2

/-- C39: in every tree built by `addToRBTree` calls from the empty tree the
root is an allocated node whose parent link is null; the parent link of a
node points to an allocated node that has it as its left or right child;
the node behind a left or right link has its parent link pointing back; and
an allocated node without parent is the root of the tree. -/
theorem parent_links_consistent {cmp : α → α → Int} (hc : IsCmp cmp) (xs : List α) :
    ∃ t, addAll (newRBTree cmp) xs = some t ∧
      (∀ r, t.root = some r → (t.heap r).isSome = true ∧ parentOf t.heap r = none) ∧
      (∀ a p, parentOf t.heap a = some p →
        (t.heap p).isSome = true ∧ (leftOf t.heap p = some a ∨ rightOf t.heap p = some a)) ∧
      (∀ a c, leftOf t.heap a = some c ∨ rightOf t.heap a = some c →
        (t.heap c).isSome = true ∧ parentOf t.heap c = some a) ∧
      (∀ a, (t.heap a).isSome = true → parentOf t.heap a = none → t.root = some a) := by
  obtain ⟨t, e, ⟨-, -, g, hi⟩, -, -, -⟩ := reach_ok hc xs
  refine ⟨t, e, ?_, ?_, ?_, ?_⟩
  · intro r hr
    obtain ⟨h1, h2⟩ := hi.rootSome r hr
    refine ⟨?_, h2⟩
    obtain ⟨x, hx⟩ := (hi.used r h1).1
    simp only [view, dataOf] at hx
    cases hh : t.heap r with
    | none => rw [hh] at hx; cases hx
    | some n => rfl
  · intro a p hp
    have ha : a < t.brk := hi.alloc_lt (alloc_of_bind hp)
    have h1 := (hi.node a ha).par p hp
    refine ⟨?_, h1⟩
    rcases h1 with h1 | h1
    · exact alloc_of_bind h1
    · exact alloc_of_bind h1
  · intro a c hl
    have ha : a < t.brk := by
      rcases hl with hl | hl
      · exact hi.alloc_lt (alloc_of_bind hl)
      · exact hi.alloc_lt (alloc_of_bind hl)
    have hp : parentOf t.heap c = some a := by
      rcases hl with hl | hl
      · exact ((hi.node a ha).lft c hl).1
      · exact ((hi.node a ha).rgt c hl).1
    exact ⟨alloc_of_bind hp, hp⟩
  · intro a ha hp
    exact ((hi.node a (hi.alloc_lt ha)).top hp).1

theorem parent_links_consistent_witness :
    IsCmp intCmp ∧
    ∃ t, addAll (newRBTree intCmp) [5, 1, 3, 2, 4] = some t ∧
      (∀ r, t.root = some r → (t.heap r).isSome = true ∧ parentOf t.heap r = none) ∧
      (∀ a p, parentOf t.heap a = some p →
        (t.heap p).isSome = true ∧ (leftOf t.heap p = some a ∨ rightOf t.heap p = some a)) ∧
      (∀ a c, leftOf t.heap a = some c ∨ rightOf t.heap a = some c →
        (t.heap c).isSome = true ∧ parentOf t.heap c = some a) ∧
      (∀ a, (t.heap a).isSome = true → parentOf t.heap a = none → t.root = some a) :=
  ⟨intCmp_isCmp, parent_links_consistent intCmp_isCmp [5, 1, 3, 2, 4]⟩

/-- C33: for every tree built by `addToRBTree` calls and every item that
compares equal to no inserted element (allocation succeeding), `addToRBTree`
returns success and the in-order sequence of the tree after the call is the
in-order sequence before it with the item put between the elements below it
and the elements above it: no element is added besides the item, none is
dropped and none changes place. -/
theorem add_inserts_at_sorted_position {cmp : α → α → Int} (hc : IsCmp cmp) (xs : List α)
    (item : α) (hnew : ∀ x ∈ xs, cmp item x ≠ 0) :
    ∃ t tr t' tr' l1 l2, addAll (newRBTree cmp) xs = some t ∧ treeOf t = some tr ∧
      addToRBTree true t item = some (t', 1) ∧ treeOf t' = some tr' ∧
      tr.inorder = l1 ++ l2 ∧ tr'.inorder = l1 ++ item :: l2 ∧
      (∀ y ∈ l1, cmp y item < 0) ∧ (∀ y ∈ l2, cmp item y < 0) := by
  obtain ⟨t, e, hinv, hcmp, hD, hlen⟩ := reach_ok hc xs
  obtain ⟨tr, etr, -, -, -, -, hsrt, hperm, -⟩ := tree_ok t hinv _ hD hlen
  have hkey := (stored_D hD (fun y => cmp item y = 0)).trans (stored_iff hc xs item)
  rcases addToRBTree_ok t item hinv with ⟨hex, -⟩ | ⟨-, t', e', hinv', hcmp', hbrk, -, hD'⟩
  · rw [hcmp] at hex
    obtain ⟨x, hx, hxe⟩ := hkey.1 hex
    exact absurd hxe (hnew x hx)
  · have hD2 := hD'
    rw [storedFrom_length_D hD hlen item] at hD2
    obtain ⟨tr', etr', -, -, -, -, hsrt', hperm', -⟩ :=
      tree_ok t' hinv' _ hD2 (by simp [hlen, hbrk])
    rw [hcmp', hcmp] at hsrt'
    rw [hcmp] at hsrt
    have habs : ∀ y ∈ tr.inorder, cmp item y ≠ 0 := by
      intro y hy hy0
      obtain ⟨x, hx, hxe⟩ := (stored_iff hc xs item).1 ⟨y, hperm.subset hy, hy0⟩
      exact hnew x hx hxe
    obtain ⟨l1, l2, el, h1, h2⟩ := split_sorted hc item tr.inorder hsrt habs
    refine ⟨t, tr, t', tr', l1, l2, e, etr, e', etr', el, ?_, h1, h2⟩
    apply sorted_perm_eq hc _ hsrt'
    · rw [el, List.pairwise_append] at hsrt
      rw [List.pairwise_append, List.pairwise_cons]
      refine ⟨hsrt.1, ⟨h2, hsrt.2.1⟩, ?_⟩
      intro a ha b hb
      rcases List.mem_cons.1 hb with rfl | hb
      · exact h1 a ha
      · exact hsrt.2.2 a ha b hb
    · have p1 : (l1 ++ item :: l2).Perm (item :: (l1 ++ l2)) := List.perm_middle
      have p2 : (item :: (l1 ++ l2)).Perm (storedFrom cmp [] xs ++ [item]) := by
        rw [← el]
        exact ((List.Perm.cons item hperm).trans (List.perm_append_singleton _ _).symm)
      exact ((p1.trans p2).trans hperm'.symm).symm

theorem add_inserts_at_sorted_position_witness :
    IsCmp intCmp ∧ (∀ x ∈ ([5, 1, 3, 2, 6] : List Int), intCmp 4 x ≠ 0) ∧
    ∃ t tr t' tr' l1 l2, addAll (newRBTree intCmp) [5, 1, 3, 2, 6] = some t ∧
      treeOf t = some tr ∧
      addToRBTree true t 4 = some (t', 1) ∧ treeOf t' = some tr' ∧
      tr.inorder = l1 ++ l2 ∧ tr'.inorder = l1 ++ 4 :: l2 ∧
      (∀ y ∈ l1, intCmp y 4 < 0) ∧ (∀ y ∈ l2, intCmp 4 y < 0) :=
  ⟨intCmp_isCmp, by decide,
    add_inserts_at_sorted_position intCmp_isCmp [5, 1, 3, 2, 6] 4 (by decide)⟩

end RBT

namespace RBT

variable {α : Type}

/-- Every tree has a path down to a null child. -/
theorem blackCounts_ne_nil : ∀ tr : Tree α, tr.blackCounts ≠ []
  | Tree.nil => by simp [Tree.blackCounts]
  | Tree.node c l x r => by
    have := blackCounts_ne_nil l
    simp [Tree.blackCounts, this]

/-- A tree is one of its own subtrees. -/
theorem self_mem_subtrees (tr : Tree α) : tr ∈ tr.subtrees := by
  cases tr <;> simp [Tree.subtrees]

/-- The height is at most the number of nodes. -/
theorem height_le_numNodes : ∀ tr : Tree α, tr.height ≤ tr.numNodes
  | Tree.nil => by simp [Tree.height, Tree.numNodes]
  | Tree.node c l x r => by
    have h1 := height_le_numNodes l
    have h2 := height_le_numNodes r
    simp only [Tree.height, Tree.numNodes]
    omega

/-- A tree without RED node below a RED node whose paths all hold `k` BLACK
nodes has at least `2 ^ k - 1` nodes and height at most `2 * k`, plus one
when its root is RED. -/
theorem height_black_bound : ∀ (tr : Tree α) (k : Nat), tr.noRedRed →
    (∀ a ∈ tr.blackCounts, a = k) →
    2 ^ k ≤ tr.numNodes + 1 ∧
      tr.height ≤ 2 * k + (if tr.rootColor = Color.RED then 1 else 0)
  | Tree.nil, k, _, hk => by
    have : (0 : Nat) = k := hk 0 (by simp [Tree.blackCounts])
    subst this
    simp [Tree.height, Tree.numNodes]
  | Tree.node c l x r, k, hn, hk => by
    obtain ⟨hred, hnl, hnr⟩ := hn
    obtain ⟨al, hal⟩ := List.exists_mem_of_ne_nil _ (blackCounts_ne_nil l)
    cases c with
    | BLACK =>
      have hk1 : ∀ a, a ∈ l.blackCounts ∨ a ∈ r.blackCounts → a + 1 = k := by
        intro a ha
        apply hk
        simp only [Tree.blackCounts, if_true, List.mem_map, List.mem_append]
        exact ⟨a, ha, rfl⟩
      have hpos : k = (k - 1) + 1 := by
        have := hk1 al (Or.inl hal)
        omega
      obtain ⟨l1, l2⟩ := height_black_bound l (k - 1) hnl (fun a ha => by
        have := hk1 a (Or.inl ha)
        omega)
      obtain ⟨r1, r2⟩ := height_black_bound r (k - 1) hnr (fun a ha => by
        have := hk1 a (Or.inr ha)
        omega)
      have hpow : 2 ^ k = 2 * 2 ^ (k - 1) := by
        conv_lhs => rw [hpos]
        rw [pow_succ]
        omega
      have hl3 : (if l.rootColor = Color.RED then 1 else 0) ≤ 1 := by split_ifs <;> omega
      have hr3 : (if r.rootColor = Color.RED then 1 else 0) ≤ 1 := by split_ifs <;> omega
      simp only [Tree.height, Tree.numNodes, Tree.rootColor]
      refine ⟨by omega, ?_⟩
      have hne : ¬ (Color.BLACK = Color.RED) := by decide
      rw [if_neg hne]
      have := max_le (a := l.height) (b := r.height) (c := 2 * (k - 1) + 1) (by omega) (by omega)
      omega
    | RED =>
      have hk1 : ∀ a, a ∈ l.blackCounts ∨ a ∈ r.blackCounts → a = k := by
        intro a ha
        apply hk
        have hne : ¬ (Color.RED = Color.BLACK) := by decide
        simp only [Tree.blackCounts, if_neg hne, List.mem_map, List.mem_append]
        exact ⟨a, ha, rfl⟩
      obtain ⟨hcl, hcr⟩ := hred rfl
      obtain ⟨l1, l2⟩ := height_black_bound l k hnl (fun a ha => hk1 a (Or.inl ha))
      obtain ⟨r1, r2⟩ := height_black_bound r k hnr (fun a ha => hk1 a (Or.inr ha))
      have hne : ¬ (Color.BLACK = Color.RED) := by decide
      rw [hcl, if_neg hne] at l2
      rw [hcr, if_neg hne] at r2
      simp only [Tree.height, Tree.numNodes, Tree.rootColor, if_true]
      refine ⟨by omega, ?_⟩
      have := max_le (a := l.height) (b := r.height) (c := 2 * k) (by omega) (by omega)
      omega

/-- More fuel does not change what the loop of `containsRBTree` returns. -/
theorem containsLoop_mono (cmp : α → α → Int) (h : Heap α) (x : α) :
    ∀ (fuel : Nat) (ptr : Option Nat) (r : Int), containsLoop cmp h x fuel ptr = some r →
      ∀ fuel', fuel ≤ fuel' → containsLoop cmp h x fuel' ptr = some r := by
  intro fuel
  induction fuel with
  | zero =>
    intro ptr r hr fuel' _
    cases ptr with
    | none =>
      cases fuel' <;> simpa [containsLoop] using hr
    | some c => simp [containsLoop] at hr
  | succ fuel ih =>
    intro ptr r hr fuel' hle
    cases ptr with
    | none =>
      cases fuel' <;> simpa [containsLoop] using hr
    | some c =>
      obtain ⟨f, rfl⟩ : ∃ f, fuel' = f + 1 := ⟨fuel' - 1, by omega⟩
      simp only [containsLoop] at hr ⊢
      cases hh : h c with
      | none => rw [hh] at hr; cases hr
      | some n =>
        rw [hh] at hr
        simp only at hr ⊢
        split_ifs at hr ⊢ with h1 h2
        · exact ih _ r hr f (by omega)
        · exact ih _ r hr f (by omega)
        · exact hr

/-- The loop of `containsRBTree` returns within as many rounds as the tree
behind the pointer is high. -/
theorem containsLoop_height (cmp : α → α → Int) (h : Heap α) (x : α) :
    ∀ (fuel : Nat) (ptr : Option Nat) (tr : Tree α), readTree h fuel ptr = some tr →
      ∃ r, containsLoop cmp h x tr.height ptr = some r := by
  intro fuel
  induction fuel with
  | zero =>
    intro ptr tr htr
    cases ptr with
    | none =>
      simp only [readTree, Option.some.injEq] at htr
      subst htr
      exact ⟨0, by simp [containsLoop]⟩
    | some c => simp [readTree] at htr
  | succ fuel ih =>
    intro ptr tr htr
    cases ptr with
    | none =>
      simp only [readTree, Option.some.injEq] at htr
      subst htr
      exact ⟨0, by simp [containsLoop]⟩
    | some c =>
      simp only [readTree] at htr
      cases hh : h c with
      | none => rw [hh] at htr; cases htr
      | some n =>
        rw [hh] at htr
        simp only at htr
        cases hl : readTree h fuel n.left with
        | none => rw [hl] at htr; cases htr
        | some l =>
          cases hr : readTree h fuel n.right with
          | none => rw [hl, hr] at htr; cases htr
          | some r =>
            rw [hl, hr] at htr
            simp only [Option.some.injEq] at htr
            subst htr
            obtain ⟨rl, hrl⟩ := ih n.left l hl
            obtain ⟨rr, hrr⟩ := ih n.right r hr
            have e : (Tree.node n.color l n.data r).height = max l.height r.height + 1 := by
              simp only [Tree.height]
              omega
            rw [e]
            simp only [containsLoop, hh]
            split_ifs
            · exact ⟨rr, containsLoop_mono cmp h x _ _ rr hrr _ (le_max_right _ _)⟩
            · exact ⟨rl, containsLoop_mono cmp h x _ _ rl hrl _ (le_max_left _ _)⟩
            · exact ⟨1, rfl⟩

/-- C35: for every tree built by `addToRBTree` calls from the empty tree, with
`n` the number of its nodes (the value of its size field) and `h` its height
(the number of nodes on the longest path from the root down to a null
child): `2 ^ ⌈h / 2⌉ ≤ n + 1` and `h ≤ 2 * ⌊log2 (n + 1)⌋`; and for every key
the loop of `containsRBTree`, which compares once per round, returns within
`h` rounds, hence within `2 * ⌊log2 (n + 1)⌋` rounds, with the result of
`containsRBTree`. -/
theorem height_logarithmic {cmp : α → α → Int} (hc : IsCmp cmp) (xs : List α) (K : α) :
    ∃ t tr r, addAll (newRBTree cmp) xs = some t ∧ treeOf t = some tr ∧
      (tr.numNodes : Int) = t.size ∧
      2 ^ ((tr.height + 1) / 2) ≤ tr.numNodes + 1 ∧
      tr.height ≤ 2 * Nat.log 2 (tr.numNodes + 1) ∧
      containsLoop t.compFunc t.heap K tr.height t.root = some r ∧
      containsLoop t.compFunc t.heap K (2 * Nat.log 2 (tr.numNodes + 1)) t.root = some r ∧
      containsRBTree t K = some r := by
  obtain ⟨t, e, hinv, hcmp, hD, hlen⟩ := reach_ok hc xs
  obtain ⟨tr, etr, hnrr, hbal, hroot, -, -, -, hnum⟩ := tree_ok t hinv _ hD hlen
  obtain ⟨k, hk⟩ := List.exists_mem_of_ne_nil _ (blackCounts_ne_nil tr)
  have hall : ∀ a ∈ tr.blackCounts, a = k :=
    fun a ha => hbal tr (self_mem_subtrees tr) a ha k hk
  obtain ⟨h1, h2⟩ := height_black_bound tr k hnrr hall
  have hne : ¬ (Color.BLACK = Color.RED) := by decide
  rw [hroot, if_neg hne, add_zero] at h2
  have hlog : k ≤ Nat.log 2 (tr.numNodes + 1) :=
    Nat.le_log_of_pow_le (by decide) h1
  have hh : tr.height ≤ 2 * Nat.log 2 (tr.numNodes + 1) := by omega
  obtain ⟨r, hr⟩ := containsLoop_height t.compFunc t.heap K (t.brk + 1) t.root tr etr
  have hsz : t.size = t.brk := hinv.2.1
  have hbrk : tr.height ≤ t.brk + 1 := by
    have := height_le_numNodes tr
    have h3 : (tr.numNodes : Int) = (t.brk : Int) := hnum.trans hsz
    omega
  refine ⟨t, tr, r, e, etr, hnum, ?_, hh, hr, ?_, ?_⟩
  · calc 2 ^ ((tr.height + 1) / 2) ≤ 2 ^ k := Nat.pow_le_pow_right (by decide) (by omega)
      _ ≤ tr.numNodes + 1 := h1
  · exact containsLoop_mono _ _ _ _ _ r hr _ hh
  · exact containsLoop_mono _ _ _ _ _ r hr _ hbrk

theorem height_logarithmic_witness :
    IsCmp intCmp ∧
    ∃ t tr r, addAll (newRBTree intCmp) [5, 1, 3, 2, 4] = some t ∧ treeOf t = some tr ∧
      (tr.numNodes : Int) = t.size ∧
      2 ^ ((tr.height + 1) / 2) ≤ tr.numNodes + 1 ∧
      tr.height ≤ 2 * Nat.log 2 (tr.numNodes + 1) ∧
      containsLoop t.compFunc t.heap 3 tr.height t.root = some r ∧
      containsLoop t.compFunc t.heap 3 (2 * Nat.log 2 (tr.numNodes + 1)) t.root = some r ∧
      containsRBTree t 3 = some r :=
  ⟨intCmp_isCmp, height_logarithmic intCmp_isCmp [5, 1, 3, 2, 4] 3⟩

end RBT

namespace RBT

variable {α : Type}

/-- One activation of `fixTree` is its body with the recursive call. -/
theorem fixTree_succ (fuel : Nat) (h : Heap α) (root N : Option Nat) :
    fixTree (fuel + 1) h root N = fixTreeBody (fixTree fuel) h root N := rfl

/-- Recolouring an allocated node returns and keeps the parent links and the
set of allocated addresses. -/
theorem setColor_keep {h : Heap α} {a : Nat} {n : Node α} (ha : h a = some n) (c : Color) :
    ∃ h', setColor h a c = some h' ∧ parentOf h' = parentOf h ∧
      ∀ b, (h' b).isSome = (h b).isSome := by
  refine ⟨h.write a { n with color := c }, by simp [setColor, ha], ?_, ?_⟩
  · funext b
    by_cases hb : b = a
    · subst hb
      simp [parentOf, Heap.write, ha]
    · simp [parentOf, Heap.write, hb]
  · intro b
    by_cases hb : b = a
    · subst hb
      simp [Heap.write, ha]
    · simp [Heap.write, hb]

/-- The depth of a node only depends on the parent links. -/
theorem Depth.congr {v v' : View α} (hP : v'.P = v.P) {a d : Nat} (hd : Depth v a d) :
    Depth v' a d := by
  induction hd with
  | root h0 => exact Depth.root (by rw [hP]; exact h0)
  | step h1 _ ih => exact Depth.step (by rw [hP]; exact h1) ih

/-- The parent of a node of depth `d` has depth `d - 1`. -/
theorem Depth.of_parent {v : View α} {a p d : Nat} (hd : Depth v a d) (hp : v.P a = some p) :
    ∃ d', d = d' + 1 ∧ Depth v p d' := by
  cases hd with
  | root h0 => rw [h0] at hp; cases hp
  | step h1 h2 =>
    rw [h1] at hp
    cases hp
    exact ⟨_, rfl, h2⟩

/-- An activation of `fixTree` whose check fails returns at once. -/
theorem body_fail (call : Heap α → Option Nat → Option Nat → Option (Heap α × Option Nat))
    {h h1 : Heap α} (root : Option Nat) {N : Option Nat}
    (hcheck : noRotationsAndNullNodesCheck h N = some (h1, FAILURE_INDICATOR)) :
    fixTreeBody call h root N = some (h1, root) := by
  simp only [fixTreeBody, hcheck, Option.bind_eq_bind, Option.some_bind, if_true]
  rfl

/-- An activation of `fixTree` whose check does not return does not return. -/
theorem body_none (call : Heap α → Option Nat → Option Nat → Option (Heap α × Option Nat))
    {h : Heap α} (root : Option Nat) {N : Option Nat}
    (hcheck : noRotationsAndNullNodesCheck h N = none) :
    fixTreeBody call h root N = none := by
  simp only [fixTreeBody, hcheck, Option.bind_eq_bind, Option.none_bind]

/-- One activation of `fixTree` either makes no recursive call, or ends in
one recursive call on the grandparent of its node, in a store with the same
parent links. -/
theorem fixTreeBody_cases (h : Heap α) (root : Option Nat) (N : Nat) :
    (∃ res, ∀ call, fixTreeBody call h root (some N) = res) ∨
    ∃ P G h', parentOf h N = some P ∧ parentOf h P = some G ∧ parentOf h' = parentOf h ∧
      ∀ call, fixTreeBody call h root (some N) = call h' root (some G) := by
  have hne : ¬ (SUCCESS_INDICATOR = FAILURE_INDICATOR) := by
    simp [SUCCESS_INDICATOR, FAILURE_INDICATOR]
  cases hN : h N with
  | none =>
    left
    exact ⟨none, fun call => body_none call root (by simp [noRotationsAndNullNodesCheck, hN])⟩
  | some nn =>
    cases hp : nn.parent with
    | none =>
      left
      obtain ⟨h1, e1, -, -⟩ := setColor_keep hN Color.BLACK
      exact ⟨some (h1, root), fun call => body_fail call root
        (by simp [noRotationsAndNullNodesCheck, hN, hp, e1])⟩
    | some P =>
      cases hP : h P with
      | none =>
        left
        exact ⟨none, fun call => body_none call root
          (by simp [noRotationsAndNullNodesCheck, hN, hp, hP])⟩
      | some pn =>
        cases hpc : pn.color with
        | BLACK =>
          left
          exact ⟨some (h, root), fun call => body_fail call root
            (by simp [noRotationsAndNullNodesCheck, hN, hp, hP, hpc])⟩
        | RED =>
          cases hpp : pn.parent with
          | none =>
            left
            exact ⟨some (h, root), fun call => body_fail call root
              (by simp [noRotationsAndNullNodesCheck, hN, hp, hP, hpc, hpp])⟩
          | some G =>
            have hcheck : noRotationsAndNullNodesCheck h (some N) =
                some (h, SUCCESS_INDICATOR) := by
              simp [noRotationsAndNullNodesCheck, hN, hp, hP, hpc, hpp]
            have hbody : ∀ call, fixTreeBody call h root (some N) =
                (h G).bind fun gn =>
                  (match if gn.left = some P then gn.right else gn.left with
                    | none => some none
                    | some u => (h u).map fun (un : Node α) => some un.color).bind fun uncleColor =>
                  if uncleColor = none ∨ uncleColor = some Color.BLACK then
                    (firstRotation h N P G).bind fun r =>
                      if r.2 = SUCCESS_INDICATOR then secondRotation r.1 root P N G
                      else secondRotation r.1 root N P G
                  else if uncleColor = some Color.RED then
                    (setColor h P Color.BLACK).bind fun h1 =>
                      (if gn.left = some P then gn.right else gn.left).bind fun u =>
                        (setColor h1 u Color.BLACK).bind fun h2 =>
                          (setColor h2 G Color.RED).bind fun h3 => call h3 root (some G)
                  else some (h, root) := by
              intro call
              simp only [fixTreeBody, hcheck, Option.bind_eq_bind, Option.some_bind, hne,
                if_false, hN, hp, hP, hpp, hpc, if_true]
              rfl
            cases hG : h G with
            | none =>
              left
              exact ⟨none, fun call => by rw [hbody, hG]; rfl⟩
            | some gn =>
              cases hU : (if gn.left = some P then gn.right else gn.left) with
              | none =>
                left
                refine ⟨fixTreeBody (fun _ _ _ => none) h root (some N), fun call => ?_⟩
                rw [hbody, hbody, hG]
                simp only [Option.some_bind, hU, true_or, if_true]
              | some U =>
                cases hUn : h U with
                | none =>
                  left
                  refine ⟨none, fun call => ?_⟩
                  rw [hbody, hG]
                  simp only [Option.some_bind, hU, hUn, Option.map_none', Option.none_bind]
                | some un =>
                  cases huc : un.color with
                  | BLACK =>
                    left
                    refine ⟨fixTreeBody (fun _ _ _ => none) h root (some N), fun call => ?_⟩
                    rw [hbody, hbody, hG]
                    simp only [Option.some_bind, hU, hUn, Option.map_some', huc, or_true,
                      if_true]
                  | RED =>
                    right
                    obtain ⟨h1, e1, p1, a1⟩ := setColor_keep hP Color.BLACK
                    obtain ⟨n1, hn1⟩ := Option.isSome_iff_exists.1
                      ((a1 U).trans (by rw [hUn]; rfl))
                    obtain ⟨h2, e2, p2, a2⟩ := setColor_keep hn1 Color.BLACK
                    obtain ⟨n2, hn2⟩ := Option.isSome_iff_exists.1
                      (((a2 G).trans (a1 G)).trans (by rw [hG]; rfl))
                    obtain ⟨h3, e3, p3, -⟩ := setColor_keep hn2 Color.RED
                    refine ⟨P, G, h3, by simp [parentOf, hN, hp], by simp [parentOf, hP, hpp],
                      by rw [p3, p2, p1], fun call => ?_⟩
                    rw [hbody, hG]
                    have hnr : ¬ (some Color.RED = none ∨
                        some Color.RED = some Color.BLACK) := by simp
                    simp only [Option.some_bind, hU, hUn, Option.map_some', huc, hnr, if_false,
                      if_true, e1, e2, e3]

/-- The recursion of `fixTree` from a node of depth `d` is at most `d / 2 + 1`
activations deep: more fuel does not change the result. -/
theorem fixTree_stable : ∀ (d N : Nat) (h : Heap α) (root : Option Nat),
    Depth (view h) N d → ∀ fuel, d / 2 < fuel →
      fixTree fuel h root (some N) = fixTree (d / 2 + 1) h root (some N) := by
  intro d
  induction d using Nat.strong_induction_on with
  | _ d ih =>
    intro N h root hd fuel hf
    obtain ⟨f, rfl⟩ : ∃ f, fuel = f + 1 := ⟨fuel - 1, by omega⟩
    rw [fixTree_succ, fixTree_succ]
    rcases fixTreeBody_cases h root N with ⟨res, hres⟩ | ⟨P, G, h', hP, hG, hpar, hcall⟩
    · rw [hres, hres]
    · rw [hcall, hcall]
      obtain ⟨d1, e1, hd1⟩ := hd.of_parent hP
      obtain ⟨d2, e2, hd2⟩ := hd1.of_parent hG
      have hd' : Depth (view h') G d2 := hd2.congr hpar
      have hlt : d2 < d := by omega
      have h1 := ih d2 hlt G h' root hd' f (by omega)
      have h2 : d / 2 = d2 / 2 + 1 := by omega
      rw [h1, h2]

/-- Under the store invariant every allocated node has a depth. -/
theorem depth_exists {cmp : α → α → Int} (hc : IsCmp cmp) {focus root : Option Nat}
    {g : Ghost α} {v : View α} {brk : Nat} (hi : HInv cmp focus root g v brk) :
    ∀ (n a : Nat), a < brk → brk - rank cmp g v brk a ≤ n → ∃ d, Depth v a d := by
  intro n
  induction n with
  | zero =>
    intro a ha hle
    cases hp : v.P a with
    | none => exact ⟨0, Depth.root hp⟩
    | some p =>
      have h1 := rank_parent_lt hc hi hp
      have h2 := rank_le cmp g v brk p
      omega
  | succ n ih =>
    intro a ha hle
    cases hp : v.P a with
    | none => exact ⟨0, Depth.root hp⟩
    | some p =>
      have h1 := rank_parent_lt hc hi hp
      have hpb : p < brk := by
        rcases hi.parent hp with h3 | h3
        · exact hi.lt_of_L h3
        · exact hi.lt_of_R h3
      obtain ⟨d, hd⟩ := ih p hpb (by omega)
      exact ⟨d + 1, Depth.step hp hd⟩

/-- C34: for every store, every root pointer and every node `N` from which
the parent links lead in `d` steps to a node without parent, `fixTree` on `N`
terminates: its recursion is at most `d / 2 + 1` activations deep, so every
fuel above `d / 2` gives the same result; one activation either makes no
recursive call or ends in one recursive call on the grandparent of `N`,
whose depth is `d - 2`; when the store satisfies the invariant of the tree
with `N` the freshly linked RED node, `fixTree` returns a result; and in a
store that satisfies the invariant every allocated node has such a depth. -/
theorem fixTree_terminates (h : Heap α) (root : Option Nat) (N d : Nat)
    (hd : Depth (view h) N d) :
    (∀ fuel, d / 2 < fuel →
      fixTree fuel h root (some N) = fixTree (d / 2 + 1) h root (some N)) ∧
    (∀ fuel, fixTree (fuel + 1) h root (some N) =
      fixTreeBody (fixTree fuel) h root (some N)) ∧
    ((∃ res, ∀ call, fixTreeBody call h root (some N) = res) ∨
      ∃ P G h' d', parentOf h N = some P ∧ parentOf h P = some G ∧
        d = d' + 2 ∧ Depth (view h') G d' ∧
        ∀ call, fixTreeBody call h root (some N) = call h' root (some G)) ∧
    (∀ (cmp : α → α → Int) (g : Ghost α) (brk : Nat), IsCmp cmp →
      HInv cmp (some N) root g (view h) brk →
      ∃ res, fixTree (d / 2 + 1) h root (some N) = some res) ∧
    (∀ (cmp : α → α → Int) (focus : Option Nat) (g : Ghost α) (brk : Nat), IsCmp cmp →
      HInv cmp focus root g (view h) brk → ∀ a, a < brk → ∃ k, Depth (view h) a k) := by
  refine ⟨fixTree_stable d N h root hd, fun fuel => rfl, ?_, ?_,
    fun cmp focus g brk hc hi a ha => depth_exists hc hi brk a ha (Nat.sub_le _ _)⟩
  · rcases fixTreeBody_cases h root N with hres | ⟨P, G, h', hP, hG, hpar, hcall⟩
    · exact Or.inl hres
    · right
      obtain ⟨d1, e1, hd1⟩ := hd.of_parent hP
      obtain ⟨d2, e2, hd2⟩ := hd1.of_parent hG
      exact ⟨P, G, h', d2, hP, hG, by omega, hd2.congr hpar, hcall⟩
  · intro cmp g brk hc hi
    obtain ⟨h', root', -, e, -, -⟩ :=
      fixTree_ok hc (brk + d / 2 + 1) h root g N hi (by omega)
    rw [fixTree_stable d N h root hd (brk + d / 2 + 1) (by omega)] at e
    exact ⟨_, e⟩

theorem fixTree_terminates_witness :
    Depth (view chainHeap) 3 2 ∧
    (∀ fuel, 2 / 2 < fuel →
      fixTree fuel chainHeap (some 0) (some 3) =
        fixTree (2 / 2 + 1) chainHeap (some 0) (some 3)) ∧
    (∀ fuel, fixTree (fuel + 1) chainHeap (some 0) (some 3) =
      fixTreeBody (fixTree fuel) chainHeap (some 0) (some 3)) ∧
    ((∃ res, ∀ call, fixTreeBody call chainHeap (some 0) (some 3) = res) ∨
      ∃ P G h' d', parentOf chainHeap 3 = some P ∧ parentOf chainHeap P = some G ∧
        2 = d' + 2 ∧ Depth (view h') G d' ∧
        ∀ call, fixTreeBody call chainHeap (some 0) (some 3) = call h' (some 0) (some G)) ∧
    (∀ (cmp : Int → Int → Int) (g : Ghost Int) (brk : Nat), IsCmp cmp →
      HInv cmp (some 3) (some 0) g (view chainHeap) brk →
      ∃ res, fixTree (2 / 2 + 1) chainHeap (some 0) (some 3) = some res) ∧
    (∀ (cmp : Int → Int → Int) (focus : Option Nat) (g : Ghost Int) (brk : Nat), IsCmp cmp →
      HInv cmp focus (some 0) g (view chainHeap) brk →
      ∀ a, a < brk → ∃ k, Depth (view chainHeap) a k) :=
  ⟨Depth.step (rfl : (view chainHeap).P 3 = some 1)
      (Depth.step (rfl : (view chainHeap).P 1 = some 0)
        (Depth.root (rfl : (view chainHeap).P 0 = none))),
    fixTree_terminates chainHeap (some 0) 3 2
      (Depth.step (rfl : (view chainHeap).P 3 = some 1)
        (Depth.step (rfl : (view chainHeap).P 1 = some 0)
          (Depth.root (rfl : (view chainHeap).P 0 = none))))⟩

end RBT

namespace HMap

variable {K V : Type}

theorem idx_lt (hash : K → Int) {cap : Nat} (hcap : 1 ≤ cap) (key : K) : idx hash cap key < cap := by
  have : idx hash cap key ≤ cap - 1 := Nat.and_le_right
  omega

theorem WF.cap_pos {hash : K → Int} {m : HashMap K V} (h : WF hash m) : 1 ≤ m.hashMapCapacity := by
  obtain ⟨j, hj⟩ := h.pow
  rw [hj]
  exact Nat.one_le_two_pow

/-- The linear scan of a bucket finds the place of the first pair that
`find?` returns. -/
theorem scan_spec (p : K × V → Bool) :
    ∀ (l : List (K × V)),
      (l.findIdx? p = none ∧ l.find? p = none) ∨
      (∃ i x, l.findIdx? p = some i ∧ l[i]? = some x ∧ l.find? p = some x) := by
  intro l
  induction l with
  | nil => left; simp
  | cons a l ih =>
    by_cases hpa : p a = true
    · right
      exact ⟨0, a, by simp [List.findIdx?_cons, hpa], by simp, by simp [hpa]⟩
    · rcases ih with ⟨h1, h2⟩ | ⟨i, x, h1, h2, h3⟩
      · left
        refine ⟨?_, by simp [List.find?_cons, hpa, h2]⟩
        rw [List.findIdx?_cons]
        simp only [hpa, Bool.false_eq_true, if_false]
        rw [List.findIdx?_succ, h1]
        rfl
      · right
        refine ⟨i + 1, x, ?_, by simpa using h2, by simp [List.find?_cons, hpa, h3]⟩
        rw [List.findIdx?_cons]
        simp only [hpa, Bool.false_eq_true, if_false]
        rw [List.findIdx?_succ, h1]
        rfl

theorem getElemIndex_spec [DecidableEq K] (m : HashMap K V) (i : Nat) (key : K) :
    (_getElemIndexInSuitedVec m i key = -1 ∧
      (m.vectorsArray.getD i []).find? (fun p => decide (p.1 = key)) = none) ∨
    (∃ (j : Nat) (x : K × V), _getElemIndexInSuitedVec m i key = (j : Int) ∧
      (m.vectorsArray.getD i [])[j]? = some x ∧
      (m.vectorsArray.getD i []).find? (fun p => decide (p.1 = key)) = some x) := by
  unfold _getElemIndexInSuitedVec
  generalize m.vectorsArray.getD i [] = b
  rcases scan_spec (fun p : K × V => decide (p.1 = key)) b with ⟨h1, h2⟩ | ⟨j, x, h1, h2, h3⟩
  · left
    rw [h1]
    exact ⟨rfl, h2⟩
  · right
    rw [h1]
    exact ⟨j, x, rfl, h2, h3⟩

theorem containsKey_eq [DecidableEq K] (hash : K → Int) (m : HashMap K V) (key : K) :
    containsKey hash m key = (lookup hash m key).isSome := by
  unfold containsKey lookup
  simp only
  rcases getElemIndex_spec m (_hashFunction hash m key) key with ⟨h1, h2⟩ | ⟨j, x, h1, -, h3⟩
  · rw [h1]
    unfold _hashFunction at h2
    unfold idx
    rw [h2]
    rfl
  · rw [h1]
    unfold _hashFunction at h3
    unfold idx
    rw [h3]
    have : ¬ ((j : Int) = -1) := by omega
    simp [this]

theorem constSubscript_eq [DecidableEq K] (hash : K → Int) (m : HashMap K V) (key : K) :
    constSubscript hash m key = lookup hash m key := by
  unfold constSubscript lookup
  simp only
  rcases getElemIndex_spec m (_hashFunction hash m key) key with ⟨h1, h2⟩ | ⟨j, x, h1, h2, h3⟩
  · rw [h1]
    unfold _hashFunction at h2
    unfold idx
    rw [h2]
    rfl
  · rw [h1]
    unfold _hashFunction at h2 h3 ⊢
    unfold idx
    rw [h3]
    have : ¬ ((j : Int) < 0) := by omega
    rw [if_neg this, Int.toNat_ofNat, h2]

/-- Function `at` returns the value the bucket of the key holds for it, and throws when
there is none. -/
theorem atKey_eq [DecidableEq K] (hash : K → Int) (m : HashMap K V) (key : K) :
    atKey hash m key = lookup hash m key := by
  unfold atKey
  rw [containsKey_eq, constSubscript_eq]
  cases lookup hash m key <;> simp

theorem find_iff_mem [DecidableEq K] {l : List (K × V)} (hnd : (l.map Prod.fst).Nodup) (key : K)
    (v : V) : (l.find? (fun p => decide (p.1 = key))).map Prod.snd = some v ↔ (key, v) ∈ l := by
  induction l with
  | nil => simp
  | cons a l ih =>
    rw [List.map_cons, List.nodup_cons] at hnd
    by_cases ha : a.1 = key
    · simp only [List.find?_cons, ha, decide_True, Option.map_some', Option.some.injEq,
        List.mem_cons]
      constructor
      · intro h
        left
        rw [← h, ← ha]
      · rintro (h | h)
        · rw [← h]
        · exfalso
          apply hnd.1
          rw [ha]
          exact List.mem_map.2 ⟨(key, v), h, rfl⟩
    · simp only [List.find?_cons, ha, decide_False, List.mem_cons]
      rw [ih hnd.2]
      constructor
      · exact Or.inr
      · rintro (h | h)
        · exfalso
          apply ha
          rw [← h]
        · exact h

theorem lookup_iff [DecidableEq K] {hash : K → Int} {m : HashMap K V} (h : WF hash m) (key : K)
    (v : V) : lookup hash m key = some v ↔
      (key, v) ∈ m.vectorsArray.getD (idx hash m.hashMapCapacity key) [] :=
  find_iff_mem (h.nodup _) key v

/-- Under the invariant a pair is stored in some bucket exactly when the
bucket of its key holds it. -/
theorem lookup_iff_any [DecidableEq K] {hash : K → Int} {m : HashMap K V} (h : WF hash m)
    (key : K) (v : V) : lookup hash m key = some v ↔
      ∃ i, (key, v) ∈ m.vectorsArray.getD i [] := by
  rw [lookup_iff h]
  constructor
  · intro hm
    exact ⟨_, hm⟩
  · rintro ⟨i, hm⟩
    have := h.place i _ hm
    simp only at this
    rw [this]
    exact hm

theorem getD_replicate_nil (n i : Nat) :
    (List.replicate n ([] : List (K × V))).getD i [] = [] := by
  rw [List.getD_eq_getElem?_getD, List.getElem?_replicate]
  split <;> rfl

theorem new_wf (hash : K → Int) : WF hash (new : HashMap K V) where
  len := by simp [new]
  pow := ⟨4, rfl⟩
  place := by
    intro i p hp
    rw [show (new : HashMap K V).vectorsArray = List.replicate 16 [] from rfl,
      getD_replicate_nil] at hp
    cases hp
  nodup := by
    intro i
    rw [show (new : HashMap K V).vectorsArray = List.replicate 16 [] from rfl,
      getD_replicate_nil]
    exact List.nodup_nil
  count := by simp [new]

theorem lookup_new [DecidableEq K] (hash : K → Int) (key : K) :
    lookup hash (new : HashMap K V) key = none := by
  unfold lookup
  rw [show (new : HashMap K V).vectorsArray = List.replicate 16 [] from rfl,
    getD_replicate_nil]
  rfl

end HMap

namespace HMap

variable {K V : Type}

theorem getD_set (arr : List (List (K × V))) (i j : Nat) (b : List (K × V)) :
    (arr.set i b).getD j [] = if j = i ∧ i < arr.length then b else arr.getD j [] := by
  rw [List.getD_eq_getElem?_getD, List.getD_eq_getElem?_getD, List.getElem?_set]
  by_cases hij : i = j
  · subst hij
    by_cases hlt : i < arr.length
    · simp [hlt]
    · simp [hlt, List.getElem?_eq_none (Nat.le_of_not_lt hlt)]
  · have : ¬ (j = i ∧ i < arr.length) := fun h => hij h.1.symm
    simp [hij, this]

theorem sum_length_set (arr : List (List (K × V))) (i : Nat) (b : List (K × V))
    (hi : i < arr.length) :
    ((arr.set i b).map List.length).sum + (arr.getD i []).length =
      (arr.map List.length).sum + b.length := by
  induction arr generalizing i with
  | nil => simp at hi
  | cons a arr ih =>
    cases i with
    | zero => simp; omega
    | succ i =>
      simp only [List.length_cons, Nat.add_lt_add_iff_right] at hi
      have := ih i hi
      simp only [List.set_cons_succ, List.map_cons, List.sum_cons, List.getD_cons_succ]
      omega

/-- Replacing one bucket by a bucket that holds only keys of its index, each
once, keeps the invariant when the element count follows. -/
theorem WF.set_bucket {hash : K → Int} {m : HashMap K V} (h : WF hash m) (i : Nat)
    (b : List (K × V)) (n : Int) (hi : i < m.hashMapCapacity)
    (hplace : ∀ p ∈ b, idx hash m.hashMapCapacity p.1 = i)
    (hnd : (b.map Prod.fst).Nodup)
    (hn : n + (m.vectorsArray.getD i []).length = m.numOfElements + b.length) :
    WF hash { m with vectorsArray := m.vectorsArray.set i b, numOfElements := n } where
  len := by simp [h.len]
  pow := h.pow
  place := by
    intro j p hp
    simp only [getD_set] at hp
    split_ifs at hp with hc
    · rw [hc.1]
      exact hplace p hp
    · exact h.place j p hp
  nodup := by
    intro j
    simp only [getD_set]
    split_ifs
    · exact hnd
    · exact h.nodup j
  count := by
    have := sum_length_set m.vectorsArray i b (by rw [h.len]; exact hi)
    have hc := h.count
    simp only
    omega

theorem lookup_set_bucket [DecidableEq K] {hash : K → Int} {m : HashMap K V} (h : WF hash m)
    (i : Nat) (b : List (K × V)) (n : Int) (hi : i < m.hashMapCapacity) (key : K) :
    lookup hash { m with vectorsArray := m.vectorsArray.set i b, numOfElements := n } key =
      if idx hash m.hashMapCapacity key = i
      then (b.find? (fun p => decide (p.1 = key))).map Prod.snd
      else lookup hash m key := by
  unfold lookup
  simp only [getD_set, h.len, hi, and_true]
  split_ifs <;> rfl

end HMap

namespace HMap

variable {K V : Type}

theorem mem_flatten_iff_getD (B : List (List (K × V))) (p : K × V) :
    p ∈ B.flatten ↔ ∃ i, p ∈ B.getD i [] := by
  rw [List.mem_flatten]
  constructor
  · rintro ⟨l, hl, hp⟩
    obtain ⟨i, hi, rfl⟩ := List.mem_iff_getElem.1 hl
    exact ⟨i, by rw [List.getD_eq_getElem _ _ hi]; exact hp⟩
  · rintro ⟨i, hp⟩
    by_cases hi : i < B.length
    · rw [List.getD_eq_getElem _ _ hi] at hp
      exact ⟨B[i], List.getElem_mem hi, hp⟩
    · rw [List.getD_eq_default _ _ (Nat.le_of_not_lt hi)] at hp
      cases hp

theorem range_map_getD (B : List (List (K × V))) :
    (List.range B.length).map (fun i => B.getD i []) = B := by
  apply List.ext_getElem
  · simp
  · intro i h1 h2
    simp only [List.getElem_map, List.getElem_range]
    exact List.getD_eq_getElem _ _ h2

/-- The double loop of `_rehashing` visits the pairs in the order of the
concatenated buckets. -/
theorem range_foldl_eq {β : Type} (B : List (List (K × V))) (f : β → K × V → β) (init : β) :
    (List.range B.length).foldl (fun tmp i => (B.getD i []).foldl f tmp) init =
      B.flatten.foldl f init := by
  rw [List.foldl_flatten]
  conv_rhs => rw [← range_map_getD B]
  rw [List.foldl_map]

/-- Pushing the pairs of a list into the buckets of their indices appends to
each bucket the pairs of its index, in their order. -/
theorem foldl_pushBack (idxOf : K → Nat) :
    ∀ (all : List (K × V)) (acc : List (List (K × V))),
      (∀ p ∈ all, idxOf p.1 < acc.length) →
      (all.foldl (fun tmp p => pushBack tmp (idxOf p.1) p) acc).length = acc.length ∧
      (∀ j, (all.foldl (fun tmp p => pushBack tmp (idxOf p.1) p) acc).getD j [] =
        acc.getD j [] ++ all.filter (fun p => decide (idxOf p.1 = j))) ∧
      ((all.foldl (fun tmp p => pushBack tmp (idxOf p.1) p) acc).map List.length).sum =
        (acc.map List.length).sum + all.length := by
  intro all
  induction all with
  | nil =>
    intro acc _
    simp
  | cons a all ih =>
    intro acc hall
    have ha : idxOf a.1 < acc.length := hall a (List.mem_cons_self _ _)
    have hlen : (pushBack acc (idxOf a.1) a).length = acc.length := by simp [pushBack]
    obtain ⟨h1, h2, h3⟩ := ih (pushBack acc (idxOf a.1) a) (by
      intro p hp
      rw [hlen]
      exact hall p (List.mem_cons_of_mem _ hp))
    simp only [List.foldl_cons]
    refine ⟨by rw [h1, hlen], ?_, ?_⟩
    · intro j
      rw [h2 j]
      simp only [pushBack, getD_set, ha, and_true]
      by_cases hj : j = idxOf a.1
      · subst hj
        simp
      · have : ¬ (idxOf a.1 = j) := fun e => hj e.symm
        simp [hj, this]
    · rw [h3]
      have := sum_length_set acc (idxOf a.1) (acc.getD (idxOf a.1) [] ++ [a]) ha
      have e : pushBack acc (idxOf a.1) a =
          acc.set (idxOf a.1) (acc.getD (idxOf a.1) [] ++ [a]) := rfl
      rw [e]
      simp only [List.length_append, List.length_singleton, List.length_cons,
        List.length_nil] at this ⊢
      omega

/-- The keys of all buckets together are pairwise different. -/
theorem WF.nodup_flatten {hash : K → Int} {m : HashMap K V} (h : WF hash m) :
    (m.vectorsArray.flatten.map Prod.fst).Nodup := by
  rw [List.map_flatten, List.nodup_flatten]
  constructor
  · intro l hl
    obtain ⟨b, hb, rfl⟩ := List.mem_map.1 hl
    obtain ⟨i, hi, rfl⟩ := List.mem_iff_getElem.1 hb
    have := h.nodup i
    rw [List.getD_eq_getElem _ _ hi] at this
    exact this
  · rw [List.pairwise_map, List.pairwise_iff_getElem]
    intro i j hi hj hij
    intro k hk1 hk2
    obtain ⟨p, hp, rfl⟩ := List.mem_map.1 hk1
    obtain ⟨q, hq, hqp⟩ := List.mem_map.1 hk2
    have e1 := h.place i p (by rw [List.getD_eq_getElem _ _ hi]; exact hp)
    have e2 := h.place j q (by rw [List.getD_eq_getElem _ _ hj]; exact hq)
    rw [hqp] at e2
    omega

theorem rehashing_buckets (hash : K → Int) (m : HashMap K V) (newSize : Nat)
    (hlen : m.vectorsArray.length = m.hashMapCapacity) (hpos : 1 ≤ newSize) :
    (_rehashing hash m newSize).hashMapCapacity = newSize ∧
    (_rehashing hash m newSize).numOfElements = m.numOfElements ∧
    (_rehashing hash m newSize).vectorsArray.length = newSize ∧
    (∀ j, (_rehashing hash m newSize).vectorsArray.getD j [] =
      m.vectorsArray.flatten.filter (fun p => decide (idx hash newSize p.1 = j))) ∧
    (((_rehashing hash m newSize).vectorsArray.map List.length).sum =
      m.vectorsArray.flatten.length) := by
  have hfold := foldl_pushBack (V := V) (idx hash newSize) m.vectorsArray.flatten
    (List.replicate newSize []) (by
      intro p _
      rw [List.length_replicate]
      exact idx_lt hash hpos _)
  have heq : (_rehashing hash m newSize).vectorsArray =
      m.vectorsArray.flatten.foldl (fun tmp p => pushBack tmp (idx hash newSize p.1) p)
        (List.replicate newSize []) := by
    unfold _rehashing
    simp only
    rw [← hlen]
    exact range_foldl_eq m.vectorsArray _ _
  refine ⟨rfl, rfl, ?_, ?_, ?_⟩
  · rw [heq, hfold.1, List.length_replicate]
  · intro j
    rw [heq, hfold.2.1 j, getD_replicate_nil, List.nil_append]
  · rw [heq, hfold.2.2]
    simp

/-- Function `_rehashing` keeps the invariant. -/
theorem rehashing_wf {hash : K → Int} {m : HashMap K V} (h : WF hash m) (newSize : Nat)
    (hpow : ∃ j, newSize = 2 ^ j) : WF hash (_rehashing hash m newSize) := by
  have hpos : 1 ≤ newSize := by
    obtain ⟨j, hj⟩ := hpow
    rw [hj]
    exact Nat.one_le_two_pow
  obtain ⟨h1, h2, h3, h4, h5⟩ := rehashing_buckets hash m newSize h.len hpos
  refine ⟨by rw [h3, h1], by rw [h1]; exact hpow, ?_, ?_, ?_⟩
  · intro i p hp
    rw [h4, List.mem_filter] at hp
    rw [h1]
    simpa using hp.2
  · intro i
    rw [h4]
    exact h.nodup_flatten.sublist ((List.filter_sublist _).map _)
  · rw [h2, h5, h.count, List.length_flatten]

/-- Function `_rehashing` keeps the value of every key. -/
theorem rehashing_lookup [DecidableEq K] {hash : K → Int} {m : HashMap K V} (h : WF hash m)
    (newSize : Nat) (hpow : ∃ j, newSize = 2 ^ j) (key : K) :
    lookup hash (_rehashing hash m newSize) key = lookup hash m key := by
  have hpos : 1 ≤ newSize := by
    obtain ⟨j, hj⟩ := hpow
    rw [hj]
    exact Nat.one_le_two_pow
  obtain ⟨h1, -, -, h4, -⟩ := rehashing_buckets hash m newSize h.len hpos
  apply Option.ext
  intro v
  simp only [Option.mem_def]
  rw [lookup_iff (rehashing_wf h newSize hpow), lookup_iff_any h, h4, List.mem_filter,
    mem_flatten_iff_getD, h1]
  simp

end HMap

namespace HMap

variable {K V : Type}

theorem find_set [DecidableEq K] (v : V) (key : K) :
    ∀ (b : List (K × V)) (j : Nat) (x : K × V), b[j]? = some x → (b.map Prod.fst).Nodup →
      (b.set j (x.1, v)).find? (fun p => decide (p.1 = key)) =
        if key = x.1 then some (x.1, v) else b.find? (fun p => decide (p.1 = key)) := by
  intro b
  induction b with
  | nil => intro j x h; simp at h
  | cons a b ih =>
    intro j x h hnd
    cases j with
    | zero =>
      simp only [List.getElem?_cons_zero, Option.some.injEq] at h
      subst h
      simp only [List.set_cons_zero, List.find?_cons]
      by_cases hk : key = a.1
      · simp [hk]
      · have : ¬ (a.1 = key) := fun e => hk e.symm
        simp [hk, this]
    | succ j =>
      simp only [List.getElem?_cons_succ] at h
      simp only [List.map_cons, List.nodup_cons] at hnd
      have hx : x.1 ∈ b.map Prod.fst := List.mem_map.2 ⟨x, List.getElem?_mem h, rfl⟩
      have hax : a.1 ≠ x.1 := fun e => hnd.1 (e ▸ hx)
      simp only [List.set_cons_succ, List.find?_cons]
      by_cases hk : a.1 = key
      · have : ¬ (key = x.1) := fun e => hax (hk.trans e)
        simp [hk, this]
      · simp only [hk, decide_False]
        exact ih j x h hnd.2

theorem map_fst_set (v : V) :
    ∀ (b : List (K × V)) (j : Nat) (x : K × V), b[j]? = some x →
      (b.set j (x.1, v)).map Prod.fst = b.map Prod.fst := by
  intro b
  induction b with
  | nil => intro j x h; simp at h
  | cons a b ih =>
    intro j x h
    cases j with
    | zero =>
      simp only [List.getElem?_cons_zero, Option.some.injEq] at h
      subst h
      simp
    | succ j =>
      simp only [List.getElem?_cons_succ] at h
      simp only [List.set_cons_succ, List.map_cons, ih j x h]

theorem find_eraseP [DecidableEq K] (k key : K) :
    ∀ (b : List (K × V)), (b.map Prod.fst).Nodup →
      (b.eraseP (fun p => decide (p.1 = k))).find? (fun p => decide (p.1 = key)) =
        if key = k then none else b.find? (fun p => decide (p.1 = key)) := by
  intro b
  induction b with
  | nil => intro _; simp
  | cons a b ih =>
    intro hnd
    simp only [List.map_cons, List.nodup_cons] at hnd
    by_cases hak : a.1 = k
    · have he : (a :: b).eraseP (fun p => decide (p.1 = k)) = b := by
        simp [List.eraseP_cons, hak]
      rw [he]
      by_cases hk : key = k
      · rw [if_pos hk]
        rw [List.find?_eq_none]
        intro p hp
        have : p.1 ∈ b.map Prod.fst := List.mem_map.2 ⟨p, hp, rfl⟩
        have : p.1 ≠ a.1 := fun e => hnd.1 (e ▸ this)
        simp only [decide_eq_true_eq]
        intro e
        exact this (by rw [e, hk, hak])
      · rw [if_neg hk]
        have : ¬ (a.1 = key) := fun e => hk (e.symm.trans hak)
        simp [List.find?_cons, this]
    · have he : (a :: b).eraseP (fun p => decide (p.1 = k)) =
          a :: b.eraseP (fun p => decide (p.1 = k)) := by
        simp [List.eraseP_cons, hak]
      rw [he]
      simp only [List.find?_cons]
      by_cases hk : a.1 = key
      · have : ¬ (key = k) := fun e => hak (hk.trans e)
        simp [hk, this]
      · simp only [hk, decide_False]
        exact ih hnd.2

theorem find_append_single [DecidableEq K] (k key : K) (d : V) (b : List (K × V))
    (hb : b.find? (fun p => decide (p.1 = k)) = none) :
    (b ++ [(k, d)]).find? (fun p => decide (p.1 = key)) =
      if key = k then some (k, d) else b.find? (fun p => decide (p.1 = key)) := by
  rw [List.find?_append]
  by_cases hk : key = k
  · subst hk
    rw [hb, if_pos rfl]
    simp
  · rw [if_neg hk]
    have : ¬ (k = key) := fun e => hk e.symm
    simp [List.find?_cons, this]

/-- Changing nothing but a bucket and the count. -/
theorem lookup_update [DecidableEq K] {hash : K → Int} {m : HashMap K V} (h : WF hash m)
    (k : K) (b : List (K × V)) (n : Int) (r : Option V)
    (hb : ∀ key, (b.find? (fun p => decide (p.1 = key))).map Prod.snd =
      if key = k then r
      else ((m.vectorsArray.getD (idx hash m.hashMapCapacity k) []).find?
        (fun p => decide (p.1 = key))).map Prod.snd) :
    lookup hash { m with vectorsArray := m.vectorsArray.set (idx hash m.hashMapCapacity k) b,
                           numOfElements := n } =
      Function.update (lookup hash m) k r := by
  funext key
  rw [lookup_set_bucket h _ _ _ (idx_lt hash h.cap_pos k)]
  by_cases hk : key = k
  · subst hk
    rw [if_pos rfl, hb, if_pos rfl, Function.update_same]
  · rw [Function.update_noteq hk]
    split_ifs with hi
    · rw [hb, if_neg hk]
      unfold lookup
      rw [hi]
    · rfl

end HMap

namespace HMap

variable {K V : Type}

theorem lookup_eq_none [DecidableEq K] (hash : K → Int) (m : HashMap K V) (k : K) :
    lookup hash m k = none ↔
      (m.vectorsArray.getD (idx hash m.hashMapCapacity k) []).find?
        (fun p => decide (p.1 = k)) = none := by
  unfold lookup
  exact Option.map_eq_none

/-- The statement `vectorsArray[i].push_back(pair(key, ValueT())); numOfElements++`
for an absent key. -/
theorem push_spec [DecidableEq K] {hash : K → Int} {m : HashMap K V} (h : WF hash m) (k : K)
    (d : V) (hk : lookup hash m k = none) :
    WF hash { m with
      vectorsArray := pushBack m.vectorsArray (idx hash m.hashMapCapacity k) (k, d),
      numOfElements := m.numOfElements + 1 } ∧
    lookup hash { m with
      vectorsArray := pushBack m.vectorsArray (idx hash m.hashMapCapacity k) (k, d),
      numOfElements := m.numOfElements + 1 } = Function.update (lookup hash m) k (some d) := by
  have hf := (lookup_eq_none hash m k).1 hk
  constructor
  · refine h.set_bucket _ _ _ (idx_lt hash h.cap_pos k) ?_ ?_ ?_
    · intro p hp
      rcases List.mem_append.1 hp with hp | hp
      · exact h.place _ p hp
      · rw [List.mem_singleton.1 hp]
    · rw [List.map_append, List.nodup_append]
      refine ⟨h.nodup _, by simp, ?_⟩
      intro a ha hb
      simp only [List.map_cons, List.map_nil, List.mem_singleton] at hb
      obtain ⟨p, hp, rfl⟩ := List.mem_map.1 ha
      have := List.find?_eq_none.1 hf p hp
      simp only [decide_eq_true_eq] at this
      exact this hb
    · simp only [List.length_append, List.length_singleton]
      push_cast
      omega
  · refine lookup_update h k _ _ (some d) ?_
    intro key
    rw [find_append_single k key d _ hf]
    split_ifs <;> rfl

/-- The non-const `operator[]` keeps the invariant, adds the key with a default
value when it is absent, and returns the place of the key. -/
theorem subscript_spec [DecidableEq K] [Inhabited V] {hash : K → Int} {m : HashMap K V}
    (h : WF hash m) (k : K) :
    ∃ m1, subscript hash m k =
        (m1, idx hash m1.hashMapCapacity k,
          _getElemIndexInSuitedVec m1 (idx hash m1.hashMapCapacity k) k) ∧
      WF hash m1 ∧ lookup hash m1 = specStep (lookup hash m) (Op.subscript k) := by
  unfold subscript
  simp only
  by_cases hc : containsKey hash m k = false
  · rw [if_pos hc]
    have hk : lookup hash m k = none := by
      rw [containsKey_eq] at hc
      cases hl : lookup hash m k with
      | none => rfl
      | some w => rw [hl] at hc; cases hc
    have hs : specStep (lookup hash m) (Op.subscript k) =
        Function.update (lookup hash m) k (some default) := by
      simp [specStep, hk]
    obtain ⟨hw, hl⟩ := push_spec h k (default : V) hk
    split_ifs with hg
    · refine ⟨_, rfl, rehashing_wf hw _ ?_, ?_⟩
      · obtain ⟨j, hj⟩ := h.pow
        refine ⟨j + 1, ?_⟩
        show m.hashMapCapacity * 2 = 2 ^ (j + 1)
        rw [hj, pow_succ]
      · rw [hs, ← hl]
        funext key
        refine rehashing_lookup hw _ ?_ key
        obtain ⟨j, hj⟩ := h.pow
        refine ⟨j + 1, ?_⟩
        show m.hashMapCapacity * 2 = 2 ^ (j + 1)
        rw [hj, pow_succ]
    · exact ⟨_, rfl, hw, by rw [hs, ← hl]; rfl⟩
  · rw [if_neg hc]
    refine ⟨m, rfl, h, ?_⟩
    have : (lookup hash m k).isSome = true := by
      rw [← containsKey_eq]
      cases hcc : containsKey hash m k with
      | true => rfl
      | false => exact absurd hcc hc
    simp [specStep, this]

/-- Assignment through the reference `operator[]` returned for a present key. -/
theorem writeRef_spec [DecidableEq K] {hash : K → Int} {m : HashMap K V} (h : WF hash m)
    (k : K) (v w : V) (hk : lookup hash m k = some w) :
    ∃ m1, writeRef m (idx hash m.hashMapCapacity k)
        (_getElemIndexInSuitedVec m (idx hash m.hashMapCapacity k) k) v = some m1 ∧
      WF hash m1 ∧ lookup hash m1 = Function.update (lookup hash m) k (some v) ∧
      m1.hashMapCapacity = m.hashMapCapacity ∧ m1.numOfElements = m.numOfElements := by
  rcases getElemIndex_spec m (idx hash m.hashMapCapacity k) k with ⟨-, h2⟩ | ⟨j, x, h1, h2, h3⟩
  · rw [(lookup_eq_none hash m k).2 h2] at hk
    cases hk
  · have hx : x.1 = k := by
      have := List.find?_some h3
      simpa using this
    have hj : ¬ ((j : Int) < 0) := by omega
    refine ⟨{ m with
      vectorsArray := m.vectorsArray.set (idx hash m.hashMapCapacity k)
        ((m.vectorsArray.getD (idx hash m.hashMapCapacity k) []).set j (x.1, v)),
      numOfElements := m.numOfElements }, ?_, ?_, ?_, rfl, rfl⟩
    · unfold writeRef
      rw [h1, if_neg hj, Int.toNat_ofNat, h2]
    · refine h.set_bucket _ _ _ (idx_lt hash h.cap_pos k) ?_ ?_ ?_
      · intro p hp
        rcases List.mem_or_eq_of_mem_set hp with hp | hp
        · exact h.place _ p hp
        · rw [hp, hx]
      · rw [map_fst_set v _ j x h2]
        exact h.nodup _
      · simp
    · refine lookup_update h k _ _ (some v) ?_
      intro key
      rw [find_set v key _ j x h2 (h.nodup _), hx]
      split_ifs <;> rfl

/-- The statement `(*this)[key] = value` returns, keeps the invariant and stores
the value for the key. -/
theorem assign_spec [DecidableEq K] [Inhabited V] {hash : K → Int} {m : HashMap K V}
    (h : WF hash m) (k : K) (v : V) :
    ∃ m1, assign hash m k v = some m1 ∧ WF hash m1 ∧
      lookup hash m1 = Function.update (lookup hash m) k (some v) := by
  obtain ⟨m1, hs, hw, hl⟩ := subscript_spec h k
  have hsome : ∃ w, lookup hash m1 k = some w := by
    rw [hl]
    simp only [specStep]
    split_ifs with hc
    · exact Option.isSome_iff_exists.1 hc
    · exact ⟨default, by simp⟩
  obtain ⟨w, hk⟩ := hsome
  obtain ⟨m2, hwr, hw2, hl2, -, -⟩ := writeRef_spec hw k v w hk
  refine ⟨m2, ?_, hw2, ?_⟩
  · unfold assign
    simp only
    rw [hs]
    exact hwr
  · rw [hl2, hl]
    simp only [specStep]
    split_ifs
    · rfl
    · rw [Function.update_idem]

/-- Function `insert` returns, keeps the invariant, leaves a present key alone and stores
the value for an absent key. -/
theorem insert_spec [DecidableEq K] [Inhabited V] {hash : K → Int} {m : HashMap K V}
    (h : WF hash m) (k : K) (v : V) :
    ∃ m1, insert hash m k v = some (m1, !(lookup hash m k).isSome) ∧ WF hash m1 ∧
      lookup hash m1 = specStep (lookup hash m) (Op.insert k v) := by
  unfold insert
  rw [containsKey_eq]
  by_cases hc : (lookup hash m k).isSome = true
  · rw [if_pos hc]
    exact ⟨m, by simp [hc], h, by simp [specStep, hc]⟩
  · rw [if_neg hc]
    obtain ⟨m1, ha, hw, hl⟩ := assign_spec h k v
    refine ⟨m1, ?_, hw, ?_⟩
    · rw [ha]
      simp [hc]
    · rw [hl]
      simp [specStep, hc]

/-- The shrinking loop of `erase` ends and keeps the invariant and all values. -/
theorem shrinkLoop_spec [DecidableEq K] (hash : K → Int) :
    ∀ (fuel : Nat) (m : HashMap K V), WF hash m → m.hashMapCapacity ≤ fuel →
      ∃ m1, shrinkLoop hash fuel m = some m1 ∧ WF hash m1 ∧ lookup hash m1 = lookup hash m ∧
        m1.numOfElements = m.numOfElements := by
  intro fuel
  induction fuel with
  | zero =>
    intro m h hf
    have := h.cap_pos
    omega
  | succ fuel ih =>
    intro m h hf
    unfold shrinkLoop
    split_ifs with hc
    · have hpow : ∃ j, m.hashMapCapacity / 2 = 2 ^ j := by
        obtain ⟨j, hj⟩ := h.pow
        cases j with
        | zero => rw [hj] at hc; simp at hc
        | succ j =>
          refine ⟨j, ?_⟩
          rw [hj, pow_succ]
          simp
      have hw := rehashing_wf h (m.hashMapCapacity / 2) hpow
      have hcap : (_rehashing hash m (m.hashMapCapacity / 2)).hashMapCapacity ≤ fuel := by
        show m.hashMapCapacity / 2 ≤ fuel
        have := hc.1
        omega
      obtain ⟨m1, h1, h2, h3, h4⟩ := ih _ hw hcap
      refine ⟨m1, h1, h2, ?_, ?_⟩
      · rw [h3]
        funext key
        exact rehashing_lookup h _ hpow key
      · rw [h4]
        rfl
    · exact ⟨m, rfl, h, rfl, rfl⟩

/-- Function `erase` returns, keeps the invariant, removes the key and nothing else, and
reports whether the key was present. -/
theorem erase_spec [DecidableEq K] {hash : K → Int} {m : HashMap K V} (h : WF hash m) (k : K) :
    ∃ m1, erase hash m k = some (m1, (lookup hash m k).isSome) ∧ WF hash m1 ∧
      lookup hash m1 = Function.update (lookup hash m) k none ∧
      m1.numOfElements = m.numOfElements - (if (lookup hash m k).isSome then 1 else 0) := by
  unfold erase
  rw [containsKey_eq]
  cases hl : lookup hash m k with
  | none =>
    refine ⟨m, by simp, h, ?_, by simp⟩
    rw [← hl, Function.update_eq_self]
  | some w =>
    have hne : ¬ ((some w).isSome = false) := by simp
    rw [if_neg hne]
    simp only
    have hfind : ∃ x, (m.vectorsArray.getD (idx hash m.hashMapCapacity k) []).find?
        (fun p => decide (p.1 = k)) = some x := by
      unfold lookup at hl
      cases hf : (m.vectorsArray.getD (idx hash m.hashMapCapacity k) []).find?
          (fun p => decide (p.1 = k)) with
      | none => rw [hf] at hl; cases hl
      | some x => exact ⟨x, rfl⟩
    obtain ⟨x, hx⟩ := hfind
    have hmem := List.mem_of_find?_eq_some hx
    have hxk : x.1 = k := by
      have := List.find?_some hx
      simpa using this
    have hany : (m.vectorsArray.getD (_hashFunction hash m k) []).any
        (fun p => decide (p.1 = k)) = true := by
      rw [List.any_eq_true]
      exact ⟨x, hmem, by simpa using hxk⟩
    rw [if_pos hany]
    have hw : WF hash { m with
        vectorsArray := m.vectorsArray.set (idx hash m.hashMapCapacity k)
          ((m.vectorsArray.getD (idx hash m.hashMapCapacity k) []).eraseP
            (fun p => decide (p.1 = k))),
        numOfElements := m.numOfElements - 1 } := by
      refine h.set_bucket _ _ _ (idx_lt hash h.cap_pos k) ?_ ?_ ?_
      · intro p hp
        exact h.place _ p (List.mem_of_mem_eraseP hp)
      · exact (h.nodup _).sublist ((List.eraseP_sublist _).map _)
      · rw [List.length_eraseP_of_mem hmem (by simpa using hxk)]
        have : 0 < (m.vectorsArray.getD (idx hash m.hashMapCapacity k) []).length :=
          List.length_pos_of_mem hmem
        push_cast [this]
        omega
    have hlk : lookup hash { m with
        vectorsArray := m.vectorsArray.set (idx hash m.hashMapCapacity k)
          ((m.vectorsArray.getD (idx hash m.hashMapCapacity k) []).eraseP
            (fun p => decide (p.1 = k))),
        numOfElements := m.numOfElements - 1 } =
        Function.update (lookup hash m) k none := by
      refine lookup_update h k _ _ none ?_
      intro key
      rw [find_eraseP k key _ (h.nodup _)]
      split_ifs <;> rfl
    obtain ⟨m1, h1, h2, h3, h4⟩ := shrinkLoop_spec hash m.hashMapCapacity _ hw (le_refl _)
    refine ⟨m1, ?_, h2, ?_, ?_⟩
    · show Option.map _ (shrinkLoop hash m.hashMapCapacity _) = _
      show Option.map _ (shrinkLoop hash m.hashMapCapacity { m with
        vectorsArray := m.vectorsArray.set (idx hash m.hashMapCapacity k)
          ((m.vectorsArray.getD (idx hash m.hashMapCapacity k) []).eraseP
            (fun p => decide (p.1 = k))),
        numOfElements := m.numOfElements - 1 }) = _
      rw [h1]
      rfl
    · rw [h3, hlk]
    · rw [h4]
      simp

theorem clear_buckets :
    ∀ (n : Nat) (arr : List (List (K × V))),
      ((List.range n).foldl (fun arr i => arr.set i []) arr).length = arr.length ∧
      ∀ j, ((List.range n).foldl (fun arr i => arr.set i []) arr).getD j [] =
        if j < n then [] else arr.getD j [] := by
  intro n
  induction n with
  | zero => intro arr; simp
  | succ n ih =>
    intro arr
    rw [List.range_succ, List.foldl_append]
    obtain ⟨h1, h2⟩ := ih arr
    simp only [List.foldl_cons, List.foldl_nil, List.length_set, h1, true_and]
    intro j
    rw [getD_set, h2]
    by_cases hj : j = n
    · subst hj
      by_cases hl : j < arr.length
      · simp [h1, hl]
      · have : arr.getD j [] = [] := List.getD_eq_default _ _ (Nat.le_of_not_lt hl)
        rw [h1, if_neg (fun hc => hl hc.2), if_neg (Nat.lt_irrefl j), this]
        simp
    · by_cases hjn : j < n
      · have : j < n + 1 := by omega
        simp [hj, hjn, this]
      · have : ¬ (j < n + 1) := by omega
        simp [hj, hjn, this]

/-- Function `clear` keeps the invariant and removes every key. -/
theorem clear_spec [DecidableEq K] (hash : K → Int) {m : HashMap K V} (h : WF hash m) :
    WF hash (clear m) ∧ lookup hash (clear m) = fun _ => none := by
  obtain ⟨h1, h2⟩ := clear_buckets (K := K) (V := V) m.hashMapCapacity m.vectorsArray
  have hnil : ∀ j, (clear m).vectorsArray.getD j [] = [] := by
    intro j
    show ((List.range m.hashMapCapacity).foldl (fun arr i => arr.set i []) m.vectorsArray).getD
      j [] = []
    rw [h2]
    split_ifs with hj
    · rfl
    · exact List.getD_eq_default _ _ (by rw [h.len]; omega)
  constructor
  · refine ⟨?_, h.pow, ?_, ?_, ?_⟩
    · show ((List.range m.hashMapCapacity).foldl (fun arr i => arr.set i [])
        m.vectorsArray).length = m.hashMapCapacity
      rw [h1, h.len]
    · intro i p hp
      rw [hnil] at hp
      cases hp
    · intro i
      rw [hnil]
      exact List.nodup_nil
    · show (0 : Int) = _
      have : (((clear m).vectorsArray.map List.length).sum : Nat) = 0 := by
        rw [List.sum_eq_zero]
        intro x hx
        obtain ⟨b, hb, rfl⟩ := List.mem_map.1 hx
        obtain ⟨i, hi, rfl⟩ := List.mem_iff_getElem.1 hb
        have := hnil i
        rw [List.getD_eq_getElem _ _ hi] at this
        rw [this]
        rfl
      rw [this]
      rfl
  · funext key
    unfold lookup
    rw [hnil]
    rfl

/-- Every call returns, keeps the invariant and changes the key-to-value
mapping as `specStep` says. -/
theorem step_spec [DecidableEq K] [Inhabited V] {hash : K → Int} {m : HashMap K V}
    (h : WF hash m) (op : Op K V) :
    ∃ m1, step hash m op = some m1 ∧ WF hash m1 ∧
      lookup hash m1 = specStep (lookup hash m) op := by
  cases op with
  | insert key value =>
    obtain ⟨m1, h1, h2, h3⟩ := insert_spec h key value
    exact ⟨m1, by simp [step, h1], h2, h3⟩
  | subscript key =>
    obtain ⟨m1, h1, h2, h3⟩ := subscript_spec h key
    exact ⟨m1, by simp [step, h1], h2, h3⟩
  | assign key value =>
    obtain ⟨m1, h1, h2, h3⟩ := assign_spec h key value
    exact ⟨m1, by simp [step, h1], h2, h3⟩
  | erase key =>
    obtain ⟨m1, h1, h2, h3, -⟩ := erase_spec h key
    exact ⟨m1, by simp [step, h1], h2, h3⟩
  | clear =>
    obtain ⟨h2, h3⟩ := clear_spec hash h
    exact ⟨clear m, rfl, h2, h3⟩

/-- Every sequence of calls returns, keeps the invariant and changes the
key-to-value mapping call by call as `specStep` says. -/
theorem run_spec [DecidableEq K] [Inhabited V] (hash : K → Int) :
    ∀ (ops : List (Op K V)) (m : HashMap K V), WF hash m →
      ∃ m1, run hash m ops = some m1 ∧ WF hash m1 ∧
        lookup hash m1 = ops.foldl specStep (lookup hash m) := by
  intro ops
  induction ops with
  | nil => intro m h; exact ⟨m, rfl, h, rfl⟩
  | cons op ops ih =>
    intro m h
    obtain ⟨m1, h1, h2, h3⟩ := step_spec h op
    obtain ⟨m2, h4, h5, h6⟩ := ih m1 h2
    refine ⟨m2, ?_, h5, ?_⟩
    · simp only [run, h1]
      exact h4
    · rw [h6, h3]
      rfl

end HMap

namespace HMap

variable {K V : Type}

/-- Calls that neither erase a key, nor assign to it, nor clear the map keep
the value the mapping has for it. -/
theorem foldl_specStep_keep [DecidableEq K] [Inhabited V] (k : K) (v : V) :
    ∀ (post : List (Op K V)) (f : K → Option V), f k = some v →
      (∀ op ∈ post, op ≠ Op.erase k ∧ (∀ w, op ≠ Op.assign k w) ∧ op ≠ Op.clear) →
      (post.foldl specStep f) k = some v := by
  intro post
  induction post with
  | nil => intro f hf _; exact hf
  | cons op post ih =>
    intro f hf hpost
    simp only [List.foldl_cons]
    refine ih _ ?_ (fun op hop => hpost op (List.mem_cons_of_mem _ hop))
    obtain ⟨h1, h2, h3⟩ := hpost op (List.mem_cons_self _ _)
    cases op with
    | insert key value =>
      simp only [specStep]
      split_ifs with hc
      · exact hf
      · have : k ≠ key := by
          rintro rfl
          rw [hf] at hc
          exact hc rfl
        rw [Function.update_noteq this]
        exact hf
    | subscript key =>
      simp only [specStep]
      split_ifs with hc
      · exact hf
      · have : k ≠ key := by
          rintro rfl
          rw [hf] at hc
          exact hc rfl
        rw [Function.update_noteq this]
        exact hf
    | assign key value =>
      have : k ≠ key := by
        rintro rfl
        exact h2 value rfl
      simp only [specStep]
      rw [Function.update_noteq this]
      exact hf
    | erase key =>
      have : k ≠ key := by
        rintro rfl
        exact h1 rfl
      simp only [specStep]
      rw [Function.update_noteq this]
      exact hf
    | clear => exact absurd rfl h3

/-- C9: after any sequence `pre` of calls on a new map, storing `v` for `k` (by
the assignment `map[k] = v`, or by an `insert(k, v)` that returns true) and
then running any sequence `post` of calls that neither erases `k`, nor assigns
to `k`, nor clears the map, every call returns and `at(k)` returns `v`,
whatever grow or shrink rehashes the calls trigger. -/
theorem at_returns_last_stored [DecidableEq K] [Inhabited V] (hash : K → Int)
    (pre post : List (Op K V)) (k : K) (v : V)
    (hpost : ∀ op ∈ post, op ≠ Op.erase k ∧ (∀ w, op ≠ Op.assign k w) ∧ op ≠ Op.clear) :
    ∃ m1, run hash new pre = some m1 ∧
      (∃ m2 m3, assign hash m1 k v = some m2 ∧ run hash m2 post = some m3 ∧
        atKey hash m3 k = some v) ∧
      (containsKey hash m1 k = false →
        ∃ m2 m3, insert hash m1 k v = some (m2, true) ∧ run hash m2 post = some m3 ∧
          atKey hash m3 k = some v) := by
  obtain ⟨m1, h1, hw1, -⟩ := run_spec hash pre new (new_wf hash)
  obtain ⟨m2, h2, hw2, hl2⟩ := assign_spec hw1 k v
  obtain ⟨m3, h3, -, hl3⟩ := run_spec hash post m2 hw2
  have hat : atKey hash m3 k = some v := by
    rw [atKey_eq, hl3]
    refine foldl_specStep_keep k v post _ ?_ hpost
    rw [hl2, Function.update_same]
  refine ⟨m1, h1, ⟨m2, m3, h2, h3, hat⟩, ?_⟩
  intro hc
  refine ⟨m2, m3, ?_, h3, hat⟩
  unfold insert
  rw [hc, h2]
  rfl

theorem at_returns_last_stored_witness :
    (∀ op ∈ [Op.insert (33 : Int) (7 : Int), Op.erase 17, Op.assign 2 9, Op.insert 1 0],
      op ≠ Op.erase 1 ∧ (∀ w, op ≠ Op.assign 1 w) ∧ op ≠ Op.clear) ∧
    ∃ m1, run intHash new [Op.insert (1 : Int) (10 : Int), Op.insert 17 5] = some m1 ∧
      (∃ m2 m3, assign intHash m1 1 42 = some m2 ∧
        run intHash m2 [Op.insert 33 7, Op.erase 17, Op.assign 2 9, Op.insert 1 0] = some m3 ∧
        atKey intHash m3 1 = some 42) ∧
      (containsKey intHash m1 1 = false →
        ∃ m2 m3, insert intHash m1 1 42 = some (m2, true) ∧
          run intHash m2 [Op.insert 33 7, Op.erase 17, Op.assign 2 9, Op.insert 1 0] = some m3 ∧
          atKey intHash m3 1 = some 42) :=
  ⟨by simp, at_returns_last_stored intHash _ _ 1 42 (by simp)⟩

/-- C10: on every map reached from a new map by a sequence of calls, `insert`
with a key that `containsKey` reports present returns false and leaves the
map as it is: same capacity, same `numOfElements`, same buckets with the
same pairs, so the value of the key is not overwritten. -/
theorem insert_present_unchanged [DecidableEq K] [Inhabited V] (hash : K → Int)
    (ops : List (Op K V)) (m : HashMap K V) (key : K) (value : V)
    (_hrun : run hash new ops = some m) (hpres : containsKey hash m key = true) :
    insert hash m key value = some (m, false) := by
  unfold insert
  rw [if_pos hpres]

theorem insert_present_unchanged_witness :
    run intHash new [Op.insert (1 : Int) (10 : Int)] =
      some ⟨16, [[], [(1, 10)], [], [], [], [], [], [], [], [], [], [], [], [], [], []], 1⟩ ∧
    containsKey intHash
      (⟨16, [[], [(1, 10)], [], [], [], [], [], [], [], [], [], [], [], [], [], []], 1⟩ :
        HashMap Int Int) 1 = true ∧
    insert intHash
      (⟨16, [[], [(1, 10)], [], [], [], [], [], [], [], [], [], [], [], [], [], []], 1⟩ :
        HashMap Int Int) 1 99 =
      some (⟨16, [[], [(1, 10)], [], [], [], [], [], [], [], [], [], [], [], [], [], []], 1⟩,
        false) :=
  ⟨by decide, by decide, insert_present_unchanged intHash [Op.insert 1 10] _ 1 99
    (by decide) (by decide)⟩

end HMap

namespace HMap

variable {K V : Type}

/-- Every sequence of calls on a new map returns a map with the invariant. -/
theorem reach_wf [DecidableEq K] [Inhabited V] (hash : K → Int) (ops : List (Op K V)) :
    ∃ m, run hash new ops = some m ∧ WF hash m := by
  obtain ⟨m, h1, h2, -⟩ := run_spec hash ops new (new_wf hash)
  exact ⟨m, h1, h2⟩

/-- A map reached from a new map has the invariant. -/
theorem wf_of_run [DecidableEq K] [Inhabited V] {hash : K → Int} {ops : List (Op K V)}
    {m : HashMap K V} (hrun : run hash new ops = some m) : WF hash m := by
  obtain ⟨m1, h1, h2⟩ := reach_wf hash ops
  rw [hrun] at h1
  cases h1
  exact h2

/-- Under the invariant `containsKey` tells whether some bucket holds a pair
with the key. -/
theorem containsKey_iff_mem [DecidableEq K] {hash : K → Int} {m : HashMap K V} (h : WF hash m)
    (key : K) : containsKey hash m key = true ↔ ∃ v, (key, v) ∈ m.vectorsArray.flatten := by
  rw [containsKey_eq, Option.isSome_iff_exists]
  constructor
  · rintro ⟨v, hv⟩
    exact ⟨v, (mem_flatten_iff_getD _ _).2 ((lookup_iff_any h key v).1 hv)⟩
  · rintro ⟨v, hv⟩
    exact ⟨v, (lookup_iff_any h key v).2 ((mem_flatten_iff_getD _ _).1 hv)⟩

/-- Under the invariant `at` returns the value of the pair stored for the key. -/
theorem atKey_of_mem [DecidableEq K] {hash : K → Int} {m : HashMap K V} (h : WF hash m)
    (key : K) (v : V) (hv : (key, v) ∈ m.vectorsArray.flatten) : atKey hash m key = some v := by
  rw [atKey_eq]
  exact (lookup_iff_any h key v).2 ((mem_flatten_iff_getD _ _).1 hv)

theorem containsKey_false_iff [DecidableEq K] (hash : K → Int) (m : HashMap K V) (key : K) :
    containsKey hash m key = false ↔ lookup hash m key = none := by
  rw [containsKey_eq]
  cases lookup hash m key <;> simp

/-- C11: on a map reached from a new map, `erase` of a key that `containsKey`
reports present returns true; afterwards `containsKey` of the key is false,
`size()` is smaller by exactly one, and for every other key `containsKey` and
`at` answer as before, whatever shrink rehashes the call runs. -/
theorem erase_present_removes [DecidableEq K] [Inhabited V] (hash : K → Int)
    (ops : List (Op K V)) (m : HashMap K V) (k : K)
    (hrun : run hash new ops = some m) (hk : containsKey hash m k = true) :
    ∃ m1, erase hash m k = some (m1, true) ∧ containsKey hash m1 k = false ∧
      size m1 = size m - 1 ∧
      ∀ k1, k1 ≠ k → containsKey hash m1 k1 = containsKey hash m k1 ∧
        atKey hash m1 k1 = atKey hash m k1 := by
  have hw := wf_of_run hrun
  obtain ⟨m1, h1, -, h3, h4⟩ := erase_spec hw k
  rw [containsKey_eq] at hk
  rw [hk] at h1 h4
  refine ⟨m1, h1, ?_, ?_, ?_⟩
  · rw [containsKey_eq, h3, Function.update_same]
    rfl
  · simpa [size] using h4
  · intro k1 hk1
    rw [containsKey_eq, containsKey_eq, atKey_eq, atKey_eq, h3, Function.update_noteq hk1]
    exact ⟨rfl, rfl⟩

theorem erase_present_removes_witness :
    run intHash new [Op.insert (1 : Int) (10 : Int), Op.insert 2 20, Op.insert 3 30,
        Op.insert 4 40] =
      some ⟨16, [[], [(1, 10)], [(2, 20)], [(3, 30)], [(4, 40)], [], [], [], [], [], [], [],
        [], [], [], []], 4⟩ ∧
    containsKey intHash
      (⟨16, [[], [(1, 10)], [(2, 20)], [(3, 30)], [(4, 40)], [], [], [], [], [], [], [],
        [], [], [], []], 4⟩ : HashMap Int Int) 1 = true ∧
    ∃ m1, erase intHash
        (⟨16, [[], [(1, 10)], [(2, 20)], [(3, 30)], [(4, 40)], [], [], [], [], [], [], [],
          [], [], [], []], 4⟩ : HashMap Int Int) 1 = some (m1, true) ∧
      containsKey intHash m1 1 = false ∧
      size m1 = size (⟨16, [[], [(1, 10)], [(2, 20)], [(3, 30)], [(4, 40)], [], [], [], [], [],
        [], [], [], [], [], []], 4⟩ : HashMap Int Int) - 1 ∧
      ∀ k1, k1 ≠ 1 → containsKey intHash m1 k1 = containsKey intHash
          (⟨16, [[], [(1, 10)], [(2, 20)], [(3, 30)], [(4, 40)], [], [], [], [], [], [], [],
            [], [], [], []], 4⟩ : HashMap Int Int) k1 ∧
        atKey intHash m1 k1 = atKey intHash
          (⟨16, [[], [(1, 10)], [(2, 20)], [(3, 30)], [(4, 40)], [], [], [], [], [], [], [],
            [], [], [], []], 4⟩ : HashMap Int Int) k1 :=
  ⟨by decide, by decide,
    erase_present_removes intHash
      [Op.insert (1 : Int) (10 : Int), Op.insert 2 20, Op.insert 3 30, Op.insert 4 40] _ 1
      (by decide) (by decide)⟩

/-- C12: on every map reached from a new map, `erase` returns, and it returns
false exactly when `containsKey` reports the key absent, which is exactly
when no bucket holds a pair with the key; in that case the map it leaves is
the map it was given (same `numOfElements`, capacity and buckets). -/
theorem erase_false_iff_absent [DecidableEq K] [Inhabited V] (hash : K → Int)
    (ops : List (Op K V)) (key : K) :
    ∃ m m1 b, run hash new ops = some m ∧ erase hash m key = some (m1, b) ∧
      (b = false ↔ containsKey hash m key = false) ∧
      (containsKey hash m key = false ↔ ∀ v, (key, v) ∉ m.vectorsArray.flatten) ∧
      (b = false → m1 = m) := by
  obtain ⟨m, hrun, hw⟩ := reach_wf hash ops
  have habs : containsKey hash m key = false ↔ ∀ v, (key, v) ∉ m.vectorsArray.flatten := by
    rw [← not_iff_not]
    simp only [Bool.not_eq_false, not_forall, not_not]
    exact containsKey_iff_mem hw key
  by_cases hc : containsKey hash m key = false
  · refine ⟨m, m, false, hrun, ?_, ?_, habs, fun _ => rfl⟩
    · unfold erase
      rw [if_pos hc]
    · simp [hc]
  · obtain ⟨m1, h1, -⟩ := erase_spec hw key
    have hs : (lookup hash m key).isSome = true := by
      rw [← containsKey_eq]
      simpa using hc
    rw [hs] at h1
    refine ⟨m, m1, true, hrun, h1, ?_, habs, ?_⟩
    · simp [hc]
    · intro h
      cases h

/-- C13: in every map reached from a new map by `insert`, `operator[]` (with or
without an assignment), `erase` and `clear` calls, the keys of all stored
pairs of all buckets together are pairwise different. -/
theorem reachable_keys_nodup [DecidableEq K] [Inhabited V] (hash : K → Int)
    (ops : List (Op K V)) :
    ∃ m, run hash new ops = some m ∧ (m.vectorsArray.flatten.map Prod.fst).Nodup := by
  obtain ⟨m, hrun, hw⟩ := reach_wf hash ops
  exact ⟨m, hrun, hw.nodup_flatten⟩

/-- C15: on a map reached from a new map, `_rehashing` with a power of two as
the new capacity leaves `size()` as it is, makes the capacity the new one,
and for every key leaves the answers of `containsKey` and of `at` as they
were. -/
theorem rehashing_preserves_contents [DecidableEq K] [Inhabited V] (hash : K → Int)
    (ops : List (Op K V)) (m : HashMap K V) (newSize : Nat)
    (hrun : run hash new ops = some m) (hpow : ∃ j, newSize = 2 ^ j) :
    size (_rehashing hash m newSize) = size m ∧
    capacity (_rehashing hash m newSize) = newSize ∧
    ∀ key, containsKey hash (_rehashing hash m newSize) key = containsKey hash m key ∧
      atKey hash (_rehashing hash m newSize) key = atKey hash m key := by
  have hw := wf_of_run hrun
  refine ⟨rfl, rfl, ?_⟩
  intro key
  rw [containsKey_eq, containsKey_eq, atKey_eq, atKey_eq, rehashing_lookup hw newSize hpow key]
  exact ⟨rfl, rfl⟩

theorem rehashing_preserves_contents_witness :
    run intHash new [Op.insert (1 : Int) (10 : Int), Op.insert 5 50] =
      some ⟨16, [[], [(1, 10)], [], [], [], [(5, 50)], [], [], [], [], [], [], [], [], [], []],
        2⟩ ∧
    (∃ j, 4 = 2 ^ j) ∧
    size (_rehashing intHash (⟨16, [[], [(1, 10)], [], [], [], [(5, 50)], [], [], [], [], [],
        [], [], [], [], []], 2⟩ : HashMap Int Int) 4) =
      size (⟨16, [[], [(1, 10)], [], [], [], [(5, 50)], [], [], [], [], [], [], [], [], [],
        []], 2⟩ : HashMap Int Int) ∧
    capacity (_rehashing intHash (⟨16, [[], [(1, 10)], [], [], [], [(5, 50)], [], [], [], [],
        [], [], [], [], [], []], 2⟩ : HashMap Int Int) 4) = 4 ∧
    ∀ key, containsKey intHash (_rehashing intHash (⟨16, [[], [(1, 10)], [], [], [],
          [(5, 50)], [], [], [], [], [], [], [], [], [], []], 2⟩ : HashMap Int Int) 4) key =
        containsKey intHash (⟨16, [[], [(1, 10)], [], [], [], [(5, 50)], [], [], [], [], [],
          [], [], [], [], []], 2⟩ : HashMap Int Int) key ∧
      atKey intHash (_rehashing intHash (⟨16, [[], [(1, 10)], [], [], [], [(5, 50)], [], [],
          [], [], [], [], [], [], [], []], 2⟩ : HashMap Int Int) 4) key =
        atKey intHash (⟨16, [[], [(1, 10)], [], [], [], [(5, 50)], [], [], [], [], [], [], [],
          [], [], []], 2⟩ : HashMap Int Int) key :=
  ⟨by decide, ⟨2, by decide⟩,
    rehashing_preserves_contents intHash [Op.insert (1 : Int) (10 : Int), Op.insert 5 50] _ 4
      (by decide) ⟨2, by decide⟩⟩

/-- C17: the default constructor gives capacity 16, and in every map reached
from it by `insert`, `operator[]`, `erase` and `clear` calls `capacity()` is a
power of two, hence at least 1. -/
theorem capacity_power_of_two [DecidableEq K] [Inhabited V] (hash : K → Int)
    (ops : List (Op K V)) :
    capacity (new : HashMap K V) = 16 ∧
    ∃ m, run hash new ops = some m ∧ (∃ j, capacity m = 2 ^ j) ∧ 1 ≤ capacity m := by
  obtain ⟨m, hrun, hw⟩ := reach_wf hash ops
  exact ⟨rfl, m, hrun, hw.pow, hw.cap_pos⟩

/-- C19: on every map reached from a new map and for every key, `containsKey`
reports the key present exactly when some bucket holds a pair with it; for an
absent key `at`, `bucketIndex` and `bucketSize` each throw (the result
`none`); for a present key `at` returns the value stored with it,
`bucketIndex` returns the index of the bucket that holds the pair, and
`bucketSize` returns the length of that bucket, which is at least 1. -/
theorem lookups_throw_iff_absent [DecidableEq K] [Inhabited V] (hash : K → Int)
    (ops : List (Op K V)) (key : K) :
    ∃ m, run hash new ops = some m ∧
      (containsKey hash m key = true ↔ ∃ v, (key, v) ∈ m.vectorsArray.flatten) ∧
      (containsKey hash m key = false →
        atKey hash m key = none ∧ bucketIndex hash m key = none ∧
          bucketSize hash m key = none) ∧
      (∀ v, (key, v) ∈ m.vectorsArray.flatten →
        atKey hash m key = some v ∧
        ∃ i n, bucketIndex hash m key = some i ∧ bucketSize hash m key = some n ∧
          i < capacity m ∧ (key, v) ∈ m.vectorsArray.getD i [] ∧
          n = (m.vectorsArray.getD i []).length ∧ 1 ≤ n) := by
  obtain ⟨m, hrun, hw⟩ := reach_wf hash ops
  refine ⟨m, hrun, containsKey_iff_mem hw key, ?_, ?_⟩
  · intro hc
    refine ⟨?_, ?_, ?_⟩
    · unfold atKey
      rw [if_pos hc]
    · unfold bucketIndex
      rw [if_pos hc]
    · unfold bucketSize bucketIndex
      rw [if_pos hc]
      rfl
  · intro v hv
    have hc : containsKey hash m key = true := (containsKey_iff_mem hw key).2 ⟨v, hv⟩
    have hnc : ¬ (containsKey hash m key = false) := by simp [hc]
    have hmem : (key, v) ∈ m.vectorsArray.getD (idx hash m.hashMapCapacity key) [] :=
      (lookup_iff hw key v).1 ((lookup_iff_any hw key v).2 ((mem_flatten_iff_getD _ _).1 hv))
    refine ⟨atKey_of_mem hw key v hv, idx hash m.hashMapCapacity key,
      (m.vectorsArray.getD (idx hash m.hashMapCapacity key) []).length, ?_, ?_, ?_, hmem, rfl,
      List.length_pos_of_mem hmem⟩
    · unfold bucketIndex
      rw [if_neg hnc]
      rfl
    · unfold bucketSize bucketIndex
      rw [if_neg hnc]
      rfl
    · exact idx_lt hash hw.cap_pos key

end HMap

namespace HMap

variable {K V : Type}

/-- The comparison of the load factor with 0.75 in exact arithmetic. -/
theorem load_le_iff (m : HashMap K V) (hc : 1 ≤ m.hashMapCapacity) :
    getLoadFactor m ≤ 3 / 4 ↔ 4 * m.numOfElements ≤ 3 * (m.hashMapCapacity : Int) := by
  unfold getLoadFactor
  have hpos : (0 : ℚ) < (m.hashMapCapacity : ℚ) := by exact_mod_cast hc
  rw [div_le_div_iff₀ hpos (by norm_num)]
  constructor
  · intro h
    have h2 : ((4 * m.numOfElements : Int) : ℚ) ≤ ((3 * (m.hashMapCapacity : Int) : Int) : ℚ) := by
      push_cast
      linarith
    exact_mod_cast h2
  · intro h
    have h2 : ((4 * m.numOfElements : Int) : ℚ) ≤ ((3 * (m.hashMapCapacity : Int) : Int) : ℚ) := by
      exact_mod_cast h
    push_cast at h2
    linarith

/-- The comparison of the load factor with 0.25 in exact arithmetic. -/
theorem load_ge_iff (m : HashMap K V) (hc : 1 ≤ m.hashMapCapacity) :
    1 / 4 ≤ getLoadFactor m ↔ (m.hashMapCapacity : Int) ≤ 4 * m.numOfElements := by
  unfold getLoadFactor
  have hpos : (0 : ℚ) < (m.hashMapCapacity : ℚ) := by exact_mod_cast hc
  rw [div_le_div_iff₀ (by norm_num) hpos]
  constructor
  · intro h
    have h2 : (((m.hashMapCapacity : Int) : Int) : ℚ) ≤ ((4 * m.numOfElements : Int) : ℚ) := by
      push_cast
      linarith
    exact_mod_cast h2
  · intro h
    have h2 : (((m.hashMapCapacity : Int) : Int) : ℚ) ≤ ((4 * m.numOfElements : Int) : ℚ) := by
      exact_mod_cast h
    push_cast at h2
    linarith

/-- The non-const `operator[]` keeps the load factor at or below 0.75 while the
capacity is above 1. -/
theorem subscript_load [DecidableEq K] [Inhabited V] (hash : K → Int) (m : HashMap K V) (k : K)
    (hl : 1 < m.hashMapCapacity → 4 * m.numOfElements ≤ 3 * (m.hashMapCapacity : Int)) :
    1 < (subscript hash m k).1.hashMapCapacity →
      4 * (subscript hash m k).1.numOfElements ≤
        3 * ((subscript hash m k).1.hashMapCapacity : Int) := by
  unfold subscript
  simp only
  by_cases hc : containsKey hash m k = false
  · rw [if_pos hc]
    simp only
    split_ifs with hg
    · intro _
      show 4 * (m.numOfElements + 1) ≤ 3 * ((m.hashMapCapacity * 2 : Nat) : Int)
      have h1 := hl hg.1
      have h2 := hg.1
      push_cast
      omega
    · intro h1
      show 4 * (m.numOfElements + 1) ≤ 3 * (m.hashMapCapacity : Int)
      have h1 : 1 < m.hashMapCapacity := h1
      have h2 : ¬ (aboveUpper { m with
          vectorsArray := pushBack m.vectorsArray (_hashFunction hash m k) (k, default),
          numOfElements := m.numOfElements + 1 } = true) := fun h => hg ⟨h1, h⟩
      simp only [aboveUpper, decide_eq_true_eq, not_lt] at h2
      exact h2
  · rw [if_neg hc]
    exact hl

/-- Assignment through a reference changes neither the capacity nor the count. -/
theorem writeRef_sizes {m m1 : HashMap K V} {i : Nat} {j : Int} {v : V}
    (h : writeRef m i j v = some m1) :
    m1.hashMapCapacity = m.hashMapCapacity ∧ m1.numOfElements = m.numOfElements := by
  unfold writeRef at h
  split_ifs at h
  split at h
  · cases h
  · cases h
    exact ⟨rfl, rfl⟩

theorem assign_load [DecidableEq K] [Inhabited V] (hash : K → Int) {m m1 : HashMap K V} (k : K)
    (v : V) (h : assign hash m k v = some m1)
    (hl : 1 < m.hashMapCapacity → 4 * m.numOfElements ≤ 3 * (m.hashMapCapacity : Int)) :
    1 < m1.hashMapCapacity → 4 * m1.numOfElements ≤ 3 * (m1.hashMapCapacity : Int) := by
  unfold assign at h
  obtain ⟨h1, h2⟩ := writeRef_sizes h
  rw [h1, h2]
  exact subscript_load hash m k hl

/-- The shrinking loop of `erase` keeps the load factor at or below 0.75 and,
when it leaves a capacity above 1, leaves the load factor at or above 0.25. -/
theorem shrinkLoop_load (hash : K → Int) :
    ∀ (fuel : Nat) (m m1 : HashMap K V), shrinkLoop hash fuel m = some m1 →
      (∃ j, m.hashMapCapacity = 2 ^ j) →
      (1 < m.hashMapCapacity → 4 * m.numOfElements ≤ 3 * (m.hashMapCapacity : Int)) →
      (1 < m1.hashMapCapacity → 4 * m1.numOfElements ≤ 3 * (m1.hashMapCapacity : Int)) ∧
      (1 < m1.hashMapCapacity → (m1.hashMapCapacity : Int) ≤ 4 * m1.numOfElements) := by
  intro fuel
  induction fuel with
  | zero =>
    intro m m1 h _ hl
    unfold shrinkLoop at h
    split_ifs at h with hc
    cases h
    refine ⟨hl, ?_⟩
    intro h1
    have h2 : ¬ (belowLower m = true) := fun h => hc ⟨h1, h⟩
    simp only [belowLower, decide_eq_true_eq, not_lt] at h2
    exact h2
  | succ fuel ih =>
    intro m m1 h hpow hl
    unfold shrinkLoop at h
    split_ifs at h with hc
    · obtain ⟨j, hj⟩ := hpow
      cases j with
      | zero =>
        have := hc.1
        rw [hj] at this
        simp at this
      | succ j =>
        have hhalf : m.hashMapCapacity / 2 = 2 ^ j := by
          rw [hj, pow_succ]
          simp
        refine ih _ m1 h ⟨j, hhalf⟩ ?_
        intro _
        show 4 * m.numOfElements ≤ 3 * ((m.hashMapCapacity / 2 : Nat) : Int)
        have hb := hc.2
        simp only [belowLower, decide_eq_true_eq] at hb
        have h2 : m.hashMapCapacity = 2 * (m.hashMapCapacity / 2) := by
          rw [hhalf, hj, pow_succ]
          ring
        omega
    · cases h
      refine ⟨hl, ?_⟩
      intro h1
      have h2 : ¬ (belowLower m = true) := fun h => hc ⟨h1, h⟩
      simp only [belowLower, decide_eq_true_eq, not_lt] at h2
      exact h2

/-- What `erase` does for a present key: it removes the pair from its bucket,
decrements the count and runs the shrinking loop. -/
theorem erase_eq [DecidableEq K] {hash : K → Int} {m : HashMap K V} (k : K) (w : V)
    (hk : lookup hash m k = some w) :
    erase hash m k =
      (shrinkLoop hash m.hashMapCapacity { m with
        vectorsArray := m.vectorsArray.set (idx hash m.hashMapCapacity k)
          ((m.vectorsArray.getD (idx hash m.hashMapCapacity k) []).eraseP
            (fun p => decide (p.1 = k))),
        numOfElements := m.numOfElements - 1 }).map (fun m2 => (m2, true)) := by
  unfold erase
  rw [containsKey_eq, hk]
  have hne : ¬ ((some w).isSome = false) := by simp
  rw [if_neg hne]
  simp only
  have hfind : ∃ x, (m.vectorsArray.getD (idx hash m.hashMapCapacity k) []).find?
      (fun p => decide (p.1 = k)) = some x := by
    unfold lookup at hk
    cases hf : (m.vectorsArray.getD (idx hash m.hashMapCapacity k) []).find?
        (fun p => decide (p.1 = k)) with
    | none => rw [hf] at hk; cases hk
    | some x => exact ⟨x, rfl⟩
  obtain ⟨x, hx⟩ := hfind
  have hany : (m.vectorsArray.getD (_hashFunction hash m k) []).any
      (fun p => decide (p.1 = k)) = true := by
    rw [List.any_eq_true]
    have hxk := List.find?_some hx
    exact ⟨x, List.mem_of_find?_eq_some hx, hxk⟩
  rw [if_pos hany]
  rfl

/-- The bounds `erase` leaves: the load factor stays at or below 0.75, and after
the removal of a key it is at or above 0.25 when the capacity is above 1. -/
theorem erase_load [DecidableEq K] {hash : K → Int} {m m1 : HashMap K V} {b : Bool} (k : K)
    (hw : WF hash m) (h : erase hash m k = some (m1, b))
    (hl : 1 < m.hashMapCapacity → 4 * m.numOfElements ≤ 3 * (m.hashMapCapacity : Int)) :
    (1 < m1.hashMapCapacity → 4 * m1.numOfElements ≤ 3 * (m1.hashMapCapacity : Int)) ∧
    (b = true → 1 < m1.hashMapCapacity → (m1.hashMapCapacity : Int) ≤ 4 * m1.numOfElements) := by
  cases hk : lookup hash m k with
  | none =>
    have hc := (containsKey_false_iff hash m k).2 hk
    unfold erase at h
    rw [if_pos hc] at h
    cases h
    exact ⟨hl, fun hb => by cases hb⟩
  | some w =>
    rw [erase_eq k w hk] at h
    cases hs : shrinkLoop hash m.hashMapCapacity { m with
        vectorsArray := m.vectorsArray.set (idx hash m.hashMapCapacity k)
          ((m.vectorsArray.getD (idx hash m.hashMapCapacity k) []).eraseP
            (fun p => decide (p.1 = k))),
        numOfElements := m.numOfElements - 1 } with
    | none => rw [hs] at h; cases h
    | some m2 =>
      rw [hs] at h
      cases h
      obtain ⟨h1, h2⟩ := shrinkLoop_load hash _ _ _ hs hw.pow (by
        intro hc
        show 4 * (m.numOfElements - 1) ≤ 3 * (m.hashMapCapacity : Int)
        have := hl hc
        omega)
      exact ⟨h1, fun _ => h2⟩

/-- Every call keeps the load factor at or below 0.75 while the capacity is
above 1. -/
theorem step_load [DecidableEq K] [Inhabited V] {hash : K → Int} {m m1 : HashMap K V}
    (hw : WF hash m) (op : Op K V) (h : step hash m op = some m1)
    (hl : 1 < m.hashMapCapacity → 4 * m.numOfElements ≤ 3 * (m.hashMapCapacity : Int)) :
    1 < m1.hashMapCapacity → 4 * m1.numOfElements ≤ 3 * (m1.hashMapCapacity : Int) := by
  cases op with
  | insert key value =>
    simp only [step, insert] at h
    split_ifs at h with hc
    · cases h
      exact hl
    · cases ha : assign hash m key value with
      | none => rw [ha] at h; cases h
      | some m2 =>
        rw [ha] at h
        cases h
        exact assign_load hash key value ha hl
  | subscript key =>
    simp only [step, Option.some.injEq] at h
    rw [← h]
    exact subscript_load hash m key hl
  | assign key value =>
    exact assign_load hash key value h hl
  | erase key =>
    simp only [step] at h
    cases he : erase hash m key with
    | none => rw [he] at h; cases h
    | some r =>
      rw [he] at h
      cases h
      exact (erase_load key hw he hl).1
  | clear =>
    simp only [step, Option.some.injEq] at h
    rw [← h]
    intro _
    show 4 * (0 : Int) ≤ _
    omega

/-- Every map reached from a new map has its load factor at or below 0.75 while
its capacity is above 1. -/
theorem run_load [DecidableEq K] [Inhabited V] (hash : K → Int) :
    ∀ (ops : List (Op K V)) (m m1 : HashMap K V), WF hash m → run hash m ops = some m1 →
      (1 < m.hashMapCapacity → 4 * m.numOfElements ≤ 3 * (m.hashMapCapacity : Int)) →
      1 < m1.hashMapCapacity → 4 * m1.numOfElements ≤ 3 * (m1.hashMapCapacity : Int) := by
  intro ops
  induction ops with
  | nil =>
    intro m m1 _ h hl
    cases h
    exact hl
  | cons op ops ih =>
    intro m m1 hw h hl
    obtain ⟨m2, h1, h2, -⟩ := step_spec hw op
    simp only [run, h1] at h
    exact ih m2 m1 h2 h (step_load hw op h1 hl)

/-- The non-const `operator[]` keeps the load factor at or above 0.25 while the
capacity is above 1. -/
theorem subscript_low [DecidableEq K] [Inhabited V] (hash : K → Int) (m : HashMap K V) (k : K)
    (hl : 1 < m.hashMapCapacity → (m.hashMapCapacity : Int) ≤ 4 * m.numOfElements) :
    1 < (subscript hash m k).1.hashMapCapacity →
      ((subscript hash m k).1.hashMapCapacity : Int) ≤
        4 * (subscript hash m k).1.numOfElements := by
  unfold subscript
  simp only
  by_cases hc : containsKey hash m k = false
  · rw [if_pos hc]
    simp only
    split_ifs with hg
    · intro _
      show ((m.hashMapCapacity * 2 : Nat) : Int) ≤ 4 * (m.numOfElements + 1)
      have h2 := hg.2
      simp only [aboveUpper, decide_eq_true_eq] at h2
      push_cast
      omega
    · intro h1
      show (m.hashMapCapacity : Int) ≤ 4 * (m.numOfElements + 1)
      have h1 : 1 < m.hashMapCapacity := h1
      have := hl h1
      omega
  · rw [if_neg hc]
    exact hl

theorem assign_low [DecidableEq K] [Inhabited V] (hash : K → Int) {m m1 : HashMap K V} (k : K)
    (v : V) (h : assign hash m k v = some m1)
    (hl : 1 < m.hashMapCapacity → (m.hashMapCapacity : Int) ≤ 4 * m.numOfElements) :
    1 < m1.hashMapCapacity → (m1.hashMapCapacity : Int) ≤ 4 * m1.numOfElements := by
  unfold assign at h
  obtain ⟨h1, h2⟩ := writeRef_sizes h
  rw [h1, h2]
  exact subscript_low hash m k hl

theorem erase_low [DecidableEq K] {hash : K → Int} {m m1 : HashMap K V} {b : Bool} (k : K)
    (_hw : WF hash m) (h : erase hash m k = some (m1, b))
    (hl : 1 < m.hashMapCapacity → (m.hashMapCapacity : Int) ≤ 4 * m.numOfElements) :
    1 < m1.hashMapCapacity → (m1.hashMapCapacity : Int) ≤ 4 * m1.numOfElements := by
  cases hk : lookup hash m k with
  | none =>
    have hc := (containsKey_false_iff hash m k).2 hk
    unfold erase at h
    rw [if_pos hc] at h
    cases h
    exact hl
  | some w =>
    rw [erase_eq k w hk] at h
    cases hs : shrinkLoop hash m.hashMapCapacity { m with
        vectorsArray := m.vectorsArray.set (idx hash m.hashMapCapacity k)
          ((m.vectorsArray.getD (idx hash m.hashMapCapacity k) []).eraseP
            (fun p => decide (p.1 = k))),
        numOfElements := m.numOfElements - 1 } with
    | none => rw [hs] at h; cases h
    | some m2 =>
      rw [hs] at h
      cases h
      suffices hgen : ∀ (fuel : Nat) (a c : HashMap K V), shrinkLoop hash fuel a = some c →
          1 < c.hashMapCapacity → (c.hashMapCapacity : Int) ≤ 4 * c.numOfElements from
        hgen _ _ _ hs
      intro fuel
      induction fuel with
      | zero =>
        intro a c hac h1
        unfold shrinkLoop at hac
        split_ifs at hac with hc
        cases hac
        have h2 : ¬ (belowLower a = true) := fun h => hc ⟨h1, h⟩
        simp only [belowLower, decide_eq_true_eq, not_lt] at h2
        exact h2
      | succ fuel ih =>
        intro a c hac h1
        unfold shrinkLoop at hac
        split_ifs at hac with hc
        · exact ih _ c hac h1
        · cases hac
          have h2 : ¬ (belowLower a = true) := fun h => hc ⟨h1, h⟩
          simp only [belowLower, decide_eq_true_eq, not_lt] at h2
          exact h2

/-- Every call but `clear` keeps the load factor at or above 0.25 while the
capacity is above 1. -/
theorem step_low [DecidableEq K] [Inhabited V] {hash : K → Int} {m m1 : HashMap K V}
    (hw : WF hash m) (op : Op K V) (hop : op ≠ Op.clear) (h : step hash m op = some m1)
    (hl : 1 < m.hashMapCapacity → (m.hashMapCapacity : Int) ≤ 4 * m.numOfElements) :
    1 < m1.hashMapCapacity → (m1.hashMapCapacity : Int) ≤ 4 * m1.numOfElements := by
  cases op with
  | insert key value =>
    simp only [step, insert] at h
    split_ifs at h with hc
    · cases h
      exact hl
    · cases ha : assign hash m key value with
      | none => rw [ha] at h; cases h
      | some m2 =>
        rw [ha] at h
        cases h
        exact assign_low hash key value ha hl
  | subscript key =>
    simp only [step, Option.some.injEq] at h
    rw [← h]
    exact subscript_low hash m key hl
  | assign key value =>
    exact assign_low hash key value h hl
  | erase key =>
    simp only [step] at h
    cases he : erase hash m key with
    | none => rw [he] at h; cases h
    | some r =>
      rw [he] at h
      cases h
      exact erase_low key hw he hl
  | clear => exact absurd rfl hop

/-- A sequence of calls without `clear` keeps the load factor at or above 0.25
while the capacity is above 1. -/
theorem run_low [DecidableEq K] [Inhabited V] (hash : K → Int) :
    ∀ (ops : List (Op K V)) (m m1 : HashMap K V), WF hash m → run hash m ops = some m1 →
      (∀ op ∈ ops, op ≠ Op.clear) →
      (1 < m.hashMapCapacity → (m.hashMapCapacity : Int) ≤ 4 * m.numOfElements) →
      1 < m1.hashMapCapacity → (m1.hashMapCapacity : Int) ≤ 4 * m1.numOfElements := by
  intro ops
  induction ops with
  | nil =>
    intro m m1 _ h _ hl
    cases h
    exact hl
  | cons op ops ih =>
    intro m m1 hw h hops hl
    obtain ⟨m2, h1, h2, -⟩ := step_spec hw op
    simp only [run, h1] at h
    exact ih m2 m1 h2 h (fun o ho => hops o (List.mem_cons_of_mem _ ho))
      (step_low hw op (hops op (List.mem_cons_self _ _)) h1 hl)

/-- C14 as amended: after every sequence of calls on a new map, whenever
`capacity()` is above 1 the load factor is at most 0.75.  The bound 0.25 from
below holds (whenever `capacity()` is above 1) right after every `erase` call
that removed a key, and once it holds it keeps holding through every further
call except `clear`. -/
theorem load_factor_bounds [DecidableEq K] [Inhabited V] (hash : K → Int)
    (pre post : List (Op K V)) (hpost : ∀ op ∈ post, op ≠ Op.clear) :
    ∃ m1 m2, run hash new pre = some m1 ∧ run hash m1 post = some m2 ∧
      (1 < capacity m2 → getLoadFactor m2 ≤ 3 / 4) ∧
      ((1 < capacity m1 → 1 / 4 ≤ getLoadFactor m1) →
        1 < capacity m2 → 1 / 4 ≤ getLoadFactor m2) ∧
      ∀ k, containsKey hash m2 k = true →
        ∃ m3, erase hash m2 k = some (m3, true) ∧
          (1 < capacity m3 → 1 / 4 ≤ getLoadFactor m3 ∧ getLoadFactor m3 ≤ 3 / 4) := by
  obtain ⟨m1, hrun1, hw1⟩ := reach_wf hash pre
  obtain ⟨m2, hrun2, hw2, -⟩ := run_spec hash post m1 hw1
  have hnew : 1 < (new : HashMap K V).hashMapCapacity →
      4 * (new : HashMap K V).numOfElements ≤ 3 * ((new : HashMap K V).hashMapCapacity : Int) := by
    intro _
    show 4 * (0 : Int) ≤ 3 * ((16 : Nat) : Int)
    decide
  have hl1 := run_load hash pre new m1 (new_wf hash) hrun1 hnew
  have hl2 := run_load hash post m1 m2 hw1 hrun2 hl1
  refine ⟨m1, m2, hrun1, hrun2, ?_, ?_, ?_⟩
  · intro hc
    exact (load_le_iff m2 hw2.cap_pos).2 (hl2 hc)
  · intro hlow hc
    refine (load_ge_iff m2 hw2.cap_pos).2 (run_low hash post m1 m2 hw1 hrun2 hpost ?_ hc)
    intro hc1
    exact (load_ge_iff m1 hw1.cap_pos).1 (hlow hc1)
  · intro k hk
    obtain ⟨m3, h1, hw3, -⟩ := erase_spec hw2 k
    rw [containsKey_eq] at hk
    rw [hk] at h1
    obtain ⟨h2, h3⟩ := erase_load k hw2 h1 hl2
    refine ⟨m3, h1, ?_⟩
    intro hc
    exact ⟨(load_ge_iff m3 hw3.cap_pos).2 (h3 rfl hc), (load_le_iff m3 hw3.cap_pos).2 (h2 hc)⟩

theorem load_factor_bounds_witness :
    (∀ op ∈ [Op.insert (5 : Int) (50 : Int), Op.erase 2], op ≠ Op.clear) ∧
    ∃ m1 m2,
      run intHash new [Op.insert (1 : Int) (10 : Int), Op.insert 2 20, Op.erase 1] = some m1 ∧
      run intHash m1 [Op.insert (5 : Int) (50 : Int), Op.erase 2] = some m2 ∧
      (1 < capacity m2 → getLoadFactor m2 ≤ 3 / 4) ∧
      ((1 < capacity m1 → 1 / 4 ≤ getLoadFactor m1) →
        1 < capacity m2 → 1 / 4 ≤ getLoadFactor m2) ∧
      ∀ k, containsKey intHash m2 k = true →
        ∃ m3, erase intHash m2 k = some (m3, true) ∧
          (1 < capacity m3 → 1 / 4 ≤ getLoadFactor m3 ∧ getLoadFactor m3 ≤ 3 / 4) :=
  ⟨by decide,
    load_factor_bounds intHash [Op.insert (1 : Int) (10 : Int), Op.insert 2 20, Op.erase 1]
      [Op.insert (5 : Int) (50 : Int), Op.erase 2] (by decide)⟩

/-- C14 as stated fails: after the single call `insert(1, 10)` on a new map the
capacity is 16 and the load factor is 1/16, below 0.25. -/
theorem load_factor_lower_bound_fails :
    ∃ m, run intHash new [Op.insert (1 : Int) (10 : Int)] = some m ∧ 1 < capacity m ∧
      getLoadFactor m = 1 / 16 ∧ ¬ (1 / 4 ≤ getLoadFactor m ∧ getLoadFactor m ≤ 3 / 4) := by
  refine ⟨⟨16, [[], [(1, 10)], [], [], [], [], [], [], [], [], [], [], [], [], [], []], 1⟩,
    by decide, by decide, ?_, ?_⟩
  · norm_num [getLoadFactor]
  · norm_num [getLoadFactor]

end HMap

namespace HMap

variable {K V : Type}

theorem find_range_some (p : Nat → Bool) :
    ∀ (n s i : Nat), (List.range' s n).find? p = some i →
      s ≤ i ∧ i < s + n ∧ p i = true ∧ ∀ j, s ≤ j → j < i → p j = false := by
  intro n
  induction n with
  | zero => intro s i h; simp at h
  | succ n ih =>
    intro s i h
    rw [List.range'_succ, List.find?_cons] at h
    cases hp : p s with
    | true =>
      rw [hp] at h
      simp only [Option.some.injEq] at h
      subst h
      exact ⟨le_refl _, by omega, hp, fun j h1 h2 => by omega⟩
    | false =>
      rw [hp] at h
      obtain ⟨h1, h2, h3, h4⟩ := ih (s + 1) i h
      refine ⟨by omega, by omega, h3, ?_⟩
      intro j hj1 hj2
      by_cases hjs : j = s
      · rw [hjs]; exact hp
      · exact h4 j (by omega) hj2

theorem find_range_none (p : Nat → Bool) (n s : Nat)
    (h : (List.range' s n).find? p = none) : ∀ j, s ≤ j → j < s + n → p j = false := by
  intro j h1 h2
  have := List.find?_eq_none.1 h j (List.mem_range'_1.2 ⟨h1, h2⟩)
  simpa using this

/-- The number of pairs before bucket `i + 1` is the number before bucket `i`
plus the length of bucket `i`. -/
theorem take_succ_flatten_length (arr : List (List (K × V))) (i : Nat) :
    (arr.take (i + 1)).flatten.length =
      (arr.take i).flatten.length + (arr.getD i []).length := by
  rw [List.take_succ, List.flatten_append, List.length_append]
  congr 1
  rw [List.getD_eq_getElem?_getD]
  cases arr[i]? <;> simp

/-- Empty buckets do not change the number of pairs before a bucket. -/
theorem take_flatten_length_of_empty (arr : List (List (K × V))) (a : Nat) :
    ∀ (b : Nat), a ≤ b → (∀ j, a ≤ j → j < b → arr.getD j [] = []) →
      (arr.take b).flatten.length = (arr.take a).flatten.length := by
  intro b
  induction b with
  | zero =>
    intro hab _
    have : a = 0 := by omega
    rw [this]
  | succ b ih =>
    intro hab hemp
    by_cases hb : a = b + 1
    · rw [hb]
    · rw [take_succ_flatten_length, hemp b (by omega) (by omega),
        ih (by omega) (fun j h1 h2 => hemp j h1 (by omega))]
      rfl

/-- The pair at index `j` of bucket `i` is the pair of the concatenated buckets
at the number of pairs before bucket `i` plus `j`. -/
theorem flatten_getElem_bucket :
    ∀ (arr : List (List (K × V))) (i j : Nat), j < (arr.getD i []).length →
      arr.flatten[(arr.take i).flatten.length + j]? = (arr.getD i [])[j]? := by
  intro arr
  induction arr with
  | nil =>
    intro i j h
    simp at h
  | cons b arr ih =>
    intro i j h
    cases i with
    | zero =>
      simp only [List.take_zero, List.flatten_nil, List.length_nil, Nat.zero_add,
        List.flatten_cons]
      have hb : (b :: arr).getD 0 [] = b := rfl
      rw [hb] at h ⊢
      exact List.getElem?_append_left h
    | succ i =>
      have hb : (b :: arr).getD (i + 1) [] = arr.getD i [] := rfl
      rw [hb] at h ⊢
      simp only [List.take_succ_cons, List.flatten_cons, List.length_append]
      rw [Nat.add_assoc, List.getElem?_append_right (Nat.le_add_right _ _),
        Nat.add_sub_cancel_left]
      exact ih i j h

theorem getElem?_eq_getD_bucket (arr : List (List (K × V))) (i : Nat) (hi : i < arr.length) :
    arr[i]? = some (arr.getD i []) := by
  rw [List.getD_eq_getElem _ _ hi]
  exact List.getElem?_eq_getElem hi

/-- One step of the iterator: from a place with `k` pairs before it the step
either lands on pair `k` of the concatenated buckets, or, when there is no
such pair, sets `_pointer` to `nullptr`. -/
theorem update_spec {arr : List (List (K × V))} {it : const_iterator K V} {k : Nat}
    (h : IterPos arr it k) :
    ∃ it1, _updateValuesToNextObj it = some it1 ∧
      ((k < arr.flatten.length ∧ deref it1 = arr.flatten[k]? ∧ it1._pointer ≠ none ∧
          IterPos arr it1 (k + 1)) ∨
        (k = arr.flatten.length ∧ it1._pointer = none ∧ IterPos arr it1 k)) := by
  obtain ⟨h1, h2, h3, h4, h5, h6⟩ := h
  subst h1
  unfold _updateValuesToNextObj
  rw [getElem?_eq_getD_bucket it.vectorsArray _ h3]
  simp only
  by_cases hin : ((it.vectorsArray.getD it.currentVectorIndex []).length : Int) > it.pairIndexInVector + 1
  · rw [if_pos hin]
    have hj : (it.pairIndexInVector + 1).toNat < (it.vectorsArray.getD it.currentVectorIndex []).length := by
      omega
    have hk : k = (it.vectorsArray.take it.currentVectorIndex).flatten.length +
        (it.pairIndexInVector + 1).toNat := by omega
    have hget := flatten_getElem_bucket it.vectorsArray it.currentVectorIndex _ hj
    rw [← hk] at hget
    have hlt : k < it.vectorsArray.flatten.length := by
      by_contra hge
      rw [List.getElem?_eq_none (Nat.le_of_not_lt hge)] at hget
      rw [List.getElem?_eq_getElem hj] at hget
      cases hget
    refine ⟨_, rfl, Or.inl ⟨hlt, ?_, ?_, ?_⟩⟩
    · simp only [deref]
      exact hget.symm
    · simp
    · refine ⟨rfl, h2, h3, ?_, ?_, ?_⟩
      · show -1 ≤ it.pairIndexInVector + 1
        omega
      · show it.pairIndexInVector + 1 + 1 ≤
          ((it.vectorsArray.getD it.currentVectorIndex []).length : Int)
        omega
      · show ((k + 1 : Nat) : Int) =
          (((it.vectorsArray.take it.currentVectorIndex).flatten.length : Nat) : Int) +
            (it.pairIndexInVector + 1 + 1)
        push_cast
        omega
  · rw [if_neg hin]
    have hend : it.pairIndexInVector + 1 = ((it.vectorsArray.getD it.currentVectorIndex []).length : Int) := by
      omega
    have hk1 : k = (it.vectorsArray.take (it.currentVectorIndex + 1)).flatten.length := by
      rw [take_succ_flatten_length]
      omega
    cases hf : (List.range' (it.currentVectorIndex + 1)
        (it.capacity - (it.currentVectorIndex + 1))).find?
        (fun i => decide ((it.vectorsArray.getD i []).length > 0)) with
    | some i =>
      obtain ⟨f1, f2, f3, f4⟩ := find_range_some _ _ _ _ hf
      have hi : i < it.vectorsArray.length := by omega
      have hpos : 0 < (it.vectorsArray.getD i []).length := by simpa using f3
      have hki : k = (it.vectorsArray.take i).flatten.length := by
        rw [hk1]
        symm
        apply take_flatten_length_of_empty it.vectorsArray _ i f1
        intro j hj1 hj2
        have := f4 j hj1 hj2
        simp only [gt_iff_lt, decide_eq_false_iff_not, not_lt, Nat.le_zero_eq] at this
        exact List.length_eq_zero.1 this
      have hget := flatten_getElem_bucket it.vectorsArray i 0 hpos
      rw [Nat.add_zero, ← hki] at hget
      have hlt : k < it.vectorsArray.flatten.length := by
        by_contra hge
        rw [List.getElem?_eq_none (Nat.le_of_not_lt hge)] at hget
        rw [List.getElem?_eq_getElem hpos] at hget
        cases hget
      refine ⟨_, rfl, Or.inl ⟨hlt, ?_, ?_, ?_⟩⟩
      · simp only [deref]
        exact hget.symm
      · simp
      · refine ⟨rfl, h2, hi, ?_, ?_, ?_⟩
        · show (-1 : Int) ≤ 0
          omega
        · show (0 : Int) + 1 ≤ ((it.vectorsArray.getD i []).length : Int)
          omega
        · show ((k + 1 : Nat) : Int) =
            (((it.vectorsArray.take i).flatten.length : Nat) : Int) + ((0 : Int) + 1)
          push_cast
          omega
    | none =>
      have hemp := find_range_none _ _ _ hf
      have hlen : it.vectorsArray.flatten.length = k := by
        rw [hk1]
        conv_lhs => rw [← List.take_length it.vectorsArray]
        apply take_flatten_length_of_empty it.vectorsArray _ it.vectorsArray.length (by omega)
        intro j hj1 hj2
        have := hemp j hj1 (by omega)
        simp only [gt_iff_lt, decide_eq_false_iff_not, not_lt, Nat.le_zero_eq] at this
        exact List.length_eq_zero.1 this
      exact ⟨_, rfl, Or.inr ⟨hlen.symm, rfl, ⟨rfl, h2, h3, h4, h5, h6⟩⟩⟩

end HMap

namespace HMap

variable {K V : Type}

/-- From pair `k` the operator `++` leads to pair `k + 1`, and from the end to
the end. -/
theorem onPair_next {arr : List (List (K × V))} {it : const_iterator K V} {k : Nat}
    (h : OnPair arr it k) :
    ∃ it1, _updateValuesToNextObj it = some it1 ∧ OnPair arr it1 (k + 1) := by
  rcases h with ⟨-, -, -, hp⟩ | ⟨hk, -, hp⟩
  · obtain ⟨it1, h1, h2⟩ := update_spec hp
    refine ⟨it1, h1, ?_⟩
    rcases h2 with ⟨a, b, c, d⟩ | ⟨a, b, c⟩
    · exact Or.inl ⟨a, b, c, d⟩
    · refine Or.inr ⟨by omega, b, ?_⟩
      rw [← a]
      exact c
  · obtain ⟨it1, h1, h2⟩ := update_spec hp
    refine ⟨it1, h1, ?_⟩
    rcases h2 with ⟨a, -⟩ | ⟨-, b, c⟩
    · omega
    · exact Or.inr ⟨by omega, b, c⟩

/-- The iterator `begin()` builds stands on the first pair. -/
theorem newConstIterator_begin (arr : List (List (K × V))) (hpos : 0 < arr.length) :
    ∃ it, newConstIterator arr arr.length false = some it ∧ OnPair arr it 0 := by
  have hp : IterPos arr
      { vectorsArray := arr, capacity := arr.length, currentVectorIndex := 0,
        pairIndexInVector := -1, _pointer := none } 0 :=
    ⟨rfl, rfl, hpos, le_refl _, by show (-1 : Int) + 1 ≤ _; omega,
      by show ((0 : Nat) : Int) = (((arr.take 0).flatten.length : Nat) : Int) + (-1 + 1); simp⟩
  obtain ⟨it1, h1, h2⟩ := update_spec hp
  refine ⟨it1, ?_, ?_⟩
  · simp only [newConstIterator, Bool.false_eq_true, if_false]
    exact h1
  · rcases h2 with ⟨a, b, c, d⟩ | ⟨a, b, c⟩
    · exact Or.inl ⟨a, b, c, d⟩
    · refine Or.inr ⟨by omega, b, ?_⟩
      rw [← a]
      exact c

/-- The iterator `end()` builds has `_pointer` equal to `nullptr`. -/
theorem newConstIterator_end (arr : List (List (K × V))) (cap : Nat) :
    ∃ it, newConstIterator arr cap true = some it ∧ it._pointer = none :=
  ⟨_, rfl, rfl⟩

theorem begin_spec {hash : K → Int} {m : HashMap K V} (hw : WF hash m) :
    ∃ it, begin m = some it ∧ OnPair m.vectorsArray it 0 := by
  unfold begin capacity
  rw [← hw.len]
  exact newConstIterator_begin _ (by rw [hw.len]; exact hw.cap_pos)

theorem end_spec (m : HashMap K V) : ∃ it, end_ m = some it ∧ it._pointer = none :=
  newConstIterator_end _ _

/-- After `n` applications of `++` to `begin()` the iterator stands on pair `n`. -/
theorem iterAt_spec {hash : K → Int} {m : HashMap K V} (hw : WF hash m) :
    ∀ n, ∃ it, iterAt m n = some it ∧ OnPair m.vectorsArray it n := by
  intro n
  induction n with
  | zero => exact begin_spec hw
  | succ n ih =>
    obtain ⟨it, h1, h2⟩ := ih
    obtain ⟨it1, h3, h4⟩ := onPair_next h2
    refine ⟨it1, ?_, h4⟩
    simp only [iterAt, h1]
    exact h3

/-- The loop from `begin()` to `end()` visits the pairs from pair `k` on, in the
order of the concatenated buckets. -/
theorem visitLoop_spec {arr : List (List (K × V))} {last : const_iterator K V}
    (hlast : last._pointer = none) :
    ∀ (fuel : Nat) (it : const_iterator K V) (k : Nat), OnPair arr it k →
      arr.flatten.length - k ≤ fuel → visitLoop last fuel it = some (arr.flatten.drop k) := by
  intro fuel
  induction fuel with
  | zero =>
    intro it k h hf
    rcases h with ⟨hk, -⟩ | ⟨hk, hp, -⟩
    · omega
    · unfold visitLoop
      simp only [iterNe, hp, hlast, ne_eq, not_true_eq_false, decide_False,
        Bool.false_eq_true, if_false]
      rw [List.drop_eq_nil_of_le hk]
  | succ fuel ih =>
    intro it k h hf
    have hnext := onPair_next h
    rcases h with ⟨hk, hd, hp, -⟩ | ⟨hk, hp, -⟩
    · obtain ⟨it1, h1, h2⟩ := hnext
      have hrec := ih it1 (k + 1) h2 (by omega)
      have hne : iterNe it last = true := by
        simp only [iterNe, hlast, ne_eq, decide_eq_true_eq]
        exact hp
      rw [List.getElem?_eq_getElem hk] at hd
      unfold visitLoop
      simp only [hne, if_true, hd, h1, hrec]
      rw [List.drop_eq_getElem_cons hk]
    · unfold visitLoop
      simp only [iterNe, hp, hlast, ne_eq, not_true_eq_false, decide_False,
        Bool.false_eq_true, if_false]
      rw [List.drop_eq_nil_of_le hk]

/-- Iterating from `begin()` to `end()` visits the concatenation of the buckets. -/
theorem visited_eq {hash : K → Int} {m : HashMap K V} (hw : WF hash m) :
    visited m = some m.vectorsArray.flatten := by
  obtain ⟨first, h1, h2⟩ := begin_spec hw
  obtain ⟨last, h3, h4⟩ := end_spec m
  unfold visited
  simp only [h1, h3]
  rw [visitLoop_spec h4 _ first 0 h2 (by simp [pairCount, List.length_flatten])]
  rfl

/-- The loop of `operator==` answers whether every pair from pair `k` on has its
key in the other map with the same value. -/
theorem eqLoop_spec [DecidableEq K] [DecidableEq V] (hash : K → Int) (b : HashMap K V)
    {arr : List (List (K × V))} {last : const_iterator K V} (hlast : last._pointer = none) :
    ∀ (fuel : Nat) (it : const_iterator K V) (k : Nat), OnPair arr it k →
      arr.flatten.length - k ≤ fuel →
      eqLoop hash b last fuel it =
        some ((arr.flatten.drop k).all (fun p => decide (lookup hash b p.1 = some p.2))) := by
  intro fuel
  induction fuel with
  | zero =>
    intro it k h hf
    rcases h with ⟨hk, -⟩ | ⟨hk, hp, -⟩
    · omega
    · unfold eqLoop
      simp only [iterNe, hp, hlast, ne_eq, not_true_eq_false, decide_False,
        Bool.false_eq_true, if_false]
      rw [List.drop_eq_nil_of_le hk]
      rfl
  | succ fuel ih =>
    intro it k h hf
    have hnext := onPair_next h
    rcases h with ⟨hk, hd, hp, -⟩ | ⟨hk, hp, -⟩
    · obtain ⟨it1, h1, h2⟩ := hnext
      have hrec := ih it1 (k + 1) h2 (by omega)
      have hne : iterNe it last = true := by
        simp only [iterNe, hlast, ne_eq, decide_eq_true_eq]
        exact hp
      rw [List.getElem?_eq_getElem hk] at hd
      unfold eqLoop
      simp only [hne, if_true, hd]
      rw [List.drop_eq_getElem_cons hk, List.all_cons]
      rw [containsKey_eq, atKey_eq]
      cases hl : lookup hash b (arr.flatten[k]).1 with
      | none => simp
      | some v =>
        simp only [Option.isSome_some, Bool.true_eq_false, if_false, Option.some.injEq]
        by_cases hv : v = (arr.flatten[k]).2
        · simp only [hv, ne_eq, not_true_eq_false, if_false, h1, hrec, decide_True,
            Bool.true_and]
        · simp [hv]
    · unfold eqLoop
      simp only [iterNe, hp, hlast, ne_eq, not_true_eq_false, decide_False,
        Bool.false_eq_true, if_false]
      rw [List.drop_eq_nil_of_le hk]
      rfl

/-- The answer of `operator==`: the counts agree and every pair of this map has
its key in the other map with the same value. -/
theorem operatorEq_eq [DecidableEq K] [DecidableEq V] {hash : K → Int} {a : HashMap K V}
    (hw : WF hash a) (b : HashMap K V) :
    operatorEq hash a b = some (decide (a.numOfElements = b.numOfElements) &&
      a.vectorsArray.flatten.all (fun p => decide (lookup hash b p.1 = some p.2))) := by
  obtain ⟨first, h1, h2⟩ := begin_spec hw
  obtain ⟨last, h3, h4⟩ := end_spec a
  unfold operatorEq
  by_cases hn : a.numOfElements = b.numOfElements
  · simp only [hn, ne_eq, not_true_eq_false, if_false, h1, h3, decide_True, Bool.true_and]
    rw [eqLoop_spec hash b h4 _ first 0 h2 (by simp [pairCount, List.length_flatten])]
    rfl
  · simp [hn]

end HMap

namespace HMap

variable {K V : Type}

theorem count_eq_length {hash : K → Int} {m : HashMap K V} (hw : WF hash m) :
    m.numOfElements = (m.vectorsArray.flatten.length : Int) := by
  rw [hw.count, List.length_flatten]

theorem mem_flatten_iff_lookup [DecidableEq K] {hash : K → Int} {m : HashMap K V}
    (hw : WF hash m) (k : K) (v : V) :
    (k, v) ∈ m.vectorsArray.flatten ↔ lookup hash m k = some v := by
  rw [mem_flatten_iff_getD, lookup_iff_any hw]

theorem key_mem_iff_lookup [DecidableEq K] {hash : K → Int} {m : HashMap K V}
    (hw : WF hash m) (k : K) :
    k ∈ m.vectorsArray.flatten.map Prod.fst ↔ ∃ v, lookup hash m k = some v := by
  constructor
  · intro h
    obtain ⟨p, hp, rfl⟩ := List.mem_map.1 h
    exact ⟨p.2, (mem_flatten_iff_lookup hw p.1 p.2).1 hp⟩
  · rintro ⟨v, hv⟩
    exact List.mem_map.2 ⟨(k, v), (mem_flatten_iff_lookup hw k v).2 hv, rfl⟩

/-- On maps with the invariant `operator==` returns, and returns true exactly
when the two maps hold the same value, or none, for every key. -/
theorem operatorEq_spec [DecidableEq K] [DecidableEq V] {hash : K → Int} {a b : HashMap K V}
    (hwa : WF hash a) (hwb : WF hash b) :
    ∃ r, operatorEq hash a b = some r ∧
      (r = true ↔ ∀ key, lookup hash a key = lookup hash b key) := by
  refine ⟨_, operatorEq_eq hwa b, ?_⟩
  simp only [Bool.and_eq_true, decide_eq_true_eq, List.all_eq_true]
  constructor
  · rintro ⟨hn, hall⟩
    have hsub : a.vectorsArray.flatten.map Prod.fst ⊆ b.vectorsArray.flatten.map Prod.fst := by
      intro k hk
      obtain ⟨p, hp, rfl⟩ := List.mem_map.1 hk
      exact (key_mem_iff_lookup hwb p.1).2 ⟨p.2, hall p hp⟩
    have hlen : (b.vectorsArray.flatten.map Prod.fst).length ≤
        (a.vectorsArray.flatten.map Prod.fst).length := by
      rw [List.length_map, List.length_map]
      have h1 := count_eq_length hwa
      have h2 := count_eq_length hwb
      omega
    have hperm := (List.subperm_of_subset hwa.nodup_flatten hsub).perm_of_length_le hlen
    intro key
    cases hl : lookup hash a key with
    | some v =>
      have := hall (key, v) ((mem_flatten_iff_lookup hwa key v).2 hl)
      exact this.symm
    | none =>
      cases hl2 : lookup hash b key with
      | none => rfl
      | some v =>
        have hkb : key ∈ b.vectorsArray.flatten.map Prod.fst :=
          (key_mem_iff_lookup hwb key).2 ⟨v, hl2⟩
        obtain ⟨v2, hv2⟩ := (key_mem_iff_lookup hwa key).1 (hperm.mem_iff.2 hkb)
        rw [hl] at hv2
        cases hv2
  · intro hsame
    constructor
    · have hperm : (a.vectorsArray.flatten.map Prod.fst).Perm
          (b.vectorsArray.flatten.map Prod.fst) := by
        rw [List.perm_ext_iff_of_nodup hwa.nodup_flatten hwb.nodup_flatten]
        intro k
        rw [key_mem_iff_lookup hwa, key_mem_iff_lookup hwb, hsame k]
      have hlen := hperm.length_eq
      rw [List.length_map, List.length_map] at hlen
      rw [count_eq_length hwa, count_eq_length hwb, hlen]
    · intro p hp
      rw [← hsame p.1]
      exact (mem_flatten_iff_lookup hwa p.1 p.2).1 hp

/-- C16: in every map reached from a new map by `insert`, `operator[]`, `erase`
and `clear` calls, `size()` equals the sum of the lengths of the buckets, and
iterating from `begin()` to `end()` returns and visits exactly that many
pairs. -/
theorem size_eq_visited_count [DecidableEq K] [Inhabited V] (hash : K → Int)
    (ops : List (Op K V)) :
    ∃ m l, run hash new ops = some m ∧ visited m = some l ∧
      size m = (((m.vectorsArray.map List.length).sum : Nat) : Int) ∧
      size m = (l.length : Int) := by
  obtain ⟨m, hrun, hw⟩ := reach_wf hash ops
  exact ⟨m, _, hrun, visited_eq hw, hw.count, count_eq_length hw⟩

/-- C18: for every two maps reached from new maps, `operator==` returns, gives
the same answer with the operands swapped, and answers true exactly when for
every key `containsKey` and `at` answer the same on both maps, whatever the
capacities, the bucket layouts and the order of the calls that built them. -/
theorem operatorEq_iff_same_mapping [DecidableEq K] [DecidableEq V] [Inhabited V]
    (hash : K → Int) (opsA opsB : List (Op K V)) :
    ∃ a b r, run hash new opsA = some a ∧ run hash new opsB = some b ∧
      operatorEq hash a b = some r ∧ operatorEq hash b a = some r ∧
      (r = true ↔ ∀ key, containsKey hash a key = containsKey hash b key ∧
        atKey hash a key = atKey hash b key) := by
  obtain ⟨a, hra, hwa⟩ := reach_wf hash opsA
  obtain ⟨b, hrb, hwb⟩ := reach_wf hash opsB
  obtain ⟨r, h1, h2⟩ := operatorEq_spec hwa hwb
  obtain ⟨r2, h3, h4⟩ := operatorEq_spec hwb hwa
  have hr : r2 = r := by
    rw [Bool.eq_iff_iff, h2, h4]
    exact ⟨fun h key => (h key).symm, fun h key => (h key).symm⟩
  rw [hr] at h3
  refine ⟨a, b, r, hra, hrb, h1, h3, ?_⟩
  rw [h2]
  constructor
  · intro h key
    rw [containsKey_eq, containsKey_eq, atKey_eq, atKey_eq, h key]
    exact ⟨rfl, rfl⟩
  · intro h key
    have := (h key).2
    rw [atKey_eq, atKey_eq] at this
    exact this

/-- C20: on every map reached from a new map there is one bucket per index below
`capacity()`; iterating from `begin()` with `++` until the iterator equals
`end()` visits exactly the concatenation of the buckets in the order of their
indices, each bucket in its stored order; after `n` applications of `++` the
iterator points to pair `n` of that concatenation and differs from `end()`
while there is such a pair, and equals `end()` from the step after the last
pair on; and `begin()` equals `end()` exactly when `empty()` holds. -/
theorem iteration_visits_buckets_in_order [DecidableEq K] [Inhabited V] (hash : K → Int)
    (ops : List (Op K V)) :
    ∃ m first last, run hash new ops = some m ∧ m.vectorsArray.length = capacity m ∧
      begin m = some first ∧ end_ m = some last ∧
      visited m = some m.vectorsArray.flatten ∧
      (∀ n, ∃ it, iterAt m n = some it ∧
        (n < m.vectorsArray.flatten.length →
          deref it = m.vectorsArray.flatten[n]? ∧ iterEq it last = false) ∧
        (m.vectorsArray.flatten.length ≤ n → iterEq it last = true)) ∧
      (iterEq first last = true ↔ empty m = true) := by
  obtain ⟨m, hrun, hw⟩ := reach_wf hash ops
  obtain ⟨first, h1, h2⟩ := begin_spec hw
  obtain ⟨last, h3, h4⟩ := end_spec m
  have hend : ∀ (it : const_iterator K V) (n : Nat), OnPair m.vectorsArray it n →
      (n < m.vectorsArray.flatten.length →
        deref it = m.vectorsArray.flatten[n]? ∧ iterEq it last = false) ∧
      (m.vectorsArray.flatten.length ≤ n → iterEq it last = true) := by
    intro it n h
    rcases h with ⟨a, b, c, -⟩ | ⟨a, b, -⟩
    · refine ⟨fun _ => ⟨b, ?_⟩, fun h => by omega⟩
      simp only [iterEq, h4, decide_eq_false_iff_not]
      exact c
    · refine ⟨fun h => by omega, fun _ => ?_⟩
      simp only [iterEq, h4, b, decide_True]
  refine ⟨m, first, last, hrun, hw.len, h1, h3, visited_eq hw, ?_, ?_⟩
  · intro n
    obtain ⟨it, h5, h6⟩ := iterAt_spec hw n
    exact ⟨it, h5, hend it n h6⟩
  · have hcount := count_eq_length hw
    obtain ⟨hlt, hge⟩ := hend first 0 h2
    simp only [empty, decide_eq_true_eq]
    constructor
    · intro he
      by_contra hne
      have hpos : 0 < m.vectorsArray.flatten.length := by omega
      rw [(hlt hpos).2] at he
      cases he
    · intro he
      exact hge (by omega)

end HMap

namespace HMap

variable {K V : Type}

/-- For a capacity that is a power of two the mask of `_hashFunction` is the
remainder of the division by the capacity. -/
theorem idx_eq_mod (hash : K → Int) (j : Nat) (key : K) :
    idx hash (2 ^ j) key = (hash key % 4294967296).toNat % 2 ^ j := by
  unfold idx
  exact Nat.and_pow_two_sub_one_eq_mod _ _

/-- For a capacity `2 ^ j` with `j ≤ 32` the bucket index is the non-negative
remainder of the hash value modulo the capacity. -/
theorem idx_int_mod (hash : K → Int) (j : Nat) (hj : j ≤ 32) (key : K) :
    ((idx hash (2 ^ j) key : Nat) : Int) = hash key % ((2 ^ j : Nat) : Int) := by
  rw [idx_eq_mod]
  have hnn : 0 ≤ hash key % 4294967296 := Int.emod_nonneg _ (by decide)
  have hdvd : (((2 ^ j : Nat) : Int)) ∣ (4294967296 : Int) := by
    have h1 : (2 : Nat) ^ j ∣ 2 ^ 32 := pow_dvd_pow 2 hj
    have h2 : (((2 ^ j : Nat) : Int)) ∣ (((2 ^ 32 : Nat) : Nat) : Int) := Int.natCast_dvd_natCast.2 h1
    exact h2
  rw [Int.natCast_mod, Int.toNat_of_nonneg hnn, Int.emod_emod_of_dvd _ hdvd]

/-- C30: on a map reached from a new map whose capacity is within the range of
`int`, for every key that `containsKey` reports present `bucketIndex` returns
the non-negative remainder of the hash value (as converted to `int`) modulo
`capacity()`, also for a negative hash value; the index lies below
`capacity()` and the bucket at that index holds the pair of the key. -/
theorem bucketIndex_eq_hash_mod [DecidableEq K] [Inhabited V] (hash : K → Int)
    (ops : List (Op K V)) (m : HashMap K V) (key : K)
    (hrun : run hash new ops = some m) (hcap : capacity m ≤ 2147483647)
    (hpres : containsKey hash m key = true) :
    ∃ i v, bucketIndex hash m key = some i ∧
      (i : Int) = hash key % (capacity m : Int) ∧ 0 ≤ hash key % (capacity m : Int) ∧
      i < capacity m ∧ (key, v) ∈ m.vectorsArray.getD i [] := by
  have hw := wf_of_run hrun
  obtain ⟨j, hj⟩ := hw.pow
  have hj32 : j ≤ 32 := by
    by_contra hgt
    have h1 : (2 : Nat) ^ 33 ≤ 2 ^ j := Nat.pow_le_pow_right (by decide) (by omega)
    have h2 : capacity m = 2 ^ j := hj
    have h3 : (2 : Nat) ^ 33 = 8589934592 := by norm_num
    omega
  obtain ⟨v, hv⟩ := Option.isSome_iff_exists.1 ((containsKey_eq hash m key).symm.trans hpres)
  have hnc : ¬ (containsKey hash m key = false) := by simp [hpres]
  have hpos : (0 : Int) < (capacity m : Int) := by
    have := hw.cap_pos
    show (0 : Int) < (m.hashMapCapacity : Int)
    omega
  refine ⟨idx hash m.hashMapCapacity key, v, ?_, ?_, Int.emod_nonneg _ (by omega),
    idx_lt hash hw.cap_pos key, (lookup_iff hw key v).1 hv⟩
  · unfold bucketIndex
    rw [if_neg hnc]
    rfl
  · show ((idx hash m.hashMapCapacity key : Nat) : Int) = hash key % (m.hashMapCapacity : Int)
    rw [hj]
    exact idx_int_mod hash j hj32 key

theorem bucketIndex_eq_hash_mod_witness :
    run intHash new [Op.insert (-3 : Int) (10 : Int)] =
      some ⟨16, [[], [], [], [], [], [], [], [], [], [], [], [], [], [(-3, 10)], [], []], 1⟩ ∧
    capacity (⟨16, [[], [], [], [], [], [], [], [], [], [], [], [], [], [(-3, 10)], [], []],
      1⟩ : HashMap Int Int) ≤ 2147483647 ∧
    containsKey intHash (⟨16, [[], [], [], [], [], [], [], [], [], [], [], [], [], [(-3, 10)],
      [], []], 1⟩ : HashMap Int Int) (-3) = true ∧
    ∃ i v, bucketIndex intHash (⟨16, [[], [], [], [], [], [], [], [], [], [], [], [], [],
        [(-3, 10)], [], []], 1⟩ : HashMap Int Int) (-3) = some i ∧
      (i : Int) = intHash (-3) % (capacity (⟨16, [[], [], [], [], [], [], [], [], [], [], [],
        [], [], [(-3, 10)], [], []], 1⟩ : HashMap Int Int) : Int) ∧
      0 ≤ intHash (-3) % (capacity (⟨16, [[], [], [], [], [], [], [], [], [], [], [],
        [], [], [(-3, 10)], [], []], 1⟩ : HashMap Int Int) : Int) ∧
      i < capacity (⟨16, [[], [], [], [], [], [], [], [], [], [], [], [], [], [(-3, 10)], [],
        []], 1⟩ : HashMap Int Int) ∧
      (-3, v) ∈ (⟨16, [[], [], [], [], [], [], [], [], [], [], [], [], [], [(-3, 10)], [],
        []], 1⟩ : HashMap Int Int).vectorsArray.getD i [] :=
  ⟨by decide, by decide, by decide,
    bucketIndex_eq_hash_mod intHash [Op.insert (-3 : Int) (10 : Int)] _ (-3)
      (by decide) (by decide) (by decide)⟩

/-- The count and the capacity `operator[]` leaves for an absent key. -/
theorem subscript_sizes [DecidableEq K] [Inhabited V] (hash : K → Int) (m : HashMap K V) (k : K)
    (hc : containsKey hash m k = false) :
    (subscript hash m k).1.numOfElements = m.numOfElements + 1 ∧
    (subscript hash m k).1.hashMapCapacity =
      if 1 < m.hashMapCapacity ∧ 3 * (m.hashMapCapacity : Int) < 4 * (m.numOfElements + 1)
      then m.hashMapCapacity * 2 else m.hashMapCapacity := by
  unfold subscript
  simp only
  rw [if_pos hc]
  simp only [aboveUpper, decide_eq_true_eq, gt_iff_lt]
  split_ifs with hg
  · exact ⟨rfl, rfl⟩
  · exact ⟨rfl, rfl⟩

/-- The count and the capacity `insert` leaves for an absent key. -/
theorem insert_absent_sizes [DecidableEq K] [Inhabited V] (hash : K → Int) {m m1 : HashMap K V}
    {b : Bool} (k : K) (v : V) (hc : containsKey hash m k = false)
    (h : insert hash m k v = some (m1, b)) :
    b = true ∧ m1.numOfElements = m.numOfElements + 1 ∧
    m1.hashMapCapacity =
      if 1 < m.hashMapCapacity ∧ 3 * (m.hashMapCapacity : Int) < 4 * (m.numOfElements + 1)
      then m.hashMapCapacity * 2 else m.hashMapCapacity := by
  unfold insert at h
  have hnc : ¬ (containsKey hash m k = true) := by simp [hc]
  rw [if_neg hnc] at h
  cases ha : assign hash m k v with
  | none => rw [ha] at h; cases h
  | some m2 =>
    rw [ha] at h
    cases h
    unfold assign at ha
    obtain ⟨h1, h2⟩ := writeRef_sizes ha
    obtain ⟨h3, h4⟩ := subscript_sizes hash m k hc
    exact ⟨rfl, by rw [h2, h3], by rw [h1, h4]⟩

/-- With no element left the shrinking loop of `erase` ends at capacity 1. -/
theorem shrinkLoop_empty (hash : K → Int) :
    ∀ (fuel : Nat) (m : HashMap K V), m.numOfElements = 0 → (∃ j, m.hashMapCapacity = 2 ^ j) →
      m.hashMapCapacity ≤ fuel →
      ∃ m1, shrinkLoop hash fuel m = some m1 ∧ m1.hashMapCapacity = 1 ∧
        m1.numOfElements = 0 := by
  intro fuel
  induction fuel with
  | zero =>
    intro m _ hpow hf
    obtain ⟨j, hj⟩ := hpow
    have : 0 < 2 ^ j := Nat.pos_pow_of_pos j (by decide)
    omega
  | succ fuel ih =>
    intro m hn hpow hf
    obtain ⟨j, hj⟩ := hpow
    unfold shrinkLoop
    split_ifs with hc
    · cases j with
      | zero =>
        have := hc.1
        rw [hj] at this
        simp at this
      | succ j =>
        have hhalf : m.hashMapCapacity / 2 = 2 ^ j := by
          rw [hj, pow_succ]
          simp
        have hpos : 0 < 2 ^ j := Nat.pos_pow_of_pos j (by decide)
        exact ih (_rehashing hash m (m.hashMapCapacity / 2)) hn ⟨j, hhalf⟩ (by
          show m.hashMapCapacity / 2 ≤ fuel
          omega)
    · refine ⟨m, rfl, ?_, hn⟩
      cases j with
      | zero => rw [hj]; rfl
      | succ j =>
        exfalso
        apply hc
        have hpos : 0 < 2 ^ j := Nat.pos_pow_of_pos j (by decide)
        refine ⟨by rw [hj, pow_succ]; omega, ?_⟩
        simp only [belowLower, decide_eq_true_eq, hn]
        rw [hj, pow_succ]
        push_cast
        have : (0 : Int) < 2 ^ j := by positivity
        omega

end HMap

namespace HMap

variable {K V : Type}

/-- C25: for every key and every hash function, inserting the key into a new
map leaves capacity 16, and erasing it then returns true and leaves capacity
exactly 1 (the halving loop stops there), size 0, `empty()` true, no pair in
any bucket and the key absent. -/
theorem insert_erase_shrinks_to_one [DecidableEq K] [Inhabited V] (hash : K → Int) (k : K)
    (v : V) :
    ∃ m1 m2, run hash new [Op.insert k v] = some m1 ∧ capacity m1 = 16 ∧ size m1 = 1 ∧
      erase hash m1 k = some (m2, true) ∧ capacity m2 = 1 ∧ 1 ≤ capacity m2 ∧ size m2 = 0 ∧
      empty m2 = true ∧ m2.vectorsArray.flatten = [] ∧ containsKey hash m2 k = false := by
  have hnew : containsKey hash (new : HashMap K V) k = false := by
    rw [containsKey_false_iff, lookup_new]
  obtain ⟨m1, hi, hw1, hl1⟩ := insert_spec (new_wf hash : WF hash (new : HashMap K V)) k v
  have hb : (!(lookup hash (new : HashMap K V) k).isSome) = true := by
    rw [lookup_new]
    rfl
  rw [hb] at hi
  obtain ⟨-, hn1, hc1⟩ := insert_absent_sizes hash k v hnew hi
  have hcap1 : m1.hashMapCapacity = 16 := by
    have e1 : (new : HashMap K V).hashMapCapacity = 16 := rfl
    have e2 : (new : HashMap K V).numOfElements = 0 := rfl
    rw [hc1, e1, e2]
    norm_num
  have hnum1 : m1.numOfElements = 1 := by
    rw [hn1]
    rfl
  have hk1 : lookup hash m1 k = some v := by
    rw [hl1]
    simp [specStep, lookup_new]
  obtain ⟨m2, he, hw2, hl2, hn2⟩ := erase_spec hw1 k
  rw [hk1] at he hn2
  have hnum2 : m2.numOfElements = 0 := by
    rw [hn2, hnum1]
    rfl
  have hcap2 : m2.hashMapCapacity = 1 := by
    have he2 := erase_eq k v hk1
    obtain ⟨m3, hs, hc3, -⟩ := shrinkLoop_empty hash m1.hashMapCapacity
      { m1 with
        vectorsArray := m1.vectorsArray.set (idx hash m1.hashMapCapacity k)
          ((m1.vectorsArray.getD (idx hash m1.hashMapCapacity k) []).eraseP
            (fun p => decide (p.1 = k))),
        numOfElements := m1.numOfElements - 1 }
      (by show m1.numOfElements - 1 = 0; rw [hnum1]; rfl) hw1.pow (le_refl _)
    rw [hs, he] at he2
    simp only [Option.isSome_some, Option.map_some', Option.some.injEq, Prod.mk.injEq,
      and_true] at he2
    rw [he2]
    exact hc3
  have hflat : m2.vectorsArray.flatten = [] := by
    have := count_eq_length hw2
    rw [hnum2] at this
    exact List.length_eq_zero.1 (by omega)
  refine ⟨m1, m2, ?_, hcap1, hnum1, he, hcap2, by rw [capacity, hcap2], hnum2, ?_, hflat, ?_⟩
  · simp only [run, step, hi, Option.map_some']
  · simp only [empty, hnum2, decide_True]
  · rw [containsKey_false_iff, hl2, Function.update_same]

/-- Inserting pairs with pairwise different keys, none of them present, into a
map of capacity 16 with at most 12 elements that ends with at most 13
elements: every call returns, the count grows by the number of pairs, and the
capacity stays 16 up to 12 elements and is 32 with 13. -/
theorem insert_many [DecidableEq K] [Inhabited V] (hash : K → Int) :
    ∀ (kvs : List (K × V)) (m : HashMap K V), WF hash m → m.hashMapCapacity = 16 →
      m.numOfElements ≤ 12 →
      (kvs.map Prod.fst).Nodup → (∀ p ∈ kvs, lookup hash m p.1 = none) →
      m.numOfElements + kvs.length ≤ 13 →
      ∃ m1, run hash m (kvs.map (fun p => Op.insert p.1 p.2)) = some m1 ∧
        m1.numOfElements = m.numOfElements + kvs.length ∧
        m1.hashMapCapacity = if m.numOfElements + kvs.length ≤ 12 then 16 else 32 := by
  intro kvs
  induction kvs with
  | nil =>
    intro m _ hcap h12 _ _ _
    refine ⟨m, rfl, by simp, ?_⟩
    have : m.numOfElements + (([] : List (K × V)).length : Int) ≤ 12 := by
      simp only [List.length_nil, Nat.cast_zero, add_zero]
      exact h12
    rw [if_pos this, hcap]
  | cons p kvs ih =>
    intro m hw hcap h12 hnd habs hle
    simp only [List.map_cons, List.nodup_cons] at hnd
    have hp : lookup hash m p.1 = none := habs p (List.mem_cons_self _ _)
    have hc : containsKey hash m p.1 = false := (containsKey_false_iff hash m p.1).2 hp
    obtain ⟨m1, hi, hw1, hl1⟩ := insert_spec hw p.1 p.2
    obtain ⟨-, hn1, hc1⟩ := insert_absent_sizes hash p.1 p.2 hc hi
    have hstep : step hash m (Op.insert p.1 p.2) = some m1 := by
      simp only [step, hi, Option.map_some']
    have hlen : ((p :: kvs).length : Int) = (kvs.length : Int) + 1 := by
      simp
    rw [hcap] at hc1
    by_cases hfull : m.numOfElements + 1 ≤ 12
    · have hcap1 : m1.hashMapCapacity = 16 := by
        rw [hc1]
        have : ¬ (1 < 16 ∧ 3 * ((16 : Nat) : Int) < 4 * (m.numOfElements + 1)) := by
          rintro ⟨-, h⟩
          push_cast at h
          omega
        rw [if_neg this]
      have habs1 : ∀ q ∈ kvs, lookup hash m1 q.1 = none := by
        intro q hq
        rw [hl1]
        simp only [specStep, hp, Option.isSome_none, Bool.false_eq_true, if_false]
        have hne : q.1 ≠ p.1 := by
          intro e
          exact hnd.1 (e ▸ List.mem_map.2 ⟨q, hq, rfl⟩)
        rw [Function.update_noteq hne]
        exact habs q (List.mem_cons_of_mem _ hq)
      obtain ⟨m2, hr, hn2, hc2⟩ := ih m1 hw1 hcap1 (by rw [hn1]; exact hfull) hnd.2 habs1
        (by rw [hn1]; omega)
      refine ⟨m2, ?_, ?_, ?_⟩
      · simp only [List.map_cons, run, hstep]
        exact hr
      · rw [hn2, hn1]
        omega
      · rw [hc2, hn1]
        have e : m.numOfElements + 1 + (kvs.length : Int) =
            m.numOfElements + ((p :: kvs).length : Int) := by omega
        rw [e]
    · have hnil : kvs = [] := by
        apply List.length_eq_zero.1
        omega
      subst hnil
      refine ⟨m1, ?_, ?_, ?_⟩
      · simp only [List.map_cons, List.map_nil, run, hstep]
      · rw [hn1]
        simp
      · rw [hc1]
        have h1 : (1 < 16 ∧ 3 * ((16 : Nat) : Int) < 4 * (m.numOfElements + 1)) := by
          refine ⟨by decide, ?_⟩
          push_cast
          omega
        have h2 : ¬ (m.numOfElements + (([p] : List (K × V)).length : Int) ≤ 12) := by
          simp only [List.length_singleton, Nat.cast_one]
          exact hfull
        rw [if_pos h1, if_neg h2]

/-- C24: for every hash function and every list of 13 pairs with pairwise
different keys, inserting the first 12 into a new map leaves capacity 16 and
size 12, and inserting all 13 leaves capacity 32 and size 13. -/
theorem thirteenth_insert_grows [DecidableEq K] [Inhabited V] (hash : K → Int)
    (kvs : List (K × V)) (hnd : (kvs.map Prod.fst).Nodup) (hlen : kvs.length = 13) :
    ∃ m12 m13, run hash new ((kvs.take 12).map (fun p => Op.insert p.1 p.2)) = some m12 ∧
      capacity m12 = 16 ∧ size m12 = 12 ∧
      run hash new (kvs.map (fun p => Op.insert p.1 p.2)) = some m13 ∧
      capacity m13 = 32 ∧ size m13 = 13 := by
  have hw : WF hash (new : HashMap K V) := new_wf hash
  have hnd12 : ((kvs.take 12).map Prod.fst).Nodup :=
    hnd.sublist ((List.take_sublist 12 kvs).map _)
  have hlen12 : (kvs.take 12).length = 12 := by
    rw [List.length_take, hlen]
    rfl
  have hn0 : (new : HashMap K V).numOfElements = 0 := rfl
  obtain ⟨m12, h1, h2, h3⟩ := insert_many hash (kvs.take 12) (new : HashMap K V) hw rfl
    (by rw [hn0]; decide) hnd12 (fun p _ => lookup_new hash p.1)
    (by rw [hlen12, hn0]; decide)
  obtain ⟨m13, h4, h5, h6⟩ := insert_many hash kvs (new : HashMap K V) hw rfl
    (by rw [hn0]; decide) hnd (fun p _ => lookup_new hash p.1) (by rw [hlen, hn0]; decide)
  rw [hlen12, hn0] at h2 h3
  rw [hlen, hn0] at h5 h6
  refine ⟨m12, m13, h1, ?_, ?_, h4, ?_, ?_⟩
  · rw [capacity, h3]
    rfl
  · rw [size, h2]
    rfl
  · rw [capacity, h6]
    rfl
  · rw [size, h5]
    rfl

theorem thirteenth_insert_grows_witness :
    (([(0, 0), (16, 0), (32, 0), (48, 0), (64, 0), (80, 0), (96, 0), (112, 0), (128, 0),
      (144, 0), (160, 0), (176, 0), (192, 0)] : List (Int × Int)).map Prod.fst).Nodup ∧
    ([(0, 0), (16, 0), (32, 0), (48, 0), (64, 0), (80, 0), (96, 0), (112, 0), (128, 0),
      (144, 0), (160, 0), (176, 0), (192, 0)] : List (Int × Int)).length = 13 ∧
    ∃ m12 m13,
      run intHash new ((([(0, 0), (16, 0), (32, 0), (48, 0), (64, 0), (80, 0), (96, 0),
        (112, 0), (128, 0), (144, 0), (160, 0), (176, 0), (192, 0)] :
        List (Int × Int)).take 12).map (fun p => Op.insert p.1 p.2)) = some m12 ∧
      capacity m12 = 16 ∧ size m12 = 12 ∧
      run intHash new (([(0, 0), (16, 0), (32, 0), (48, 0), (64, 0), (80, 0), (96, 0),
        (112, 0), (128, 0), (144, 0), (160, 0), (176, 0), (192, 0)] :
        List (Int × Int)).map (fun p => Op.insert p.1 p.2)) = some m13 ∧
      capacity m13 = 32 ∧ size m13 = 13 :=
  ⟨by decide, by decide,
    thirteenth_insert_grows intHash
      [(0, 0), (16, 0), (32, 0), (48, 0), (64, 0), (80, 0), (96, 0), (112, 0), (128, 0),
        (144, 0), (160, 0), (176, 0), (192, 0)] (by decide) (by decide)⟩

end HMap

namespace HMap

variable {K V : Type}

/-- The load factor after one more element, compared with 0.75 in exact
arithmetic. -/
theorem next_load_gt_iff (m : HashMap K V) (hc : 1 ≤ m.hashMapCapacity) :
    (3 : ℚ) / 4 < ((size m + 1 : Int) : ℚ) / (capacity m : ℚ) ↔
      3 * (m.hashMapCapacity : Int) < 4 * (m.numOfElements + 1) := by
  unfold size capacity
  have hpos : (0 : ℚ) < (m.hashMapCapacity : ℚ) := by exact_mod_cast hc
  rw [div_lt_div_iff₀ (by norm_num) hpos]
  constructor
  · intro h
    have h2 : ((3 * (m.hashMapCapacity : Int) : Int) : ℚ) <
        ((4 * (m.numOfElements + 1) : Int) : ℚ) := by
      push_cast at h ⊢
      linarith
    exact_mod_cast h2
  · intro h
    have h2 : ((3 * (m.hashMapCapacity : Int) : Int) : ℚ) <
        ((4 * (m.numOfElements + 1) : Int) : ℚ) := by
      exact_mod_cast h
    push_cast at h2 ⊢
    linarith

/-- C22 as amended: on a map reached from a new map and for an absent key,
`insert` and `operator[]` return with the key added; if `capacity()` is above
1 and the load factor with the new pair counted exceeds 0.75, the capacity
they leave is twice the old one and every pair lies in the bucket its key
hashes to under the new capacity; if `capacity()` is 1 the capacity stays 1
whatever the load factor. -/
theorem grow_when_above_upper [DecidableEq K] [Inhabited V] (hash : K → Int)
    (ops : List (Op K V)) (m : HashMap K V) (k : K) (v : V)
    (hrun : run hash new ops = some m) (habs : containsKey hash m k = false) :
    ∃ m1, insert hash m k v = some (m1, true) ∧ size m1 = size m + 1 ∧
      size (subscript hash m k).1 = size m + 1 ∧
      containsKey hash m1 k = true ∧ containsKey hash (subscript hash m k).1 k = true ∧
      (1 < capacity m → (3 : ℚ) / 4 < ((size m + 1 : Int) : ℚ) / (capacity m : ℚ) →
        capacity m1 = 2 * capacity m ∧ capacity (subscript hash m k).1 = 2 * capacity m ∧
        (∀ i p, p ∈ m1.vectorsArray.getD i [] → _hashFunction hash m1 p.1 = i) ∧
        (∀ i p, p ∈ (subscript hash m k).1.vectorsArray.getD i [] →
          _hashFunction hash (subscript hash m k).1 p.1 = i)) ∧
      (capacity m = 1 → capacity m1 = 1 ∧ capacity (subscript hash m k).1 = 1) := by
  have hw := wf_of_run hrun
  have hk : lookup hash m k = none := (containsKey_false_iff hash m k).1 habs
  obtain ⟨m1, hi, hw1, hl1⟩ := insert_spec hw k v
  have hb : (!(lookup hash m k).isSome) = true := by
    rw [hk]
    rfl
  rw [hb] at hi
  obtain ⟨-, hn1, hc1⟩ := insert_absent_sizes hash k v habs hi
  obtain ⟨hn2, hc2⟩ := subscript_sizes hash m k habs
  obtain ⟨m2, hs, hw2, hl2⟩ := subscript_spec hw k
  have hm2 : (subscript hash m k).1 = m2 := by rw [hs]
  refine ⟨m1, hi, hn1, hn2, ?_, ?_, ?_, ?_⟩
  · rw [containsKey_eq, hl1]
    simp [specStep, hk]
  · rw [hm2, containsKey_eq, hl2]
    simp [specStep, hk]
  · intro hcap hload
    have hgrow : 1 < m.hashMapCapacity ∧
        3 * (m.hashMapCapacity : Int) < 4 * (m.numOfElements + 1) :=
      ⟨hcap, (next_load_gt_iff m hw.cap_pos).1 hload⟩
    rw [if_pos hgrow] at hc1 hc2
    refine ⟨?_, ?_, ?_, ?_⟩
    · rw [capacity, hc1, capacity, Nat.mul_comm]
    · rw [capacity, hc2, capacity, Nat.mul_comm]
    · intro i p hp
      exact hw1.place i p hp
    · rw [hm2]
      intro i p hp
      exact hw2.place i p hp
  · intro hone
    have hno : ¬ (1 < m.hashMapCapacity ∧
        3 * (m.hashMapCapacity : Int) < 4 * (m.numOfElements + 1)) := by
      rintro ⟨h, -⟩
      have : m.hashMapCapacity = 1 := hone
      omega
    rw [if_neg hno] at hc1 hc2
    exact ⟨by rw [capacity, hc1]; exact hone, by rw [capacity, hc2]; exact hone⟩

theorem grow_when_above_upper_witness :
    run intHash new [Op.insert (0 : Int) (0 : Int), Op.insert 1 0, Op.insert 2 0,
        Op.insert 3 0, Op.insert 4 0, Op.insert 5 0, Op.insert 6 0, Op.insert 7 0,
        Op.insert 8 0, Op.insert 9 0, Op.insert 10 0, Op.insert 11 0] =
      some ⟨16, [[(0, 0)], [(1, 0)], [(2, 0)], [(3, 0)], [(4, 0)], [(5, 0)], [(6, 0)],
        [(7, 0)], [(8, 0)], [(9, 0)], [(10, 0)], [(11, 0)], [], [], [], []], 12⟩ ∧
    containsKey intHash (⟨16, [[(0, 0)], [(1, 0)], [(2, 0)], [(3, 0)], [(4, 0)], [(5, 0)],
      [(6, 0)], [(7, 0)], [(8, 0)], [(9, 0)], [(10, 0)], [(11, 0)], [], [], [], []], 12⟩ :
      HashMap Int Int) 12 = false ∧
    ∃ m1, insert intHash (⟨16, [[(0, 0)], [(1, 0)], [(2, 0)], [(3, 0)], [(4, 0)], [(5, 0)],
        [(6, 0)], [(7, 0)], [(8, 0)], [(9, 0)], [(10, 0)], [(11, 0)], [], [], [], []], 12⟩ :
        HashMap Int Int) 12 7 = some (m1, true) ∧ capacity m1 = 32 :=
  ⟨by decide, by decide, by
    obtain ⟨m1, h1, -, -, -, -, h2, -⟩ := grow_when_above_upper intHash
      [Op.insert (0 : Int) (0 : Int), Op.insert 1 0, Op.insert 2 0,
        Op.insert 3 0, Op.insert 4 0, Op.insert 5 0, Op.insert 6 0, Op.insert 7 0,
        Op.insert 8 0, Op.insert 9 0, Op.insert 10 0, Op.insert 11 0]
      (⟨16, [[(0, 0)], [(1, 0)], [(2, 0)], [(3, 0)], [(4, 0)], [(5, 0)],
        [(6, 0)], [(7, 0)], [(8, 0)], [(9, 0)], [(10, 0)], [(11, 0)], [], [], [], []], 12⟩ :
        HashMap Int Int) 12 7 (by decide) (by decide)
    exact ⟨m1, h1, (h2 (by decide) (by norm_num [size, capacity])).1⟩⟩

/-- C22 as stated fails: after `insert(1, 10)` and `erase(1)` the capacity is 1;
`insert(5, 7)` then brings the load factor to 1, above 0.75, yet returns with
the capacity still 1. -/
theorem grow_skipped_at_capacity_one :
    run intHash new [Op.insert (1 : Int) (10 : Int), Op.erase 1] = some ⟨1, [[]], 0⟩ ∧
    containsKey intHash (⟨1, [[]], 0⟩ : HashMap Int Int) 5 = false ∧
    (3 : ℚ) / 4 < ((size (⟨1, [[]], 0⟩ : HashMap Int Int) + 1 : Int) : ℚ) /
      (capacity (⟨1, [[]], 0⟩ : HashMap Int Int) : ℚ) ∧
    insert intHash (⟨1, [[]], 0⟩ : HashMap Int Int) 5 7 = some (⟨1, [[(5, 7)]], 1⟩, true) ∧
    capacity (⟨1, [[(5, 7)]], 1⟩ : HashMap Int Int) ≠
      2 * capacity (⟨1, [[]], 0⟩ : HashMap Int Int) ∧
    (subscript intHash (⟨1, [[]], 0⟩ : HashMap Int Int) 5).1 = ⟨1, [[(5, 0)]], 1⟩ := by
  refine ⟨by decide, by decide, ?_, by decide, by decide, by decide⟩
  norm_num [size, capacity]

/-- With at least one element left and the load factor before the removal at
least 0.25, the shrinking loop of `erase` halves the capacity at most once. -/
theorem shrinkLoop_once (hash : K → Int) (fuel : Nat) (a : HashMap K V)
    (hf : a.hashMapCapacity ≤ fuel) (hpow : ∃ j, a.hashMapCapacity = 2 ^ j)
    (hlow : (a.hashMapCapacity : Int) ≤ 4 * (a.numOfElements + 1))
    (hn : 1 ≤ a.numOfElements) :
    ∃ a1, shrinkLoop hash fuel a = some a1 ∧
      (a1.hashMapCapacity = a.hashMapCapacity ∨
        a1.hashMapCapacity = a.hashMapCapacity / 2) := by
  obtain ⟨j, hj⟩ := hpow
  cases fuel with
  | zero =>
    have : 0 < 2 ^ j := Nat.pos_pow_of_pos j (by decide)
    omega
  | succ fuel =>
    unfold shrinkLoop
    split_ifs with hc
    · cases j with
      | zero =>
        have := hc.1
        rw [hj] at this
        simp at this
      | succ j =>
        have hhalf : a.hashMapCapacity / 2 = 2 ^ j := by
          rw [hj, pow_succ]
          simp
        have hdouble : a.hashMapCapacity = 2 * (a.hashMapCapacity / 2) := by
          rw [hhalf, hj, pow_succ]
          ring
        have hstop : ¬ ((_rehashing hash a (a.hashMapCapacity / 2)).hashMapCapacity > 1 ∧
            belowLower (_rehashing hash a (a.hashMapCapacity / 2)) = true) := by
          rintro ⟨-, h⟩
          simp only [belowLower, decide_eq_true_eq] at h
          have h2 : 4 * a.numOfElements < ((a.hashMapCapacity / 2 : Nat) : Int) := h
          omega
        simp only
        unfold shrinkLoop
        rw [if_neg hstop]
        exact ⟨_, rfl, Or.inr rfl⟩
    · exact ⟨_, rfl, Or.inl rfl⟩

/-- C23 as amended: on a map reached from a new map whose load factor is at
least 0.25 and which holds at least two elements, `erase` of a present key
returns true and leaves the capacity either as it was or halved once. -/
theorem erase_halves_at_most_once [DecidableEq K] [Inhabited V] (hash : K → Int)
    (ops : List (Op K V)) (m : HashMap K V) (k : K)
    (hrun : run hash new ops = some m) (hk : containsKey hash m k = true)
    (hlow : 1 / 4 ≤ getLoadFactor m) (hsz : 2 ≤ size m) :
    ∃ m1, erase hash m k = some (m1, true) ∧
      (capacity m1 = capacity m ∨ capacity m1 = capacity m / 2) := by
  have hw := wf_of_run hrun
  have hlow2 := (load_ge_iff m hw.cap_pos).1 hlow
  have hsz2 : 2 ≤ m.numOfElements := hsz
  obtain ⟨w, hl⟩ := Option.isSome_iff_exists.1 ((containsKey_eq hash m k).symm.trans hk)
  rw [erase_eq k w hl]
  obtain ⟨a1, h1, h2⟩ := shrinkLoop_once hash m.hashMapCapacity
    { m with
      vectorsArray := m.vectorsArray.set (idx hash m.hashMapCapacity k)
        ((m.vectorsArray.getD (idx hash m.hashMapCapacity k) []).eraseP
          (fun p => decide (p.1 = k))),
      numOfElements := m.numOfElements - 1 }
    (le_refl _) hw.pow
    (by show (m.hashMapCapacity : Int) ≤ 4 * (m.numOfElements - 1 + 1); omega)
    (by show 1 ≤ m.numOfElements - 1; omega)
  rw [h1]
  exact ⟨a1, rfl, h2⟩

theorem erase_halves_at_most_once_witness :
    run intHash new [Op.insert (1 : Int) (10 : Int), Op.insert 2 20, Op.insert 3 30,
        Op.insert 4 40] =
      some ⟨16, [[], [(1, 10)], [(2, 20)], [(3, 30)], [(4, 40)], [], [], [], [], [], [], [],
        [], [], [], []], 4⟩ ∧
    containsKey intHash
      (⟨16, [[], [(1, 10)], [(2, 20)], [(3, 30)], [(4, 40)], [], [], [], [], [], [], [],
        [], [], [], []], 4⟩ : HashMap Int Int) 1 = true ∧
    1 / 4 ≤ getLoadFactor (⟨16, [[], [(1, 10)], [(2, 20)], [(3, 30)], [(4, 40)], [], [], [],
        [], [], [], [], [], [], [], []], 4⟩ : HashMap Int Int) ∧
    2 ≤ size (⟨16, [[], [(1, 10)], [(2, 20)], [(3, 30)], [(4, 40)], [], [], [],
        [], [], [], [], [], [], [], []], 4⟩ : HashMap Int Int) ∧
    ∃ m1, erase intHash
        (⟨16, [[], [(1, 10)], [(2, 20)], [(3, 30)], [(4, 40)], [], [], [], [], [], [], [],
          [], [], [], []], 4⟩ : HashMap Int Int) 1 = some (m1, true) ∧
      (capacity m1 = capacity (⟨16, [[], [(1, 10)], [(2, 20)], [(3, 30)], [(4, 40)], [], [],
          [], [], [], [], [], [], [], [], []], 4⟩ : HashMap Int Int) ∨
        capacity m1 = capacity (⟨16, [[], [(1, 10)], [(2, 20)], [(3, 30)], [(4, 40)], [], [],
          [], [], [], [], [], [], [], [], []], 4⟩ : HashMap Int Int) / 2) :=
  ⟨by decide, by decide, by norm_num [getLoadFactor], by decide,
    erase_halves_at_most_once intHash
      [Op.insert (1 : Int) (10 : Int), Op.insert 2 20, Op.insert 3 30, Op.insert 4 40] _ 1
      (by decide) (by decide) (by norm_num [getLoadFactor]) (by decide)⟩

/-- C23 as stated fails: after `insert(1, 10)` on a new map the capacity is 16,
and the single call `erase(1)` leaves capacity 1, four halvings. -/
theorem erase_halves_four_times :
    run intHash new [Op.insert (1 : Int) (10 : Int)] =
      some ⟨16, [[], [(1, 10)], [], [], [], [], [], [], [], [], [], [], [], [], [], []], 1⟩ ∧
    containsKey intHash (⟨16, [[], [(1, 10)], [], [], [], [], [], [], [], [], [], [], [], [],
      [], []], 1⟩ : HashMap Int Int) 1 = true ∧
    erase intHash (⟨16, [[], [(1, 10)], [], [], [], [], [], [], [], [], [], [], [], [],
      [], []], 1⟩ : HashMap Int Int) 1 = some (⟨1, [[]], 0⟩, true) ∧
    capacity (⟨1, [[]], 0⟩ : HashMap Int Int) ≠ 16 ∧
    capacity (⟨1, [[]], 0⟩ : HashMap Int Int) ≠ 16 / 2 := by
  decide

end HMap

namespace HMap

variable {K V : Type}

/-- Appending a pair with a new key to a bucket keeps the bucket orders when
the key is put last in the order. -/
theorem push_sub (arr : List (List (K × V))) (order : List K) (i : Nat) (k : K) (d : V)
    (h : ∀ j, ((arr.getD j []).map Prod.fst).Sublist order) :
    ∀ j, (((pushBack arr i (k, d)).getD j []).map Prod.fst).Sublist (order ++ [k]) := by
  intro j
  unfold pushBack
  rw [getD_set]
  split_ifs with hc
  · rw [List.map_append]
    exact List.Sublist.append (h i) (List.Sublist.refl _)
  · exact (h j).trans (List.sublist_append_left _ _)

/-- A filter that rejects every pair outside one bucket keeps, of the
concatenated buckets, what it keeps of that bucket. -/
theorem filter_flatten_one (q : K × V → Bool) :
    ∀ (arr : List (List (K × V))) (i0 : Nat),
      (∀ i, i ≠ i0 → ∀ p ∈ arr.getD i [], q p = false) →
      arr.flatten.filter q = (arr.getD i0 []).filter q := by
  intro arr
  induction arr with
  | nil => intro i0 _; simp
  | cons b arr ih =>
    intro i0 h
    rw [List.flatten_cons, List.filter_append]
    cases i0 with
    | zero =>
      have hrest : arr.flatten.filter q = [] := by
        rw [List.filter_eq_nil_iff]
        intro p hp
        obtain ⟨i, hi⟩ := (mem_flatten_iff_getD arr p).1 hp
        have := h (i + 1) (by omega) p hi
        simp [this]
      rw [hrest, List.append_nil]
      rfl
    | succ n =>
      have hb : b.filter q = [] := by
        rw [List.filter_eq_nil_iff]
        intro p hp
        have := h 0 (by omega) p hp
        simp [this]
      rw [hb, List.nil_append]
      exact ih n (fun i hi p hp => h (i + 1) (by omega) p hp)

/-- The bucket index for the doubled capacity, reduced modulo the capacity, is
the bucket index for the capacity. -/
theorem idx_double_mod (hash : K → Int) (j : Nat) (key : K) :
    idx hash (2 ^ j * 2) key % 2 ^ j = idx hash (2 ^ j) key := by
  rw [← pow_succ, idx_eq_mod, idx_eq_mod]
  exact Nat.mod_mod_of_dvd _ (pow_dvd_pow 2 (Nat.le_succ j))

/-- A grow rehash keeps the bucket orders. -/
theorem rehashing_grow_sub {hash : K → Int} {m : HashMap K V} (hw : WF hash m)
    (order : List K) (h : ∀ i, ((m.vectorsArray.getD i []).map Prod.fst).Sublist order) :
    ∀ i, (((_rehashing hash m (m.hashMapCapacity * 2)).vectorsArray.getD i []).map
      Prod.fst).Sublist order := by
  intro i
  obtain ⟨j, hj⟩ := hw.pow
  have hpos : 1 ≤ m.hashMapCapacity * 2 := by
    have := hw.cap_pos
    omega
  obtain ⟨-, -, -, h4, -⟩ := rehashing_buckets hash m (m.hashMapCapacity * 2) hw.len hpos
  rw [h4, filter_flatten_one _ m.vectorsArray (i % m.hashMapCapacity)]
  · exact ((List.filter_sublist _).map _).trans (h _)
  · intro i1 hi1 p hp
    have hplace := hw.place i1 p hp
    simp only [decide_eq_false_iff_not]
    intro hidx
    apply hi1
    rw [← hplace, ← hidx, hj]
    exact (idx_double_mod hash j p.1).symm

/-- Assignment through a reference leaves the keys of every bucket as they are. -/
theorem writeRef_keys {m m1 : HashMap K V} {i : Nat} {j : Int} {v : V}
    (h : writeRef m i j v = some m1) :
    ∀ i1, (m1.vectorsArray.getD i1 []).map Prod.fst = (m.vectorsArray.getD i1 []).map Prod.fst := by
  intro i1
  unfold writeRef at h
  split_ifs at h
  split at h
  · cases h
  · rename_i p hp
    cases h
    show ((m.vectorsArray.set i ((m.vectorsArray.getD i []).set j.toNat (p.1, v))).getD i1
      []).map Prod.fst = _
    rw [getD_set]
    split_ifs with hc
    · rw [hc.1]
      exact map_fst_set v _ _ p hp
    · rfl

theorem map_fst_eraseP [DecidableEq K] (k : K) :
    ∀ (b : List (K × V)), (b.eraseP (fun p => decide (p.1 = k))).map Prod.fst =
      (b.map Prod.fst).erase k := by
  intro b
  induction b with
  | nil => rfl
  | cons a b ih =>
    by_cases ha : a.1 = k
    · simp [List.eraseP_cons, ha]
    · have hne : ¬ ((a.1 == k) = true) := by simpa using ha
      rw [List.eraseP_cons, List.map_cons, List.erase_cons]
      simp only [ha, decide_False, Bool.false_eq_true, if_false, List.map_cons, hne, ih,
        cond_false]

/-- Removing the pair of a key from its bucket keeps the bucket orders when
the key is taken out of the order. -/
theorem erase_bucket_sub [DecidableEq K] {hash : K → Int} {m : HashMap K V} (hw : WF hash m)
    (order : List K) (k : K)
    (h : ∀ i, ((m.vectorsArray.getD i []).map Prod.fst).Sublist order) :
    ∀ i, (((m.vectorsArray.set (idx hash m.hashMapCapacity k)
      ((m.vectorsArray.getD (idx hash m.hashMapCapacity k) []).eraseP
        (fun p => decide (p.1 = k)))).getD i []).map Prod.fst).Sublist (order.erase k) := by
  intro i
  rw [getD_set]
  split_ifs with hc
  · rw [map_fst_eraseP]
    exact (h _).erase k
  · have hnot : k ∉ (m.vectorsArray.getD i []).map Prod.fst := by
      intro hk
      obtain ⟨p, hp, hpk⟩ := List.mem_map.1 hk
      have := hw.place i p hp
      rw [hpk] at this
      apply hc
      exact ⟨this.symm, by rw [hw.len]; exact idx_lt hash hw.cap_pos k⟩
    have := (h i).erase k
    rwa [List.erase_of_not_mem hnot] at this

/-- The shrinking loop either leaves the map as it is or lowers the capacity. -/
theorem shrinkLoop_same_or_lower (hash : K → Int) :
    ∀ (fuel : Nat) (a a1 : HashMap K V), shrinkLoop hash fuel a = some a1 →
      a1 = a ∨ a1.hashMapCapacity < a.hashMapCapacity := by
  intro fuel
  induction fuel with
  | zero =>
    intro a a1 h
    unfold shrinkLoop at h
    split_ifs at h
    cases h
    exact Or.inl rfl
  | succ fuel ih =>
    intro a a1 h
    unfold shrinkLoop at h
    split_ifs at h with hc
    · right
      have hlt : a.hashMapCapacity / 2 < a.hashMapCapacity := by
        have := hc.1
        omega
      rcases ih _ a1 h with e | e
      · rw [e]
        exact hlt
      · have e2 : a1.hashMapCapacity < a.hashMapCapacity / 2 := e
        omega
    · cases h
      exact Or.inl rfl

end HMap

namespace HMap

variable {K V : Type}

/-- The non-const `operator[]` keeps the bucket orders, with an absent key put
last in the order. -/
theorem subscript_sub [DecidableEq K] [Inhabited V] {hash : K → Int} {m : HashMap K V}
    (hw : WF hash m) (order : List K) (k : K)
    (h : ∀ i, ((m.vectorsArray.getD i []).map Prod.fst).Sublist order) :
    ∀ i, (((subscript hash m k).1.vectorsArray.getD i []).map Prod.fst).Sublist
      (if containsKey hash m k = true then order else order ++ [k]) := by
  unfold subscript
  simp only
  by_cases hc : containsKey hash m k = false
  · rw [if_pos hc]
    have hnc : ¬ (containsKey hash m k = true) := by simp [hc]
    rw [if_neg hnc]
    have hk : lookup hash m k = none := (containsKey_false_iff hash m k).1 hc
    obtain ⟨hw1, -⟩ := push_spec hw k (default : V) hk
    have hs1 := push_sub m.vectorsArray order (idx hash m.hashMapCapacity k) k (default : V) h
    simp only
    split_ifs with hg
    · exact rehashing_grow_sub hw1 (order ++ [k]) hs1
    · exact hs1
  · rw [if_neg hc]
    have hcc : containsKey hash m k = true := by
      cases hcc : containsKey hash m k with
      | true => rfl
      | false => exact absurd hcc hc
    rw [if_pos hcc]
    exact h

theorem assign_sub [DecidableEq K] [Inhabited V] {hash : K → Int} {m m1 : HashMap K V}
    (hw : WF hash m) (order : List K) (k : K) (v : V) (ha : assign hash m k v = some m1)
    (h : ∀ i, ((m.vectorsArray.getD i []).map Prod.fst).Sublist order) :
    ∀ i, ((m1.vectorsArray.getD i []).map Prod.fst).Sublist
      (if containsKey hash m k = true then order else order ++ [k]) := by
  intro i
  unfold assign at ha
  rw [writeRef_keys ha i]
  exact subscript_sub hw order k h i

theorem erase_sub [DecidableEq K] {hash : K → Int} {m m1 : HashMap K V} {b : Bool}
    (hw : WF hash m) (order : List K) (k : K) (he : erase hash m k = some (m1, b))
    (hcap : m.hashMapCapacity ≤ m1.hashMapCapacity)
    (hmem : k ∈ order ↔ (lookup hash m k).isSome = true)
    (h : ∀ i, ((m.vectorsArray.getD i []).map Prod.fst).Sublist order) :
    ∀ i, ((m1.vectorsArray.getD i []).map Prod.fst).Sublist (order.erase k) := by
  cases hk : lookup hash m k with
  | none =>
    have hc := (containsKey_false_iff hash m k).2 hk
    unfold erase at he
    rw [if_pos hc] at he
    cases he
    have hnot : k ∉ order := by
      rw [hmem, hk]
      simp
    rw [List.erase_of_not_mem hnot]
    exact h
  | some w =>
    rw [erase_eq k w hk] at he
    cases hs : shrinkLoop hash m.hashMapCapacity { m with
        vectorsArray := m.vectorsArray.set (idx hash m.hashMapCapacity k)
          ((m.vectorsArray.getD (idx hash m.hashMapCapacity k) []).eraseP
            (fun p => decide (p.1 = k))),
        numOfElements := m.numOfElements - 1 } with
    | none => rw [hs] at he; cases he
    | some m2 =>
      rw [hs] at he
      cases he
      rcases shrinkLoop_same_or_lower hash _ _ _ hs with e | e
      · rw [e]
        exact erase_bucket_sub hw order k h
      · have e2 : m1.hashMapCapacity < m.hashMapCapacity := e
        omega

theorem clear_sub {hash : K → Int} {m : HashMap K V} (hw : WF hash m) :
    ∀ i, (((clear m).vectorsArray.getD i []).map Prod.fst).Sublist ([] : List K) := by
  intro i
  obtain ⟨-, h2⟩ := clear_buckets (K := K) (V := V) m.hashMapCapacity m.vectorsArray
  have hnil : (clear m).vectorsArray.getD i [] = [] := by
    show ((List.range m.hashMapCapacity).foldl (fun arr i => arr.set i []) m.vectorsArray).getD
      i [] = []
    rw [h2]
    split_ifs with hj
    · rfl
    · exact List.getD_eq_default _ _ (by rw [hw.len]; omega)
  rw [hnil]
  exact List.Sublist.refl _

/-- The reference order follows the reference mapping: it holds each key once,
and exactly the keys that have a value. -/
theorem orderStep_mem [DecidableEq K] [Inhabited V] (f : K → Option V) (order : List K)
    (op : Op K V) (hn : order.Nodup) (hm : ∀ k, k ∈ order ↔ (f k).isSome = true) :
    (orderStep order op).Nodup ∧
      ∀ k, k ∈ orderStep order op ↔ (specStep f op k).isSome = true := by
  have hadd : ∀ key : K, ∀ v : V, key ∉ order →
      (order ++ [key]).Nodup ∧
        ∀ k, k ∈ order ++ [key] ↔ (Function.update f key (some v) k).isSome = true := by
    intro key v hnot
    constructor
    · rw [List.nodup_append]
      refine ⟨hn, by simp, ?_⟩
      intro a ha hb
      rw [List.mem_singleton] at hb
      exact hnot (hb ▸ ha)
    · intro k
      rw [List.mem_append, List.mem_singleton]
      by_cases hk : k = key
      · subst hk
        simp
      · rw [Function.update_noteq hk, hm k]
        simp [hk]
  cases op with
  | insert key value =>
    simp only [orderStep, specStep]
    by_cases hin : key ∈ order
    · rw [if_pos hin, if_pos ((hm key).1 hin)]
      exact ⟨hn, hm⟩
    · have : ¬ ((f key).isSome = true) := fun h => hin ((hm key).2 h)
      rw [if_neg hin, if_neg this]
      exact hadd key value hin
  | subscript key =>
    simp only [orderStep, specStep]
    by_cases hin : key ∈ order
    · rw [if_pos hin, if_pos ((hm key).1 hin)]
      exact ⟨hn, hm⟩
    · have : ¬ ((f key).isSome = true) := fun h => hin ((hm key).2 h)
      rw [if_neg hin, if_neg this]
      exact hadd key default hin
  | assign key value =>
    simp only [orderStep, specStep]
    by_cases hin : key ∈ order
    · rw [if_pos hin]
      refine ⟨hn, ?_⟩
      intro k
      by_cases hk : k = key
      · subst hk
        simp [hin]
      · rw [Function.update_noteq hk]
        exact hm k
    · rw [if_neg hin]
      exact hadd key value hin
  | erase key =>
    simp only [orderStep, specStep]
    refine ⟨hn.erase key, ?_⟩
    intro k
    rw [hn.mem_erase_iff]
    by_cases hk : k = key
    · subst hk
      simp
    · rw [Function.update_noteq hk, hm k]
      simp [hk]
  | clear =>
    simp only [orderStep, specStep]
    exact ⟨List.nodup_nil, by simp⟩

/-- A call that does not lower the capacity keeps the buckets in insertion
order. -/
theorem step_order [DecidableEq K] [Inhabited V] {hash : K → Int} {m m1 : HashMap K V}
    {order : List K} (hw : WF hash m) (ho : InsOrder hash m order) (op : Op K V)
    (hs : step hash m op = some m1) (hcap : m.hashMapCapacity ≤ m1.hashMapCapacity) :
    InsOrder hash m1 (orderStep order op) := by
  obtain ⟨m2, h1, -, h3⟩ := step_spec hw op
  rw [hs] at h1
  cases h1
  obtain ⟨hnd, hmem⟩ := orderStep_mem (lookup hash m) order op ho.nodup ho.mem
  refine ⟨?_, hnd, fun k => by rw [h3]; exact hmem k⟩
  have hif : ∀ key : K, (if containsKey hash m key = true then order else order ++ [key]) =
      (if key ∈ order then order else order ++ [key]) := by
    intro key
    by_cases hin : key ∈ order
    · rw [if_pos hin, if_pos (by rw [containsKey_eq]; exact (ho.mem key).1 hin)]
    · have : ¬ (containsKey hash m key = true) := by
        rw [containsKey_eq]
        exact fun h => hin ((ho.mem key).2 h)
      rw [if_neg hin, if_neg this]
  cases op with
  | insert key value =>
    simp only [orderStep]
    rw [← hif key]
    simp only [step, insert] at hs
    split_ifs at hs with hc
    · cases hs
      rw [if_pos hc]
      exact ho.sub
    · cases ha : assign hash m key value with
      | none => rw [ha] at hs; cases hs
      | some m2 =>
        rw [ha] at hs
        cases hs
        exact assign_sub hw order key value ha ho.sub
  | subscript key =>
    simp only [orderStep]
    rw [← hif key]
    simp only [step, Option.some.injEq] at hs
    rw [← hs]
    exact subscript_sub hw order key ho.sub
  | assign key value =>
    simp only [orderStep]
    rw [← hif key]
    exact assign_sub hw order key value hs ho.sub
  | erase key =>
    simp only [orderStep]
    simp only [step] at hs
    cases he : erase hash m key with
    | none => rw [he] at hs; cases hs
    | some r =>
      rw [he] at hs
      cases hs
      exact erase_sub hw order key he hcap (ho.mem key) ho.sub
  | clear =>
    simp only [orderStep]
    simp only [step, Option.some.injEq] at hs
    rw [← hs]
    exact clear_sub hw

/-- A sequence of calls none of which lowers the capacity returns and keeps the
buckets in insertion order. -/
theorem run_order [DecidableEq K] [Inhabited V] (hash : K → Int) :
    ∀ (ops : List (Op K V)) (m : HashMap K V) (order : List K), WF hash m →
      InsOrder hash m order → noShrinkRun hash m ops = true →
      ∃ m1, run hash m ops = some m1 ∧ InsOrder hash m1 (ops.foldl orderStep order) := by
  intro ops
  induction ops with
  | nil => intro m order _ ho _; exact ⟨m, rfl, ho⟩
  | cons op ops ih =>
    intro m order hw ho hns
    obtain ⟨m1, h1, hw1, -⟩ := step_spec hw op
    simp only [noShrinkRun, h1, Bool.and_eq_true, decide_eq_true_eq] at hns
    obtain ⟨m2, h2, h3⟩ := ih m1 (orderStep order op) hw1 (step_order hw ho op h1 hns.1) hns.2
    refine ⟨m2, ?_, h3⟩
    simp only [run, h1]
    exact h2

theorem new_order [DecidableEq K] (hash : K → Int) :
    InsOrder hash (new : HashMap K V) ([] : List K) := by
  refine ⟨?_, List.nodup_nil, ?_⟩
  · intro i
    show (((List.replicate 16 ([] : List (K × V))).getD i []).map Prod.fst).Sublist []
    rw [getD_replicate_nil]
    exact List.Sublist.refl _
  · intro k
    rw [lookup_new]
    simp

/-- C21 as amended: for every sequence of calls on a new map none of which
lowers the capacity (no shrink rehash), the calls return and in every bucket
the keys stand in the order of their insertion: the keys of the bucket, in
their stored order, are a sublist of the inserted keys listed in insertion
order, so of two keys sharing a bucket the one inserted earlier comes
first. -/
theorem bucket_order_is_insertion_order [DecidableEq K] [Inhabited V] (hash : K → Int)
    (ops : List (Op K V)) (hns : noShrinkRun hash new ops = true) :
    ∃ m, run hash new ops = some m ∧
      (ops.foldl orderStep ([] : List K)).Nodup ∧
      (∀ k, k ∈ ops.foldl orderStep ([] : List K) ↔ containsKey hash m k = true) ∧
      ∀ i, ((m.vectorsArray.getD i []).map Prod.fst).Sublist
        (ops.foldl orderStep ([] : List K)) := by
  obtain ⟨m, h1, h2⟩ := run_order hash ops new [] (new_wf hash) (new_order hash) hns
  refine ⟨m, h1, h2.nodup, ?_, h2.sub⟩
  intro k
  rw [containsKey_eq]
  exact h2.mem k

theorem bucket_order_is_insertion_order_witness :
    noShrinkRun intHash new [Op.insert (9 : Int) (0 : Int), Op.insert 25 0, Op.insert 1 0,
      Op.erase 7, Op.insert 41 0] = true ∧
    ∃ m, run intHash new [Op.insert (9 : Int) (0 : Int), Op.insert 25 0, Op.insert 1 0,
        Op.erase 7, Op.insert 41 0] = some m ∧
      (([Op.insert (9 : Int) (0 : Int), Op.insert 25 0, Op.insert 1 0,
        Op.erase 7, Op.insert 41 0] : List (Op Int Int)).foldl orderStep
          ([] : List Int)).Nodup ∧
      (∀ k, k ∈ ([Op.insert (9 : Int) (0 : Int), Op.insert 25 0, Op.insert 1 0,
        Op.erase 7, Op.insert 41 0] : List (Op Int Int)).foldl orderStep
          ([] : List Int) ↔ containsKey intHash m k = true) ∧
      ∀ i, ((m.vectorsArray.getD i []).map Prod.fst).Sublist
        (([Op.insert (9 : Int) (0 : Int), Op.insert 25 0, Op.insert 1 0,
          Op.erase 7, Op.insert 41 0] : List (Op Int Int)).foldl orderStep
            ([] : List Int)) :=
  ⟨by decide,
    bucket_order_is_insertion_order intHash [Op.insert (9 : Int) (0 : Int), Op.insert 25 0,
      Op.insert 1 0, Op.erase 7, Op.insert 41 0] (by decide)⟩

/-- C21 as stated fails: after `insert(9, 0)`, `insert(1, 0)`, `insert(2, 0)` and
`erase(2)` the shrink rehash to capacity 8 has put the keys 1 and 9 into
bucket 1 with key 1 first, although key 9 was inserted before key 1. -/
theorem bucket_order_broken_by_shrink :
    run intHash new [Op.insert (9 : Int) (0 : Int), Op.insert 1 0, Op.insert 2 0, Op.erase 2] =
      some ⟨8, [[], [(1, 0), (9, 0)], [], [], [], [], [], []], 2⟩ ∧
    ([Op.insert (9 : Int) (0 : Int), Op.insert 1 0, Op.insert 2 0, Op.erase 2] :
      List (Op Int Int)).foldl orderStep ([] : List Int) = [9, 1] ∧
    ((⟨8, [[], [(1, 0), (9, 0)], [], [], [], [], [], []], 2⟩ :
      HashMap Int Int).vectorsArray.getD 1 []).map Prod.fst = [1, 9] ∧
    ¬ ([1, 9] : List Int).Sublist [9, 1] := by
  decide

end HMap

namespace HMap

variable {K V : Type}

/-- For a present key the index `_getElemIndexInSuitedVec` finds in the bucket
of the key is the place of the pair of the key. -/
theorem subscript_ref [DecidableEq K] {hash : K → Int} {m : HashMap K V} (k : K) (v : V)
    (hk : lookup hash m k = some v) :
    ∃ j : Nat, _getElemIndexInSuitedVec m (idx hash m.hashMapCapacity k) k = (j : Int) ∧
      (m.vectorsArray.getD (idx hash m.hashMapCapacity k) [])[j]? = some (k, v) := by
  rcases getElemIndex_spec m (idx hash m.hashMapCapacity k) k with ⟨-, h2⟩ | ⟨j, x, h1, h2, h3⟩
  · rw [(lookup_eq_none hash m k).2 h2] at hk
    cases hk
  · have hx1 : x.1 = k := by
      have := List.find?_some h3
      simpa using this
    have hx2 : x.2 = v := by
      unfold lookup at hk
      rw [h3] at hk
      simpa using hk
    refine ⟨j, h1, ?_⟩
    rw [h2, ← hx1, ← hx2]

/-- For a present key the non-const `operator[]` leaves the map as it is. -/
theorem subscript_present [DecidableEq K] [Inhabited V] (hash : K → Int) (m : HashMap K V)
    (k : K) (hc : containsKey hash m k = true) : (subscript hash m k).1 = m := by
  unfold subscript
  have hnc : ¬ (containsKey hash m k = false) := by simp [hc]
  simp only
  rw [if_neg hnc]

/-- C31: on every map reached from a new map, the non-const `operator[]` on a
present key returns the map unchanged (same size, capacity and buckets)
together with the place of the pair of the key, whose value is the one `at`
returns; on an absent key it returns a map with `size()` larger by exactly
one in which the key has the default value, the returned place is the place
of that new pair, and `containsKey` and `at` answer as before for every
other key. -/
theorem subscript_present_or_absent [DecidableEq K] [Inhabited V] (hash : K → Int)
    (ops : List (Op K V)) (key : K) :
    ∃ m, run hash new ops = some m ∧
      (containsKey hash m key = true →
        (subscript hash m key).1 = m ∧
        ∃ (v : V) (j : Nat), atKey hash m key = some v ∧
          (subscript hash m key).2.2 = (j : Int) ∧
          (m.vectorsArray.getD (subscript hash m key).2.1 [])[j]? = some (key, v)) ∧
      (containsKey hash m key = false →
        size (subscript hash m key).1 = size m + 1 ∧
        containsKey hash (subscript hash m key).1 key = true ∧
        atKey hash (subscript hash m key).1 key = some default ∧
        (∃ j : Nat, (subscript hash m key).2.2 = (j : Int) ∧
          ((subscript hash m key).1.vectorsArray.getD (subscript hash m key).2.1 [])[j]? =
            some (key, default)) ∧
        ∀ k1, k1 ≠ key →
          containsKey hash (subscript hash m key).1 k1 = containsKey hash m k1 ∧
          atKey hash (subscript hash m key).1 k1 = atKey hash m k1) := by
  obtain ⟨m, hrun, hw⟩ := reach_wf hash ops
  obtain ⟨m1, hs, hw1, hl1⟩ := subscript_spec hw key
  refine ⟨m, hrun, ?_, ?_⟩
  · intro hc
    have hm : m1 = m := by
      have := subscript_present hash m key hc
      rw [hs] at this
      exact this
    subst hm
    obtain ⟨v, hv⟩ := Option.isSome_iff_exists.1 ((containsKey_eq hash m1 key).symm.trans hc)
    obtain ⟨j, hj1, hj2⟩ := subscript_ref key v hv
    rw [hs]
    exact ⟨rfl, v, j, by rw [atKey_eq]; exact hv, hj1, hj2⟩
  · intro hc
    have hk : lookup hash m key = none := (containsKey_false_iff hash m key).1 hc
    obtain ⟨hn, -⟩ := subscript_sizes hash m key hc
    have hlk : lookup hash m1 key = some default := by
      rw [hl1]
      simp [specStep, hk]
    obtain ⟨j, hj1, hj2⟩ := subscript_ref key (default : V) hlk
    rw [hs] at hn ⊢
    refine ⟨hn, ?_, ?_, ⟨j, hj1, hj2⟩, ?_⟩
    · rw [containsKey_eq, hlk]
      rfl
    · rw [atKey_eq]
      exact hlk
    · intro k1 hk1
      have : lookup hash m1 k1 = lookup hash m k1 := by
        rw [hl1]
        simp only [specStep, hk, Option.isSome_none, Bool.false_eq_true, if_false]
        exact Function.update_noteq hk1 _ _
      rw [containsKey_eq, containsKey_eq, atKey_eq, atKey_eq, this]
      exact ⟨rfl, rfl⟩

/-- C32: on a map reached from a new map, `erase` of a present key returns true
and leaves either capacity 1 or a load factor of at least 0.25. -/
theorem erase_restores_lower_bound [DecidableEq K] [Inhabited V] (hash : K → Int)
    (ops : List (Op K V)) (m : HashMap K V) (k : K)
    (hrun : run hash new ops = some m) (hk : containsKey hash m k = true) :
    ∃ m1, erase hash m k = some (m1, true) ∧
      (capacity m1 = 1 ∨ 1 / 4 ≤ getLoadFactor m1) := by
  have hw := wf_of_run hrun
  have hnew : 1 < (new : HashMap K V).hashMapCapacity →
      4 * (new : HashMap K V).numOfElements ≤ 3 * ((new : HashMap K V).hashMapCapacity : Int) := by
    intro _
    show 4 * (0 : Int) ≤ 3 * ((16 : Nat) : Int)
    decide
  have hl := run_load hash ops new m (new_wf hash) hrun hnew
  obtain ⟨m1, h1, hw1, -⟩ := erase_spec hw k
  rw [containsKey_eq] at hk
  rw [hk] at h1
  obtain ⟨-, h3⟩ := erase_load k hw h1 hl
  refine ⟨m1, h1, ?_⟩
  by_cases hc : 1 < m1.hashMapCapacity
  · exact Or.inr ((load_ge_iff m1 hw1.cap_pos).2 (h3 rfl hc))
  · left
    have := hw1.cap_pos
    show m1.hashMapCapacity = 1
    omega

theorem erase_restores_lower_bound_witness :
    run intHash new [Op.insert (1 : Int) (10 : Int), Op.insert 2 20] =
      some ⟨16, [[], [(1, 10)], [(2, 20)], [], [], [], [], [], [], [], [], [], [], [], [], []],
        2⟩ ∧
    containsKey intHash (⟨16, [[], [(1, 10)], [(2, 20)], [], [], [], [], [], [], [], [], [],
      [], [], [], []], 2⟩ : HashMap Int Int) 1 = true ∧
    ∃ m1, erase intHash (⟨16, [[], [(1, 10)], [(2, 20)], [], [], [], [], [], [], [], [], [],
        [], [], [], []], 2⟩ : HashMap Int Int) 1 = some (m1, true) ∧
      (capacity m1 = 1 ∨ 1 / 4 ≤ getLoadFactor m1) :=
  ⟨by decide, by decide,
    erase_restores_lower_bound intHash [Op.insert (1 : Int) (10 : Int), Op.insert 2 20] _ 1
      (by decide) (by decide)⟩

/-- C36: in every map reached from a new map by `insert`, `operator[]`, `erase`
and `clear` calls the load factor is at most 0.75 whenever `capacity()` is
above 1; and `operator[]` leaves the capacity as it was or doubled once, with
the load factor again at most 0.75 whenever the capacity it leaves is above
1. -/
theorem load_at_most_upper [DecidableEq K] [Inhabited V] (hash : K → Int)
    (ops : List (Op K V)) (key : K) :
    ∃ m, run hash new ops = some m ∧
      (1 < capacity m → getLoadFactor m ≤ 3 / 4) ∧
      (capacity (subscript hash m key).1 = capacity m ∨
        capacity (subscript hash m key).1 = 2 * capacity m) ∧
      (1 < capacity (subscript hash m key).1 →
        getLoadFactor (subscript hash m key).1 ≤ 3 / 4) := by
  obtain ⟨m, hrun, hw⟩ := reach_wf hash ops
  have hnew : 1 < (new : HashMap K V).hashMapCapacity →
      4 * (new : HashMap K V).numOfElements ≤ 3 * ((new : HashMap K V).hashMapCapacity : Int) := by
    intro _
    show 4 * (0 : Int) ≤ 3 * ((16 : Nat) : Int)
    decide
  have hl := run_load hash ops new m (new_wf hash) hrun hnew
  obtain ⟨m1, hs, hw1, -⟩ := subscript_spec hw key
  have hm1 : (subscript hash m key).1 = m1 := by rw [hs]
  refine ⟨m, hrun, fun hc => (load_le_iff m hw.cap_pos).2 (hl hc), ?_, ?_⟩
  · cases hc : containsKey hash m key with
    | true =>
      left
      rw [subscript_present hash m key hc]
    | false =>
      obtain ⟨-, h2⟩ := subscript_sizes hash m key hc
      unfold capacity
      rw [h2]
      split_ifs
      · right
        exact Nat.mul_comm _ _
      · left
        rfl
  · intro hc
    have := subscript_load hash m key hl hc
    rw [hm1] at this ⊢
    exact (load_le_iff m1 hw1.cap_pos).2 this

/-- C38: in every map reached from a new map by `insert`, `operator[]`, `erase`
and `clear` calls there is one bucket per index below `capacity()`, every
stored pair lies in the bucket whose index is `_hashFunction` of its key for
the current capacity, and `containsKey`, which scans that one bucket, is true
exactly for the keys that have a pair in some bucket. -/
theorem pairs_in_hashed_bucket [DecidableEq K] [Inhabited V] (hash : K → Int)
    (ops : List (Op K V)) :
    ∃ m, run hash new ops = some m ∧ m.vectorsArray.length = capacity m ∧
      (∀ i p, p ∈ m.vectorsArray.getD i [] → _hashFunction hash m p.1 = i ∧ i < capacity m) ∧
      ∀ key, containsKey hash m key = true ↔ ∃ i v, (key, v) ∈ m.vectorsArray.getD i [] := by
  obtain ⟨m, hrun, hw⟩ := reach_wf hash ops
  refine ⟨m, hrun, hw.len, ?_, ?_⟩
  · intro i p hp
    have := hw.place i p hp
    refine ⟨this, ?_⟩
    rw [← this]
    exact idx_lt hash hw.cap_pos p.1
  · intro key
    rw [containsKey_eq, Option.isSome_iff_exists]
    constructor
    · rintro ⟨v, hv⟩
      obtain ⟨i, hi⟩ := (lookup_iff_any hw key v).1 hv
      exact ⟨i, v, hi⟩
    · rintro ⟨i, v, hi⟩
      exact ⟨v, (lookup_iff_any hw key v).2 ⟨i, hi⟩⟩

end HMap

namespace HMap

variable {K V : Type}

/-- When `operator[]` changes the capacity, the capacity was above 1. -/
theorem subscript_grow_only [DecidableEq K] [Inhabited V] (hash : K → Int) (m : HashMap K V)
    (k : K) (h : (subscript hash m k).1.hashMapCapacity ≠ m.hashMapCapacity) :
    1 < m.hashMapCapacity := by
  cases hc : containsKey hash m k with
  | true =>
    rw [subscript_present hash m k hc] at h
    exact absurd rfl h
  | false =>
    obtain ⟨-, h2⟩ := subscript_sizes hash m k hc
    rw [h2] at h
    split_ifs at h with hg
    · exact hg.1
    · exact absurd rfl h

/-- At capacity 1 the shrinking loop of `erase` returns the map as it is. -/
theorem shrinkLoop_cap_one (hash : K → Int) (fuel : Nat) (a : HashMap K V)
    (hc : a.hashMapCapacity = 1) : shrinkLoop hash fuel a = some a := by
  unfold shrinkLoop
  have : ¬ (a.hashMapCapacity > 1 ∧ belowLower a = true) := by
    rintro ⟨h, -⟩
    omega
  rw [if_neg this]

/-- A call on a map of capacity 1 leaves capacity 1. -/
theorem step_cap_one [DecidableEq K] [Inhabited V] (hash : K → Int) (m m1 : HashMap K V)
    (op : Op K V) (hc : m.hashMapCapacity = 1) (h : step hash m op = some m1) :
    m1.hashMapCapacity = 1 := by
  have hsub : ∀ k, (subscript hash m k).1.hashMapCapacity = 1 := by
    intro k
    by_contra hne
    have := subscript_grow_only hash m k (by rw [hc]; exact hne)
    omega
  cases op with
  | insert key value =>
    simp only [step] at h
    cases hi : insert hash m key value with
    | none => rw [hi] at h; cases h
    | some r =>
      rw [hi] at h
      simp only [Option.map_some', Option.some.injEq] at h
      subst h
      unfold insert at hi
      split_ifs at hi with hk
      · cases hi
        exact hc
      · cases ha : assign hash m key value with
        | none => rw [ha] at hi; cases hi
        | some m2 =>
          rw [ha] at hi
          cases hi
          unfold assign at ha
          rw [(writeRef_sizes ha).1]
          exact hsub key
  | subscript key =>
    simp only [step, Option.some.injEq] at h
    subst h
    exact hsub key
  | assign key value =>
    simp only [step] at h
    unfold assign at h
    rw [(writeRef_sizes h).1]
    exact hsub key
  | erase key =>
    simp only [step] at h
    cases hl : lookup hash m key with
    | none =>
      have hk : containsKey hash m key = false := (containsKey_false_iff hash m key).2 hl
      unfold erase at h
      rw [if_pos hk] at h
      simp only [Option.map_some', Option.some.injEq] at h
      subst h
      exact hc
    | some w =>
      rw [erase_eq key w hl] at h
      have hs := shrinkLoop_cap_one hash m.hashMapCapacity
        { m with
          vectorsArray := m.vectorsArray.set (idx hash m.hashMapCapacity key)
            ((m.vectorsArray.getD (idx hash m.hashMapCapacity key) []).eraseP
              (fun p => decide (p.1 = key))),
          numOfElements := m.numOfElements - 1 } hc
      rw [hs] at h
      simp only [Option.map_some', Option.some.injEq] at h
      subst h
      exact hc
  | clear =>
    simp only [step, Option.some.injEq] at h
    subst h
    exact hc

/-- A sequence of calls on a map of capacity 1 leaves capacity 1. -/
theorem run_cap_one [DecidableEq K] [Inhabited V] (hash : K → Int) :
    ∀ (ops : List (Op K V)) (m m1 : HashMap K V), m.hashMapCapacity = 1 →
      run hash m ops = some m1 → m1.hashMapCapacity = 1 := by
  intro ops
  induction ops with
  | nil =>
    intro m m1 hc h
    cases h
    exact hc
  | cons op ops ih =>
    intro m m1 hc h
    simp only [run] at h
    cases hs : step hash m op with
    | none => rw [hs] at h; cases h
    | some m2 =>
      rw [hs] at h
      exact ih m2 m1 (step_cap_one hash m m2 op hc hs) h

/-- Inserting pairs with pairwise different keys, none of them present: every
call returns and the count grows by the number of pairs. -/
theorem insert_many_count [DecidableEq K] [Inhabited V] (hash : K → Int) :
    ∀ (kvs : List (K × V)) (m : HashMap K V), WF hash m →
      (kvs.map Prod.fst).Nodup → (∀ p ∈ kvs, lookup hash m p.1 = none) →
      ∃ m1, run hash m (kvs.map (fun p => Op.insert p.1 p.2)) = some m1 ∧
        m1.numOfElements = m.numOfElements + kvs.length := by
  intro kvs
  induction kvs with
  | nil =>
    intro m _ _ _
    exact ⟨m, rfl, by simp⟩
  | cons p kvs ih =>
    intro m hw hnd habs
    simp only [List.map_cons, List.nodup_cons] at hnd
    have hp : lookup hash m p.1 = none := habs p (List.mem_cons_self _ _)
    have hc : containsKey hash m p.1 = false := (containsKey_false_iff hash m p.1).2 hp
    obtain ⟨m1, hi, hw1, hl1⟩ := insert_spec hw p.1 p.2
    obtain ⟨-, hn1, -⟩ := insert_absent_sizes hash p.1 p.2 hc hi
    have hstep : step hash m (Op.insert p.1 p.2) = some m1 := by
      simp only [step, hi, Option.map_some']
    have habs1 : ∀ q ∈ kvs, lookup hash m1 q.1 = none := by
      intro q hq
      rw [hl1]
      simp only [specStep, hp, Option.isSome_none, Bool.false_eq_true, if_false]
      have hne : q.1 ≠ p.1 := by
        intro e
        exact hnd.1 (e ▸ List.mem_map.2 ⟨q, hq, rfl⟩)
      rw [Function.update_noteq hne]
      exact habs q (List.mem_cons_of_mem _ hq)
    obtain ⟨m2, hr, hn2⟩ := ih m1 hw1 hnd.2 habs1
    refine ⟨m2, ?_, ?_⟩
    · simp only [List.map_cons, run, hstep]
      exact hr
    · rw [hn2, hn1]
      simp only [List.length_cons, Nat.cast_add, Nat.cast_one]
      omega

/-- Inserting a key into a new map and erasing it again leaves a map with the
invariant, capacity 1, no element and no key. -/
theorem insert_then_erase [DecidableEq K] [Inhabited V] (hash : K → Int) (k : K) (v : V) :
    ∃ m2, run hash new [Op.insert k v, Op.erase k] = some m2 ∧ WF hash m2 ∧
      m2.hashMapCapacity = 1 ∧ m2.numOfElements = 0 ∧ ∀ key, lookup hash m2 key = none := by
  have hnew : containsKey hash (new : HashMap K V) k = false := by
    rw [containsKey_false_iff, lookup_new]
  obtain ⟨m1, hi, hw1, hl1⟩ := insert_spec (new_wf hash : WF hash (new : HashMap K V)) k v
  have hb : (!(lookup hash (new : HashMap K V) k).isSome) = true := by
    rw [lookup_new]
    rfl
  rw [hb] at hi
  obtain ⟨-, hn1, -⟩ := insert_absent_sizes hash k v hnew hi
  have hnum1 : m1.numOfElements = 1 := by
    rw [hn1]
    rfl
  have hk1 : lookup hash m1 k = some v := by
    rw [hl1]
    simp [specStep, lookup_new]
  obtain ⟨m2, he, hw2, hl2, hn2⟩ := erase_spec hw1 k
  rw [hk1] at he hn2
  have hnum2 : m2.numOfElements = 0 := by
    rw [hn2, hnum1]
    rfl
  have hcap2 : m2.hashMapCapacity = 1 := by
    have he2 := erase_eq k v hk1
    obtain ⟨m3, hs, hc3, -⟩ := shrinkLoop_empty hash m1.hashMapCapacity
      { m1 with
        vectorsArray := m1.vectorsArray.set (idx hash m1.hashMapCapacity k)
          ((m1.vectorsArray.getD (idx hash m1.hashMapCapacity k) []).eraseP
            (fun p => decide (p.1 = k))),
        numOfElements := m1.numOfElements - 1 }
      (by show m1.numOfElements - 1 = 0; rw [hnum1]; rfl) hw1.pow (le_refl _)
    rw [hs, he] at he2
    simp only [Option.isSome_some, Option.map_some', Option.some.injEq, Prod.mk.injEq,
      and_true] at he2
    rw [he2]
    exact hc3
  refine ⟨m2, ?_, hw2, hcap2, hnum2, ?_⟩
  · simp only [run, step, hi, he, Option.map_some']
  · intro key
    rw [hl2, hl1]
    simp only [specStep, lookup_new, Option.isSome_none, Bool.false_eq_true, if_false]
    by_cases e : key = k
    · rw [e, Function.update_same]
    · rw [Function.update_noteq e, Function.update_noteq e]
      exact lookup_new hash key

/-- The run of a concatenation of call sequences. -/
theorem run_append [DecidableEq K] [Inhabited V] (hash : K → Int) :
    ∀ (ops1 ops2 : List (Op K V)) (m m1 : HashMap K V), run hash m ops1 = some m1 →
      run hash m (ops1 ++ ops2) = run hash m1 ops2 := by
  intro ops1
  induction ops1 with
  | nil =>
    intro ops2 m m1 h
    cases h
    rfl
  | cons op ops ih =>
    intro ops2 m m1 h
    simp only [run, List.cons_append] at h ⊢
    cases hs : step hash m op with
    | none => rw [hs] at h; cases h
    | some m2 =>
      rw [hs] at h
      exact ih ops2 m2 m1 h

/-- C37: a map reached from a new map whose capacity is 1 keeps capacity 1
under every later sequence of `insert`, `operator[]`, assignment, `erase` and
`clear` calls, all of which return; `operator[]` changes the capacity only
when it was above 1; and inserting a key into a new map, erasing it and then
inserting pairs with pairwise different keys gives a map of capacity 1 whose
size and load factor both equal the number of those pairs, so the load factor
is above 0.75 as soon as there is one pair. -/
theorem capacity_one_is_absorbing [DecidableEq K] [Inhabited V] (hash : K → Int)
    (pre post : List (Op K V)) (m1 : HashMap K V) (k : K) (v : V) (kvs : List (K × V))
    (hrun : run hash new pre = some m1) (hcap : capacity m1 = 1)
    (hnd : (kvs.map Prod.fst).Nodup) :
    (∃ m2, run hash m1 post = some m2 ∧ capacity m2 = 1) ∧
    (∀ (m : HashMap K V) key,
      capacity (subscript hash m key).1 ≠ capacity m → 1 < capacity m) ∧
    ∃ m, run hash new
        (Op.insert k v :: Op.erase k :: kvs.map (fun p => Op.insert p.1 p.2)) = some m ∧
      capacity m = 1 ∧ size m = kvs.length ∧ getLoadFactor m = kvs.length ∧
      (1 ≤ kvs.length → 3 / 4 < getLoadFactor m) := by
  refine ⟨?_, fun m key h => subscript_grow_only hash m key h, ?_⟩
  · obtain ⟨m2, h2, -⟩ := run_spec hash post m1 (wf_of_run hrun)
    exact ⟨m2, h2, run_cap_one hash post m1 m2 hcap h2⟩
  · obtain ⟨m0, hr0, hw0, hc0, hn0, hl0⟩ := insert_then_erase hash k v
    obtain ⟨m, hr, hn⟩ := insert_many_count hash kvs m0 hw0 hnd (fun p _ => hl0 p.1)
    have hc : m.hashMapCapacity = 1 := run_cap_one hash _ m0 m hc0 hr
    have hnum : m.numOfElements = (kvs.length : Int) := by
      rw [hn, hn0, zero_add]
    have hlf : getLoadFactor m = (kvs.length : ℚ) := by
      unfold getLoadFactor
      rw [hc, hnum]
      simp
    refine ⟨m, ?_, hc, hnum, hlf, ?_⟩
    · have := run_append hash [Op.insert k v, Op.erase k]
        (kvs.map (fun p => Op.insert p.1 p.2)) new m0 hr0
      simp only [List.cons_append, List.nil_append] at this
      rw [this]
      exact hr
    · intro h1
      rw [hlf]
      have : (1 : ℚ) ≤ (kvs.length : ℚ) := by exact_mod_cast h1
      linarith

theorem capacity_one_is_absorbing_witness :
    run intHash new [Op.insert (1 : Int) (10 : Int), Op.erase 1] =
      some (⟨1, [[]], 0⟩ : HashMap Int Int) ∧
    capacity (⟨1, [[]], 0⟩ : HashMap Int Int) = 1 ∧
    (([(5, 50), (6, 60)] : List (Int × Int)).map Prod.fst).Nodup ∧
    ((∃ m2, run intHash (⟨1, [[]], 0⟩ : HashMap Int Int)
        [Op.insert 2 20, Op.subscript 3, Op.erase 2] = some m2 ∧ capacity m2 = 1) ∧
    (∀ (m : HashMap Int Int) key,
      capacity (subscript intHash m key).1 ≠ capacity m → 1 < capacity m) ∧
    ∃ m, run intHash new
        (Op.insert 1 10 :: Op.erase 1 ::
          ([(5, 50), (6, 60)] : List (Int × Int)).map (fun p => Op.insert p.1 p.2)) = some m ∧
      capacity m = 1 ∧ size m = ([(5, 50), (6, 60)] : List (Int × Int)).length ∧
      getLoadFactor m = ([(5, 50), (6, 60)] : List (Int × Int)).length ∧
      (1 ≤ ([(5, 50), (6, 60)] : List (Int × Int)).length → 3 / 4 < getLoadFactor m)) :=
  ⟨by decide, by decide, by decide,
    capacity_one_is_absorbing intHash [Op.insert (1 : Int) (10 : Int), Op.erase 1]
      [Op.insert 2 20, Op.subscript 3, Op.erase 2] _ 1 10 [(5, 50), (6, 60)]
      (by decide) (by decide) (by decide)⟩

end HMap
